import Mathlib

/-! Singly and doubly linked lists (`singly/singly.go`, `doubly/doubly.go`)

The Go program builds its lists out of heap nodes that are linked by pointers and
mutated in place.  The embedding keeps that shape: a memory maps addresses to
nodes, a pointer is `none` (Go's `nil`) or `some address`, every Go method becomes
a function that takes the memory and the list header and returns the new memory
and header, and every pointer-chasing `for` loop becomes a recursive function
that spends one unit of fuel per evaluation of the loop condition.

A call has four possible outcomes: it returns (`Res.ok`), it dereferences a nil
pointer (`Res.nilDeref`, a Go run-time panic), it compares two values of the same
uncomparable dynamic type with `==` (`Res.uncomparable`, a Go run-time panic too),
or the fuel runs out (`Res.outOfFuel`, which stands for a loop that has not
finished yet).

The packages `Singly` and `Doubly` hold values of comparable dynamic type (`Any`),
on which `==` always has an answer.  `SinglyDyn` and `DoublyDyn` give the methods
that compare a stored value with an argument (`Search`, `Delete`) on values of
arbitrary dynamic type (`Dyn`), where `==` can panic.
-/

/-! ## Values stored in a node (`any`) -/

/-- The dynamic values a node can hold.  `int` is Go's `int`, `str` a Go string
given by its bytes (Go compares strings bytewise), `float` a `float64` given by
its IEEE-754 bit pattern, and `other` any further comparable dynamic value
(a bool, a struct, the nil interface, ...) told apart by a tag.  Values of
uncomparable dynamic type are in `Dyn`. -/
inductive Any where
  | int (i : Int)
  | str (s : List Nat)
  | float (bits : Nat)
  | other (tag : Nat)
  deriving DecidableEq

/-- Whether a `float64` bit pattern is a NaN: exponent all ones, fraction non-zero. -/
def f64IsNaN (b : Nat) : Bool :=
  (b / 2 ^ 52 % 2 ^ 11 == 2047) && (b % 2 ^ 52 != 0)

/-- Sign bit of a `float64` bit pattern. -/
def f64Neg (b : Nat) : Bool := b / 2 ^ 63 % 2 == 1

/-- Magnitude (exponent and fraction) of a `float64` bit pattern. -/
def f64Mag (b : Nat) : Nat := b % 2 ^ 63

/-- Go's `==` on two `float64`: false as soon as one side is a NaN, and the two
zeros are equal. -/
def f64Eq (x y : Nat) : Bool :=
  !f64IsNaN x && !f64IsNaN y &&
    ((f64Mag x == 0 && f64Mag y == 0) || (x % 2 ^ 64 == y % 2 ^ 64))

/-- Go's `>` on two `float64`. -/
def f64Gt (x y : Nat) : Bool :=
  !f64IsNaN x && !f64IsNaN y &&
    (match f64Neg x, f64Neg y with
     | false, false => decide (f64Mag y < f64Mag x)
     | false, true => !(f64Mag x == 0 && f64Mag y == 0)
     | true, false => false
     | true, true => decide (f64Mag x < f64Mag y))

/-- Go's `==` on two interface values of comparable dynamic type: equal dynamic
types and equal values (`dynEq` is `==` on all values). -/
def goEq : Any → Any → Bool
  | .int a, .int b => decide (a = b)
  | .str a, .str b => decide (a = b)
  | .float a, .float b => f64Eq a b
  | .other a, .other b => decide (a = b)
  | _, _ => false

/-- A value of type `any` of arbitrary dynamic type: `cmp a` is a value of
comparable dynamic type, and `unc typ ident` is a value whose dynamic type `typ`
is not comparable (a slice, a map, a func, or a struct or array that holds one);
`ident` tells two values of that type apart. -/
inductive Dyn where
  | cmp (a : Any)
  | unc (typ : Nat) (ident : Nat)
  deriving DecidableEq

/-- Go's `==` on two interface values of arbitrary dynamic type: values of
different dynamic types are unequal, two values of the same uncomparable dynamic
type make `==` panic at run time (`none`), and two comparable values are compared
by `goEq`. -/
def dynEq : Dyn → Dyn → Option Bool
  | .cmp a, .cmp b => some (goEq a b)
  | .unc s _, .unc t _ => if s = t then none else some false
  | _, _ => some false

/-- The errors the two packages return (each stands for one `fmt.Errorf` message). -/
inductive Error where
  | nilSlice
  | nilArray
  | emptyList
  | notFound
  | indexOutOfBounds
  | nilList
  | mismatchedTypes
  | unsupportedType
  | emptyNonZeroSize
  | moreNodesThanSize
  | countDiffers
  | cycle
  | headPrevNotNil
  | headNilTailNot
  | tailNextNotNil
  | tailNilHeadNot
  | appendFailed (e : Error)
  | mergeFailed (e : Error)
  | headNilButTail
  | headHasPrev
  | tailHasNext
  | brokenLink
  | tailNotLast
  deriving DecidableEq

/-- One comparison of the `switch x := current.Value.(type)` in `Sort`: the kind of
the left value selects the case, the right value must have the same kind, and the
answer says whether `x > y` (so whether the two values are swapped). -/
def sortGt : Any → Any → Except Error Bool
  | .int x, .int y => .ok (decide (y < x))
  | .int _, _ => .error .mismatchedTypes
  | .str x, .str y => .ok (decide (y < x))
  | .str _, _ => .error .mismatchedTypes
  | .float x, .float y => .ok (f64Gt x y)
  | .float _, _ => .error .mismatchedTypes
  | .other _, _ => .error .unsupportedType

/-- A Go slice of values: `none` is the nil slice. -/
abbrev Slice := Option (List Any)

/-- Elements of a slice (the nil slice has none). -/
def Slice.elems : Slice → List Any
  | none => []
  | some vs => vs

/-- Go's `append(s, v)`. -/
def Slice.push (s : Slice) (v : Any) : Slice := some (s.elems ++ [v])

/-- The `map[any]bool` of `Unique`, given by the keys that were set to true: a
lookup succeeds when some stored key is `==` to the key looked up. -/
abbrev Visited := List Any

/-- The lookup `visited[k]`. -/
def Visited.get (m : Visited) (k : Any) : Bool := m.any (fun k' => goEq k' k)

/-- The assignment `visited[k] = true`. -/
def Visited.set (m : Visited) (k : Any) : Visited := k :: m

/-! ## Outcomes and memory -/

/-- Outcome of a call. -/
inductive Res (α : Type) where
  | ok (a : α)
  | nilDeref
  | outOfFuel
  | uncomparable
  deriving DecidableEq

/-- Sequencing of outcomes. -/
def Res.bind {α β : Type} : Res α → (α → Res β) → Res β
  | .ok a, f => f a
  | .nilDeref, _ => .nilDeref
  | .outOfFuel, _ => .outOfFuel
  | .uncomparable, _ => .uncomparable

instance : Monad Res where
  pure := Res.ok
  bind := Res.bind

/-- A pointer to a node: `none` is nil. -/
abbrev Ptr := Option Nat

/-- The memory: the node stored at every address, and the number of addresses
handed out so far (`&Node{...}` takes the next one). -/
structure Mem (N : Type) where
  nodes : Nat → N
  size : Nat

/-- The memory after `&Node{...}`; the new node lives at address `m.size`. -/
def Mem.alloc {N : Type} (m : Mem N) (n : N) : Mem N :=
  { nodes := Function.update m.nodes m.size n, size := m.size + 1 }

/-- The memory after the node at `a` is replaced. -/
def Mem.put {N : Type} (m : Mem N) (a : Nat) (n : N) : Mem N :=
  { m with nodes := Function.update m.nodes a n }

/-- A chain of nodes: starting at pointer `p` and following `nx`, the addresses
met are exactly `as`, and the pointer after the last of them is `q`. -/
def Seg {N : Type} (nx : N → Ptr) (m : Mem N) : Ptr → List Nat → Ptr → Prop
  | p, [], q => p = q
  | p, a :: as, q => p = some a ∧ a < m.size ∧ Seg nx m (nx (m.nodes a)) as q

/-- The memory `m'` extends `m` and agrees with it on every address of `m` outside
`as`: a call that owns the nodes `as` has touched nothing else. -/
def Mem.Frame {N : Type} (m m' : Mem N) (as : List Nat) : Prop :=
  m.size ≤ m'.size ∧ ∀ a, a < m.size → a ∉ as → m'.nodes a = m.nodes a

/-- The call `r`, as a function of its fuel, returns `x`: with more than `bound`
units of fuel the outcome is `x`, and with any amount the outcome is `x` or the
fuel has run out. -/
def Returns {α : Type} (r : Nat → Res α) (bound : Nat) (x : α) : Prop :=
  ∀ fuel, (bound < fuel → r fuel = .ok x) ∧ (r fuel = .ok x ∨ r fuel = .outOfFuel)

/-- Removal of the first element that satisfies `p`. -/
def eraseFirst (p : Any → Bool) : List Any → List Any
  | [] => []
  | x :: xs => if p x then xs else x :: eraseFirst p xs

/-- The elements of a list that are not `==` to an element before them, where
`earlier` holds the elements that come before the list. -/
def dedupFrom : List Any → List Any → List Any
  | _, [] => []
  | earlier, x :: xs =>
    if earlier.any (fun e => goEq e x) then dedupFrom (x :: earlier) xs
    else x :: dedupFrom (x :: earlier) xs

/-- The elements whose key is not yet visited when they are met; every element
that is kept marks its key as visited. -/
def keepNew {α : Type} (key : α → Any) : Visited → List α → List α
  | _, [] => []
  | vis, x :: xs =>
    if vis.get (key x) then keepNew key vis xs
    else x :: keepNew key (vis.set (key x)) xs

/-- Whether the comparison of `Sort` swaps the adjacent values `x`, `y`. -/
def sortSwaps (x y : Any) : Bool :=
  match sortGt x y with
  | .ok true => true
  | _ => false

/-- The number of pairs of a list that `Sort` would swap if they were adjacent. -/
def inversions : List Any → Nat
  | [] => 0
  | x :: xs => xs.countP (sortSwaps x) + inversions xs

/-- One pass of `Sort` seen on the values alone: the cursor holds `x`, the values
after it are `ys`; the result is the new values, the flag `swapped` and the error
of the pass. -/
def bubblePass : Any → List Any → Bool → List Any × Bool × Option Error
  | x, [], sw => ([x], sw, none)
  | x, y :: ys, sw =>
    match sortGt x y with
    | .error e => (x :: y :: ys, sw, some e)
    | .ok true => (y :: (bubblePass x ys true).1, (bubblePass x ys true).2)
    | .ok false => (x :: (bubblePass y ys sw).1, (bubblePass y ys sw).2)

/-- Every adjacent pair of the list is compared without error and left in place. -/
def InOrder : List Any → Prop
  | [] => True
  | [_] => True
  | x :: y :: ys => sortGt x y = .ok false ∧ InOrder (y :: ys)

/-- The outcome of the counting loop of `Validate` on a nil-terminated chain of
`n` further nodes, entered with `count`. -/
def countNodes (size : Int) : Int → Nat → Except Error Int
  | count, 0 => .ok count
  | count, n + 1 =>
    if count + 1 > size then .error .moreNodesThanSize else countNodes size (count + 1) n

/-- The order `<=` of the claim on sorted lists: between two ints, or between two
strings. -/
def Any.le : Any → Any → Prop
  | .int a, .int b => a ≤ b
  | .str a, .str b => a ≤ b
  | _, _ => False

/-- The kind of a value, as told apart by the type switch of `Sort`. -/
inductive Kind where
  | int
  | str
  | float
  | other
  deriving DecidableEq

/-- Kind of a value. -/
def Any.kind : Any → Kind
  | .int _ => .int
  | .str _ => .str
  | .float _ => .float
  | .other _ => .other

namespace Singly

/-- A node of the singly linked list (`type Node struct`). -/
structure Node where
  Value : Any
  Next : Ptr

/-- The list header (`type LinkedList struct`).  `Size` is a Go `int`; it counts
nodes that are in memory, so it stays far from the ends of the 64-bit range and
is kept as an integer without wrap-around. -/
structure LinkedList where
  Head : Ptr
  Size : Int
  deriving DecidableEq

/-- Memory of singly linked nodes. -/
abbrev Heap := Mem Node

/-- The assignment `a.Next = p`. -/
def setNext (h : Heap) (a : Nat) (p : Ptr) : Heap :=
  h.put a { h.nodes a with Next := p }

/-- The assignment `a.Value = v`. -/
def setValue (h : Heap) (a : Nat) (v : Any) : Heap :=
  h.put a { h.nodes a with Value := v }

/-- The list `ll` is well formed in `h` with its nodes at the addresses `as`, in
order: the chain from `Head` along `Next` is `as` and ends in nil, and `Size` is
the number of nodes. -/
def Wf (h : Heap) (ll : LinkedList) (as : List Nat) : Prop :=
  Seg Node.Next h ll.Head as none ∧ ll.Size = as.length

/-- The values stored at the addresses `as`. -/
def values (h : Heap) (as : List Nat) : List Any := as.map fun a => (h.nodes a).Value

/-- The list `ll` is well formed in `h` and its element sequence is `xs`. -/
def Repr (h : Heap) (ll : LinkedList) (xs : List Any) : Prop :=
  ∃ as, Wf h ll as ∧ values h as = xs

/-- What a call on a well-formed list with nodes `as` in `h` leaves behind: a
well-formed list with element sequence `xs'`, whose nodes are old nodes of the
list or new ones, in a memory that is unchanged outside the old nodes. -/
def Post (h : Heap) (as : List Nat) (h' : Heap) (ll' : LinkedList) (xs' : List Any) : Prop :=
  ∃ as', Wf h' ll' as' ∧ values h' as' = xs' ∧ h.Frame h' as ∧ ∀ a ∈ as', a ∈ as ∨ h.size ≤ a

/-- The loop `for i := 0; i < k; i++ { current = current.Next }` of `Insert`,
`DeleteAt` and `Get`: `k` steps along `Next`, each of which dereferences
`current`. -/
def walk (h : Heap) : Ptr → Nat → Res Ptr
  | current, 0 => .ok current
  | none, _ + 1 => .nilDeref
  | some c, k + 1 => walk h (h.nodes c).Next k

/-- The constructor `NewSinglyLinkedList`. -/
def NewSinglyLinkedList : LinkedList := { Head := none, Size := 0 }

/-- The method `Clear`. -/
def Clear (_ll : LinkedList) : LinkedList := { Head := none, Size := 0 }

/-- The method `Prepend`. -/
def Prepend (h : Heap) (ll : LinkedList) (value : Any) : Heap × LinkedList :=
  (h.alloc { Value := value, Next := ll.Head },
   { Head := some h.size, Size := ll.Size + 1 })

/-- The loop `for lastNode.Next != nil { lastNode = lastNode.Next }` of `Append`. -/
def Append.loop : Nat → Heap → Nat → Res Nat
  | 0, _, _ => .outOfFuel
  | fuel + 1, h, lastNode =>
    match (h.nodes lastNode).Next with
    | none => .ok lastNode
    | some n => Append.loop fuel h n

/-- The method `Append`. -/
def Append (fuel : Nat) (h : Heap) (ll : LinkedList) (value : Any) :
    Res (Heap × LinkedList) :=
  let h1 := h.alloc { Value := value, Next := none }
  match ll.Head with
  | none => .ok (h1, { Head := some h.size, Size := ll.Size + 1 })
  | some hd =>
    (Append.loop fuel h1 hd).bind fun lastNode =>
      .ok (setNext h1 lastNode (some h.size), { ll with Size := ll.Size + 1 })

/-- The loop of `IntoSlice`. -/
def IntoSlice.loop : Nat → Heap → Ptr → Slice → Res Slice
  | 0, _, _, _ => .outOfFuel
  | _ + 1, _, none, retSlice => .ok retSlice
  | fuel + 1, h, some c, retSlice =>
    IntoSlice.loop fuel h (h.nodes c).Next (retSlice.push (h.nodes c).Value)

/-- The method `IntoSlice`. -/
def IntoSlice (fuel : Nat) (h : Heap) (ll : LinkedList) : Res Slice :=
  IntoSlice.loop fuel h ll.Head none

/-- The loop `for _, value := range slice { ll.Append(value) }` of `FromSlice`
and `FromArray`. -/
def FromSlice.loop (fuel : Nat) : Heap → LinkedList → List Any → Res (Heap × LinkedList)
  | h, ll, [] => .ok (h, ll)
  | h, ll, value :: rest =>
    (Append fuel h ll value).bind fun r => FromSlice.loop fuel r.1 r.2 rest

/-- The method `FromSlice`. -/
def FromSlice (fuel : Nat) (h : Heap) (ll : LinkedList) (slice : Slice) :
    Res (Heap × LinkedList × Option Error) :=
  match slice with
  | none => .ok (h, ll, some .nilSlice)
  | some vs =>
    (FromSlice.loop fuel h (Clear ll) vs).bind fun r => .ok (r.1, r.2, none)

/-- The method `FromArray`. -/
def FromArray (fuel : Nat) (h : Heap) (ll : LinkedList) (arr : Slice) :
    Res (Heap × LinkedList × Option Error) :=
  match arr with
  | none => .ok (h, ll, some .nilArray)
  | some vs =>
    (FromSlice.loop fuel h (Clear ll) vs).bind fun r => .ok (r.1, r.2, none)

/-- The loop of `Search`. -/
def Search.loop : Nat → Heap → Ptr → Int → Any → Res Int
  | 0, _, _, _, _ => .outOfFuel
  | _ + 1, _, none, _, _ => .ok (-1)
  | fuel + 1, h, some c, index, value =>
    if goEq (h.nodes c).Value value then .ok index
    else Search.loop fuel h (h.nodes c).Next (index + 1) value

/-- The method `Search`. -/
def Search (fuel : Nat) (h : Heap) (ll : LinkedList) (value : Any) : Res Int :=
  Search.loop fuel h ll.Head 0 value

/-- The method `Shift`. -/
def Shift (h : Heap) (ll : LinkedList) : LinkedList × Option Error :=
  match ll.Head with
  | none => (ll, some .emptyList)
  | some hd => ({ Head := (h.nodes hd).Next, Size := ll.Size - 1 }, none)

/-- The loop `for current.Next.Next != nil { current = current.Next }` of `Pop`;
it ends on the second-to-last node. -/
def Pop.loop : Nat → Heap → Nat → Res Nat
  | 0, _, _ => .outOfFuel
  | fuel + 1, h, current =>
    match (h.nodes current).Next with
    | none => .nilDeref
    | some n =>
      match (h.nodes n).Next with
      | none => .ok current
      | some _ => Pop.loop fuel h n

/-- The method `Pop`. -/
def Pop (fuel : Nat) (h : Heap) (ll : LinkedList) :
    Res (Heap × LinkedList × Option Error) :=
  match ll.Head with
  | none => .ok (h, ll, some .emptyList)
  | some hd =>
    match (h.nodes hd).Next with
    | none => .ok (h, { Head := none, Size := ll.Size - 1 }, none)
    | some _ =>
      (Pop.loop fuel h hd).bind fun current =>
        .ok (setNext h current none, { ll with Size := ll.Size - 1 }, none)

/-- The loop `for current.Next != nil && current.Next.Value != value` of `Delete`;
it ends on the node before the first match, or on the last node. -/
def Delete.loop : Nat → Heap → Nat → Any → Res Nat
  | 0, _, _, _ => .outOfFuel
  | fuel + 1, h, current, value =>
    match (h.nodes current).Next with
    | none => .ok current
    | some n =>
      if goEq (h.nodes n).Value value then .ok current
      else Delete.loop fuel h n value

/-- The method `Delete`. -/
def Delete (fuel : Nat) (h : Heap) (ll : LinkedList) (value : Any) :
    Res (Heap × LinkedList × Option Error) :=
  match ll.Head with
  | none => .ok (h, ll, some .emptyList)
  | some hd =>
    if goEq (h.nodes hd).Value value then
      .ok (h, { Head := (h.nodes hd).Next, Size := ll.Size - 1 }, none)
    else
      (Delete.loop fuel h hd value).bind fun current =>
        match (h.nodes current).Next with
        | none => .ok (h, ll, some .notFound)
        | some n =>
          .ok (setNext h current (h.nodes n).Next, { ll with Size := ll.Size - 1 }, none)

/-- The method `Insert`. -/
def Insert (fuel : Nat) (h : Heap) (ll : LinkedList) (value : Any) (index : Int) :
    Res (Heap × LinkedList × Option Error) :=
  if index < 0 ∨ index > ll.Size then .ok (h, ll, some .indexOutOfBounds)
  else if index = 0 then
    (Append fuel h ll value).bind fun r => .ok (r.1, r.2, none)
  else
    (walk h ll.Head (index - 1).toNat).bind fun current =>
      match current with
      | none => .nilDeref
      | some c =>
        let h1 := h.alloc { Value := value, Next := (h.nodes c).Next }
        .ok (setNext h1 c (some h.size), { ll with Size := ll.Size + 1 }, none)

/-- The method `DeleteAt`. -/
def DeleteAt (h : Heap) (ll : LinkedList) (index : Int) :
    Res (Heap × LinkedList × Option Error) :=
  if index < 0 ∨ index > ll.Size then .ok (h, ll, some .indexOutOfBounds)
  else if index = 0 then .ok (h, (Shift h ll).1, none)
  else
    (walk h ll.Head (index - 1).toNat).bind fun current =>
      match current with
      | none => .nilDeref
      | some c =>
        match (h.nodes c).Next with
        | none => .nilDeref
        | some n =>
          .ok (setNext h c (h.nodes n).Next, { ll with Size := ll.Size - 1 }, none)

/-- The method `Get`. -/
def Get (h : Heap) (ll : LinkedList) (index : Int) : Res (Except Error Any) :=
  if index < 0 ∨ index > ll.Size then .ok (.error .indexOutOfBounds)
  else
    (walk h ll.Head index.toNat).bind fun current =>
      match current with
      | none => .nilDeref
      | some c => .ok (.ok (h.nodes c).Value)

/-- The loop of `Reverse`; it returns the memory and the final `prev`. -/
def Reverse.loop : Nat → Heap → Ptr → Ptr → Res (Heap × Ptr)
  | 0, _, _, _ => .outOfFuel
  | _ + 1, h, prev, none => .ok (h, prev)
  | fuel + 1, h, prev, some c =>
    Reverse.loop fuel (setNext h c prev) (some c) (h.nodes c).Next

/-- The method `Reverse`. -/
def Reverse (fuel : Nat) (h : Heap) (ll : LinkedList) : Res (Heap × LinkedList) :=
  (Reverse.loop fuel h none ll.Head).bind fun r => .ok (r.1, { ll with Head := r.2 })

/-- The loop of `Contains`. -/
def Contains.loop : Nat → Heap → Ptr → Any → Res Bool
  | 0, _, _, _ => .outOfFuel
  | _ + 1, _, none, _ => .ok false
  | fuel + 1, h, some c, value =>
    if goEq (h.nodes c).Value value then .ok true
    else Contains.loop fuel h (h.nodes c).Next value

/-- The method `Contains`. -/
def Contains (fuel : Nat) (h : Heap) (ll : LinkedList) (value : Any) : Res Bool :=
  Contains.loop fuel h ll.Head value

/-- The loop `for current.Next != nil` of `Unique`. -/
def Unique.loop : Nat → Heap → LinkedList → Visited → Nat → Res (Heap × LinkedList)
  | 0, _, _, _, _ => .outOfFuel
  | fuel + 1, h, ll, visited, current =>
    match (h.nodes current).Next with
    | none => .ok (h, ll)
    | some n =>
      if visited.get (h.nodes n).Value then
        Unique.loop fuel (setNext h current (h.nodes n).Next)
          { ll with Size := ll.Size - 1 } visited current
      else
        Unique.loop fuel h ll (visited.set (h.nodes n).Value) n

/-- The method `Unique`. -/
def Unique (fuel : Nat) (h : Heap) (ll : LinkedList) :
    Res (Heap × LinkedList × Option Error) :=
  match ll.Head with
  | none => .ok (h, ll, some .emptyList)
  | some hd =>
    if ll.Size ≤ 1 then .ok (h, ll, none)
    else
      (Unique.loop fuel h ll (Visited.set [] (h.nodes hd).Value) hd).bind fun r =>
        .ok (r.1, r.2, none)

/-- The loop of `Merge` over the nodes of the other list. -/
def Merge.loop (fuel : Nat) : Nat → Heap → LinkedList → Ptr → Res (Heap × LinkedList)
  | 0, _, _, _ => .outOfFuel
  | _ + 1, h, ll, none => .ok (h, ll)
  | k + 1, h, ll, some c =>
    (Append fuel h ll (h.nodes c).Value).bind fun r =>
      Merge.loop fuel k r.1 r.2 (r.1.nodes c).Next

/-- The method `Merge`; `list` is `none` for a nil `*LinkedList`. -/
def Merge (fuel : Nat) (h : Heap) (ll : LinkedList) (list : Option LinkedList) :
    Res (Heap × LinkedList × Option Error) :=
  match list with
  | none => .ok (h, ll, some .nilList)
  | some other =>
    (Merge.loop fuel fuel h ll other.Head).bind fun r => .ok (r.1, r.2, none)

/-- The simultaneous assignment
`current.Value, current.Next.Value = current.Next.Value, current.Value`. -/
def swapValues (h : Heap) (c n : Nat) : Heap :=
  setValue (setValue h c (h.nodes n).Value) n (h.nodes c).Value

/-- The inner loop `for current.Next != nil` of `Sort`: one pass over the list.
It returns the memory, the flag `swapped`, and the error if the pass returned
one. -/
def SortList.pass : Nat → Heap → Nat → Bool → Res (Heap × Bool × Option Error)
  | 0, _, _, _ => .outOfFuel
  | fuel + 1, h, current, swapped =>
    match (h.nodes current).Next with
    | none => .ok (h, swapped, none)
    | some n =>
      match sortGt (h.nodes current).Value (h.nodes n).Value with
      | .error e => .ok (h, swapped, some e)
      | .ok true => SortList.pass fuel (swapValues h current n) n true
      | .ok false => SortList.pass fuel h n swapped

/-- The outer loop `for swapped` of `Sort`. -/
def SortList.loop (fuel : Nat) : Nat → Heap → Ptr → Res (Heap × Option Error)
  | 0, _, _ => .outOfFuel
  | _ + 1, _, none => .nilDeref
  | k + 1, h, some hd =>
    (SortList.pass fuel h hd false).bind fun r =>
      match r.2.2 with
      | some e => .ok (r.1, some e)
      | none => if r.2.1 then SortList.loop fuel k r.1 (some hd) else .ok (r.1, none)

/-- The method `Sort` (the name itself is reserved in Lean). -/
def SortList (fuel : Nat) (h : Heap) (ll : LinkedList) :
    Res (Heap × LinkedList × Option Error) :=
  if ll.Size ≤ 1 then .ok (h, ll, none)
  else (SortList.loop fuel fuel h ll.Head).bind fun r => .ok (r.1, ll, r.2)

/-- The loop of `hasCycle`. -/
def hasCycle.loop : Nat → Heap → Ptr → Ptr → Res Bool
  | 0, _, _, _ => .outOfFuel
  | _ + 1, _, _, none => .ok false
  | fuel + 1, h, slow, some f =>
    match (h.nodes f).Next with
    | none => .ok false
    | some fn =>
      match slow with
      | none => .nilDeref
      | some s =>
        if (h.nodes s).Next = (h.nodes fn).Next then .ok true
        else hasCycle.loop fuel h (h.nodes s).Next (h.nodes fn).Next

/-- The method `hasCycle`. -/
def hasCycle (fuel : Nat) (h : Heap) (ll : LinkedList) : Res Bool :=
  match ll.Head with
  | none => .ok false
  | some hd =>
    match (h.nodes hd).Next with
    | none => .ok false
    | some _ => hasCycle.loop fuel h ll.Head ll.Head

/-- The loop of `GetMiddle`; it returns `slow`. -/
def GetMiddle.loop : Nat → Heap → Nat → Nat → Res Nat
  | 0, _, _, _ => .outOfFuel
  | fuel + 1, h, slow, fast =>
    match (h.nodes fast).Next with
    | none => .ok slow
    | some fn =>
      match (h.nodes fn).Next with
      | none => .ok slow
      | some fnn =>
        match (h.nodes slow).Next with
        | none => .nilDeref
        | some s => GetMiddle.loop fuel h s fnn

/-- The method `GetMiddle`. -/
def GetMiddle (fuel : Nat) (h : Heap) (ll : LinkedList) : Res (Except Error Any) :=
  match ll.Head with
  | none => .ok (.error .emptyList)
  | some hd =>
    (GetMiddle.loop fuel h hd hd).bind fun slow => .ok (.ok (h.nodes slow).Value)

/-- The counting loop of `Validate`: the final count, or the error of the early
return. -/
def Validate.loop : Nat → Heap → Int → Ptr → Int → Res (Except Error Int)
  | 0, _, _, _, _ => .outOfFuel
  | _ + 1, _, _, none, count => .ok (.ok count)
  | fuel + 1, h, size, some c, count =>
    if count + 1 > size then .ok (.error .moreNodesThanSize)
    else Validate.loop fuel h size (h.nodes c).Next (count + 1)

/-- The method `Validate`. -/
def Validate (fuel : Nat) (h : Heap) (ll : LinkedList) : Res (Option Error) :=
  if ll.Head = none ∧ ll.Size ≠ 0 then .ok (some .emptyNonZeroSize)
  else
    (Validate.loop fuel h ll.Size ll.Head 0).bind fun r =>
      match r with
      | .error e => .ok (some e)
      | .ok count =>
        if count ≠ ll.Size then .ok (some .countDiffers)
        else
          (hasCycle fuel h ll).bind fun c =>
            if c then .ok (some .cycle) else .ok none

/-- The public mutating calls on a list; `Merge j` merges with list number `j`
of the program state. -/
inductive Call where
  | Prepend (value : Any)
  | Append (value : Any)
  | Insert (value : Any) (index : Int)
  | Delete (value : Any)
  | DeleteAt (index : Int)
  | Shift
  | Pop
  | Reverse
  | Unique
  | SortList
  | Merge (j : Nat)
  | Clear
  | FromSlice (slice : Slice)
  | FromArray (arr : Slice)

/-- One call on the list `ll`, among the lists `lists` of the program: the new
memory and the new header of `ll`. -/
def Call.run (fuel : Nat) (h : Heap) (lists : List LinkedList) (ll : LinkedList) :
    Call → Res (Heap × LinkedList)
  | .Prepend value => .ok (Singly.Prepend h ll value)
  | .Append value => Singly.Append fuel h ll value
  | .Insert value index => (Singly.Insert fuel h ll value index).bind fun r => .ok (r.1, r.2.1)
  | .Delete value => (Singly.Delete fuel h ll value).bind fun r => .ok (r.1, r.2.1)
  | .DeleteAt index => (Singly.DeleteAt h ll index).bind fun r => .ok (r.1, r.2.1)
  | .Shift => .ok (h, (Singly.Shift h ll).1)
  | .Pop => (Singly.Pop fuel h ll).bind fun r => .ok (r.1, r.2.1)
  | .Reverse => Singly.Reverse fuel h ll
  | .Unique => (Singly.Unique fuel h ll).bind fun r => .ok (r.1, r.2.1)
  | .SortList => (Singly.SortList fuel h ll).bind fun r => .ok (r.1, r.2.1)
  | .Merge j => (Singly.Merge fuel h ll lists[j]?).bind fun r => .ok (r.1, r.2.1)
  | .Clear => .ok (h, Singly.Clear ll)
  | .FromSlice slice => (Singly.FromSlice fuel h ll slice).bind fun r => .ok (r.1, r.2.1)
  | .FromArray arr => (Singly.FromArray fuel h ll arr).bind fun r => .ok (r.1, r.2.1)

/-- A program state: the memory and the headers of the lists created so far. -/
structure World where
  heap : Heap
  lists : List LinkedList

/-- The program states that are reached from a start without lists by creating
lists with `NewSinglyLinkedList` and by public mutating calls that return; a
list is never merged with itself. -/
inductive Reachable : World → Prop where
  | start (h : Heap) : Reachable { heap := h, lists := [] }
  | create {w : World} : Reachable w →
      Reachable { heap := w.heap, lists := w.lists ++ [NewSinglyLinkedList] }
  | call {w : World} {fuel i : Nat} {c : Call} {ll : LinkedList} {r : Heap × LinkedList} :
      Reachable w → w.lists[i]? = some ll → (∀ j, c = .Merge j → j ≠ i) →
      c.run fuel w.heap w.lists ll = .ok r →
      Reachable { heap := r.1, lists := w.lists.set i r.2 }

end Singly

namespace Doubly

/-- A node of the doubly linked list (`type Node struct`). -/
structure Node where
  Value : Any
  Next : Ptr
  Prev : Ptr

/-- The list header (`type LinkedList struct`); `Size` is kept as an integer
without wrap-around, as for the singly linked list. -/
structure LinkedList where
  Head : Ptr
  Tail : Ptr
  Size : Int
  deriving DecidableEq

/-- Memory of doubly linked nodes. -/
abbrev Heap := Mem Node

/-- The assignment `a.Next = p`. -/
def setNext (h : Heap) (a : Nat) (p : Ptr) : Heap :=
  h.put a { h.nodes a with Next := p }

/-- The assignment `a.Prev = p`. -/
def setPrev (h : Heap) (a : Nat) (p : Ptr) : Heap :=
  h.put a { h.nodes a with Prev := p }

/-- The assignment `a.Value = v`. -/
def setValue (h : Heap) (a : Nat) (v : Any) : Heap :=
  h.put a { h.nodes a with Value := v }

/-- The list `ll` is well formed in `h` with its nodes at the addresses `as`, in
order: the chain from `Head` along `Next` is `as` and ends in nil, the chain from
`Tail` along `Prev` is `as` backwards and ends in nil, and `Size` is the number
of nodes. -/
def Wf (h : Heap) (ll : LinkedList) (as : List Nat) : Prop :=
  Seg Node.Next h ll.Head as none ∧ Seg Node.Prev h ll.Tail as.reverse none ∧
    ll.Size = as.length

/-- The values stored at the addresses `as`. -/
def values (h : Heap) (as : List Nat) : List Any := as.map fun a => (h.nodes a).Value

/-- The list `ll` is well formed in `h` and its element sequence is `xs`. -/
def Repr (h : Heap) (ll : LinkedList) (xs : List Any) : Prop :=
  ∃ as, Wf h ll as ∧ values h as = xs

/-- What a call on a well-formed list with nodes `as` in `h` leaves behind: a
well-formed list with element sequence `xs'`, whose nodes are old nodes of the
list or new ones, in a memory that is unchanged outside the old nodes. -/
def Post (h : Heap) (as : List Nat) (h' : Heap) (ll' : LinkedList) (xs' : List Any) : Prop :=
  ∃ as', Wf h' ll' as' ∧ values h' as' = xs' ∧ h.Frame h' as ∧ ∀ a ∈ as', a ∈ as ∨ h.size ≤ a

/-- The loop `for i := 0; i < k; i++ { current = current.Next }` of `Get`, `Insert`
and `DeleteAt`. -/
def walk (h : Heap) : Ptr → Nat → Res Ptr
  | current, 0 => .ok current
  | none, _ + 1 => .nilDeref
  | some c, k + 1 => walk h (h.nodes c).Next k

/-- The constructor `NewDoublyLinkedList`. -/
def NewDoublyLinkedList : LinkedList := { Head := none, Tail := none, Size := 0 }

/-- The method `Clear`. -/
def Clear (_ll : LinkedList) : LinkedList := { Head := none, Tail := none, Size := 0 }

/-- The method `Prepend`. -/
def Prepend (h : Heap) (ll : LinkedList) (value : Any) : Heap × LinkedList × Option Error :=
  let h1 := h.alloc { Value := value, Next := ll.Head, Prev := none }
  match ll.Head with
  | some hd =>
    if (h1.nodes hd).Prev ≠ none then (h1, ll, some .headPrevNotNil)
    else (setPrev h1 hd (some h.size), { ll with Head := some h.size, Size := ll.Size + 1 }, none)
  | none =>
    if ll.Tail ≠ none then (h1, ll, some .headNilTailNot)
    else (h1, { Head := some h.size, Tail := some h.size, Size := ll.Size + 1 }, none)

/-- The method `Append`. -/
def Append (h : Heap) (ll : LinkedList) (value : Any) : Heap × LinkedList × Option Error :=
  let h1 := h.alloc { Value := value, Next := none, Prev := ll.Tail }
  match ll.Tail with
  | some tl =>
    if (h1.nodes tl).Next ≠ none then (h1, ll, some .tailNextNotNil)
    else (setNext h1 tl (some h.size), { ll with Tail := some h.size, Size := ll.Size + 1 }, none)
  | none =>
    if ll.Head ≠ none then (h1, ll, some .tailNilHeadNot)
    else (h1, { Head := some h.size, Tail := some h.size, Size := ll.Size + 1 }, none)

/-- The loop of `IntoSlice`. -/
def IntoSlice.loop : Nat → Heap → Ptr → Slice → Res Slice
  | 0, _, _, _ => .outOfFuel
  | _ + 1, _, none, retSlice => .ok retSlice
  | fuel + 1, h, some c, retSlice =>
    IntoSlice.loop fuel h (h.nodes c).Next (retSlice.push (h.nodes c).Value)

/-- The method `IntoSlice`. -/
def IntoSlice (fuel : Nat) (h : Heap) (ll : LinkedList) : Res Slice :=
  IntoSlice.loop fuel h ll.Head none

/-- The loop `for _, value := range slice` of `FromSlice` and `FromArray`; it stops
at the first `Append` that returns an error. -/
def FromSlice.loop : Heap → LinkedList → List Any → Heap × LinkedList × Option Error
  | h, ll, [] => (h, ll, none)
  | h, ll, value :: rest =>
    match Append h ll value with
    | (h1, ll1, some e) => (h1, ll1, some (.appendFailed e))
    | (h1, ll1, none) => FromSlice.loop h1 ll1 rest

/-- The method `FromSlice`. -/
def FromSlice (h : Heap) (ll : LinkedList) (slice : Slice) : Heap × LinkedList × Option Error :=
  match slice with
  | none => (h, ll, some .nilSlice)
  | some vs => FromSlice.loop h (Clear ll) vs

/-- The method `FromArray`. -/
def FromArray (h : Heap) (ll : LinkedList) (arr : Slice) : Heap × LinkedList × Option Error :=
  match arr with
  | none => (h, ll, some .nilArray)
  | some vs => FromSlice.loop h (Clear ll) vs

/-- The loop of `Search`. -/
def Search.loop : Nat → Heap → Ptr → Int → Any → Res (Int × Option Error)
  | 0, _, _, _, _ => .outOfFuel
  | _ + 1, _, none, _, _ => .ok (-1, some .notFound)
  | fuel + 1, h, some c, index, value =>
    if goEq (h.nodes c).Value value then .ok (index, none)
    else Search.loop fuel h (h.nodes c).Next (index + 1) value

/-- The method `Search`. -/
def Search (fuel : Nat) (h : Heap) (ll : LinkedList) (value : Any) : Res (Int × Option Error) :=
  Search.loop fuel h ll.Head 0 value

/-- The method `Shift`. -/
def Shift (h : Heap) (ll : LinkedList) : Heap × LinkedList × Option Error :=
  match ll.Head with
  | none => (h, ll, some .emptyList)
  | some hd =>
    match (h.nodes hd).Next with
    | some n => (setPrev h n none, { ll with Head := some n, Size := ll.Size - 1 }, none)
    | none => (h, { Head := none, Tail := none, Size := ll.Size - 1 }, none)

/-- The method `Pop`. -/
def Pop (h : Heap) (ll : LinkedList) : Res (Heap × LinkedList × Option Error) :=
  match ll.Head with
  | none => .ok (h, ll, some .emptyList)
  | some _ =>
    if ll.Head = ll.Tail then .ok (h, { Head := none, Tail := none, Size := ll.Size - 1 }, none)
    else
      match ll.Tail with
      | none => .nilDeref
      | some tl =>
        match (h.nodes tl).Prev with
        | none => .nilDeref
        | some p =>
          .ok (setNext h p none, { ll with Tail := some p, Size := ll.Size - 1 }, none)

/-- The loop `for current != nil && current.Value != value` of `Delete`. -/
def Delete.loop : Nat → Heap → Ptr → Any → Res Ptr
  | 0, _, _, _ => .outOfFuel
  | _ + 1, _, none, _ => .ok none
  | fuel + 1, h, some c, value =>
    if goEq (h.nodes c).Value value then .ok (some c)
    else Delete.loop fuel h (h.nodes c).Next value

/-- The method `Delete`. -/
def Delete (fuel : Nat) (h : Heap) (ll : LinkedList) (value : Any) :
    Res (Heap × LinkedList × Option Error) :=
  match ll.Head with
  | none => .ok (h, ll, some .emptyList)
  | some hd =>
    if goEq (h.nodes hd).Value value then .ok (Shift h ll)
    else
      match ll.Tail with
      | none => .nilDeref
      | some tl =>
        if goEq (h.nodes tl).Value value then Pop h ll
        else
          (Delete.loop fuel h ll.Head value).bind fun current =>
            match current with
            | none => .ok (h, ll, some .notFound)
            | some c =>
              match (h.nodes c).Prev with
              | none => .nilDeref
              | some p =>
                let h1 := setNext h p (h.nodes c).Next
                match (h1.nodes c).Next with
                | some n =>
                  .ok (setPrev h1 n (h1.nodes c).Prev, { ll with Size := ll.Size - 1 }, none)
                | none => .ok (h1, { ll with Size := ll.Size - 1 }, none)

/-- The method `IsEmpty`. -/
def IsEmpty (ll : LinkedList) : Bool := decide (ll.Size = 0)

/-- The method `Get`. -/
def Get (h : Heap) (ll : LinkedList) (index : Int) : Res (Except Error Any) :=
  if index < 0 ∨ index ≥ ll.Size then .ok (.error .indexOutOfBounds)
  else
    (walk h ll.Head index.toNat).bind fun current =>
      match current with
      | none => .nilDeref
      | some c => .ok (.ok (h.nodes c).Value)

/-- The method `Insert`. -/
def Insert (h : Heap) (ll : LinkedList) (value : Any) (index : Int) :
    Res (Heap × LinkedList × Option Error) :=
  if index < 0 ∨ index > ll.Size then .ok (h, ll, some .indexOutOfBounds)
  else if index = 0 then
    .ok ((Prepend h ll value).1, (Prepend h ll value).2.1, none)
  else if index = ll.Size then
    .ok ((Append h ll value).1, (Append h ll value).2.1, none)
  else
    (walk h ll.Head index.toNat).bind fun current =>
      match current with
      | none => .nilDeref
      | some c =>
        let h1 := h.alloc { Value := value, Next := some c, Prev := (h.nodes c).Prev }
        match (h1.nodes c).Prev with
        | none => .nilDeref
        | some p =>
          .ok (setPrev (setNext h1 p (some h.size)) c (some h.size),
               { ll with Size := ll.Size + 1 }, none)

/-- The method `DeleteAt`. -/
def DeleteAt (h : Heap) (ll : LinkedList) (index : Int) :
    Res (Heap × LinkedList × Option Error) :=
  if index < 0 ∨ index > ll.Size then .ok (h, ll, some .indexOutOfBounds)
  else if index = 0 then
    .ok ((Shift h ll).1, (Shift h ll).2.1, none)
  else if index = ll.Size - 1 then
    (Pop h ll).bind fun r => .ok (r.1, r.2.1, none)
  else
    (walk h ll.Head index.toNat).bind fun current =>
      match current with
      | none => .nilDeref
      | some c =>
        match (h.nodes c).Prev with
        | none => .nilDeref
        | some p =>
          let h1 := setNext h p (h.nodes c).Next
          match (h1.nodes c).Next with
          | some n =>
            .ok (setPrev h1 n (h1.nodes c).Prev, { ll with Size := ll.Size - 1 }, none)
          | none => .ok (h1, { ll with Size := ll.Size - 1 }, none)

/-- The loop of `Reverse`; it returns the memory and the header. -/
def Reverse.loop : Nat → Heap → LinkedList → Ptr → Res (Heap × LinkedList)
  | 0, _, _, _ => .outOfFuel
  | _ + 1, h, ll, none => .ok (h, ll)
  | fuel + 1, h, ll, some c =>
    let nextTemp := (h.nodes c).Next
    let h1 := setNext h c (h.nodes c).Prev
    let h2 := setPrev h1 c nextTemp
    Reverse.loop fuel h2 (if nextTemp = none then { ll with Head := some c } else ll) nextTemp

/-- The method `Reverse`. -/
def Reverse (fuel : Nat) (h : Heap) (ll : LinkedList) :
    Res (Heap × LinkedList × Option Error) :=
  match ll.Head with
  | none => .ok (h, ll, some .emptyList)
  | some _ =>
    if ll.Size ≤ 1 then .ok (h, ll, none)
    else
      (Reverse.loop fuel h { ll with Tail := ll.Head } ll.Head).bind fun r =>
        .ok (r.1, r.2, none)

/-- The loop of `Contains`. -/
def Contains.loop : Nat → Heap → Ptr → Any → Res Bool
  | 0, _, _, _ => .outOfFuel
  | _ + 1, _, none, _ => .ok false
  | fuel + 1, h, some c, value =>
    if goEq (h.nodes c).Value value then .ok true
    else Contains.loop fuel h (h.nodes c).Next value

/-- The method `Contains`. -/
def Contains (fuel : Nat) (h : Heap) (ll : LinkedList) (value : Any) : Res Bool :=
  Contains.loop fuel h ll.Head value

/-- The loop of `Merge` over the nodes of the other list; it stops at the first
`Append` that returns an error. -/
def Merge.loop : Nat → Heap → LinkedList → Ptr → Res (Heap × LinkedList × Option Error)
  | 0, _, _, _ => .outOfFuel
  | _ + 1, h, ll, none => .ok (h, ll, none)
  | fuel + 1, h, ll, some c =>
    match Append h ll (h.nodes c).Value with
    | (h1, ll1, some e) => .ok (h1, ll1, some (.mergeFailed e))
    | (h1, ll1, none) => Merge.loop fuel h1 ll1 (h1.nodes c).Next

/-- The method `Merge`; `list` is `none` for a nil `*LinkedList`. -/
def Merge (fuel : Nat) (h : Heap) (ll : LinkedList) (list : Option LinkedList) :
    Res (Heap × LinkedList × Option Error) :=
  match list with
  | none => .ok (h, ll, some .nilList)
  | some other => Merge.loop fuel h ll other.Head

/-- The loop `for current.Next != nil` of `Unique`. -/
def Unique.loop : Nat → Heap → LinkedList → Visited → Nat → Res (Heap × LinkedList)
  | 0, _, _, _, _ => .outOfFuel
  | fuel + 1, h, ll, visited, current =>
    match (h.nodes current).Next with
    | none => .ok (h, ll)
    | some n =>
      if visited.get (h.nodes n).Value then
        let h1 := setNext h current (h.nodes n).Next
        match (h1.nodes current).Next with
        | some nn =>
          Unique.loop fuel (setPrev h1 nn (some current))
            { ll with Size := ll.Size - 1 } visited current
        | none =>
          Unique.loop fuel h1 { ll with Tail := some current, Size := ll.Size - 1 }
            visited current
      else
        Unique.loop fuel h ll (visited.set (h.nodes n).Value) n

/-- The method `Unique`. -/
def Unique (fuel : Nat) (h : Heap) (ll : LinkedList) :
    Res (Heap × LinkedList × Option Error) :=
  match ll.Head with
  | none => .ok (h, ll, some .emptyList)
  | some hd =>
    if ll.Size ≤ 1 then .ok (h, ll, none)
    else
      (Unique.loop fuel h ll (Visited.set [] (h.nodes hd).Value) hd).bind fun r =>
        .ok (r.1, r.2, none)

/-- The simultaneous assignment
`current.Value, current.Next.Value = current.Next.Value, current.Value`. -/
def swapValues (h : Heap) (c n : Nat) : Heap :=
  setValue (setValue h c (h.nodes n).Value) n (h.nodes c).Value

/-- The inner loop `for current.Next != nil` of `Sort`: one pass over the list.
It returns the memory, the flag `swapped`, and the error if the pass returned
one. -/
def SortList.pass : Nat → Heap → Nat → Bool → Res (Heap × Bool × Option Error)
  | 0, _, _, _ => .outOfFuel
  | fuel + 1, h, current, swapped =>
    match (h.nodes current).Next with
    | none => .ok (h, swapped, none)
    | some n =>
      match sortGt (h.nodes current).Value (h.nodes n).Value with
      | .error e => .ok (h, swapped, some e)
      | .ok true => SortList.pass fuel (swapValues h current n) n true
      | .ok false => SortList.pass fuel h n swapped

/-- The outer loop `for swapped` of `Sort`. -/
def SortList.loop (fuel : Nat) : Nat → Heap → Ptr → Res (Heap × Option Error)
  | 0, _, _ => .outOfFuel
  | _ + 1, _, none => .nilDeref
  | k + 1, h, some hd =>
    (SortList.pass fuel h hd false).bind fun r =>
      match r.2.2 with
      | some e => .ok (r.1, some e)
      | none => if r.2.1 then SortList.loop fuel k r.1 (some hd) else .ok (r.1, none)

/-- The method `Sort` (the name itself is reserved in Lean). -/
def SortList (fuel : Nat) (h : Heap) (ll : LinkedList) :
    Res (Heap × LinkedList × Option Error) :=
  if ll.Size ≤ 1 then .ok (h, ll, none)
  else (SortList.loop fuel fuel h ll.Head).bind fun r => .ok (r.1, ll, r.2)

/-- The loop of `Validate`: the count and `lastNode`, or the error of an early
return. -/
def Validate.loop : Nat → Heap → Int → Ptr → Int → Ptr → Res (Except Error (Int × Ptr))
  | 0, _, _, _, _, _ => .outOfFuel
  | _ + 1, _, _, none, count, lastNode => .ok (.ok (count, lastNode))
  | fuel + 1, h, size, some c, count, _ =>
    if count + 1 > size then .ok (.error .moreNodesThanSize)
    else
      match (h.nodes c).Next with
      | some n =>
        if (h.nodes n).Prev ≠ some c then .ok (.error .brokenLink)
        else Validate.loop fuel h size (some n) (count + 1) (some c)
      | none => Validate.loop fuel h size none (count + 1) (some c)

/-- The method `Validate`. -/
def Validate (fuel : Nat) (h : Heap) (ll : LinkedList) : Res (Option Error) :=
  match ll.Head with
  | none =>
    if ll.Tail ≠ none then .ok (some .headNilButTail)
    else if ll.Size ≠ 0 then .ok (some .emptyNonZeroSize)
    else .ok none
  | some hd =>
    if (h.nodes hd).Prev ≠ none then .ok (some .headHasPrev)
    else
      match ll.Tail with
      | none => .nilDeref
      | some tl =>
        if (h.nodes tl).Next ≠ none then .ok (some .tailHasNext)
        else
          (Validate.loop fuel h ll.Size ll.Head 0 none).bind fun r =>
            match r with
            | .error e => .ok (some e)
            | .ok (count, lastNode) =>
              if count ≠ ll.Size then .ok (some .countDiffers)
              else if lastNode ≠ ll.Tail then .ok (some .tailNotLast)
              else .ok none

/-- The public mutating calls on a list; `Merge j` merges with list number `j`
of the program state. -/
inductive Call where
  | Prepend (value : Any)
  | Append (value : Any)
  | Insert (value : Any) (index : Int)
  | Delete (value : Any)
  | DeleteAt (index : Int)
  | Shift
  | Pop
  | Reverse
  | Unique
  | SortList
  | Merge (j : Nat)
  | Clear
  | FromSlice (slice : Slice)
  | FromArray (arr : Slice)

/-- One call on the list `ll`, among the lists `lists` of the program: the new
memory and the new header of `ll`. -/
def Call.run (fuel : Nat) (h : Heap) (lists : List LinkedList) (ll : LinkedList) :
    Call → Res (Heap × LinkedList)
  | .Prepend value => .ok ((Doubly.Prepend h ll value).1, (Doubly.Prepend h ll value).2.1)
  | .Append value => .ok ((Doubly.Append h ll value).1, (Doubly.Append h ll value).2.1)
  | .Insert value index => (Doubly.Insert h ll value index).bind fun r => .ok (r.1, r.2.1)
  | .Delete value => (Doubly.Delete fuel h ll value).bind fun r => .ok (r.1, r.2.1)
  | .DeleteAt index => (Doubly.DeleteAt h ll index).bind fun r => .ok (r.1, r.2.1)
  | .Shift => .ok ((Doubly.Shift h ll).1, (Doubly.Shift h ll).2.1)
  | .Pop => (Doubly.Pop h ll).bind fun r => .ok (r.1, r.2.1)
  | .Reverse => (Doubly.Reverse fuel h ll).bind fun r => .ok (r.1, r.2.1)
  | .Unique => (Doubly.Unique fuel h ll).bind fun r => .ok (r.1, r.2.1)
  | .SortList => (Doubly.SortList fuel h ll).bind fun r => .ok (r.1, r.2.1)
  | .Merge j => (Doubly.Merge fuel h ll lists[j]?).bind fun r => .ok (r.1, r.2.1)
  | .Clear => .ok (h, Doubly.Clear ll)
  | .FromSlice slice => .ok ((Doubly.FromSlice h ll slice).1, (Doubly.FromSlice h ll slice).2.1)
  | .FromArray arr => .ok ((Doubly.FromArray h ll arr).1, (Doubly.FromArray h ll arr).2.1)

/-- A program state: the memory and the headers of the lists created so far. -/
structure World where
  heap : Heap
  lists : List LinkedList

/-- The program states that are reached from a start without lists by creating
lists with `NewDoublyLinkedList` and by public mutating calls that return; a
list is never merged with itself. -/
inductive Reachable : World → Prop where
  | start (h : Heap) : Reachable { heap := h, lists := [] }
  | create {w : World} : Reachable w →
      Reachable { heap := w.heap, lists := w.lists ++ [NewDoublyLinkedList] }
  | call {w : World} {fuel i : Nat} {c : Call} {ll : LinkedList} {r : Heap × LinkedList} :
      Reachable w → w.lists[i]? = some ll → (∀ j, c = .Merge j → j ≠ i) →
      c.run fuel w.heap w.lists ll = .ok r →
      Reachable { heap := r.1, lists := w.lists.set i r.2 }

end Doubly

namespace SinglyDyn

/-- A node of the singly linked list (`type Node struct`) whose value is of
arbitrary dynamic type. -/
structure Node where
  Value : Dyn
  Next : Ptr

/-- Memory of such nodes. -/
abbrev Heap := Mem Node

/-- The assignment `a.Next = p`. -/
def setNext (h : Heap) (a : Nat) (p : Ptr) : Heap :=
  h.put a { h.nodes a with Next := p }

/-- The list `ll` is well formed in `h` with its nodes at the addresses `as`, in
order. -/
def Wf (h : Heap) (ll : Singly.LinkedList) (as : List Nat) : Prop :=
  Seg Node.Next h ll.Head as none ∧ ll.Size = as.length

/-- The values stored at the addresses `as`. -/
def values (h : Heap) (as : List Nat) : List Dyn := as.map fun a => (h.nodes a).Value

/-- The list `ll` is well formed in `h` and its element sequence is `xs`. -/
def Repr (h : Heap) (ll : Singly.LinkedList) (xs : List Dyn) : Prop :=
  ∃ as, Wf h ll as ∧ values h as = xs

/-- The loop of `Search`; `current.Value == value` can panic. -/
def Search.loop : Nat → Heap → Ptr → Int → Dyn → Res Int
  | 0, _, _, _, _ => .outOfFuel
  | _ + 1, _, none, _, _ => .ok (-1)
  | fuel + 1, h, some c, index, value =>
    match dynEq (h.nodes c).Value value with
    | none => .uncomparable
    | some true => .ok index
    | some false => Search.loop fuel h (h.nodes c).Next (index + 1) value

/-- The method `Search`. -/
def Search (fuel : Nat) (h : Heap) (ll : Singly.LinkedList) (value : Dyn) : Res Int :=
  Search.loop fuel h ll.Head 0 value

/-- The loop `for current.Next != nil && current.Next.Value != value` of `Delete`;
it ends on the node before the first match, or on the last node, and
`current.Next.Value != value` can panic. -/
def Delete.loop : Nat → Heap → Nat → Dyn → Res Nat
  | 0, _, _, _ => .outOfFuel
  | fuel + 1, h, current, value =>
    match (h.nodes current).Next with
    | none => .ok current
    | some n =>
      match dynEq (h.nodes n).Value value with
      | none => .uncomparable
      | some true => .ok current
      | some false => Delete.loop fuel h n value

/-- The method `Delete`; `ll.Head.Value == value` can panic. -/
def Delete (fuel : Nat) (h : Heap) (ll : Singly.LinkedList) (value : Dyn) :
    Res (Heap × Singly.LinkedList × Option Error) :=
  match ll.Head with
  | none => .ok (h, ll, some .emptyList)
  | some hd =>
    match dynEq (h.nodes hd).Value value with
    | none => .uncomparable
    | some true => .ok (h, { Head := (h.nodes hd).Next, Size := ll.Size - 1 }, none)
    | some false =>
      (Delete.loop fuel h hd value).bind fun current =>
        match (h.nodes current).Next with
        | none => .ok (h, ll, some .notFound)
        | some n =>
          .ok (setNext h current (h.nodes n).Next, { ll with Size := ll.Size - 1 }, none)

/-- A memory of comparable values seen as a memory of values of arbitrary dynamic
type. -/
def ofComparable (h : Singly.Heap) : Heap :=
  { nodes := fun a => { Value := .cmp (h.nodes a).Value, Next := (h.nodes a).Next },
    size := h.size }

end SinglyDyn

namespace DoublyDyn

/-- A node of the doubly linked list (`type Node struct`) whose value is of
arbitrary dynamic type. -/
structure Node where
  Value : Dyn
  Next : Ptr
  Prev : Ptr

/-- Memory of such nodes. -/
abbrev Heap := Mem Node

/-- The list `ll` is well formed in `h` with its nodes at the addresses `as`, in
order, along `Next` from `Head` and along `Prev` from `Tail`. -/
def Wf (h : Heap) (ll : Doubly.LinkedList) (as : List Nat) : Prop :=
  Seg Node.Next h ll.Head as none ∧ Seg Node.Prev h ll.Tail as.reverse none ∧
    ll.Size = as.length

/-- The values stored at the addresses `as`. -/
def values (h : Heap) (as : List Nat) : List Dyn := as.map fun a => (h.nodes a).Value

/-- The list `ll` is well formed in `h` and its element sequence is `xs`. -/
def Repr (h : Heap) (ll : Doubly.LinkedList) (xs : List Dyn) : Prop :=
  ∃ as, Wf h ll as ∧ values h as = xs

/-- The loop of `Search`; `current.Value == value` can panic. -/
def Search.loop : Nat → Heap → Ptr → Int → Dyn → Res (Int × Option Error)
  | 0, _, _, _, _ => .outOfFuel
  | _ + 1, _, none, _, _ => .ok (-1, some .notFound)
  | fuel + 1, h, some c, index, value =>
    match dynEq (h.nodes c).Value value with
    | none => .uncomparable
    | some true => .ok (index, none)
    | some false => Search.loop fuel h (h.nodes c).Next (index + 1) value

/-- The method `Search`. -/
def Search (fuel : Nat) (h : Heap) (ll : Doubly.LinkedList) (value : Dyn) :
    Res (Int × Option Error) :=
  Search.loop fuel h ll.Head 0 value

/-- A memory of comparable values seen as a memory of values of arbitrary dynamic
type. -/
def ofComparable (h : Doubly.Heap) : Heap :=
  { nodes := fun a =>
      { Value := .cmp (h.nodes a).Value, Next := (h.nodes a).Next, Prev := (h.nodes a).Prev },
    size := h.size }

end DoublyDyn

/-! ## Concrete states -/

namespace Singly

/-- A memory in which nothing is allocated yet. -/
def emptyHeap : Heap := { nodes := fun _ => { Value := .int 0, Next := none }, size := 0 }

/-- A memory holding the chain of `values`, node `i` at address `i`. -/
def heapOf (values : List Any) : Heap :=
  { nodes := fun a =>
      { Value := values.getD a (.int 0),
        Next := if a + 1 < values.length then some (a + 1) else none },
    size := values.length }

/-- The header of the list stored by `heapOf`. -/
def listOf (values : List Any) : LinkedList :=
  { Head := if values.length = 0 then none else some 0, Size := values.length }

/-- The program state of `main.go` after `list.Append(1)`, `list.Append(2)`,
`list.Prepend(0)` on a new list. -/
def demoWorld : World :=
  { heap := (Prepend (setNext ((emptyHeap.alloc { Value := .int 1, Next := none }).alloc
        { Value := .int 2, Next := none }) 0 (some 1)) { Head := some 0, Size := 2 } (.int 0)).1,
    lists := [{ Head := some 2, Size := 3 }] }

end Singly

namespace Doubly

/-- A memory in which nothing is allocated yet. -/
def emptyHeap : Heap :=
  { nodes := fun _ => { Value := .int 0, Next := none, Prev := none }, size := 0 }

/-- A memory holding the chain of `values`, node `i` at address `i`. -/
def heapOf (values : List Any) : Heap :=
  { nodes := fun a =>
      { Value := values.getD a (.int 0),
        Next := if a + 1 < values.length then some (a + 1) else none,
        Prev := if 0 < a ∧ a < values.length then some (a - 1) else none },
    size := values.length }

/-- The header of the list stored by `heapOf`. -/
def listOf (values : List Any) : LinkedList :=
  { Head := if values.length = 0 then none else some 0,
    Tail := if values.length = 0 then none else some (values.length - 1),
    Size := values.length }

/-- The state of the test `List Validation` after `list.Append(1)` on a new list. -/
def demoStep1 : Heap × LinkedList × Option Error := Append emptyHeap NewDoublyLinkedList (.int 1)

/-- The state of the test `List Validation` after `list.Append(2)`. -/
def demoStep2 : Heap × LinkedList × Option Error := Append demoStep1.1 demoStep1.2.1 (.int 2)

/-- The state of the test `List Validation` after `list.Append(3)`. -/
def demoStep3 : Heap × LinkedList × Option Error := Append demoStep2.1 demoStep2.2.1 (.int 3)

/-- The program state of the test `List Validation` before its call of `Validate`. -/
def demoWorld : World := { heap := demoStep3.1, lists := [demoStep3.2.1] }

end Doubly

namespace SinglyDyn

/-- A memory holding the chain of `values`, node `i` at address `i`. -/
def heapOf (values : List Dyn) : Heap :=
  { nodes := fun a =>
      { Value := values.getD a (.cmp (.int 0)),
        Next := if a + 1 < values.length then some (a + 1) else none },
    size := values.length }

end SinglyDyn

namespace DoublyDyn

/-- A memory holding the chain of `values`, node `i` at address `i`. -/
def heapOf (values : List Dyn) : Heap :=
  { nodes := fun a =>
      { Value := values.getD a (.cmp (.int 0)),
        Next := if a + 1 < values.length then some (a + 1) else none,
        Prev := if 0 < a ∧ a < values.length then some (a - 1) else none },
    size := values.length }

end DoublyDyn

/-! ## Outcomes -/

@[simp] theorem Res.bind_ok {α β : Type} (a : α) (f : α → Res β) : (Res.ok a).bind f = f a := rfl

@[simp] theorem Res.bind_nilDeref {α β : Type} (f : α → Res β) :
    (Res.nilDeref : Res α).bind f = .nilDeref := rfl

@[simp] theorem Res.bind_outOfFuel {α β : Type} (f : α → Res β) :
    (Res.outOfFuel : Res α).bind f = .outOfFuel := rfl

theorem Returns.ok {α : Type} {r : Nat → Res α} {b : Nat} {x : α} (h : Returns r b x)
    {fuel : Nat} (hf : b < fuel) : r fuel = .ok x := (h fuel).1 hf

theorem Returns.eq_of_ok {α : Type} {r : Nat → Res α} {b : Nat} {x y : α} (h : Returns r b x)
    {fuel : Nat} (hy : r fuel = .ok y) : y = x := by
  rcases (h fuel).2 with h1 | h1
  · rw [h1] at hy; cases hy; rfl
  · rw [h1] at hy; cases hy

theorem Returns.const {α : Type} (x : α) (b : Nat) : Returns (fun _ => Res.ok x) b x :=
  fun _ => ⟨fun _ => rfl, Or.inl rfl⟩

theorem Returns.mono {α : Type} {r : Nat → Res α} {b c : Nat} {x : α} (h : Returns r b x)
    (hbc : b ≤ c) : Returns r c x :=
  fun fuel => ⟨fun hf => (h fuel).1 (lt_of_le_of_lt hbc hf), (h fuel).2⟩

theorem Returns.bind {α β : Type} {r : Nat → Res α} {k : Nat → α → Res β} {b c : Nat}
    {x : α} {y : β} (h1 : Returns r b x) (h2 : Returns (fun fuel => k fuel x) c y) :
    Returns (fun fuel => (r fuel).bind (k fuel)) (max b c) y := by
  intro fuel
  constructor
  · intro hf
    have hb : b < fuel := lt_of_le_of_lt (le_max_left b c) hf
    have hc : c < fuel := lt_of_le_of_lt (le_max_right b c) hf
    simp only [(h1 fuel).1 hb, Res.bind_ok]
    exact (h2 fuel).1 hc
  · rcases (h1 fuel).2 with e | e
    · simp only [e, Res.bind_ok]; exact (h2 fuel).2
    · simp only [e, Res.bind_outOfFuel]; exact Or.inr trivial

theorem Returns.map {α β : Type} {r : Nat → Res α} {b c : Nat} {x : α} (h : Returns r b x)
    (f : α → β) (hbc : b ≤ c) :
    Returns (fun fuel => (r fuel).bind fun a => Res.ok (f a)) c (f x) := by
  intro fuel
  constructor
  · intro hf
    simp only [(h fuel).1 (lt_of_le_of_lt hbc hf), Res.bind_ok]
  · rcases (h fuel).2 with e | e
    · simp only [e, Res.bind_ok]; exact Or.inl trivial
    · simp only [e, Res.bind_outOfFuel]; exact Or.inr trivial

@[simp] theorem Slice.elems_none : Slice.elems none = [] := rfl

@[simp] theorem Slice.elems_some (vs : List Any) : Slice.elems (some vs) = vs := rfl

@[simp] theorem Slice.elems_push (s : Slice) (v : Any) : (s.push v).elems = s.elems ++ [v] := rfl

/-! ## Chains of nodes -/

section SegLemmas

variable {N : Type} {nx : N → Ptr}

@[simp] theorem Seg.nil_iff {m : Mem N} {p q : Ptr} : Seg nx m p [] q ↔ p = q := Iff.rfl

@[simp] theorem Seg.cons_iff {m : Mem N} {p q : Ptr} {a : Nat} {as : List Nat} :
    Seg nx m p (a :: as) q ↔ p = some a ∧ a < m.size ∧ Seg nx m (nx (m.nodes a)) as q :=
  Iff.rfl

theorem Seg.append_iff {m : Mem N} {as bs : List Nat} {p q : Ptr} :
    Seg nx m p (as ++ bs) q ↔ ∃ r, Seg nx m p as r ∧ Seg nx m r bs q := by
  induction as generalizing p with
  | nil => simp
  | cons a as ih =>
    simp only [List.cons_append, Seg.cons_iff, ih]
    constructor
    · rintro ⟨h1, h2, r, h3, h4⟩; exact ⟨r, ⟨h1, h2, h3⟩, h4⟩
    · rintro ⟨r, ⟨h1, h2, h3⟩, h4⟩; exact ⟨h1, h2, r, h3, h4⟩

theorem Seg.lt_size {m : Mem N} {as : List Nat} {p q : Ptr} (h : Seg nx m p as q) :
    ∀ a ∈ as, a < m.size := by
  induction as generalizing p with
  | nil => simp
  | cons a as ih =>
    obtain ⟨_, h2, h3⟩ := h
    intro b hb
    rcases List.mem_cons.mp hb with rfl | hb
    · exact h2
    · exact ih h3 b hb

theorem Seg.frame {m m' : Mem N} {as : List Nat} {p q : Ptr} (h : Seg nx m p as q)
    (hs : m.size ≤ m'.size) (hn : ∀ a ∈ as, nx (m'.nodes a) = nx (m.nodes a)) :
    Seg nx m' p as q := by
  induction as generalizing p with
  | nil => exact h
  | cons a as ih =>
    obtain ⟨h1, h2, h3⟩ := h
    refine ⟨h1, lt_of_lt_of_le h2 hs, ?_⟩
    rw [hn a (List.mem_cons_self a as)]
    exact ih h3 (fun b hb => hn b (List.mem_cons_of_mem a hb))

theorem Seg.functional {m : Mem N} {as bs : List Nat} {p : Ptr}
    (h1 : Seg nx m p as none) (h2 : Seg nx m p bs none) : as = bs := by
  induction as generalizing p bs with
  | nil =>
    cases bs with
    | nil => rfl
    | cons b bs => simp at h1; simp [h1] at h2
  | cons a as ih =>
    cases bs with
    | nil => simp at h2; simp [h2] at h1
    | cons b bs =>
      obtain ⟨e1, _, t1⟩ := h1
      obtain ⟨e2, _, t2⟩ := h2
      have hab : a = b := by rw [e1] at e2; exact Option.some.inj e2
      subst hab
      rw [ih t1 t2]

theorem Seg.not_mem_tail {m : Mem N} {as : List Nat} {a : Nat}
    (h : Seg nx m (some a) (a :: as) none) : a ∉ as := by
  intro hmem
  obtain ⟨l1, l2, rfl⟩ := List.append_of_mem hmem
  obtain ⟨_, _, t⟩ := h
  obtain ⟨r, _, hr⟩ := Seg.append_iff.mp t
  have hr2 := hr
  obtain ⟨_, _, t2⟩ := hr2
  have := Seg.functional t t2
  have hl := congrArg List.length this
  simp at hl
  omega

theorem Seg.nodup {m : Mem N} {as : List Nat} {p : Ptr} (h : Seg nx m p as none) :
    as.Nodup := by
  induction as generalizing p with
  | nil => exact List.nodup_nil
  | cons a as ih =>
    have h' := h
    obtain ⟨e, _, t⟩ := h'
    subst e
    exact List.nodup_cons.mpr ⟨Seg.not_mem_tail h, ih t⟩

theorem Seg.head_eq {m : Mem N} {as : List Nat} {hd : Nat} {q : Ptr}
    (h : Seg nx m (some hd) as q) (hne : as ≠ []) : ∃ tl, as = hd :: tl := by
  cases as with
  | nil => exact absurd rfl hne
  | cons a tl =>
    obtain ⟨e, _, _⟩ := h
    exact ⟨tl, by rw [Option.some.inj e]⟩

theorem Seg.eq_nil_of_none {m : Mem N} {as : List Nat} {q : Ptr}
    (h : Seg nx m none as q) : as = [] := by
  cases as with
  | nil => rfl
  | cons a tl => exact absurd h.1 (by simp)

theorem Seg.ptr_ne_none {m : Mem N} {L : List Nat} {p q : Ptr}
    (h : Seg nx m p L q) (hne : L ≠ []) : ∃ a tl, p = some a ∧ L = a :: tl := by
  cases L with
  | nil => exact absurd rfl hne
  | cons a tl => exact ⟨a, tl, h.1, rfl⟩

theorem Seg.snoc_iff {m : Mem N} {as : List Nat} {l : Nat} {p q : Ptr} :
    Seg nx m p (as ++ [l]) q ↔ Seg nx m p as (some l) ∧ l < m.size ∧ nx (m.nodes l) = q := by
  rw [Seg.append_iff]
  constructor
  · rintro ⟨r, h1, rfl, h2, h3⟩; exact ⟨h1, h2, h3⟩
  · rintro ⟨h1, h2, h3⟩; exact ⟨some l, h1, rfl, h2, h3⟩

theorem Seg.last_not_mem {m : Mem N} {as : List Nat} {l : Nat} {p : Ptr}
    (h : Seg nx m p (as ++ [l]) none) : l ∉ as := by
  intro hm
  have := List.nodup_append.mp (Seg.nodup h)
  exact this.2.2 hm (List.mem_singleton_self l)

end SegLemmas

theorem List.nil_or_snoc {α : Type} (as : List α) : as = [] ∨ ∃ init l, as = init ++ [l] := by
  rcases List.eq_nil_or_concat as with h | ⟨init, l, h⟩
  · exact Or.inl h
  · exact Or.inr ⟨init, l, by rw [h, List.concat_eq_append]⟩

theorem List.split_at_index {α : Type} (as : List α) (k : Nat) (hk : k < as.length) :
    ∃ A c B, as = A ++ c :: B ∧ A.length = k := by
  refine ⟨as.take k, as[k], as.drop (k + 1), ?_, ?_⟩
  · rw [← List.drop_eq_getElem_cons hk, List.take_append_drop]
  · simp; omega

theorem List.first_match {α : Type} (p : α → Bool) (as : List α) (h : as.any p = true) :
    ∃ pre n post, as = pre ++ n :: post ∧ (∀ a ∈ pre, p a = false) ∧ p n = true := by
  induction as with
  | nil => simp at h
  | cons a as ih =>
    by_cases ha : p a = true
    · exact ⟨[], a, as, rfl, by simp, ha⟩
    · have ha' : p a = false := by simpa using ha
      have h' : as.any p = true := by simpa [ha'] using h
      obtain ⟨pre, n, post, e, hpre, hn⟩ := ih h'
      refine ⟨a :: pre, n, post, by rw [e]; rfl, ?_, hn⟩
      intro b hb
      rcases List.mem_cons.mp hb with rfl | hb
      · exact ha'
      · exact hpre b hb

theorem eraseFirst_split (p : Any → Bool) (pre post : List Any) (n : Any)
    (hpre : ∀ a ∈ pre, p a = false) (hn : p n = true) :
    eraseFirst p (pre ++ n :: post) = pre ++ post := by
  induction pre with
  | nil => simp [eraseFirst, hn]
  | cons a pre ih =>
    have ha : p a = false := hpre a (List.mem_cons_self _ _)
    have e : eraseFirst p (a :: (pre ++ n :: post)) = a :: eraseFirst p (pre ++ n :: post) := by
      simp [eraseFirst, ha]
    rw [List.cons_append, e, ih (fun b hb => hpre b (List.mem_cons_of_mem _ hb))]
    rfl

theorem eraseFirst_none (p : Any → Bool) (xs : List Any) (h : ∀ a ∈ xs, p a = false) :
    eraseFirst p xs = xs := by
  induction xs with
  | nil => rfl
  | cons a xs ih =>
    have e : eraseFirst p (a :: xs) = a :: eraseFirst p xs := by
      simp [eraseFirst, h a (List.mem_cons_self _ _)]
    rw [e, ih (fun b hb => h b (List.mem_cons_of_mem _ hb))]

theorem Seg.transfer {N : Type} {nx nx' : N → Ptr} {m m' : Mem N} {L : List Nat} {p q : Ptr}
    (hs : Seg nx m p L q) (hsz : m.size ≤ m'.size)
    (hn : ∀ a ∈ L, nx' (m'.nodes a) = nx (m.nodes a)) : Seg nx' m' p L q := by
  induction L generalizing p with
  | nil => exact hs
  | cons a L ih =>
    obtain ⟨h1, h2, h3⟩ := hs
    refine ⟨h1, lt_of_lt_of_le h2 hsz, ?_⟩
    rw [hn a (List.mem_cons_self a L)]
    exact ih h3 (fun b hb => hn b (List.mem_cons_of_mem a hb))

theorem Seg.unlink {N : Type} {nx : N → Ptr} {m M : Mem N} {A B : List Nat} {c n : Nat}
    {p : Ptr} (hs : Seg nx m p (A ++ c :: n :: B) none) (hsz : m.size ≤ M.size)
    (hc : nx (M.nodes c) = nx (m.nodes n))
    (ho : ∀ a, a ≠ c → nx (M.nodes a) = nx (m.nodes a)) :
    Seg nx M p (A ++ c :: B) none := by
  have hnd := Seg.nodup hs
  obtain ⟨r, hA, hcc⟩ := Seg.append_iff.mp hs
  obtain ⟨rfl, hclt, hn⟩ := hcc
  obtain ⟨_, _, hB⟩ := hn
  have hcA : c ∉ A := fun hm =>
    (List.nodup_append.mp hnd).2.2 hm (List.mem_cons_self _ _)
  have hcB : c ∉ B := fun hm =>
    (List.nodup_cons.mp (List.nodup_append.mp hnd).2.1).1 (List.mem_cons_of_mem _ hm)
  refine Seg.append_iff.mpr ⟨some c, ?_, rfl, lt_of_lt_of_le hclt hsz, ?_⟩
  · exact Seg.frame hA hsz (fun a ha => ho a (fun e => hcA (e ▸ ha)))
  · rw [hc]
    exact Seg.frame hB hsz (fun a ha => ho a (fun e => hcB (e ▸ ha)))

theorem Seg.link {N : Type} {nx : N → Ptr} {m m' : Mem N} {A B : List Nat} {c x : Nat}
    {p : Ptr} (hs : Seg nx m p (A ++ c :: B) none) (hx : m.size ≤ x) (hsz : x < m'.size)
    (hc : nx (m'.nodes c) = some x) (hxn : nx (m'.nodes x) = nx (m.nodes c))
    (ho : ∀ a, a ≠ c → a ≠ x → nx (m'.nodes a) = nx (m.nodes a)) :
    Seg nx m' p (A ++ c :: x :: B) none := by
  have hnd := Seg.nodup hs
  have hlt := Seg.lt_size hs
  have hle : m.size ≤ m'.size := by omega
  obtain ⟨r, hA, hcc⟩ := Seg.append_iff.mp hs
  obtain ⟨rfl, hclt, hB⟩ := hcc
  have hcA : c ∉ A := fun hm =>
    (List.nodup_append.mp hnd).2.2 hm (List.mem_cons_self _ _)
  have hcB : c ∉ B := (List.nodup_cons.mp (List.nodup_append.mp hnd).2.1).1
  have hne : ∀ a ∈ A ++ c :: B, a ≠ x := fun a ha e => by
    have := hlt a ha; omega
  refine Seg.append_iff.mpr ⟨some c, ?_, rfl, lt_of_lt_of_le hclt hle, ?_⟩
  · exact Seg.frame hA hle (fun a ha =>
      ho a (fun e => hcA (e ▸ ha)) (hne a (List.mem_append_left _ ha)))
  · rw [hc]
    refine ⟨rfl, hsz, ?_⟩
    rw [hxn]
    exact Seg.frame hB hle (fun a ha =>
      ho a (fun e => hcB (e ▸ ha))
        (hne a (List.mem_append_right _ (List.mem_cons_of_mem _ ha))))

theorem Seg.of_frame {N : Type} {nx : N → Ptr} {m m' : Mem N} {X L : List Nat} {p q : Ptr}
    (hf : m.Frame m' X) (hs : Seg nx m p L q) (hd : ∀ a ∈ L, a ∉ X) : Seg nx m' p L q :=
  Seg.frame hs hf.1 (fun a ha => by rw [hf.2 a (Seg.lt_size hs a ha) (hd a ha)])

theorem f64Eq_symm {x y : Nat} (h : f64Eq x y = true) : f64Eq y x = true := by
  simp only [f64Eq, Bool.and_eq_true, Bool.or_eq_true, Bool.not_eq_true', beq_iff_eq] at h ⊢
  obtain ⟨⟨h1, h2⟩, h3⟩ := h
  refine ⟨⟨h2, h1⟩, ?_⟩
  rcases h3 with h3 | h3
  · exact Or.inl ⟨h3.2, h3.1⟩
  · exact Or.inr h3.symm

theorem f64Eq_trans {x y z : Nat} (h1 : f64Eq x y = true) (h2 : f64Eq y z = true) :
    f64Eq x z = true := by
  simp only [f64Eq, f64Mag, Bool.and_eq_true, Bool.or_eq_true, Bool.not_eq_true',
    beq_iff_eq] at h1 h2 ⊢
  obtain ⟨⟨a1, _⟩, a3⟩ := h1
  obtain ⟨⟨_, b2⟩, b3⟩ := h2
  refine ⟨⟨a1, b2⟩, ?_⟩
  have e63 : (2 : Nat) ^ 63 = 9223372036854775808 := by norm_num
  have e64 : (2 : Nat) ^ 64 = 18446744073709551616 := by norm_num
  rw [e63, e64] at *
  omega

theorem goEq_symm {a b : Any} (h : goEq a b = true) : goEq b a = true := by
  cases a <;> cases b <;> simp_all [goEq]
  exact f64Eq_symm h

theorem goEq_trans {a b c : Any} (h1 : goEq a b = true) (h2 : goEq b c = true) :
    goEq a c = true := by
  cases a <;> cases b <;> cases c <;> simp_all [goEq]
  exact f64Eq_trans h1 h2

theorem keepNew_map {α : Type} (key : α → Any) (vis : Visited) (xs : List α) :
    (keepNew key vis xs).map key = keepNew id vis (xs.map key) := by
  induction xs generalizing vis with
  | nil => rfl
  | cons x xs ih =>
    by_cases hx : vis.get (key x) = true
    · simp [keepNew, hx, ih]
    · simp [keepNew, hx, ih]

theorem keepNew_congr {α : Type} {key key' : α → Any} (hk : ∀ a, key' a = key a)
    (vis : Visited) (xs : List α) : keepNew key' vis xs = keepNew key vis xs := by
  have : key' = key := funext hk
  rw [this]

theorem keepNew_eq_dedupFrom (xs : List Any) :
    ∀ (vis : Visited) (earlier : List Any),
      (∀ x, vis.get x = earlier.any (fun e => goEq e x)) →
      keepNew id vis xs = dedupFrom earlier xs := by
  induction xs with
  | nil => intro _ _ _; rfl
  | cons x xs ih =>
    intro vis earlier hinv
    by_cases hx : vis.get x = true
    · have hx' : earlier.any (fun e => goEq e x) = true := by rw [← hinv]; exact hx
      have e1 : keepNew id vis (x :: xs) = keepNew id vis xs := by
        simp [keepNew, hx]
      have e2 : dedupFrom earlier (x :: xs) = dedupFrom (x :: earlier) xs := by
        simp [dedupFrom, hx']
      rw [e1, e2]
      refine ih vis (x :: earlier) (fun y => ?_)
      rw [List.any_cons, ← hinv y]
      by_cases hxy : goEq x y = true
      · obtain ⟨k, hk, hkx⟩ := List.any_eq_true.mp hx
        have : vis.get y = true := List.any_eq_true.mpr ⟨k, hk, goEq_trans hkx hxy⟩
        simp [this, hxy]
      · simp [hxy]
    · have hx' : ¬ earlier.any (fun e => goEq e x) = true := by rw [← hinv]; exact hx
      have e1 : keepNew id vis (x :: xs) = x :: keepNew id (vis.set x) xs := by
        simp [keepNew, hx]
      have e2 : dedupFrom earlier (x :: xs) = x :: dedupFrom (x :: earlier) xs := by
        simp [dedupFrom, hx']
      rw [e1, e2]
      congr 1
      refine ih (vis.set x) (x :: earlier) (fun y => ?_)
      simp only [Visited.set, Visited.get, List.any_cons]
      have := hinv y
      simp only [Visited.get] at this
      rw [this]

theorem countNodes_ok (size : Int) (n : Nat) :
    ∀ count : Int, count + n ≤ size → countNodes size count n = .ok (count + n) := by
  induction n with
  | zero => intro count _; simp [countNodes]
  | succ n ih =>
    intro count hle
    have h1 : ¬ count + 1 > size := by push_cast at hle; omega
    simp only [countNodes, h1, if_false]
    rw [ih (count + 1) (by push_cast at hle ⊢; omega)]
    congr 1; push_cast; omega

theorem countNodes_more (size : Int) (n : Nat) :
    ∀ count : Int, 0 < n → size < count + n →
      countNodes size count n = .error .moreNodesThanSize := by
  induction n with
  | zero => intro count h0 _; omega
  | succ n ih =>
    intro count _ hlt
    by_cases h1 : count + 1 > size
    · simp [countNodes, h1]
    · simp only [countNodes, h1, if_false]
      exact ih (count + 1) (by push_cast at hlt; omega) (by push_cast at hlt ⊢; omega)

theorem Mem.Frame.refl {N : Type} (m : Mem N) (as : List Nat) : m.Frame m as :=
  ⟨le_refl _, fun _ _ _ => rfl⟩

theorem Mem.Frame.trans {N : Type} {m1 m2 m3 : Mem N} {as bs : List Nat}
    (h12 : m1.Frame m2 as) (h23 : m2.Frame m3 bs)
    (hb : ∀ a ∈ bs, a ∈ as ∨ m1.size ≤ a) : m1.Frame m3 as := by
  refine ⟨le_trans h12.1 h23.1, fun a ha hna => ?_⟩
  rw [h23.2 a (lt_of_lt_of_le ha h12.1) ?_, h12.2 a ha hna]
  intro hab
  rcases hb a hab with h | h
  · exact hna h
  · omega


namespace Singly

/-! ## Memory updates of the singly linked list -/

@[simp] theorem sAlloc_size (h : Heap) (n : Node) : (h.alloc n).size = h.size + 1 := rfl

@[simp] theorem sAlloc_new (h : Heap) (n : Node) : (h.alloc n).nodes h.size = n := by
  simp [Mem.alloc]

theorem sAlloc_old (h : Heap) (n : Node) {a : Nat} (ha : a ≠ h.size) :
    (h.alloc n).nodes a = h.nodes a := by
  simp [Mem.alloc, Function.update_noteq ha]

theorem sAlloc_lt (h : Heap) (n : Node) {a : Nat} (ha : a < h.size) :
    (h.alloc n).nodes a = h.nodes a := sAlloc_old h n (Nat.ne_of_lt ha)

@[simp] theorem sSetNext_size (h : Heap) (a : Nat) (p : Ptr) : (setNext h a p).size = h.size := rfl

@[simp] theorem sSetNext_same (h : Heap) (a : Nat) (p : Ptr) :
    (setNext h a p).nodes a = { h.nodes a with Next := p } := by
  simp [setNext, Mem.put]

theorem sSetNext_ne (h : Heap) {a b : Nat} (p : Ptr) (hb : b ≠ a) :
    (setNext h a p).nodes b = h.nodes b := by
  simp [setNext, Mem.put, Function.update_noteq hb]

@[simp] theorem sSetNext_value (h : Heap) (a b : Nat) (p : Ptr) :
    ((setNext h a p).nodes b).Value = (h.nodes b).Value := by
  by_cases hb : b = a
  · subst hb; simp
  · rw [sSetNext_ne h p hb]

@[simp] theorem sSetValue_size (h : Heap) (a : Nat) (v : Any) : (setValue h a v).size = h.size := rfl

@[simp] theorem sSetValue_next (h : Heap) (a b : Nat) (v : Any) :
    ((setValue h a v).nodes b).Next = (h.nodes b).Next := by
  by_cases hb : b = a
  · subst hb; simp [setValue, Mem.put]
  · simp [setValue, Mem.put, Function.update_noteq hb]

@[simp] theorem sSetValue_same (h : Heap) (a : Nat) (v : Any) :
    ((setValue h a v).nodes a).Value = v := by
  simp [setValue, Mem.put]

theorem sSetValue_ne (h : Heap) {a b : Nat} (v : Any) (hb : b ≠ a) :
    ((setValue h a v).nodes b).Value = (h.nodes b).Value := by
  simp [setValue, Mem.put, Function.update_noteq hb]

theorem sValues_congr {h h' : Heap} {as : List Nat}
    (hv : ∀ a ∈ as, (h'.nodes a).Value = (h.nodes a).Value) : values h' as = values h as := by
  unfold values
  exact List.map_congr_left hv

@[simp] theorem sValues_nil (h : Heap) : values h [] = [] := rfl

@[simp] theorem sValues_cons (h : Heap) (a : Nat) (as : List Nat) :
    values h (a :: as) = (h.nodes a).Value :: values h as := rfl

@[simp] theorem sValues_append (h : Heap) (as bs : List Nat) :
    values h (as ++ bs) = values h as ++ values h bs := by
  simp [values]

@[simp] theorem sValues_length (h : Heap) (as : List Nat) : (values h as).length = as.length := by
  simp [values]

theorem sSeg_alloc {h : Heap} {p q : Ptr} {as : List Nat} (n : Node)
    (hs : Seg Node.Next h p as q) : Seg Node.Next (h.alloc n) p as q :=
  Seg.frame hs (by simp) (fun a ha => by rw [sAlloc_lt h n (Seg.lt_size hs a ha)])

theorem sSeg_setNext {h : Heap} {p q : Ptr} {as : List Nat} {l : Nat} (x : Ptr)
    (hs : Seg Node.Next h p as q) (hl : l ∉ as) : Seg Node.Next (setNext h l x) p as q :=
  Seg.frame hs (by simp)
    (fun a ha => by rw [sSetNext_ne h x (fun e : a = l => hl (e ▸ ha))])

theorem sSeg_setValue {h : Heap} {p q : Ptr} {as : List Nat} (l : Nat) (v : Any)
    (hs : Seg Node.Next h p as q) : Seg Node.Next (setValue h l v) p as q :=
  Seg.frame hs (by simp) (fun _ _ => by simp)

theorem sValues_alloc {h : Heap} {as : List Nat} (n : Node) (hlt : ∀ a ∈ as, a < h.size) :
    values (h.alloc n) as = values h as :=
  sValues_congr (fun a ha => by rw [sAlloc_lt h n (hlt a ha)])

@[simp] theorem sValues_setNext (h : Heap) (as : List Nat) (l : Nat) (x : Ptr) :
    values (setNext h l x) as = values h as :=
  sValues_congr (fun _ _ => by simp)

theorem sValues_setValue {h : Heap} {as : List Nat} {l : Nat} (v : Any) (hl : l ∉ as) :
    values (setValue h l v) as = values h as :=
  sValues_congr (fun a ha => sSetValue_ne h v (fun e : a = l => hl (e ▸ ha)))

theorem sFrame_alloc (h : Heap) (n : Node) (as : List Nat) : h.Frame (h.alloc n) as :=
  ⟨by simp, fun _ ha _ => sAlloc_lt h n ha⟩

theorem sFrame_setNext (h : Heap) {l : Nat} (x : Ptr) {as : List Nat} (hl : l ∈ as) :
    h.Frame (setNext h l x) as :=
  ⟨by simp, fun a _ hna => sSetNext_ne h x (fun e : a = l => hna (e ▸ hl))⟩

theorem sFrame_setValue (h : Heap) {l : Nat} (v : Any) {as : List Nat} (hl : l ∈ as) :
    h.Frame (setValue h l v) as :=
  ⟨by simp, fun a _ hna => by
    have hal : a ≠ l := fun e : a = l => hna (e ▸ hl)
    simp [setValue, Mem.put, Function.update_noteq hal]⟩

/-! ## `Append` -/

theorem sAppend_loop {h : Heap} {c : Nat} {T : List Nat} {l : Nat}
    (hs : Seg Node.Next h (some c) (c :: T) none) (hl : (c :: T).getLast? = some l) :
    Returns (fun fuel => Append.loop fuel h c) T.length l := by
  induction T generalizing c with
  | nil =>
    obtain ⟨_, _, hn⟩ := hs
    simp at hn hl
    subst hl
    intro fuel
    cases fuel with
    | zero => simp [Append.loop]
    | succ f => simp [Append.loop, hn]
  | cons b bs ih =>
    obtain ⟨_, _, hn⟩ := hs
    have hb : (h.nodes c).Next = some b := hn.1
    rw [hb] at hn
    have hl2 : (b :: bs).getLast? = some l := by simpa using hl
    intro fuel
    cases fuel with
    | zero => simp [Append.loop]
    | succ f =>
      have := ih hn hl2 f
      simp only [Append.loop, hb, List.length_cons, Nat.succ_lt_succ_iff]
      exact this

theorem sAppend_spec {h : Heap} {ll : LinkedList} {as : List Nat} (value : Any)
    (hw : Wf h ll as) :
    ∃ h' ll', Returns (fun fuel => Append fuel h ll value) as.length (h', ll') ∧
      Wf h' ll' (as ++ [h.size]) ∧ values h' (as ++ [h.size]) = values h as ++ [value] ∧
      h.Frame h' as ∧ h'.size = h.size + 1 := by
  obtain ⟨head, size⟩ := ll
  obtain ⟨hseg, hsize⟩ := hw
  simp only at hseg hsize
  have hlt := Seg.lt_size hseg
  rcases List.nil_or_snoc as with rfl | ⟨init, l, rfl⟩
  · simp at hseg
    subst hseg
    refine ⟨h.alloc { Value := value, Next := none }, { Head := some h.size, Size := size + 1 },
      ?_, ⟨?_, ?_⟩, ?_, sFrame_alloc _ _ _, rfl⟩
    · simp only [Append]; exact Returns.const _ _
    · simp
    · simp [hsize]
    · simp
  · obtain ⟨hinit, hl, hnl⟩ := Seg.snoc_iff.mp hseg
    have hlinit := Seg.last_not_mem hseg
    cases head with
    | none => simpa using Seg.eq_nil_of_none hseg
    | some hd =>
      obtain ⟨tl, htl⟩ := Seg.head_eq hseg (by simp)
      have hlen : init.length = tl.length := by
        have := congrArg List.length htl; simp at this; exact this
      have hloop : Returns
          (fun fuel => Append.loop fuel (h.alloc { Value := value, Next := none }) hd)
          init.length l := by
        rw [hlen]
        refine sAppend_loop (T := tl) ?_ (by rw [← htl]; simp)
        rw [← htl]; exact sSeg_alloc _ hseg
      refine ⟨setNext (h.alloc { Value := value, Next := none }) l (some h.size),
        { Head := some hd, Size := size + 1 }, ?_, ⟨?_, ?_⟩, ?_, ?_, rfl⟩
      · simp only [Append, List.length_append, List.length_singleton]
        exact hloop.map _ (by simp)
      · refine Seg.snoc_iff.mpr ⟨Seg.snoc_iff.mpr ⟨sSeg_setNext _ (sSeg_alloc _ hinit) hlinit, ?_, ?_⟩,
          ?_, ?_⟩
        · simp; omega
        · simp
        · simp
        · rw [sSetNext_ne _ _ (Nat.ne_of_gt hl), sAlloc_new]
      · simp [hsize]; omega
      · rw [sValues_setNext, sValues_append, sValues_alloc _ hlt]
        simp
      · exact (sFrame_alloc h _ _).trans (sFrame_setNext _ _ (by simp)) (fun a ha => Or.inl ha)

/-! ## `Prepend`, `Shift`, `IntoSlice` -/

theorem sPrepend_spec {h : Heap} {ll : LinkedList} {as : List Nat} (value : Any)
    (hw : Wf h ll as) :
    Wf (Prepend h ll value).1 (Prepend h ll value).2 (h.size :: as) ∧
      values (Prepend h ll value).1 (h.size :: as) = value :: values h as ∧
      h.Frame (Prepend h ll value).1 as := by
  obtain ⟨hseg, hsize⟩ := hw
  refine ⟨⟨?_, ?_⟩, ?_, sFrame_alloc _ _ _⟩
  · simp only [Prepend, Seg.cons_iff, sAlloc_size, sAlloc_new, true_and]
    exact ⟨by omega, sSeg_alloc _ hseg⟩
  · simp [Prepend, hsize]
  · simp [Prepend, sValues_alloc _ (Seg.lt_size hseg)]

theorem sShift_nil {h : Heap} {ll : LinkedList} (hw : Wf h ll []) :
    Shift h ll = (ll, some .emptyList) := by
  obtain ⟨hseg, _⟩ := hw
  simp only [Seg.nil_iff] at hseg
  simp [Shift, hseg]

theorem sShift_cons {h : Heap} {ll : LinkedList} {a : Nat} {as : List Nat}
    (hw : Wf h ll (a :: as)) :
    ∃ ll', Shift h ll = (ll', none) ∧ Wf h ll' as := by
  obtain ⟨⟨hhd, _, hseg⟩, hsize⟩ := hw
  refine ⟨{ Head := (h.nodes a).Next, Size := ll.Size - 1 }, by simp [Shift, hhd], hseg, ?_⟩
  simp [hsize]

theorem foldl_push_elems (acc : Slice) (xs : List Any) :
    (xs.foldl Slice.push acc).elems = acc.elems ++ xs := by
  induction xs generalizing acc with
  | nil => simp
  | cons x xs ih => simp [ih]

theorem sIntoSlice_loop {h : Heap} {p : Ptr} {as : List Nat} (acc : Slice)
    (hs : Seg Node.Next h p as none) :
    Returns (fun fuel => IntoSlice.loop fuel h p acc) as.length
      ((values h as).foldl Slice.push acc) := by
  induction as generalizing p acc with
  | nil =>
    simp only [Seg.nil_iff] at hs
    subst hs
    intro fuel
    cases fuel <;> simp [IntoSlice.loop]
  | cons a as ih =>
    obtain ⟨rfl, _, hn⟩ := hs
    intro fuel
    cases fuel with
    | zero => simp [IntoSlice.loop]
    | succ f =>
      simp only [IntoSlice.loop, List.length_cons, Nat.succ_lt_succ_iff, sValues_cons,
        List.foldl_cons]
      exact ih _ hn f

theorem sIntoSlice_spec {h : Heap} {ll : LinkedList} {as : List Nat} (hw : Wf h ll as) :
    ∃ s : Slice, Returns (fun fuel => IntoSlice fuel h ll) as.length s ∧
      s.elems = values h as :=
  ⟨_, sIntoSlice_loop none hw.1, by simp [foldl_push_elems]⟩

/-! ## Walking to an index, unlinking and linking a node -/

theorem sWalk_seg {h : Heap} {p r : Ptr} {as : List Nat} (hs : Seg Node.Next h p as r) :
    walk h p as.length = .ok r := by
  induction as generalizing p with
  | nil => simp only [Seg.nil_iff] at hs; simp [walk, hs]
  | cons a as ih =>
    obtain ⟨rfl, _, hn⟩ := hs
    simp only [List.length_cons, walk]
    exact ih hn

theorem sWalk_past {h : Heap} {p : Ptr} {as : List Nat} (hs : Seg Node.Next h p as none)
    {k : Nat} (hk : as.length < k) : walk h p k = .nilDeref := by
  induction as generalizing p k with
  | nil =>
    simp only [Seg.nil_iff] at hs
    subst hs
    cases k with
    | zero => simp at hk
    | succ k => simp [walk]
  | cons a as ih =>
    obtain ⟨rfl, _, hn⟩ := hs
    cases k with
    | zero => simp at hk
    | succ k =>
      simp only [walk]
      exact ih hn (by simpa using hk)

theorem sSeg_unlink {h : Heap} {p : Ptr} {A B : List Nat} {c n : Nat}
    (hs : Seg Node.Next h p (A ++ c :: n :: B) none) :
    Seg Node.Next (setNext h c (h.nodes n).Next) p (A ++ c :: B) none := by
  have hnd := Seg.nodup hs
  obtain ⟨r, hA, hc⟩ := Seg.append_iff.mp hs
  obtain ⟨rfl, hclt, hn⟩ := hc
  obtain ⟨_, _, hB⟩ := hn
  have hcA : c ∉ A := by
    intro hm
    exact (List.nodup_append.mp hnd).2.2 hm (List.mem_cons_self _ _)
  have hcB : c ∉ B := by
    have := (List.nodup_append.mp hnd).2.1
    intro hm
    exact (List.nodup_cons.mp this).1 (List.mem_cons_of_mem _ hm)
  refine Seg.append_iff.mpr ⟨some c, sSeg_setNext _ hA hcA, rfl, by simpa using hclt, ?_⟩
  simp only [sSetNext_same]
  exact sSeg_setNext _ hB hcB

theorem sSeg_link {h : Heap} {p : Ptr} {A B : List Nat} {cur : Nat} (v : Any)
    (hs : Seg Node.Next h p (A ++ cur :: B) none) :
    Seg Node.Next (setNext (h.alloc { Value := v, Next := (h.nodes cur).Next }) cur (some h.size))
      p (A ++ cur :: h.size :: B) none := by
  have hnd := Seg.nodup hs
  have hlt := Seg.lt_size hs
  obtain ⟨r, hA, hcur⟩ := Seg.append_iff.mp hs
  obtain ⟨rfl, hclt, hB⟩ := hcur
  have hcA : cur ∉ A := by
    intro hm
    exact (List.nodup_append.mp hnd).2.2 hm (List.mem_cons_self _ _)
  have hcB : cur ∉ B := (List.nodup_cons.mp (List.nodup_append.mp hnd).2.1).1
  refine Seg.append_iff.mpr ⟨some cur, sSeg_setNext _ (sSeg_alloc _ hA) hcA, rfl, ?_, ?_⟩
  · simp; omega
  · simp only [sSetNext_same, Seg.cons_iff, sSetNext_size, sAlloc_size, true_and]
    refine ⟨by omega, ?_⟩
    rw [sSetNext_ne _ _ (Nat.ne_of_gt hclt), sAlloc_new]
    exact sSeg_setNext _ (sSeg_alloc _ hB) hcB

end Singly

namespace Singly

/-! ## `Pop` -/

theorem sPop_loop {h : Heap} {c l s : Nat} {mid : List Nat}
    (hs : Seg Node.Next h (some c) (c :: mid ++ [l]) none)
    (hl : (c :: mid).getLast? = some s) :
    Returns (fun fuel => Pop.loop fuel h c) mid.length s := by
  induction mid generalizing c with
  | nil =>
    obtain ⟨_, _, hn⟩ := hs
    obtain ⟨hcn, _, hln⟩ := hn
    simp only [Seg.nil_iff] at hln
    simp at hl
    subst hl
    intro fuel
    cases fuel with
    | zero => simp [Pop.loop]
    | succ f => simp [Pop.loop, hcn, hln]
  | cons b bs ih =>
    obtain ⟨_, _, hn⟩ := hs
    have hcb : (h.nodes c).Next = some b := hn.1
    rw [hcb] at hn
    obtain ⟨x, tl, hx, _⟩ := Seg.ptr_ne_none hn.2.2 (L := bs ++ [l]) (by simp)
    have hl2 : (b :: bs).getLast? = some s := by simpa using hl
    intro fuel
    cases fuel with
    | zero => simp [Pop.loop]
    | succ f =>
      simp only [Pop.loop, hcb, hx, List.length_cons, Nat.succ_lt_succ_iff]
      exact ih hn hl2 f

theorem sPop_nil {h : Heap} {ll : LinkedList} (hw : Wf h ll []) (fuel : Nat) :
    Pop fuel h ll = .ok (h, ll, some .emptyList) := by
  obtain ⟨hseg, _⟩ := hw
  simp only [Seg.nil_iff] at hseg
  simp [Pop, hseg]

theorem sPop_spec {h : Heap} {ll : LinkedList} {init : List Nat} {l : Nat}
    (hw : Wf h ll (init ++ [l])) :
    ∃ h' ll', Returns (fun fuel => Pop fuel h ll) init.length (h', ll', none) ∧
      Wf h' ll' init ∧ values h' init = values h init ∧ h.Frame h' (init ++ [l]) ∧
      ll'.Size = ll.Size - 1 := by
  obtain ⟨head, size⟩ := ll
  obtain ⟨hseg, hsize⟩ := hw
  simp only at hseg hsize
  rcases List.nil_or_snoc init with rfl | ⟨pre, s, rfl⟩
  · obtain ⟨rfl, _, hn⟩ := hseg
    simp only [Seg.nil_iff] at hn
    refine ⟨h, { Head := none, Size := size - 1 }, ?_, ⟨rfl, ?_⟩, rfl, Mem.Frame.refl _ _, rfl⟩
    · simp only [Pop, hn]; exact Returns.const _ _
    · simp [hsize]
  · obtain ⟨hd, tl, rfl, htl⟩ := Seg.ptr_ne_none hseg (by simp)
    have hnl : (h.nodes l).Next = none := (Seg.snoc_iff.mp hseg).2.2
    obtain ⟨mid, hmid⟩ : ∃ mid, pre ++ [s] = hd :: mid := by
      cases pre with
      | nil => simp at htl ⊢; exact htl.1
      | cons x xs => simp at htl ⊢; exact htl.1
    have hhn : ∃ x, (h.nodes hd).Next = some x := by
      rw [hmid] at hseg
      obtain ⟨_, _, hn⟩ := hseg
      obtain ⟨x, _, hx, _⟩ := Seg.ptr_ne_none hn (L := mid ++ [l]) (by simp)
      exact ⟨x, hx⟩
    obtain ⟨x, hx⟩ := hhn
    have hloop : Returns (fun fuel => Pop.loop fuel h hd) mid.length s := by
      refine sPop_loop (l := l) ?_ (by rw [← hmid]; simp)
      have e : hd :: mid ++ [l] = pre ++ [s] ++ [l] := by rw [← hmid]
      rw [e]; exact hseg
    have hunlink := sSeg_unlink (A := pre) (c := s) (n := l) (B := []) (by simpa using hseg)
    rw [hnl] at hunlink
    refine ⟨setNext h s none, { Head := some hd, Size := size - 1 }, ?_, ⟨hunlink, ?_⟩, ?_, ?_, rfl⟩
    · simp only [Pop, hx]
      refine hloop.map _ ?_
      have := congrArg List.length hmid
      simp only [List.length_append, List.length_cons, List.length_singleton,
        List.length_nil] at this ⊢
      omega
    · simp [hsize]; omega
    · simp
    · exact sFrame_setNext _ _ (by simp)

/-! ## `Delete` -/

theorem sDelete_loop_found {h : Heap} {v : Any} {c n s : Nat} {pre post : List Nat}
    (hs : Seg Node.Next h (some c) (c :: (pre ++ n :: post)) none)
    (hpre : ∀ a ∈ pre, goEq (h.nodes a).Value v = false)
    (hn : goEq (h.nodes n).Value v = true)
    (hl : (c :: pre).getLast? = some s) :
    Returns (fun fuel => Delete.loop fuel h c v) pre.length s := by
  induction pre generalizing c with
  | nil =>
    obtain ⟨_, _, hcn, _⟩ := hs
    simp at hl
    subst hl
    intro fuel
    cases fuel with
    | zero => simp [Delete.loop]
    | succ f => simp [Delete.loop, hcn, hn]
  | cons b bs ih =>
    obtain ⟨_, _, hnx⟩ := hs
    have hcb : (h.nodes c).Next = some b := hnx.1
    rw [hcb] at hnx
    have hb : goEq (h.nodes b).Value v = false := hpre b (List.mem_cons_self _ _)
    have hl2 : (b :: bs).getLast? = some s := by simpa using hl
    intro fuel
    cases fuel with
    | zero => simp [Delete.loop]
    | succ f =>
      simp only [Delete.loop, hcb, hb, Bool.false_eq_true, if_false, List.length_cons,
        Nat.succ_lt_succ_iff]
      exact ih hnx (fun a ha => hpre a (List.mem_cons_of_mem _ ha)) hl2 f

theorem sDelete_loop_absent {h : Heap} {v : Any} {c l : Nat} {T : List Nat}
    (hs : Seg Node.Next h (some c) (c :: T) none)
    (hT : ∀ a ∈ T, goEq (h.nodes a).Value v = false)
    (hl : (c :: T).getLast? = some l) :
    Returns (fun fuel => Delete.loop fuel h c v) T.length l := by
  induction T generalizing c with
  | nil =>
    obtain ⟨_, _, hcn⟩ := hs
    simp only [Seg.nil_iff] at hcn
    simp at hl
    subst hl
    intro fuel
    cases fuel with
    | zero => simp [Delete.loop]
    | succ f => simp [Delete.loop, hcn]
  | cons b bs ih =>
    obtain ⟨_, _, hnx⟩ := hs
    have hcb : (h.nodes c).Next = some b := hnx.1
    rw [hcb] at hnx
    have hb : goEq (h.nodes b).Value v = false := hT b (List.mem_cons_self _ _)
    have hl2 : (b :: bs).getLast? = some l := by simpa using hl
    intro fuel
    cases fuel with
    | zero => simp [Delete.loop]
    | succ f =>
      simp only [Delete.loop, hcb, hb, Bool.false_eq_true, if_false, List.length_cons,
        Nat.succ_lt_succ_iff]
      exact ih hnx (fun a ha => hT a (List.mem_cons_of_mem _ ha)) hl2 f

theorem sDelete_found {h : Heap} {ll : LinkedList} {as : List Nat} {v : Any}
    (hw : Wf h ll as) (hin : (values h as).any (fun x => goEq x v) = true) :
    ∃ h' ll', Returns (fun fuel => Delete fuel h ll v) as.length (h', ll', none) ∧
      Post h as h' ll' (eraseFirst (fun x => goEq x v) (values h as)) ∧
      ll'.Size = ll.Size - 1 := by
  obtain ⟨head, size⟩ := ll
  obtain ⟨hseg, hsize⟩ := hw
  simp only at hseg hsize
  have hin' : as.any (fun a => goEq (h.nodes a).Value v) = true := by
    simpa [values, List.any_map] using hin
  obtain ⟨pre, n, post, rfl, hpre, hn⟩ := List.first_match _ as hin'
  have hvals : eraseFirst (fun x => goEq x v) (values h (pre ++ n :: post)) =
      values h (pre ++ post) := by
    rw [sValues_append, sValues_cons, sValues_append]
    refine eraseFirst_split _ _ _ _ (fun x hx => ?_) hn
    obtain ⟨a, ha, rfl⟩ := List.mem_map.mp hx
    exact hpre a ha
  rw [hvals]
  cases pre with
  | nil =>
    obtain ⟨rfl, _, hpost⟩ := hseg
    refine ⟨h, { Head := (h.nodes n).Next, Size := size - 1 }, ?_,
      ⟨post, ⟨hpost, ?_⟩, rfl, Mem.Frame.refl _ _, fun a ha => Or.inl (by simp [ha])⟩, rfl⟩
    · simp only [Delete, hn, if_true]; exact Returns.const _ _
    · simp [hsize]
  | cons c pre' =>
    have hseg' := hseg
    obtain ⟨rfl, _, _⟩ := hseg'
    have hc : goEq (h.nodes c).Value v = false := hpre c (List.mem_cons_self _ _)
    have hne : c :: pre' ≠ [] := by simp
    have hsplit := List.dropLast_append_getLast hne
    generalize (c :: pre').dropLast = A at hsplit
    generalize (c :: pre').getLast hne = s at hsplit
    have hloop : Returns (fun fuel => Delete.loop fuel h c v) pre'.length s := by
      refine sDelete_loop_found hseg
        (fun a ha => hpre a (List.mem_cons_of_mem _ ha)) hn ?_
      rw [← hsplit]; simp
    have hseg2 : Seg Node.Next h (some c) (A ++ s :: n :: post) none := by
      have e : A ++ s :: n :: post = c :: pre' ++ n :: post := by
        rw [← hsplit]; simp
      rw [e]; exact hseg
    have hsn : (h.nodes s).Next = some n := by
      obtain ⟨r, _, hr⟩ := Seg.append_iff.mp hseg2
      exact hr.2.2.1
    have hun := sSeg_unlink hseg2
    have e2 : A ++ s :: post = c :: pre' ++ post := by rw [← hsplit]; simp
    rw [e2] at hun
    refine ⟨setNext h s (h.nodes n).Next, { Head := some c, Size := size - 1 }, ?_,
      ⟨c :: pre' ++ post, ⟨hun, ?_⟩, by simp, ?_, fun a ha => Or.inl ?_⟩, rfl⟩
    · simp only [Delete, hc, Bool.false_eq_true, if_false]
      intro fuel
      constructor
      · intro hlt
        have h1 := (hloop fuel).1 (by simp at hlt; omega)
        simp [h1, hsn]
      · rcases (hloop fuel).2 with h1 | h1
        · left; simp [h1, hsn]
        · right; simp [h1]
    · simp [hsize]; omega
    · refine sFrame_setNext _ _ ?_
      have : s ∈ c :: pre' := by rw [← hsplit]; simp
      exact List.mem_append_left _ this
    · simp only [List.mem_append, List.mem_cons] at ha ⊢
      rcases ha with ha | ha
      · exact Or.inl ha
      · exact Or.inr (Or.inr ha)

theorem sDelete_absent {h : Heap} {ll : LinkedList} {as : List Nat} {v : Any}
    (hw : Wf h ll as) (hout : (values h as).any (fun x => goEq x v) = false) :
    Returns (fun fuel => Delete fuel h ll v) as.length
      (h, ll, some (if as = [] then Error.emptyList else Error.notFound)) := by
  obtain ⟨head, size⟩ := ll
  obtain ⟨hseg, hsize⟩ := hw
  simp only at hseg hsize
  have hout' : ∀ a ∈ as, goEq (h.nodes a).Value v = false := by
    intro a ha
    have := List.any_eq_false.mp hout (h.nodes a).Value (List.mem_map.mpr ⟨a, ha, rfl⟩)
    simpa using this
  cases as with
  | nil =>
    simp only [Seg.nil_iff] at hseg
    subst hseg
    simp only [Delete, if_true]
    exact Returns.const _ _
  | cons c T =>
    have hseg' := hseg
    obtain ⟨rfl, _, _⟩ := hseg'
    have hc := hout' c (List.mem_cons_self _ _)
    have hne : c :: T ≠ [] := by simp
    have hlast := List.getLast?_eq_getLast (c :: T) hne
    have hsplit := List.dropLast_append_getLast hne
    generalize (c :: T).getLast hne = l at hlast hsplit
    have hloop := sDelete_loop_absent hseg (fun a ha => hout' a (List.mem_cons_of_mem _ ha)) hlast
    have hln : (h.nodes l).Next = none := by
      rw [← hsplit] at hseg
      exact (Seg.snoc_iff.mp hseg).2.2
    intro fuel
    simp only [Delete, hc, Bool.false_eq_true, if_false, List.length_cons]
    constructor
    · intro hlt
      have h1 := (hloop fuel).1 (by omega)
      simp [h1, hln]
    · rcases (hloop fuel).2 with h1 | h1
      · left; simp [h1, hln]
      · right; simp [h1]

/-! ## `Insert` -/

theorem sInsert_out {h : Heap} {ll : LinkedList} (fuel : Nat) (v : Any) {index : Int}
    (hi : index < 0 ∨ index > ll.Size) :
    Insert fuel h ll v index = .ok (h, ll, some .indexOutOfBounds) := by
  simp [Insert, hi]

theorem sInsert_zero {h : Heap} {ll : LinkedList} {as : List Nat} (v : Any)
    (hw : Wf h ll as) :
    ∃ h' ll', Returns (fun fuel => Insert fuel h ll v 0) as.length (h', ll', none) ∧
      Wf h' ll' (as ++ [h.size]) ∧ values h' (as ++ [h.size]) = values h as ++ [v] ∧
      h.Frame h' as ∧ h'.size = h.size + 1 := by
  obtain ⟨h', ll', hret, hrest⟩ := sAppend_spec v hw
  refine ⟨h', ll', ?_, hrest⟩
  have hsz : ¬ (0 > ll.Size) := by rw [hw.2]; omega
  simp only [Insert, lt_self_iff_false, hsz, or_self, if_false, if_true]
  exact hret.map (fun r => (r.1, r.2, (none : Option Error))) (le_refl _)

theorem sInsert_pos {h : Heap} {ll : LinkedList} {as : List Nat} (fuel : Nat) (v : Any)
    {index : Int} (hw : Wf h ll as) (h0 : 0 < index) (hn : index ≤ as.length) :
    ∃ h' ll', Insert fuel h ll v index = .ok (h', ll', none) ∧
      Post h as h' ll'
        ((values h as).take index.toNat ++ v :: (values h as).drop index.toNat) ∧
      ll'.Size = ll.Size + 1 := by
  obtain ⟨head, size⟩ := ll
  obtain ⟨hseg, hsize⟩ := hw
  simp only at hseg hsize
  obtain ⟨A, c, B, rfl, hA⟩ := List.split_at_index as (index - 1).toNat (by omega)
  have hlt := Seg.lt_size hseg
  obtain ⟨r, hsA, hsc⟩ := Seg.append_iff.mp hseg
  have hr : r = some c := hsc.1
  subst hr
  have hwalk : walk h head (index - 1).toNat = .ok (some c) := by
    rw [← hA]; exact sWalk_seg hsA
  have hcond : ¬ (index < 0 ∨ index > size) := by
    rw [hsize]; omega
  have hk : (A ++ [c]).length = index.toNat := by simp; omega
  refine ⟨setNext (h.alloc { Value := v, Next := (h.nodes c).Next }) c (some h.size),
    { Head := head, Size := size + 1 }, ?_, ⟨A ++ c :: h.size :: B, ⟨sSeg_link v hseg, ?_⟩, ?_, ?_, ?_⟩,
    rfl⟩
  · simp only [Insert, if_neg hcond, if_neg (ne_of_gt h0), hwalk, Res.bind_ok]
  · simp [hsize]; omega
  · have e1 : values h (A ++ c :: B) = values h (A ++ [c]) ++ values h B := by simp
    rw [e1, List.take_left' (by simpa using hk), List.drop_left' (by simpa using hk)]
    rw [sValues_setNext]
    simp only [sValues_append, sValues_cons, sValues_nil, sAlloc_new, List.append_assoc,
      List.singleton_append]
    have hAlt : ∀ a ∈ A, a < h.size := fun a ha => hlt a (by simp [ha])
    have hBlt : ∀ a ∈ B, a < h.size := fun a ha => hlt a (by simp [ha])
    rw [sValues_alloc _ hAlt, sValues_alloc _ hBlt, sAlloc_lt _ _ (hlt c (by simp))]
  · exact (sFrame_alloc h _ _).trans (sFrame_setNext _ _ (by simp)) (fun a ha => Or.inl ha)
  · intro a ha
    simp only [List.mem_append, List.mem_cons] at ha ⊢
    rcases ha with ha | rfl | rfl | ha
    · exact Or.inl (Or.inl ha)
    · exact Or.inl (Or.inr (Or.inl rfl))
    · exact Or.inr (le_refl _)
    · exact Or.inl (Or.inr (Or.inr ha))

/-! ## `DeleteAt` -/

theorem sDeleteAt_out {h : Heap} {ll : LinkedList} {index : Int}
    (hi : index < 0 ∨ index > ll.Size) :
    DeleteAt h ll index = .ok (h, ll, some .indexOutOfBounds) := by
  simp [DeleteAt, hi]

theorem sDeleteAt_zero_nil {h : Heap} {ll : LinkedList} (hw : Wf h ll []) :
    DeleteAt h ll 0 = .ok (h, ll, none) := by
  have hsz : ¬ (0 > ll.Size) := by rw [hw.2]; simp
  simp [DeleteAt, hsz, sShift_nil hw]

theorem sDeleteAt_zero_cons {h : Heap} {ll : LinkedList} {a : Nat} {as : List Nat}
    (hw : Wf h ll (a :: as)) :
    ∃ ll', DeleteAt h ll 0 = .ok (h, ll', none) ∧ Wf h ll' as ∧ ll'.Size = ll.Size - 1 := by
  have hsz : ¬ (0 > ll.Size) := by rw [hw.2]; simp; omega
  obtain ⟨ll', hs, hw'⟩ := sShift_cons hw
  refine ⟨ll', by simp [DeleteAt, hsz, hs], hw', ?_⟩
  rw [hw'.2, hw.2]; simp

theorem sDeleteAt_pos {h : Heap} {ll : LinkedList} {as : List Nat} {index : Int}
    (hw : Wf h ll as) (h0 : 0 < index) (hn : index < as.length) :
    ∃ h' ll', DeleteAt h ll index = .ok (h', ll', none) ∧
      Post h as h' ll'
        ((values h as).take index.toNat ++ (values h as).drop (index.toNat + 1)) ∧
      ll'.Size = ll.Size - 1 := by
  obtain ⟨head, size⟩ := ll
  obtain ⟨hseg, hsize⟩ := hw
  simp only at hseg hsize
  obtain ⟨A, c, T, rfl, hA⟩ := List.split_at_index as (index - 1).toNat (by omega)
  have hT : T ≠ [] := by
    intro e; subst e; simp at hn; omega
  obtain ⟨x, B, rfl⟩ := List.exists_cons_of_ne_nil hT
  obtain ⟨r, hsA, hsc⟩ := Seg.append_iff.mp hseg
  have hr : r = some c := hsc.1
  subst hr
  have hcx : (h.nodes c).Next = some x := hsc.2.2.1
  have hwalk : walk h head (index - 1).toNat = .ok (some c) := by
    rw [← hA]; exact sWalk_seg hsA
  have hcond : ¬ (index < 0 ∨ index > size) := by
    rw [hsize]; simp; omega
  have hk : (A ++ [c]).length = index.toNat := by simp; omega
  have hk1 : (A ++ [c, x]).length = index.toNat + 1 := by simp; omega
  refine ⟨setNext h c (h.nodes x).Next, { Head := head, Size := size - 1 }, ?_,
    ⟨A ++ c :: B, ⟨sSeg_unlink hseg, ?_⟩, ?_, sFrame_setNext _ _ (by simp), ?_⟩, rfl⟩
  · simp only [DeleteAt, if_neg hcond, if_neg (ne_of_gt h0), hwalk, Res.bind_ok, hcx]
  · simp [hsize]; omega
  · have e1 : values h (A ++ c :: x :: B) = values h (A ++ [c]) ++ values h (x :: B) := by simp
    have e2 : values h (A ++ c :: x :: B) = values h (A ++ [c, x]) ++ values h B := by simp
    have t1 : (values h (A ++ c :: x :: B)).take index.toNat = values h (A ++ [c]) := by
      rw [e1]; exact List.take_left' (by simpa using hk)
    have t2 : (values h (A ++ c :: x :: B)).drop (index.toNat + 1) = values h B := by
      rw [e2]; exact List.drop_left' (by simpa using hk1)
    rw [sValues_setNext, t1, t2]
    simp
  · intro a ha
    simp only [List.mem_append, List.mem_cons] at ha ⊢
    rcases ha with ha | rfl | ha
    · exact Or.inl (Or.inl ha)
    · exact Or.inl (Or.inr (Or.inl rfl))
    · exact Or.inl (Or.inr (Or.inr (Or.inr ha)))

theorem sDeleteAt_last {h : Heap} {ll : LinkedList} {as : List Nat} {index : Int}
    (hw : Wf h ll as) (h0 : 0 < index) (hn : index = as.length) :
    DeleteAt h ll index = .nilDeref := by
  obtain ⟨head, size⟩ := ll
  obtain ⟨hseg, hsize⟩ := hw
  simp only at hseg hsize
  obtain ⟨A, c, T, rfl, hA⟩ := List.split_at_index as (index - 1).toNat (by omega)
  have hT : T = [] := by
    cases T with
    | nil => rfl
    | cons x B => simp at hn; omega
  subst hT
  obtain ⟨hsA, _, hcn⟩ := Seg.snoc_iff.mp hseg
  have hwalk : walk h head (index - 1).toNat = .ok (some c) := by
    rw [← hA]; exact sWalk_seg hsA
  have hcond : ¬ (index < 0 ∨ index > size) := by
    rw [hsize]; simp; omega
  simp only [DeleteAt, if_neg hcond, if_neg (ne_of_gt h0), hwalk, Res.bind_ok, hcn]

end Singly

namespace Singly

/-! ## `Reverse` -/

theorem sReverse_loop {B : List Nat} :
    ∀ {h : Heap} {q p : Ptr} {A : List Nat}, Seg Node.Next h p B none →
      Seg Node.Next h q A none → (∀ a ∈ A, a ∉ B) →
      ∃ h' p', Returns (fun fuel => Reverse.loop fuel h q p) B.length (h', p') ∧
        Seg Node.Next h' p' (B.reverse ++ A) none ∧
        (∀ a, (h'.nodes a).Value = (h.nodes a).Value) ∧ h'.size = h.size ∧
        (∀ a, a ∉ B → h'.nodes a = h.nodes a) := by
  induction B with
  | nil =>
    intro h prev cur A hB hA _
    simp only [Seg.nil_iff] at hB
    subst hB
    refine ⟨h, prev, ?_, by simpa using hA, fun _ => rfl, rfl, fun _ _ => rfl⟩
    intro fuel
    cases fuel <;> simp [Reverse.loop]
  | cons b B ih =>
    intro h prev cur A hB hA hdis
    have hnd := Seg.nodup hB
    obtain ⟨rfl, hb, hB'⟩ := hB
    have hbB : b ∉ B := (List.nodup_cons.mp hnd).1
    have hbA : b ∉ A := fun hm => hdis b hm (List.mem_cons_self _ _)
    have h1B : Seg Node.Next (setNext h b prev) (h.nodes b).Next B none := sSeg_setNext _ hB' hbB
    have h1A : Seg Node.Next (setNext h b prev) (some b) (b :: A) none := by
      refine ⟨rfl, by simpa using hb, ?_⟩
      simp only [sSetNext_same]
      exact sSeg_setNext _ hA hbA
    have hdis' : ∀ a ∈ b :: A, a ∉ B := by
      intro a ha
      rcases List.mem_cons.mp ha with rfl | ha
      · exact hbB
      · exact fun hm => hdis a ha (List.mem_cons_of_mem _ hm)
    obtain ⟨h', p', hret, hseg, hval, hsz, hfr⟩ := ih h1B h1A hdis'
    refine ⟨h', p', ?_, by simpa using hseg, fun a => by rw [hval a, sSetNext_value], by simp [hsz], ?_⟩
    · intro fuel
      cases fuel with
      | zero => simp [Reverse.loop]
      | succ f =>
        simp only [Reverse.loop, List.length_cons, Nat.succ_lt_succ_iff]
        exact hret f
    · intro a ha
      have hab : a ≠ b := fun e => ha (by simp [e])
      rw [hfr a (fun hm => ha (List.mem_cons_of_mem _ hm)), sSetNext_ne _ _ hab]

theorem sReverse_spec {h : Heap} {ll : LinkedList} {as : List Nat} (hw : Wf h ll as) :
    ∃ h' ll', Returns (fun fuel => Reverse fuel h ll) as.length (h', ll') ∧
      Wf h' ll' as.reverse ∧ values h' as.reverse = (values h as).reverse ∧
      h.Frame h' as ∧ ll'.Size = ll.Size := by
  obtain ⟨hseg, hsize⟩ := hw
  obtain ⟨h', p', hret, hs', hval, hsz, hfr⟩ :=
    sReverse_loop (A := []) (q := none) hseg rfl (by simp)
  refine ⟨h', { ll with Head := p' }, ?_, ⟨by simpa using hs', by simp [hsize]⟩, ?_, ?_, rfl⟩
  · exact hret.map (fun r => (r.1, ({ ll with Head := r.2 } : LinkedList))) (le_refl _)
  · simp only [values, List.map_reverse]
    congr 1
    exact List.map_congr_left (fun a _ => hval a)
  · exact ⟨by omega, fun a _ ha => hfr a ha⟩

/-! ## `FromSlice`, `FromArray` and `Merge` -/

theorem sFromSlice_loop {V : List Any} :
    ∀ {h : Heap} {ll : LinkedList} {as : List Nat}, Wf h ll as →
      ∃ h' ll', Returns (fun fuel => FromSlice.loop fuel h ll V) (as.length + V.length) (h', ll') ∧
        Wf h' ll' (as ++ List.range' h.size V.length) ∧
        values h' (as ++ List.range' h.size V.length) = values h as ++ V ∧
        h.Frame h' as ∧ h'.size = h.size + V.length := by
  induction V with
  | nil =>
    intro h ll as hw
    refine ⟨h, ll, ?_, by simpa using hw, by simp, Mem.Frame.refl _ _, rfl⟩
    simp only [FromSlice.loop]
    exact Returns.const _ _
  | cons v V ih =>
    intro h ll as hw
    obtain ⟨h1, ll1, hret1, hw1, hv1, hf1, hsz1⟩ := sAppend_spec v hw
    obtain ⟨h', ll', hret, hw', hv', hf', hsz'⟩ := ih hw1
    have e : as ++ List.range' h.size (v :: V).length =
        as ++ [h.size] ++ List.range' h1.size V.length := by
      rw [hsz1]; simp [List.range'_succ]
    refine ⟨h', ll', ?_, by rw [e]; exact hw', ?_, ?_, by rw [hsz', hsz1]; simp; omega⟩
    · simp only [FromSlice.loop]
      refine Returns.mono (Returns.bind hret1
        (k := fun fuel r => FromSlice.loop fuel r.1 r.2 V) hret) ?_
      simp; omega
    · rw [e, hv', hv1]; simp
    · exact hf1.trans hf' (fun a ha => by
        rcases List.mem_append.mp ha with ha | ha
        · exact Or.inl ha
        · simp at ha; omega)

theorem sFromSlice_spec (h : Heap) (ll : LinkedList) (vs : List Any) :
    ∃ h' ll', Returns (fun fuel => FromSlice fuel h ll (some vs)) vs.length (h', ll', none) ∧
      Wf h' ll' (List.range' h.size vs.length) ∧
      values h' (List.range' h.size vs.length) = vs ∧
      h.Frame h' [] ∧ h'.size = h.size + vs.length := by
  have hw0 : Wf h (Clear ll) [] := ⟨rfl, rfl⟩
  obtain ⟨h', ll', hret, hw', hv', hf', hsz'⟩ := sFromSlice_loop (V := vs) hw0
  refine ⟨h', ll', ?_, by simpa using hw', by simpa using hv', hf', hsz'⟩
  simp only [FromSlice]
  exact hret.map (fun r => (r.1, r.2, (none : Option Error))) (by simp)

theorem sFromArray_spec (h : Heap) (ll : LinkedList) (vs : List Any) :
    ∃ h' ll', Returns (fun fuel => FromArray fuel h ll (some vs)) vs.length (h', ll', none) ∧
      Wf h' ll' (List.range' h.size vs.length) ∧
      values h' (List.range' h.size vs.length) = vs ∧
      h.Frame h' [] ∧ h'.size = h.size + vs.length := by
  have hw0 : Wf h (Clear ll) [] := ⟨rfl, rfl⟩
  obtain ⟨h', ll', hret, hw', hv', hf', hsz'⟩ := sFromSlice_loop (V := vs) hw0
  refine ⟨h', ll', ?_, by simpa using hw', by simpa using hv', hf', hsz'⟩
  simp only [FromArray]
  exact hret.map (fun r => (r.1, r.2, (none : Option Error))) (by simp)

theorem sMerge_loop {B : List Nat} :
    ∀ {h : Heap} {ll : LinkedList} {as : List Nat} {p : Ptr}, Wf h ll as →
      Seg Node.Next h p B none → (∀ a ∈ B, a ∉ as) →
      ∃ h' ll',
        (∀ fuel k, (as.length + B.length ≤ fuel → B.length < k →
            Merge.loop fuel k h ll p = .ok (h', ll')) ∧
          (Merge.loop fuel k h ll p = .ok (h', ll') ∨
            Merge.loop fuel k h ll p = .outOfFuel)) ∧
        Wf h' ll' (as ++ List.range' h.size B.length) ∧
        values h' (as ++ List.range' h.size B.length) = values h as ++ values h B ∧
        h.Frame h' as ∧ h'.size = h.size + B.length := by
  induction B with
  | nil =>
    intro h ll as p hw hB _
    simp only [Seg.nil_iff] at hB
    subst hB
    refine ⟨h, ll, ?_, by simpa using hw, by simp, Mem.Frame.refl _ _, rfl⟩
    intro fuel k
    cases k <;> simp [Merge.loop]
  | cons b B ih =>
    intro h ll as p hw hB hdis
    have hBlt := Seg.lt_size hB
    obtain ⟨rfl, hb, hB'⟩ := hB
    obtain ⟨h1, ll1, hret1, hw1, hv1, hf1, hsz1⟩ := sAppend_spec (h.nodes b).Value hw
    have hb1 : h1.nodes b = h.nodes b := hf1.2 b hb (hdis b (List.mem_cons_self _ _))
    have hB1 : Seg Node.Next h1 (h1.nodes b).Next B none := by
      rw [hb1]
      exact Seg.of_frame hf1 hB' (fun a ha => hdis a (List.mem_cons_of_mem _ ha))
    have hdis1 : ∀ a ∈ B, a ∉ as ++ [h.size] := by
      intro a ha hm
      rcases List.mem_append.mp hm with hm | hm
      · exact hdis a (List.mem_cons_of_mem _ ha) hm
      · have := hBlt a (List.mem_cons_of_mem _ ha)
        simp at hm; omega
    obtain ⟨h', ll', hret, hw', hv', hf', hsz'⟩ := ih hw1 hB1 hdis1
    have e : as ++ List.range' h.size (b :: B).length =
        as ++ [h.size] ++ List.range' h1.size B.length := by
      rw [hsz1]; simp [List.range'_succ]
    have hvB : values h1 B = values h B :=
      sValues_congr (fun a ha => by
        rw [hf1.2 a (hBlt a (List.mem_cons_of_mem _ ha)) (hdis a (List.mem_cons_of_mem _ ha))])
    refine ⟨h', ll', ?_, by rw [e]; exact hw', ?_, ?_, by rw [hsz', hsz1]; simp; omega⟩
    · intro fuel k
      cases k with
      | zero => simp [Merge.loop]
      | succ k =>
        simp only [Merge.loop, List.length_cons]
        constructor
        · intro hf hk
          have e1 := (hret1 fuel).1 (by omega)
          beta_reduce at e1
          rw [e1]
          simp only [Res.bind_ok]
          exact (hret fuel k).1 (by simp; omega) (by omega)
        · rcases (hret1 fuel).2 with e1 | e1
          · beta_reduce at e1; rw [e1]; simp only [Res.bind_ok]; exact (hret fuel k).2
          · beta_reduce at e1; rw [e1]; right; rfl
    · rw [e, hv', hv1, hvB]; simp
    · exact hf1.trans hf' (fun a ha => by
        rcases List.mem_append.mp ha with ha | ha
        · exact Or.inl ha
        · simp at ha; omega)

theorem sMerge_nil (fuel : Nat) (h : Heap) (ll : LinkedList) :
    Merge fuel h ll none = .ok (h, ll, some .nilList) := rfl

theorem sMerge_spec {h : Heap} {ll other : LinkedList} {as bs : List Nat}
    (hw : Wf h ll as) (ho : Wf h other bs) (hdis : ∀ a ∈ bs, a ∉ as) :
    ∃ h' ll', Returns (fun fuel => Merge fuel h ll (some other)) (as.length + bs.length)
        (h', ll', none) ∧
      Wf h' ll' (as ++ List.range' h.size bs.length) ∧
      values h' (as ++ List.range' h.size bs.length) = values h as ++ values h bs ∧
      h.Frame h' as ∧ h'.size = h.size + bs.length := by
  obtain ⟨h', ll', hret, hrest⟩ := sMerge_loop hw ho.1 hdis
  refine ⟨h', ll', ?_, hrest⟩
  intro fuel
  simp only [Merge]
  constructor
  · intro hf
    rw [(hret fuel fuel).1 (by omega) (by omega)]
    rfl
  · rcases (hret fuel fuel).2 with e | e
    · rw [e]; left; rfl
    · rw [e]; right; rfl

/-! ## `Unique` -/

theorem sUnique_loop {B : List Nat} :
    ∀ {h : Heap} {p : Ptr} {z : Int} {A : List Nat} {c : Nat} {vis : Visited},
      Seg Node.Next h p (A ++ c :: B) none →
      ∃ h', Returns (fun fuel => Unique.loop fuel h { Head := p, Size := z } vis c)
          B.length
          (h', { Head := p, Size := z - B.length +
            (keepNew (fun a => (h.nodes a).Value) vis B).length }) ∧
        Seg Node.Next h' p (A ++ c :: keepNew (fun a => (h.nodes a).Value) vis B) none ∧
        (∀ a, (h'.nodes a).Value = (h.nodes a).Value) ∧ h'.size = h.size ∧
        (∀ a, a ∉ A ++ c :: B → h'.nodes a = h.nodes a) := by
  induction B with
  | nil =>
    intro h p z A c vis hs
    have hcn : (h.nodes c).Next = none := (Seg.snoc_iff.mp hs).2.2
    refine ⟨h, ?_, by simpa [keepNew] using hs, fun _ => rfl, rfl, fun _ _ => rfl⟩
    intro fuel
    cases fuel with
    | zero => simp [Unique.loop]
    | succ f => simp [Unique.loop, hcn, keepNew]
  | cons n B ih =>
    intro h p z A c vis hs
    obtain ⟨r, _, hsc⟩ := Seg.append_iff.mp hs
    have hcn : (h.nodes c).Next = some n := hsc.2.2.1
    by_cases hv : vis.get (h.nodes n).Value = true
    · have hs1 := sSeg_unlink hs
      obtain ⟨h', hret, hseg, hval, hsz, hfr⟩ :=
        @ih (setNext h c (h.nodes n).Next) p (z - 1) A c vis hs1
      have hkey : keepNew (fun a => ((setNext h c (h.nodes n).Next).nodes a).Value) vis B =
          keepNew (fun a => (h.nodes a).Value) vis B :=
        keepNew_congr (fun a => by simp) vis B
      rw [hkey] at hret hseg
      have hk : keepNew (fun a => (h.nodes a).Value) vis (n :: B) =
          keepNew (fun a => (h.nodes a).Value) vis B := by simp [keepNew, hv]
      rw [hk]
      have hsize : z - 1 - (B.length : Int) = z - ((n :: B).length : Int) := by
        simp; omega
      rw [hsize] at hret
      refine ⟨h', ?_, hseg, fun a => by rw [hval a, sSetNext_value], by simp [hsz], ?_⟩
      · intro fuel
        cases fuel with
        | zero => simp [Unique.loop]
        | succ f =>
          simp only [Unique.loop, hcn, hv, if_true, List.length_cons, Nat.succ_lt_succ_iff]
          exact hret f
      · intro a ha
        have hac : a ≠ c := fun e => ha (by simp [e])
        rw [hfr a (fun hm => ha (by
          simp only [List.mem_append, List.mem_cons] at hm ⊢
          rcases hm with hm | hm | hm
          · exact Or.inl hm
          · exact Or.inr (Or.inl hm)
          · exact Or.inr (Or.inr (Or.inr hm)))), sSetNext_ne _ _ hac]
    · have hs1 : Seg Node.Next h p ((A ++ [c]) ++ n :: B) none := by simpa using hs
      obtain ⟨h', hret, hseg, hval, hsz, hfr⟩ :=
        @ih h p z (A ++ [c]) n (vis.set (h.nodes n).Value) hs1
      have hk : keepNew (fun a => (h.nodes a).Value) vis (n :: B) =
          n :: keepNew (fun a => (h.nodes a).Value) (vis.set (h.nodes n).Value) B := by
        simp [keepNew, hv]
      rw [hk]
      have hsize : z - (B.length : Int) +
          ((keepNew (fun a => (h.nodes a).Value) (vis.set (h.nodes n).Value) B).length : Int) =
          z - ((n :: B).length : Int) +
          ((n :: keepNew (fun a => (h.nodes a).Value) (vis.set (h.nodes n).Value) B).length : Int) := by
        simp; omega
      rw [hsize] at hret
      refine ⟨h', ?_, by simpa using hseg, hval, hsz, fun a ha => hfr a (by simpa using ha)⟩
      intro fuel
      cases fuel with
      | zero => simp [Unique.loop]
      | succ f =>
        simp only [Unique.loop, hcn, hv, if_false, List.length_cons, Nat.succ_lt_succ_iff]
        exact hret f

end Singly

/-! ## One pass of `Sort` on the values -/

theorem sortSwaps_int (a b : Int) : sortSwaps (.int a) (.int b) = decide (b < a) := by
  by_cases h : b < a <;> simp [sortSwaps, sortGt, h]

theorem sortSwaps_str (a b : List Nat) : sortSwaps (.str a) (.str b) = decide (b < a) := by
  by_cases h : b < a <;> simp [sortSwaps, sortGt, h]

theorem sortSwaps_float (a b : Nat) : sortSwaps (.float a) (.float b) = f64Gt a b := by
  cases h : f64Gt a b <;> simp [sortSwaps, sortGt, h]

theorem f64Gt_asymm {a b : Nat} (h : f64Gt a b = true) : f64Gt b a = false := by
  simp only [f64Gt, Bool.and_eq_true, Bool.not_eq_true'] at h
  obtain ⟨⟨h1, h2⟩, h3⟩ := h
  simp only [f64Gt, h1, h2, Bool.not_false, Bool.and_self, Bool.true_and]
  cases ha : f64Neg a <;> cases hb : f64Neg b <;> simp_all <;> omega

theorem sortGt_asymm {x y : Any} (h : sortGt x y = .ok true) : sortSwaps y x = false := by
  cases x <;> cases y <;> simp only [sortGt, reduceCtorEq] at h
  · rename_i a b
    have h' : b < a := by simpa using h
    rw [sortSwaps_int]; simp; omega
  · rename_i a b
    have h' : b < a := by simpa using h
    rw [sortSwaps_str]; simp only [decide_eq_false_iff_not]
    exact fun hba => absurd (lt_trans h' hba) (lt_irrefl _)
  · rename_i a b
    have h' : f64Gt a b = true := by simpa using h
    rw [sortSwaps_float]; exact f64Gt_asymm h'

theorem bubblePass_perm (ys : List Any) :
    ∀ (x : Any) (sw : Bool), (bubblePass x ys sw).1.Perm (x :: ys) := by
  induction ys with
  | nil => intro x sw; exact List.Perm.refl _
  | cons y ys ih =>
    intro x sw
    simp only [bubblePass]
    cases hxy : sortGt x y with
    | error e => exact List.Perm.refl _
    | ok b =>
      cases b with
      | true => exact ((ih x true).cons y).trans (List.Perm.swap x y ys)
      | false => exact (ih y sw).cons x

theorem bubblePass_flag (ys : List Any) :
    ∀ (x : Any), (bubblePass x ys true).2.1 = true := by
  induction ys with
  | nil => intro x; rfl
  | cons y ys ih =>
    intro x
    simp only [bubblePass]
    cases hxy : sortGt x y with
    | error e => rfl
    | ok b => cases b <;> simp [ih]

theorem bubblePass_inversions (ys : List Any) :
    ∀ (x : Any) (sw : Bool),
      inversions (bubblePass x ys sw).1 ≤ inversions (x :: ys) ∧
      (sw = false → (bubblePass x ys sw).2.1 = true →
        inversions (bubblePass x ys sw).1 < inversions (x :: ys)) := by
  induction ys with
  | nil => intro x sw; simp [bubblePass]
  | cons y ys ih =>
    intro x sw
    simp only [bubblePass]
    cases hxy : sortGt x y with
    | error e => simp
    | ok b =>
      cases b with
      | true =>
        have hyx := sortGt_asymm hxy
        have hsw : sortSwaps x y = true := by simp [sortSwaps, hxy]
        have hp := bubblePass_perm ys x true
        have hc : (bubblePass x ys true).1.countP (sortSwaps y) = ys.countP (sortSwaps y) := by
          rw [hp.countP_eq, List.countP_cons_of_neg]
          simp [hyx]
        have h1 := (ih x true).1
        have : inversions (y :: (bubblePass x ys true).1) < inversions (x :: y :: ys) := by
          simp only [inversions, hc, List.countP_cons_of_pos _ _ hsw] at h1 ⊢
          omega
        exact ⟨le_of_lt this, fun _ _ => this⟩
      | false =>
        have hp := bubblePass_perm ys y sw
        have hc : (bubblePass y ys sw).1.countP (sortSwaps x) =
            (y :: ys).countP (sortSwaps x) := hp.countP_eq _
        have h1 := ih y sw
        constructor
        · simp only [inversions, hc] at h1 ⊢
          omega
        · intro hs hf
          have := h1.2 hs hf
          simp only [inversions, hc] at this ⊢
          omega

theorem bubblePass_unchanged (ys : List Any) :
    ∀ (x : Any), (bubblePass x ys false).2.1 = false →
      (bubblePass x ys false).1 = x :: ys ∧
      ((bubblePass x ys false).2.2 = none → InOrder (x :: ys)) := by
  induction ys with
  | nil => intro x _; simp [bubblePass, InOrder]
  | cons y ys ih =>
    intro x
    simp only [bubblePass]
    cases hxy : sortGt x y with
    | error e => simp
    | ok b =>
      cases b with
      | true => simp [bubblePass_flag]
      | false =>
        intro hf
        obtain ⟨h1, h2⟩ := ih y hf
        exact ⟨by simp [h1], fun he => ⟨hxy, h2 he⟩⟩

theorem inversions_le_sq (xs : List Any) : inversions xs ≤ xs.length * xs.length := by
  induction xs with
  | nil => simp [inversions]
  | cons x xs ih =>
    have := List.countP_le_length (sortSwaps x) (l := xs)
    simp only [inversions, List.length_cons]
    nlinarith

theorem sortGt_same_kind {x y : Any} (hk : y.kind = x.kind) (hx : x.kind ≠ .other) :
    ∃ b, sortGt x y = .ok b := by
  cases x <;> cases y <;> simp_all [sortGt, Any.kind]

theorem sortGt_other_kind {x y : Any} (hk : y.kind ≠ x.kind) (hx : x.kind ≠ .other) :
    sortGt x y = .error .mismatchedTypes := by
  cases x <;> cases y <;> simp_all [sortGt, Any.kind]

theorem bubblePass_same_kind (ys : List Any) :
    ∀ (x : Any) (sw : Bool), x.kind ≠ .other → (∀ v ∈ ys, v.kind = x.kind) →
      (bubblePass x ys sw).2.2 = none := by
  induction ys with
  | nil => intro x sw _ _; rfl
  | cons y ys ih =>
    intro x sw hx hall
    have hy : y.kind = x.kind := hall y (List.mem_cons_self _ _)
    obtain ⟨b, hb⟩ := sortGt_same_kind hy hx
    simp only [bubblePass, hb]
    cases b with
    | true => exact ih x true hx (fun v hv => hall v (List.mem_cons_of_mem _ hv))
    | false =>
      exact ih y sw (by rw [hy]; exact hx)
        (fun v hv => by rw [hy]; exact hall v (List.mem_cons_of_mem _ hv))

theorem bubblePass_mixed (ys : List Any) :
    ∀ (x : Any) (sw : Bool), (∀ v ∈ x :: ys, v.kind ≠ .other) →
      (∃ v ∈ ys, v.kind ≠ x.kind) →
      (bubblePass x ys sw).2.2 = some .mismatchedTypes := by
  induction ys with
  | nil => intro x sw _ h; simp at h
  | cons y ys ih =>
    intro x sw hsup hmix
    have hx : x.kind ≠ .other := hsup x (List.mem_cons_self _ _)
    by_cases hy : y.kind = x.kind
    · obtain ⟨b, hb⟩ := sortGt_same_kind hy hx
      obtain ⟨v, hv, hvk⟩ := hmix
      have hv' : v ∈ ys := by
        rcases List.mem_cons.mp hv with rfl | hv
        · exact absurd hy hvk
        · exact hv
      simp only [bubblePass, hb]
      cases b with
      | true =>
        refine ih x true (fun w hw => hsup w ?_) ⟨v, hv', hvk⟩
        rcases List.mem_cons.mp hw with rfl | hw
        · exact List.mem_cons_self _ _
        · exact List.mem_cons_of_mem _ (List.mem_cons_of_mem _ hw)
      | false =>
        exact ih y sw (fun w hw => hsup w (List.mem_cons_of_mem _ hw))
          ⟨v, hv', by rw [hy]; exact hvk⟩
    · simp [bubblePass, sortGt_other_kind hy hx]

theorem inOrder_chain (xs : List Any) (ho : InOrder xs) (hk : ∀ v ∈ xs, v.kind ≠ .float) :
    List.Chain' Any.le xs := by
  induction xs with
  | nil => exact List.chain'_nil
  | cons x xs ih =>
    cases xs with
    | nil => exact List.chain'_singleton x
    | cons y ys =>
      obtain ⟨hxy, hrest⟩ := ho
      refine List.chain'_cons.mpr ⟨?_, ih hrest (fun v hv => hk v (List.mem_cons_of_mem _ hv))⟩
      have hx := hk x (List.mem_cons_self _ _)
      cases x <;> cases y <;> simp_all [sortGt, Any.kind, Any.le]

namespace Singly

theorem keepNew_subset {α : Type} (key : α → Any) (xs : List α) :
    ∀ (vis : Visited) (a : α), a ∈ keepNew key vis xs → a ∈ xs := by
  induction xs with
  | nil => intro vis a h; simp [keepNew] at h
  | cons x xs ih =>
    intro vis a h
    by_cases hx : vis.get (key x) = true
    · simp only [keepNew, hx, if_true] at h
      exact List.mem_cons_of_mem _ (ih vis a h)
    · simp only [keepNew, hx, if_false] at h
      rcases List.mem_cons.mp h with rfl | h
      · exact List.mem_cons_self _ _
      · exact List.mem_cons_of_mem _ (ih _ a h)

theorem sUnique_nil {h : Heap} {ll : LinkedList} (hw : Wf h ll []) (fuel : Nat) :
    Unique fuel h ll = .ok (h, ll, some .emptyList) := by
  obtain ⟨hseg, _⟩ := hw
  simp only [Seg.nil_iff] at hseg
  simp [Unique, hseg]

theorem sUnique_spec {h : Heap} {ll : LinkedList} {as : List Nat}
    (hw : Wf h ll as) (hne : as ≠ []) :
    ∃ h' ll', Returns (fun fuel => Unique fuel h ll) as.length (h', ll', none) ∧
      Post h as h' ll' (dedupFrom [] (values h as)) := by
  obtain ⟨head, size⟩ := ll
  obtain ⟨hseg, hsize⟩ := hw
  simp only at hseg hsize
  obtain ⟨c, B, rfl⟩ := List.exists_cons_of_ne_nil hne
  have hseg' := hseg
  obtain ⟨rfl, _, _⟩ := hseg'
  have hd : dedupFrom [] (values h (c :: B)) =
      (h.nodes c).Value :: dedupFrom [(h.nodes c).Value] (values h B) := by
    rw [sValues_cons]; simp [dedupFrom]
  cases B with
  | nil =>
    refine ⟨h, { Head := some c, Size := size }, ?_,
      ⟨[c], ⟨hseg, hsize⟩, by simp [dedupFrom], Mem.Frame.refl _ _, fun a ha => Or.inl ha⟩⟩
    have : size ≤ 1 := by rw [hsize]; simp
    simp only [Unique, this, if_true]
    exact Returns.const _ _
  | cons n B =>
    have hsz : ¬ size ≤ 1 := by rw [hsize]; simp
    obtain ⟨h', hret, hs', hval, hsize', hfr⟩ :=
      @sUnique_loop (n :: B) h (some c) size [] c (Visited.set [] (h.nodes c).Value) hseg
    refine ⟨h', { Head := some c, Size := size - ((n :: B).length : Int) +
        ((keepNew (fun a => (h.nodes a).Value) (Visited.set [] (h.nodes c).Value)
          (n :: B)).length : Int) }, ?_,
      ⟨c :: keepNew (fun a => (h.nodes a).Value) (Visited.set [] (h.nodes c).Value) (n :: B),
        ⟨hs', ?_⟩, ?_, ⟨by omega, fun a _ ha => hfr a (by simpa using ha)⟩, ?_⟩⟩
    · simp only [Unique, hsz, if_false]
      exact hret.map (fun r => (r.1, r.2, (none : Option Error))) (by simp)
    · simp [hsize]; omega
    · rw [hd]
      simp only [sValues_cons, hval]
      congr 1
      have e1 : values h' (keepNew (fun a => (h.nodes a).Value)
          (Visited.set [] (h.nodes c).Value) (n :: B)) =
          (keepNew (fun a => (h.nodes a).Value)
          (Visited.set [] (h.nodes c).Value) (n :: B)).map (fun a => (h.nodes a).Value) :=
        List.map_congr_left (fun a _ => hval a)
      rw [e1, keepNew_map]
      exact keepNew_eq_dedupFrom _ _ _ (fun x => by simp [Visited.set, Visited.get])
    · intro a ha
      left
      rcases List.mem_cons.mp (by simpa using ha) with rfl | ha
      · exact List.mem_cons_self _ _
      · exact List.mem_cons_of_mem _ (keepNew_subset _ _ _ _ ha)

/-! ## `Sort` -/

@[simp] theorem sSwap_size (h : Heap) (c n : Nat) : (swapValues h c n).size = h.size := rfl

@[simp] theorem sSwap_next (h : Heap) (c n a : Nat) :
    ((swapValues h c n).nodes a).Next = (h.nodes a).Next := by
  simp [swapValues]

theorem sSwap_left (h : Heap) {c n : Nat} (hcn : c ≠ n) :
    ((swapValues h c n).nodes c).Value = (h.nodes n).Value := by
  simp [swapValues, sSetValue_ne _ _ hcn]

theorem sSwap_right (h : Heap) (c n : Nat) :
    ((swapValues h c n).nodes n).Value = (h.nodes c).Value := by
  simp [swapValues]

theorem sSwap_other (h : Heap) {c n a : Nat} (hc : a ≠ c) (hn : a ≠ n) :
    (swapValues h c n).nodes a = h.nodes a := by
  simp [swapValues, setValue, Mem.put, Function.update_noteq hc, Function.update_noteq hn]

theorem sSort_pass {T : List Nat} :
    ∀ {h : Heap} {c : Nat} (sw : Bool), Seg Node.Next h (some c) (c :: T) none →
      ∃ h', Returns (fun fuel => SortList.pass fuel h c sw) T.length
          (h', (bubblePass (h.nodes c).Value (values h T) sw).2) ∧
        values h' (c :: T) = (bubblePass (h.nodes c).Value (values h T) sw).1 ∧
        (∀ a, (h'.nodes a).Next = (h.nodes a).Next) ∧ h'.size = h.size ∧
        (∀ a, a ∉ c :: T → h'.nodes a = h.nodes a) := by
  induction T with
  | nil =>
    intro h c sw hs
    have hcn : (h.nodes c).Next = none := hs.2.2
    refine ⟨h, ?_, by simp [bubblePass], fun _ => rfl, rfl, fun _ _ => rfl⟩
    intro fuel
    cases fuel with
    | zero => simp [SortList.pass]
    | succ f => simp [SortList.pass, hcn, bubblePass]
  | cons n T ih =>
    intro h c sw hs
    have hnd := Seg.nodup hs
    obtain ⟨_, _, hs'⟩ := hs
    have hcn : (h.nodes c).Next = some n := hs'.1
    rw [hcn] at hs'
    have hc_ne : c ≠ n := by
      intro e; subst e; simp at hnd
    have hcT : c ∉ T := fun hm => (List.nodup_cons.mp hnd).1 (List.mem_cons_of_mem _ hm)
    have hnT : n ∉ T := (List.nodup_cons.mp (List.nodup_cons.mp hnd).2).1
    cases hxy : sortGt (h.nodes c).Value (h.nodes n).Value with
    | error e =>
      have hbp : bubblePass (h.nodes c).Value (values h (n :: T)) sw =
          ((h.nodes c).Value :: values h (n :: T), sw, some e) := by
        rw [sValues_cons]; simp only [bubblePass, hxy]
      rw [hbp]
      refine ⟨h, ?_, by simp, fun _ => rfl, rfl, fun _ _ => rfl⟩
      intro fuel
      cases fuel with
      | zero => simp [SortList.pass]
      | succ f => simp [SortList.pass, hcn, hxy]
    | ok b =>
      cases b with
      | true =>
        have hs1 : Seg Node.Next (swapValues h c n) (some n) (n :: T) none :=
          Seg.frame hs' (by simp) (fun a _ => by simp)
        obtain ⟨h', hret, hv, hnx, hsz, hfr⟩ := ih true hs1
        have hvT : values (swapValues h c n) T = values h T :=
          sValues_congr (fun a ha => by
            rw [sSwap_other h (fun e : a = c => hcT (e ▸ ha)) (fun e : a = n => hnT (e ▸ ha))])
        rw [sSwap_right, hvT] at hret hv
        have hbp : bubblePass (h.nodes c).Value (values h (n :: T)) sw =
            ((h.nodes n).Value :: (bubblePass (h.nodes c).Value (values h T) true).1,
              (bubblePass (h.nodes c).Value (values h T) true).2) := by
          rw [sValues_cons]; simp only [bubblePass, hxy]
        rw [hbp]
        refine ⟨h', ?_, ?_, fun a => by rw [hnx a, sSwap_next], by simp [hsz], ?_⟩
        · intro fuel
          cases fuel with
          | zero => simp [SortList.pass]
          | succ f =>
            simp only [SortList.pass, hcn, hxy, List.length_cons, Nat.succ_lt_succ_iff]
            exact hret f
        · have hc' : (h'.nodes c).Value = (h.nodes n).Value := by
            rw [hfr c (by simp [hc_ne, hcT]), sSwap_left h hc_ne]
          rw [sValues_cons, hv, hc']
        · intro a ha
          have hac : a ≠ c := fun e => ha (by simp [e])
          have han : a ≠ n := fun e => ha (by simp [e])
          rw [hfr a (fun hm => ha (List.mem_cons_of_mem _ hm)), sSwap_other h hac han]
      | false =>
        obtain ⟨h', hret, hv, hnx, hsz, hfr⟩ := ih sw hs'
        have hbp : bubblePass (h.nodes c).Value (values h (n :: T)) sw =
            ((h.nodes c).Value :: (bubblePass (h.nodes n).Value (values h T) sw).1,
              (bubblePass (h.nodes n).Value (values h T) sw).2) := by
          rw [sValues_cons]; simp only [bubblePass, hxy]
        rw [hbp]
        refine ⟨h', ?_, ?_, hnx, hsz, fun a ha => hfr a (fun hm => ha (List.mem_cons_of_mem _ hm))⟩
        · intro fuel
          cases fuel with
          | zero => simp [SortList.pass]
          | succ f =>
            simp only [SortList.pass, hcn, hxy, List.length_cons, Nat.succ_lt_succ_iff]
            exact hret f
        · have hc' : (h'.nodes c).Value = (h.nodes c).Value := by
            rw [hfr c (by simp [hc_ne, hcT])]
          rw [sValues_cons, hv, hc']

theorem sSort_loop (n : Nat) :
    ∀ {h : Heap} {c : Nat} {T : List Nat}, Seg Node.Next h (some c) (c :: T) none →
      inversions (values h (c :: T)) ≤ n →
      ∃ h' e,
        (∀ fuel k, (T.length < fuel → n < k → SortList.loop fuel k h (some c) = .ok (h', e)) ∧
          (SortList.loop fuel k h (some c) = .ok (h', e) ∨
            SortList.loop fuel k h (some c) = .outOfFuel)) ∧
        (values h' (c :: T)).Perm (values h (c :: T)) ∧
        (e = none → InOrder (values h' (c :: T))) ∧
        (∀ k, k ≠ Kind.other → (∀ v ∈ values h (c :: T), v.kind = k) → e = none) ∧
        ((∀ v ∈ values h (c :: T), v.kind ≠ .other) →
          (∃ v ∈ values h T, v.kind ≠ (h.nodes c).Value.kind) → e = some .mismatchedTypes) ∧
        (∀ a, (h'.nodes a).Next = (h.nodes a).Next) ∧ h'.size = h.size ∧
        (∀ a, a ∉ c :: T → h'.nodes a = h.nodes a) := by
  induction n using Nat.strong_induction_on with
  | _ n ih =>
    intro h c T hs hinv
    obtain ⟨h1, hret1, hv1, hnx1, hsz1, hfr1⟩ := sSort_pass false hs
    have hperm1 : (values h1 (c :: T)).Perm (values h (c :: T)) := by
      rw [hv1]; exact bubblePass_perm _ _ _
    have hsame : ∀ k, k ≠ Kind.other → (∀ v ∈ values h (c :: T), v.kind = k) →
        (bubblePass (h.nodes c).Value (values h T) false).2.2 = none := by
      intro k hk hall
      have hc : (h.nodes c).Value.kind = k := hall _ (by simp)
      exact bubblePass_same_kind _ _ _ (by rw [hc]; exact hk)
        (fun v hv => by rw [hc]; exact hall v (by simp [hv]))
    have hmixed : (∀ v ∈ values h (c :: T), v.kind ≠ .other) →
        (∃ v ∈ values h T, v.kind ≠ (h.nodes c).Value.kind) →
        (bubblePass (h.nodes c).Value (values h T) false).2.2 = some .mismatchedTypes :=
      fun h1 h2 => bubblePass_mixed _ _ _ (by simpa using h1) h2
    cases herr : (bubblePass (h.nodes c).Value (values h T) false).2.2 with
    | some e =>
      refine ⟨h1, some e, ?_, hperm1, by simp, ?_, ?_, hnx1, hsz1, hfr1⟩
      · intro fuel k
        cases k with
        | zero => simp [SortList.loop]
        | succ k =>
          simp only [SortList.loop]
          constructor
          · intro hf _
            have e1 := (hret1 fuel).1 hf
            beta_reduce at e1
            rw [e1]; simp [herr]
          · rcases (hret1 fuel).2 with e1 | e1
            · beta_reduce at e1; rw [e1]; left; simp [herr]
            · beta_reduce at e1; rw [e1]; right; rfl
      · intro k hk hall
        rw [hsame k hk hall] at herr; cases herr
      · intro ha hb
        rw [hmixed ha hb] at herr; exact herr.symm
    | none =>
      cases hflag : (bubblePass (h.nodes c).Value (values h T) false).2.1 with
      | false =>
        obtain ⟨hun, hord⟩ := bubblePass_unchanged _ _ hflag
        refine ⟨h1, none, ?_, hperm1, ?_, fun _ _ _ => rfl, ?_, hnx1, hsz1, hfr1⟩
        · intro fuel k
          cases k with
          | zero => simp [SortList.loop]
          | succ k =>
            simp only [SortList.loop]
            constructor
            · intro hf _
              have e1 := (hret1 fuel).1 hf
              beta_reduce at e1
              rw [e1]; simp [herr, hflag]
            · rcases (hret1 fuel).2 with e1 | e1
              · beta_reduce at e1; rw [e1]; left; simp [herr, hflag]
              · beta_reduce at e1; rw [e1]; right; rfl
        · intro _
          rw [hv1, hun]
          exact hord herr
        · intro ha hb
          rw [hmixed ha hb] at herr; cases herr
      | true =>
        have hlt := (bubblePass_inversions (values h T) (h.nodes c).Value false).2 rfl hflag
        rw [← hv1] at hlt
        have hlt' : inversions (values h1 (c :: T)) < n := lt_of_lt_of_le hlt hinv
        have hs1 : Seg Node.Next h1 (some c) (c :: T) none :=
          Seg.frame hs (by omega) (fun a _ => hnx1 a)
        obtain ⟨h', e, hret, hperm, hord, hk', _, hnx, hsz, hfr⟩ :=
          ih _ hlt' hs1 (le_refl _)
        refine ⟨h', e, ?_, hperm.trans hperm1, hord, ?_, ?_, fun a => by rw [hnx a, hnx1 a],
          by rw [hsz, hsz1], fun a ha => by rw [hfr a ha, hfr1 a ha]⟩
        · intro fuel k
          cases k with
          | zero => simp [SortList.loop]
          | succ k =>
            simp only [SortList.loop]
            constructor
            · intro hf hk
              have e1 := (hret1 fuel).1 hf
              beta_reduce at e1
              rw [e1]; simp only [Res.bind_ok, herr, hflag, if_true]
              exact (hret fuel k).1 hf (by omega)
            · rcases (hret1 fuel).2 with e1 | e1
              · beta_reduce at e1; rw [e1]; simp only [Res.bind_ok, herr, hflag, if_true]
                exact (hret fuel k).2
              · beta_reduce at e1; rw [e1]; right; rfl
        · intro k hk hall
          exact hk' k hk (fun v hv => hall v (hperm1.subset hv))
        · intro ha hb
          rw [hmixed ha hb] at herr; cases herr

theorem sSort_spec {h : Heap} {ll : LinkedList} {as : List Nat} (hw : Wf h ll as) :
    ∃ h' e, Returns (fun fuel => SortList fuel h ll) (as.length * as.length) (h', ll, e) ∧
      Wf h' ll as ∧ (values h' as).Perm (values h as) ∧
      (e = none → InOrder (values h' as)) ∧
      (∀ k, k ≠ Kind.other → (∀ v ∈ values h as, v.kind = k) → e = none) ∧
      ((∀ v ∈ values h as, v.kind ≠ .other) →
        (∃ v ∈ values h as, ∃ w ∈ values h as, v.kind ≠ w.kind) →
        e = some .mismatchedTypes) ∧
      h.Frame h' as := by
  obtain ⟨hseg, hsize⟩ := hw
  by_cases hle : as.length ≤ 1
  · have hsz : ll.Size ≤ 1 := by rw [hsize]; exact_mod_cast hle
    refine ⟨h, none, ?_, ⟨hseg, hsize⟩, List.Perm.refl _, ?_, fun _ _ _ => rfl, ?_,
      Mem.Frame.refl _ _⟩
    · simp only [SortList, hsz, if_true]
      exact Returns.const _ _
    · intro _
      match as, hle with
      | [], _ => exact trivial
      | [a], _ => exact trivial
    · intro _ hmix
      exfalso
      match as, hle, hmix with
      | [], _, hmix => simp at hmix
      | [a], _, hmix => simp at hmix
  · have hsz : ¬ ll.Size ≤ 1 := by rw [hsize]; exact_mod_cast hle
    obtain ⟨c, T, rfl⟩ := List.exists_cons_of_ne_nil (fun e : as = [] => hle (by simp [e]))
    have hhead : ll.Head = some c := hseg.1
    rw [hhead] at hseg
    obtain ⟨h', e, hret, hperm, hord, hsame, hmixed, hnx, hsize', hfr⟩ :=
      sSort_loop (inversions (values h (c :: T))) hseg (le_refl _)
    have hinv := inversions_le_sq (values h (c :: T))
    simp only [sValues_length] at hinv
    refine ⟨h', e, ?_, ⟨?_, hsize⟩, hperm, hord, hsame, ?_, ⟨by omega, fun a _ ha => hfr a ha⟩⟩
    · intro fuel
      simp only [SortList, hsz, if_false, hhead]
      have hT : T.length < (c :: T).length * (c :: T).length := by
        simp only [List.length_cons]; nlinarith
      constructor
      · intro hf
        rw [(hret fuel fuel).1 (by omega) (by omega)]
        rfl
      · rcases (hret fuel fuel).2 with e1 | e1
        · rw [e1]; left; rfl
        · rw [e1]; right; rfl
    · rw [hhead]
      exact Seg.frame hseg (by omega) (fun a _ => hnx a)
    · intro hsup hmix
      refine hmixed hsup ?_
      obtain ⟨v, hv, w, hw, hvw⟩ := hmix
      by_cases hvc : v.kind = (h.nodes c).Value.kind
      · have hwc : w.kind ≠ (h.nodes c).Value.kind := fun e => hvw (by rw [hvc, e])
        rw [sValues_cons] at hw
        rcases List.mem_cons.mp hw with rfl | hw
        · exact absurd rfl hwc
        · exact ⟨w, hw, hwc⟩
      · rw [sValues_cons] at hv
        rcases List.mem_cons.mp hv with rfl | hv
        · exact absurd rfl hvc
        · exact ⟨v, hv, hvc⟩

end Singly

namespace Singly

/-! ## `Validate` and `hasCycle` -/

theorem sValidate_loop {T : List Nat} :
    ∀ {h : Heap} {p : Ptr} (size count : Int), Seg Node.Next h p T none →
      Returns (fun fuel => Validate.loop fuel h size p count) T.length
        (countNodes size count T.length) := by
  induction T with
  | nil =>
    intro h p size count hs
    simp only [Seg.nil_iff] at hs
    subst hs
    intro fuel
    cases fuel <;> simp [Validate.loop, countNodes]
  | cons a T ih =>
    intro h p size count hs
    obtain ⟨rfl, _, hs'⟩ := hs
    have hih := ih size (count + 1) hs'
    intro fuel
    cases fuel with
    | zero => simp [Validate.loop]
    | succ f =>
      simp only [Validate.loop, List.length_cons, Nat.succ_lt_succ_iff, countNodes]
      by_cases hgt : count + 1 > size
      · simp [hgt]
      · simp only [hgt, if_false]
        exact hih f

theorem sHasCycle_loop (n : Nat) :
    ∀ {h : Heap} {slow fast : Ptr} {A B : List Nat}, B.length ≤ n →
      Seg Node.Next h slow (A ++ B) none → Seg Node.Next h fast B none →
      Returns (fun fuel => hasCycle.loop fuel h slow fast) B.length false := by
  induction n using Nat.strong_induction_on with
  | _ n ih =>
    intro h slow fast A B hn hslow hfast
    match B, hfast, hslow, hn with
    | [], hfast, _, _ =>
      simp only [Seg.nil_iff] at hfast
      subst hfast
      intro fuel
      cases fuel <;> simp [hasCycle.loop]
    | [f], hfast, _, _ =>
      obtain ⟨rfl, _, hfn⟩ := hfast
      simp only [Seg.nil_iff] at hfn
      intro fuel
      cases fuel <;> simp [hasCycle.loop, hfn]
    | f :: g :: B', hfast, hslow, hn =>
      obtain ⟨rfl, _, hfg, _, hB'⟩ := hfast
      obtain ⟨s, rest, rfl, hrest⟩ := Seg.ptr_ne_none hslow (by simp)
      rw [hrest] at hslow
      obtain ⟨_, _, hslow'⟩ := hslow
      have hlen : rest.length = A.length + 1 + B'.length := by
        have := congrArg List.length hrest
        simp at this; omega
      have hne : (h.nodes s).Next ≠ (h.nodes g).Next := by
        intro e
        rw [e] at hslow'
        have := Seg.functional hslow' hB'
        rw [this] at hlen; omega
      obtain ⟨A', hA'⟩ : ∃ A', rest = A' ++ B' := by
        cases A with
        | nil =>
          simp at hrest
          exact ⟨[g], by rw [← hrest.2]; rfl⟩
        | cons a A =>
          simp at hrest
          exact ⟨A ++ [f, g], by rw [← hrest.2]; simp⟩
      rw [hA'] at hslow'
      have hrec := ih B'.length (by simp at hn; omega) (le_refl _) hslow' hB'
      intro fuel
      cases fuel with
      | zero => simp [hasCycle.loop]
      | succ k =>
        simp only [hasCycle.loop, hfg, hne, if_false, List.length_cons]
        constructor
        · intro hk
          exact (hrec k).1 (by omega)
        · exact (hrec k).2

theorem sHasCycle_spec {h : Heap} {ll : LinkedList} {as : List Nat}
    (hs : Seg Node.Next h ll.Head as none) :
    Returns (fun fuel => hasCycle fuel h ll) as.length false := by
  cases hh : ll.Head with
  | none => simp only [hasCycle, hh]; exact Returns.const _ _
  | some hd =>
    cases hn : (h.nodes hd).Next with
    | none => simp only [hasCycle, hh, hn]; exact Returns.const _ _
    | some x =>
      simp only [hasCycle, hh, hn]
      rw [hh] at hs
      exact sHasCycle_loop as.length (A := []) (le_refl _) (by simpa using hs) hs

theorem sValidate_unfold {fuel : Nat} {h : Heap} {ll : LinkedList}
    (h0 : ¬ (ll.Head = none ∧ ll.Size ≠ 0)) :
    Validate fuel h ll =
      (Validate.loop fuel h ll.Size ll.Head 0).bind fun r =>
        match r with
        | .error e => .ok (some e)
        | .ok count =>
          if count ≠ ll.Size then .ok (some .countDiffers)
          else (hasCycle fuel h ll).bind fun c => if c then .ok (some .cycle) else .ok none := by
  unfold Validate
  rw [if_neg h0]
  try rfl

theorem sValidate_spec {h : Heap} {ll : LinkedList} {as : List Nat}
    (hs : Seg Node.Next h ll.Head as none) :
    ∃ r, Returns (fun fuel => Validate fuel h ll) as.length r ∧
      (r = none ↔ ll.Size = as.length) := by
  by_cases h0 : ll.Head = none ∧ ll.Size ≠ 0
  · refine ⟨some .emptyNonZeroSize, ?_, ?_⟩
    · intro fuel
      have : Validate fuel h ll = .ok (some .emptyNonZeroSize) := by
        unfold Validate; rw [if_pos h0]
      exact ⟨fun _ => this, Or.inl this⟩
    · rw [h0.1] at hs
      have := Seg.eq_nil_of_none hs
      subst this
      simp [h0.2]
  · have hloop := sValidate_loop ll.Size 0 hs
    have hcyc := sHasCycle_spec hs
    by_cases hcnt : (as.length : Int) ≤ ll.Size
    · rw [countNodes_ok _ _ _ (by omega)] at hloop
      by_cases heq : (0 : Int) + as.length ≠ ll.Size
      · refine ⟨some .countDiffers, ?_, by simp; omega⟩
        intro fuel
        constructor
        · intro hf
          have e1 := (hloop fuel).1 hf
          beta_reduce at e1
          beta_reduce
          rw [sValidate_unfold h0, e1]
          simp only [Res.bind_ok, if_pos heq]
        · beta_reduce
          rw [sValidate_unfold h0]
          rcases (hloop fuel).2 with e1 | e1
          · beta_reduce at e1
            left
            rw [e1]
            simp only [Res.bind_ok, if_pos heq]
          · beta_reduce at e1; right; rw [e1]; rfl
      · refine ⟨none, ?_, by simp; omega⟩
        intro fuel
        constructor
        · intro hf
          have e1 := (hloop fuel).1 hf
          have e2 := (hcyc fuel).1 hf
          beta_reduce at e1 e2
          beta_reduce
          rw [sValidate_unfold h0, e1]
          simp only [Res.bind_ok, if_neg heq, e2]
          rfl
        · beta_reduce
          rw [sValidate_unfold h0]
          rcases (hloop fuel).2 with e1 | e1
          · beta_reduce at e1
            rw [e1]
            simp only [Res.bind_ok, if_neg heq]
            rcases (hcyc fuel).2 with e2 | e2
            · beta_reduce at e2; left; rw [e2]; rfl
            · beta_reduce at e2; right; rw [e2]; rfl
          · beta_reduce at e1; right; rw [e1]; rfl
    · have hpos : 0 < as.length := by
        rcases Nat.eq_zero_or_pos as.length with h1 | h1
        · exfalso
          have hnil : as = [] := List.length_eq_zero.mp h1
          subst hnil
          simp only [Seg.nil_iff] at hs
          simp only [List.length_nil, Nat.cast_zero, not_le] at hcnt
          exact h0 ⟨hs, by omega⟩
        · exact h1
      rw [countNodes_more _ _ _ hpos (by omega)] at hloop
      refine ⟨some .moreNodesThanSize, ?_, by simp; omega⟩
      intro fuel
      constructor
      · intro hf
        have e1 := (hloop fuel).1 hf
        beta_reduce at e1
        beta_reduce
        rw [sValidate_unfold h0, e1]
        rfl
      · beta_reduce
        rw [sValidate_unfold h0]
        rcases (hloop fuel).2 with e1 | e1
        · beta_reduce at e1; left; rw [e1]; rfl
        · beta_reduce at e1; right; rw [e1]; rfl

end Singly

theorem Res.bind_eq_ok {α β : Type} {x : Res α} {f : α → Res β} {b : β}
    (h : x.bind f = .ok b) : ∃ a, x = .ok a ∧ f a = .ok b := by
  cases x with
  | ok a => exact ⟨a, rfl, h⟩
  | nilDeref => cases h
  | outOfFuel => cases h
  | uncomparable => cases h

theorem Mem.Frame.weaken {N : Type} {m m' : Mem N} {X Y : List Nat} (h : m.Frame m' X)
    (hXY : ∀ a ∈ X, a ∈ Y) : m.Frame m' Y :=
  ⟨h.1, fun a ha hna => h.2 a ha (fun hx => hna (hXY a hx))⟩

theorem List.lt_length_of_getElem? {α : Type} {l : List α} {i : Nat} {x : α}
    (h : l[i]? = some x) : i < l.length := by
  obtain ⟨h1, _⟩ := List.getElem?_eq_some.mp h
  exact h1

namespace Singly

theorem sPost_self {h : Heap} {ll : LinkedList} {as : List Nat} (hw : Wf h ll as) :
    Post h as h ll (values h as) :=
  ⟨as, hw, rfl, Mem.Frame.refl _ _, fun _ ha => Or.inl ha⟩

theorem sPost_snoc {h h' : Heap} {ll' : LinkedList} {as : List Nat} {xs : List Any}
    (hw : Wf h' ll' (as ++ [h.size])) (hv : values h' (as ++ [h.size]) = xs)
    (hf : h.Frame h' as) : Post h as h' ll' xs :=
  ⟨as ++ [h.size], hw, hv, hf, fun a ha => by
    rcases List.mem_append.mp ha with ha | ha
    · exact Or.inl ha
    · simp at ha; exact Or.inr (by omega)⟩

theorem sPost_fresh {h h' : Heap} {ll' : LinkedList} {as X : List Nat} {xs : List Any} {n : Nat}
    (hw : Wf h' ll' (X ++ List.range' h.size n)) (hv : values h' (X ++ List.range' h.size n) = xs)
    (hf : h.Frame h' X) (hX : ∀ a ∈ X, a ∈ as) : Post h as h' ll' xs :=
  ⟨X ++ List.range' h.size n, hw, hv, hf.weaken hX, fun a ha => by
    rcases List.mem_append.mp ha with ha | ha
    · exact Or.inl (hX a ha)
    · simp [List.mem_range'] at ha; exact Or.inr (by omega)⟩

theorem sCall_post {fuel : Nat} {h : Heap} {lists : List LinkedList} {ll : LinkedList}
    {as : List Nat} {c : Call} {r : Heap × LinkedList} (hw : Wf h ll as)
    (hm : ∀ j other, c = .Merge j → lists[j]? = some other →
      ∃ bs, Wf h other bs ∧ ∀ a ∈ bs, a ∉ as)
    (hrun : c.run fuel h lists ll = .ok r) : ∃ xs, Post h as r.1 r.2 xs := by
  cases c with
  | Prepend v =>
    simp only [Call.run, Res.ok.injEq] at hrun
    subst hrun
    obtain ⟨h1, h2, h3⟩ := sPrepend_spec v hw
    exact ⟨_, h.size :: as, h1, h2, h3, fun a ha => by
      rcases List.mem_cons.mp ha with rfl | ha
      · exact Or.inr (le_refl _)
      · exact Or.inl ha⟩
  | Append v =>
    obtain ⟨h', ll', hret, h1, h2, h3, _⟩ := sAppend_spec v hw
    have := hret.eq_of_ok hrun
    subst this
    exact ⟨_, sPost_snoc h1 h2 h3⟩
  | Insert v index =>
    obtain ⟨r0, hr0, hr⟩ := Res.bind_eq_ok hrun
    simp only [Res.ok.injEq] at hr
    subst hr
    by_cases hout : index < 0 ∨ index > ll.Size
    · rw [sInsert_out fuel v hout] at hr0
      cases hr0
      exact ⟨_, sPost_self hw⟩
    · by_cases h0 : index = 0
      · subst h0
        obtain ⟨h', ll', hret, h1, h2, h3, _⟩ := sInsert_zero v hw
        have := hret.eq_of_ok hr0
        subst this
        exact ⟨_, sPost_snoc h1 h2 h3⟩
      · have hpos : 0 < index := by omega
        have hle : index ≤ as.length := by rw [hw.2] at hout; omega
        obtain ⟨h', ll', he, hp, _⟩ := sInsert_pos fuel v hw hpos hle
        rw [he] at hr0
        cases hr0
        exact ⟨_, hp⟩
  | Delete v =>
    obtain ⟨r0, hr0, hr⟩ := Res.bind_eq_ok hrun
    simp only [Res.ok.injEq] at hr
    subst hr
    cases hany : (values h as).any (fun x => goEq x v) with
    | true =>
      obtain ⟨h', ll', hret, hp, _⟩ := sDelete_found hw hany
      have := hret.eq_of_ok hr0
      subst this
      exact ⟨_, hp⟩
    | false =>
      have := (sDelete_absent hw hany).eq_of_ok hr0
      subst this
      exact ⟨_, sPost_self hw⟩
  | DeleteAt index =>
    obtain ⟨r0, hr0, hr⟩ := Res.bind_eq_ok hrun
    simp only [Res.ok.injEq] at hr
    subst hr
    by_cases hout : index < 0 ∨ index > ll.Size
    · rw [sDeleteAt_out hout] at hr0
      cases hr0
      exact ⟨_, sPost_self hw⟩
    · by_cases h0 : index = 0
      · subst h0
        cases as with
        | nil =>
          rw [sDeleteAt_zero_nil hw] at hr0
          cases hr0
          exact ⟨_, sPost_self hw⟩
        | cons a as =>
          obtain ⟨ll', he, hw', _⟩ := sDeleteAt_zero_cons hw
          rw [he] at hr0
          cases hr0
          exact ⟨_, as, hw', rfl, Mem.Frame.refl _ _, fun b hb => Or.inl (List.mem_cons_of_mem _ hb)⟩
      · rw [hw.2] at hout
        by_cases hlast : index = as.length
        · rw [sDeleteAt_last hw (by omega) hlast] at hr0
          cases hr0
        · have hpos : 0 < index := by omega
          have hlt : index < as.length := by omega
          obtain ⟨h', ll', he, hp, _⟩ := sDeleteAt_pos hw hpos hlt
          rw [he] at hr0
          cases hr0
          exact ⟨_, hp⟩
  | Shift =>
    simp only [Call.run, Res.ok.injEq] at hrun
    subst hrun
    cases as with
    | nil =>
      rw [sShift_nil hw]
      exact ⟨_, sPost_self hw⟩
    | cons a as =>
      obtain ⟨ll', he, hw'⟩ := sShift_cons hw
      rw [he]
      exact ⟨_, as, hw', rfl, Mem.Frame.refl _ _, fun b hb => Or.inl (List.mem_cons_of_mem _ hb)⟩
  | Pop =>
    obtain ⟨r0, hr0, hr⟩ := Res.bind_eq_ok hrun
    simp only [Res.ok.injEq] at hr
    subst hr
    rcases List.nil_or_snoc as with rfl | ⟨init, l, rfl⟩
    · rw [sPop_nil hw] at hr0
      cases hr0
      exact ⟨_, sPost_self hw⟩
    · obtain ⟨h', ll', hret, h1, h2, h3, _⟩ := sPop_spec hw
      have := hret.eq_of_ok hr0
      subst this
      exact ⟨_, init, h1, rfl, h3, fun a ha => Or.inl (List.mem_append_left _ ha)⟩
  | Reverse =>
    obtain ⟨h', ll', hret, h1, h2, h3, _⟩ := sReverse_spec hw
    have := hret.eq_of_ok hrun
    subst this
    exact ⟨_, as.reverse, h1, rfl, h3, fun a ha => Or.inl (List.mem_reverse.mp ha)⟩
  | Unique =>
    obtain ⟨r0, hr0, hr⟩ := Res.bind_eq_ok hrun
    simp only [Res.ok.injEq] at hr
    subst hr
    by_cases hne : as = []
    · subst hne
      rw [sUnique_nil hw] at hr0
      cases hr0
      exact ⟨_, sPost_self hw⟩
    · obtain ⟨h', ll', hret, hp⟩ := sUnique_spec hw hne
      have := hret.eq_of_ok hr0
      subst this
      exact ⟨_, hp⟩
  | SortList =>
    obtain ⟨r0, hr0, hr⟩ := Res.bind_eq_ok hrun
    simp only [Res.ok.injEq] at hr
    subst hr
    obtain ⟨h', e, hret, h1, _, _, _, _, h3⟩ := sSort_spec hw
    have := hret.eq_of_ok hr0
    subst this
    exact ⟨_, as, h1, rfl, h3, fun a ha => Or.inl ha⟩
  | Merge j =>
    obtain ⟨r0, hr0, hr⟩ := Res.bind_eq_ok hrun
    simp only [Res.ok.injEq] at hr
    subst hr
    cases hj : lists[j]? with
    | none =>
      rw [hj, sMerge_nil] at hr0
      cases hr0
      exact ⟨_, sPost_self hw⟩
    | some other =>
      obtain ⟨bs, hwo, hdis⟩ := hm j other rfl hj
      obtain ⟨h', ll', hret, h1, h2, h3, _⟩ := sMerge_spec hw hwo hdis
      rw [hj] at hr0
      have := hret.eq_of_ok hr0
      subst this
      exact ⟨_, sPost_fresh h1 h2 h3 (fun a ha => ha)⟩
  | Clear =>
    simp only [Call.run, Res.ok.injEq] at hrun
    subst hrun
    exact ⟨[], [], ⟨rfl, rfl⟩, rfl, Mem.Frame.refl _ _, fun a ha => by simp at ha⟩
  | FromSlice slice =>
    obtain ⟨r0, hr0, hr⟩ := Res.bind_eq_ok hrun
    simp only [Res.ok.injEq] at hr
    subst hr
    cases slice with
    | none =>
      simp only [FromSlice, Res.ok.injEq] at hr0
      subst hr0
      exact ⟨_, sPost_self hw⟩
    | some vs =>
      obtain ⟨h', ll', hret, h1, h2, h3, _⟩ := sFromSlice_spec h ll vs
      have := hret.eq_of_ok hr0
      subst this
      exact ⟨_, sPost_fresh (X := []) (by simpa using h1) (by simpa using h2) h3
        (fun a ha => by simp at ha)⟩
  | FromArray arr =>
    obtain ⟨r0, hr0, hr⟩ := Res.bind_eq_ok hrun
    simp only [Res.ok.injEq] at hr
    subst hr
    cases arr with
    | none =>
      simp only [FromArray, Res.ok.injEq] at hr0
      subst hr0
      exact ⟨_, sPost_self hw⟩
    | some vs =>
      obtain ⟨h', ll', hret, h1, h2, h3, _⟩ := sFromArray_spec h ll vs
      have := hret.eq_of_ok hr0
      subst this
      exact ⟨_, sPost_fresh (X := []) (by simpa using h1) (by simpa using h2) h3
        (fun a ha => by simp at ha)⟩

end Singly

namespace Singly

theorem sReachable_inv {w : World} (hr : Reachable w) :
    ∃ ass : Nat → List Nat,
      (∀ i ll, w.lists[i]? = some ll → Wf w.heap ll (ass i)) ∧
      (∀ i j, i ≠ j → i < w.lists.length → j < w.lists.length → ∀ a ∈ ass i, a ∉ ass j) := by
  induction hr with
  | start h => exact ⟨fun _ => [], fun i ll hi => by simp at hi, fun _ _ _ hi => by simp at hi⟩
  | @create w _ ih =>
    obtain ⟨ass, hwf, hdis⟩ := ih
    refine ⟨Function.update ass w.lists.length [], ?_, ?_⟩
    · intro i ll hi
      by_cases hlt : i < w.lists.length
      · rw [List.getElem?_append_left hlt] at hi
        rw [Function.update_noteq (Nat.ne_of_lt hlt)]
        exact hwf i ll hi
      · have hlen := List.lt_length_of_getElem? hi
        simp only [List.length_append, List.length_singleton] at hlen
        have hie : i = w.lists.length := by omega
        subst hie
        simp only [List.getElem?_append_right (le_refl _), Nat.sub_self, List.getElem?_cons_zero,
          Option.some.injEq] at hi
        subst hi
        rw [Function.update_same]
        exact ⟨rfl, rfl⟩
    · intro i j hij hi hj a ha
      simp only [List.length_append, List.length_singleton] at hi hj
      by_cases hie : i = w.lists.length
      · subst hie; rw [Function.update_same] at ha; simp at ha
      · by_cases hje : j = w.lists.length
        · subst hje; rw [Function.update_same]; simp
        · rw [Function.update_noteq hie] at ha
          rw [Function.update_noteq hje]
          exact hdis i j hij (by omega) (by omega) a ha
  | @call w fuel i c ll r _ hi hself hrun ih =>
    obtain ⟨ass, hwf, hdis⟩ := ih
    have hilt := List.lt_length_of_getElem? hi
    have hw := hwf i ll hi
    have hm : ∀ j other, c = .Merge j → w.lists[j]? = some other →
        ∃ bs, Wf w.heap other bs ∧ ∀ a ∈ bs, a ∉ ass i := by
      intro j other hc hj
      exact ⟨ass j, hwf j other hj,
        hdis j i (hself j hc) (List.lt_length_of_getElem? hj) hilt⟩
    obtain ⟨xs, as', hw', _, hfr, hfoot⟩ := sCall_post hw hm hrun
    refine ⟨Function.update ass i as', ?_, ?_⟩
    · intro k other hk
      by_cases hki : k = i
      · subst hki
        rw [List.getElem?_set_self hilt] at hk
        cases hk
        rw [Function.update_same]
        exact hw'
      · rw [List.getElem?_set_ne (Ne.symm hki)] at hk
        rw [Function.update_noteq hki]
        have hwk := hwf k other hk
        have hklt := List.lt_length_of_getElem? hk
        exact ⟨Seg.of_frame hfr hwk.1 (hdis k i hki hklt hilt), hwk.2⟩
    · intro k j hkj hk hj a ha
      simp only [List.length_set] at hk hj
      obtain ⟨lj, hlj⟩ : ∃ lj, w.lists[j]? = some lj := ⟨w.lists[j], List.getElem?_eq_getElem hj⟩
      obtain ⟨lk, hlk⟩ : ∃ lk, w.lists[k]? = some lk := ⟨w.lists[k], List.getElem?_eq_getElem hk⟩
      by_cases hki : k = i
      · subst hki
        rw [Function.update_same] at ha
        rw [Function.update_noteq (Ne.symm hkj)]
        rcases hfoot a ha with h1 | h1
        · exact hdis k j hkj hk hj a h1
        · intro haj
          have := Seg.lt_size (hwf j lj hlj).1 a haj
          omega
      · rw [Function.update_noteq hki] at ha
        by_cases hji : j = i
        · subst hji
          rw [Function.update_same]
          intro haj
          rcases hfoot a haj with h1 | h1
          · exact hdis k j hkj hk hj a ha h1
          · have := Seg.lt_size (hwf k lk hlk).1 a ha
            omega
        · rw [Function.update_noteq hji]
          exact hdis k j hkj hk hj a ha

/-- C1: in every program state reached from `NewSinglyLinkedList` by public
mutating calls that return, every list has its stored `Size` equal to the number
of nodes reachable from `Head` (the length of what `IntoSlice` returns), and
`Validate` returns nil. -/
theorem singly_invariant {w : World} (hr : Reachable w) (ll : LinkedList)
    (hll : ll ∈ w.lists) :
    ∃ (n : Nat) (s : Slice),
      (∀ fuel, n < fuel → IntoSlice fuel w.heap ll = .ok s) ∧
      ll.Size = s.elems.length ∧
      (∀ fuel, n < fuel → Validate fuel w.heap ll = .ok none) := by
  obtain ⟨ass, hwf, _⟩ := sReachable_inv hr
  obtain ⟨i, hi⟩ := List.mem_iff_getElem?.mp hll
  have hw := hwf i ll hi
  obtain ⟨s, hs, hse⟩ := sIntoSlice_spec hw
  obtain ⟨r, hv, hiff⟩ := sValidate_spec hw.1
  have hr0 : r = none := hiff.mpr hw.2
  subst hr0
  refine ⟨(ass i).length, s, fun fuel hf => (hs fuel).1 hf, ?_, fun fuel hf => (hv fuel).1 hf⟩
  rw [hse, hw.2]; simp

theorem singly_invariant_witness :
    Reachable demoWorld ∧ ({ Head := some 2, Size := 3 } : LinkedList) ∈ demoWorld.lists ∧
    ∃ (n : Nat) (s : Slice),
      (∀ fuel, n < fuel → IntoSlice fuel demoWorld.heap { Head := some 2, Size := 3 } = .ok s) ∧
      (3 : Int) = s.elems.length ∧
      (∀ fuel, n < fuel → Validate fuel demoWorld.heap { Head := some 2, Size := 3 } = .ok none) :=
  have hr : Reachable demoWorld :=
    @Reachable.call _ 3 0 (.Prepend (.int 0)) { Head := some 0, Size := 2 } _
      (@Reachable.call _ 3 0 (.Append (.int 2)) { Head := some 0, Size := 1 }
        (setNext ((emptyHeap.alloc { Value := .int 1, Next := none }).alloc
          { Value := .int 2, Next := none }) 0 (some 1), { Head := some 0, Size := 2 })
        (@Reachable.call _ 3 0 (.Append (.int 1)) NewSinglyLinkedList
          (emptyHeap.alloc { Value := .int 1, Next := none }, { Head := some 0, Size := 1 })
          (Reachable.create (Reachable.start emptyHeap)) rfl (fun _ hc => nomatch hc) rfl)
        rfl (fun _ hc => nomatch hc) rfl)
      rfl (fun _ hc => nomatch hc) rfl
  ⟨hr, List.mem_singleton.mpr rfl, singly_invariant hr _ (List.mem_singleton.mpr rfl)⟩

end Singly

namespace Doubly

/-! ## Memory updates of the doubly linked list -/

@[simp] theorem dAlloc_size (h : Heap) (n : Node) : (h.alloc n).size = h.size + 1 := rfl

@[simp] theorem dAlloc_new (h : Heap) (n : Node) : (h.alloc n).nodes h.size = n := by
  simp [Mem.alloc]

theorem dAlloc_lt (h : Heap) (n : Node) {a : Nat} (ha : a < h.size) :
    (h.alloc n).nodes a = h.nodes a := by
  simp [Mem.alloc, Function.update_noteq (Nat.ne_of_lt ha)]

@[simp] theorem dSetNext_size (h : Heap) (a : Nat) (p : Ptr) : (setNext h a p).size = h.size := rfl

@[simp] theorem dSetPrev_size (h : Heap) (a : Nat) (p : Ptr) : (setPrev h a p).size = h.size := rfl

@[simp] theorem dSetValue_size (h : Heap) (a : Nat) (v : Any) : (setValue h a v).size = h.size :=
  rfl

theorem dSetNext_ne (h : Heap) {a b : Nat} (p : Ptr) (hb : b ≠ a) :
    (setNext h a p).nodes b = h.nodes b := by
  simp [setNext, Mem.put, Function.update_noteq hb]

theorem dSetPrev_ne (h : Heap) {a b : Nat} (p : Ptr) (hb : b ≠ a) :
    (setPrev h a p).nodes b = h.nodes b := by
  simp [setPrev, Mem.put, Function.update_noteq hb]

theorem dSetValue_ne (h : Heap) {a b : Nat} (v : Any) (hb : b ≠ a) :
    (setValue h a v).nodes b = h.nodes b := by
  simp [setValue, Mem.put, Function.update_noteq hb]

@[simp] theorem dSetNext_next_same (h : Heap) (a : Nat) (p : Ptr) :
    ((setNext h a p).nodes a).Next = p := by
  simp [setNext, Mem.put]

@[simp] theorem dSetPrev_prev_same (h : Heap) (a : Nat) (p : Ptr) :
    ((setPrev h a p).nodes a).Prev = p := by
  simp [setPrev, Mem.put]

@[simp] theorem dSetValue_value_same (h : Heap) (a : Nat) (v : Any) :
    ((setValue h a v).nodes a).Value = v := by
  simp [setValue, Mem.put]

@[simp] theorem dSetNext_prev (h : Heap) (a b : Nat) (p : Ptr) :
    ((setNext h a p).nodes b).Prev = (h.nodes b).Prev := by
  by_cases hb : b = a
  · subst hb; simp [setNext, Mem.put]
  · rw [dSetNext_ne h p hb]

@[simp] theorem dSetNext_value (h : Heap) (a b : Nat) (p : Ptr) :
    ((setNext h a p).nodes b).Value = (h.nodes b).Value := by
  by_cases hb : b = a
  · subst hb; simp [setNext, Mem.put]
  · rw [dSetNext_ne h p hb]

@[simp] theorem dSetPrev_next (h : Heap) (a b : Nat) (p : Ptr) :
    ((setPrev h a p).nodes b).Next = (h.nodes b).Next := by
  by_cases hb : b = a
  · subst hb; simp [setPrev, Mem.put]
  · rw [dSetPrev_ne h p hb]

@[simp] theorem dSetPrev_value (h : Heap) (a b : Nat) (p : Ptr) :
    ((setPrev h a p).nodes b).Value = (h.nodes b).Value := by
  by_cases hb : b = a
  · subst hb; simp [setPrev, Mem.put]
  · rw [dSetPrev_ne h p hb]

@[simp] theorem dSetValue_next (h : Heap) (a b : Nat) (v : Any) :
    ((setValue h a v).nodes b).Next = (h.nodes b).Next := by
  by_cases hb : b = a
  · subst hb; simp [setValue, Mem.put]
  · rw [dSetValue_ne h v hb]

@[simp] theorem dSetValue_prev (h : Heap) (a b : Nat) (v : Any) :
    ((setValue h a v).nodes b).Prev = (h.nodes b).Prev := by
  by_cases hb : b = a
  · subst hb; simp [setValue, Mem.put]
  · rw [dSetValue_ne h v hb]

theorem dValues_congr {h h' : Heap} {as : List Nat}
    (hv : ∀ a ∈ as, (h'.nodes a).Value = (h.nodes a).Value) : values h' as = values h as := by
  unfold values
  exact List.map_congr_left hv

@[simp] theorem dValues_nil (h : Heap) : values h [] = [] := rfl

@[simp] theorem dValues_cons (h : Heap) (a : Nat) (as : List Nat) :
    values h (a :: as) = (h.nodes a).Value :: values h as := rfl

@[simp] theorem dValues_append (h : Heap) (as bs : List Nat) :
    values h (as ++ bs) = values h as ++ values h bs := by
  simp [values]

@[simp] theorem dValues_length (h : Heap) (as : List Nat) : (values h as).length = as.length := by
  simp [values]

@[simp] theorem dValues_reverse (h : Heap) (as : List Nat) :
    values h as.reverse = (values h as).reverse := by
  simp [values]

theorem dValues_alloc {h : Heap} {as : List Nat} (n : Node) (hlt : ∀ a ∈ as, a < h.size) :
    values (h.alloc n) as = values h as :=
  dValues_congr (fun a ha => by rw [dAlloc_lt h n (hlt a ha)])

@[simp] theorem dValues_setNext (h : Heap) (as : List Nat) (l : Nat) (x : Ptr) :
    values (setNext h l x) as = values h as :=
  dValues_congr (fun _ _ => by simp)

@[simp] theorem dValues_setPrev (h : Heap) (as : List Nat) (l : Nat) (x : Ptr) :
    values (setPrev h l x) as = values h as :=
  dValues_congr (fun _ _ => by simp)

theorem dFrame_alloc (h : Heap) (n : Node) (as : List Nat) : h.Frame (h.alloc n) as :=
  ⟨by simp, fun _ ha _ => dAlloc_lt h n ha⟩

theorem dFrame_setNext (h : Heap) {l : Nat} (x : Ptr) {as : List Nat} (hl : l ∈ as) :
    h.Frame (setNext h l x) as :=
  ⟨by simp, fun a _ hna => dSetNext_ne h x (fun e : a = l => hna (e ▸ hl))⟩

theorem dFrame_setPrev (h : Heap) {l : Nat} (x : Ptr) {as : List Nat} (hl : l ∈ as) :
    h.Frame (setPrev h l x) as :=
  ⟨by simp, fun a _ hna => dSetPrev_ne h x (fun e : a = l => hna (e ▸ hl))⟩

theorem dFrame_setValue (h : Heap) {l : Nat} (v : Any) {as : List Nat} (hl : l ∈ as) :
    h.Frame (setValue h l v) as :=
  ⟨by simp, fun a _ hna => dSetValue_ne h v (fun e : a = l => hna (e ▸ hl))⟩

/-! ## What well-formedness says about the ends and about neighbours -/

theorem dWf_nil {h : Heap} {ll : LinkedList} (hw : Wf h ll []) :
    ll.Head = none ∧ ll.Tail = none ∧ ll.Size = 0 := by
  obtain ⟨h1, h2, h3⟩ := hw
  exact ⟨h1, h2, by simpa using h3⟩

theorem dWf_head {h : Heap} {ll : LinkedList} {a : Nat} {T : List Nat} (hw : Wf h ll (a :: T)) :
    ll.Head = some a ∧ (h.nodes a).Prev = none ∧ a < h.size := by
  obtain ⟨h1, h2, _⟩ := hw
  rw [List.reverse_cons] at h2
  exact ⟨h1.1, (Seg.snoc_iff.mp h2).2.2, h1.2.1⟩

theorem dWf_tail {h : Heap} {ll : LinkedList} {l : Nat} {I : List Nat} (hw : Wf h ll (I ++ [l])) :
    ll.Tail = some l ∧ (h.nodes l).Next = none ∧ l < h.size := by
  obtain ⟨h1, h2, _⟩ := hw
  rw [List.reverse_append] at h2
  exact ⟨h2.1, (Seg.snoc_iff.mp h1).2.2, h2.2.1⟩

theorem dWf_adj {h : Heap} {ll : LinkedList} {A B : List Nat} {p c : Nat}
    (hw : Wf h ll (A ++ p :: c :: B)) :
    (h.nodes p).Next = some c ∧ (h.nodes c).Prev = some p := by
  obtain ⟨h1, h2, _⟩ := hw
  obtain ⟨_, _, hp⟩ := Seg.append_iff.mp h1
  have e : (A ++ p :: c :: B).reverse = B.reverse ++ c :: p :: A.reverse := by simp
  rw [e] at h2
  obtain ⟨_, _, hc⟩ := Seg.append_iff.mp h2
  exact ⟨hp.2.2.1, hc.2.2.1⟩

theorem dWf_lt {h : Heap} {ll : LinkedList} {as : List Nat} (hw : Wf h ll as) :
    ∀ a ∈ as, a < h.size := Seg.lt_size hw.1

theorem dWf_nodup {h : Heap} {ll : LinkedList} {as : List Nat} (hw : Wf h ll as) :
    as.Nodup := Seg.nodup hw.1

/-! ## `Prepend` and `Append` -/

theorem dPrepend_spec {h : Heap} {ll : LinkedList} {as : List Nat} (value : Any)
    (hw : Wf h ll as) :
    (Prepend h ll value).2.2 = none ∧
      Wf (Prepend h ll value).1 (Prepend h ll value).2.1 (h.size :: as) ∧
      values (Prepend h ll value).1 (h.size :: as) = value :: values h as ∧
      h.Frame (Prepend h ll value).1 as ∧ (Prepend h ll value).1.size = h.size + 1 := by
  have hlt := dWf_lt hw
  cases as with
  | nil =>
    obtain ⟨hh, ht, hs⟩ := dWf_nil hw
    have hP : Prepend h ll value = (h.alloc { Value := value, Next := ll.Head, Prev := none },
        { Head := some h.size, Tail := some h.size, Size := ll.Size + 1 }, none) := by
      simp only [Prepend, hh]
      rw [if_neg (by simp [ht])]
    rw [hP]
    refine ⟨rfl, ⟨?_, ?_, ?_⟩, ?_, dFrame_alloc _ _ _, rfl⟩
    · simp [hh]
    · simp
    · simp [hs]
    · simp
  | cons a T =>
    obtain ⟨hh, hp, ha⟩ := dWf_head hw
    obtain ⟨hn, hpv, hs⟩ := hw
    have hp1 : ((h.alloc { Value := value, Next := ll.Head, Prev := none }).nodes a).Prev = none := by
      rw [dAlloc_lt h _ ha]; exact hp
    have hP : Prepend h ll value =
        (setPrev (h.alloc { Value := value, Next := ll.Head, Prev := none }) a (some h.size),
          { Head := some h.size, Tail := ll.Tail, Size := ll.Size + 1 }, none) := by
      simp only [Prepend, hh]
      rw [if_neg (by rw [← hh, hp1]; simp)]
    rw [hP]
    refine ⟨rfl, ⟨?_, ?_, ?_⟩, ?_, ?_, rfl⟩
    · refine ⟨rfl, by simp, ?_⟩
      have e : ((setPrev (h.alloc { Value := value, Next := ll.Head, Prev := none }) a
          (some h.size)).nodes h.size).Next = ll.Head := by simp
      rw [e]
      exact Seg.transfer hn (by simp) (fun b hb => by
        rw [dSetPrev_next, dAlloc_lt h _ (hlt b hb)])
    · have e : (h.size :: a :: T).reverse = T.reverse ++ a :: h.size :: [] := by simp
      rw [e]
      rw [List.reverse_cons] at hpv
      refine Seg.link hpv (le_refl _) (by simp) (by simp) ?_ ?_
      · rw [dSetPrev_ne _ _ (Nat.ne_of_gt ha), dAlloc_new, hp]
      · intro b hb hbn
        rw [dSetPrev_ne _ _ hb, Mem.alloc]
        simp [Function.update_noteq hbn]
    · simp [hs]
    · rw [dValues_setPrev, dValues_cons, dAlloc_new, dValues_alloc _ hlt, dValues_cons]
    · exact (dFrame_alloc h _ _).trans (dFrame_setPrev _ _ (List.mem_cons_self _ _))
        (fun b hb => Or.inl hb)

theorem dAppend_spec {h : Heap} {ll : LinkedList} {as : List Nat} (value : Any)
    (hw : Wf h ll as) :
    (Append h ll value).2.2 = none ∧
      Wf (Append h ll value).1 (Append h ll value).2.1 (as ++ [h.size]) ∧
      values (Append h ll value).1 (as ++ [h.size]) = values h as ++ [value] ∧
      h.Frame (Append h ll value).1 as ∧ (Append h ll value).1.size = h.size + 1 := by
  have hlt := dWf_lt hw
  rcases List.nil_or_snoc as with rfl | ⟨I, l, rfl⟩
  · obtain ⟨hh, ht, hs⟩ := dWf_nil hw
    have hP : Append h ll value = (h.alloc { Value := value, Next := none, Prev := ll.Tail },
        { Head := some h.size, Tail := some h.size, Size := ll.Size + 1 }, none) := by
      simp only [Append, ht]
      rw [if_neg (by simp [hh])]
    rw [hP]
    refine ⟨rfl, ⟨?_, ?_, ?_⟩, ?_, dFrame_alloc _ _ _, rfl⟩
    · simp
    · simp [ht]
    · simp [hs]
    · simp
  · obtain ⟨ht, hnl, hl⟩ := dWf_tail hw
    obtain ⟨hn, hpv, hs⟩ := hw
    have hn1 : ((h.alloc { Value := value, Next := none, Prev := ll.Tail }).nodes l).Next = none := by
      rw [dAlloc_lt h _ hl]; exact hnl
    have hP : Append h ll value =
        (setNext (h.alloc { Value := value, Next := none, Prev := ll.Tail }) l (some h.size),
          { Head := ll.Head, Tail := some h.size, Size := ll.Size + 1 }, none) := by
      simp only [Append, ht]
      rw [if_neg (by rw [← ht, hn1]; simp)]
    rw [hP]
    refine ⟨rfl, ⟨?_, ?_, ?_⟩, ?_, ?_, rfl⟩
    · have e : I ++ [l] ++ [h.size] = I ++ l :: h.size :: [] := by simp
      rw [e]
      refine Seg.link hn (le_refl _) (by simp) (by simp) ?_ ?_
      · rw [dSetNext_ne _ _ (Nat.ne_of_gt hl), dAlloc_new, hnl]
      · intro b hb hbn
        rw [dSetNext_ne _ _ hb, Mem.alloc]
        simp [Function.update_noteq hbn]
    · have e : (I ++ [l] ++ [h.size]).reverse = h.size :: (I ++ [l]).reverse := by simp
      rw [e]
      refine ⟨rfl, by simp, ?_⟩
      have e2 : ((setNext (h.alloc { Value := value, Next := none, Prev := ll.Tail }) l
          (some h.size)).nodes h.size).Prev = ll.Tail := by simp
      rw [e2]
      exact Seg.transfer hpv (by simp) (fun b hb => by
        rw [dSetNext_prev, dAlloc_lt h _ (hlt b (List.mem_reverse.mp hb))])
    · simp [hs]; omega
    · rw [dValues_setNext, dValues_append, dValues_alloc _ hlt]
      simp
    · exact (dFrame_alloc h _ _).trans (dFrame_setNext _ _ (by simp))
        (fun b hb => Or.inl hb)

/-! ## `IntoSlice`, `Shift`, `Pop` -/

theorem dFoldl_push_elems (acc : Slice) (xs : List Any) :
    (xs.foldl Slice.push acc).elems = acc.elems ++ xs := by
  induction xs generalizing acc with
  | nil => simp
  | cons x xs ih => simp [ih]

theorem dIntoSlice_loop {h : Heap} {p : Ptr} {as : List Nat} (acc : Slice)
    (hs : Seg Node.Next h p as none) :
    Returns (fun fuel => IntoSlice.loop fuel h p acc) as.length
      ((values h as).foldl Slice.push acc) := by
  induction as generalizing p acc with
  | nil =>
    simp only [Seg.nil_iff] at hs
    subst hs
    intro fuel
    cases fuel <;> simp [IntoSlice.loop]
  | cons a as ih =>
    obtain ⟨rfl, _, hn⟩ := hs
    intro fuel
    cases fuel with
    | zero => simp [IntoSlice.loop]
    | succ f =>
      simp only [IntoSlice.loop, List.length_cons, Nat.succ_lt_succ_iff, dValues_cons,
        List.foldl_cons]
      exact ih _ hn f

theorem dIntoSlice_spec {h : Heap} {ll : LinkedList} {as : List Nat} (hw : Wf h ll as) :
    ∃ s : Slice, Returns (fun fuel => IntoSlice fuel h ll) as.length s ∧
      s.elems = values h as :=
  ⟨_, dIntoSlice_loop none hw.1, by simp [dFoldl_push_elems]⟩

theorem dShift_nil {h : Heap} {ll : LinkedList} (hw : Wf h ll []) :
    Shift h ll = (h, ll, some .emptyList) := by
  simp [Shift, (dWf_nil hw).1]

theorem dShift_cons {h : Heap} {ll : LinkedList} {a : Nat} {T : List Nat}
    (hw : Wf h ll (a :: T)) :
    (Shift h ll).2.2 = none ∧ Wf (Shift h ll).1 (Shift h ll).2.1 T ∧
      values (Shift h ll).1 T = values h T ∧ h.Frame (Shift h ll).1 (a :: T) ∧
      (Shift h ll).2.1.Size = ll.Size - 1 ∧ (Shift h ll).1.size = h.size := by
  obtain ⟨hh, _, _⟩ := dWf_head hw
  have hnd := dWf_nodup hw
  cases T with
  | nil =>
    obtain ⟨hn, _, hs⟩ := hw
    have han : (h.nodes a).Next = none := hn.2.2
    have hS : Shift h ll = (h, { Head := none, Tail := none, Size := ll.Size - 1 }, none) := by
      simp only [Shift, hh, han]
    rw [hS]
    exact ⟨rfl, ⟨rfl, rfl, by simp [hs]⟩, rfl, Mem.Frame.refl _ _, rfl, rfl⟩
  | cons b T =>
    have hadj := dWf_adj (A := []) hw
    obtain ⟨hn, hpv, hs⟩ := hw
    have hS : Shift h ll = (setPrev h b none,
        { Head := some b, Tail := ll.Tail, Size := ll.Size - 1 }, none) := by
      simp only [Shift, hh, hadj.1]
    rw [hS]
    refine ⟨rfl, ⟨?_, ?_, ?_⟩, by simp, dFrame_setPrev _ _ (by simp), rfl, rfl⟩
    · have hn' := hn.2.2
      rw [hadj.1] at hn'
      exact Seg.transfer hn' (by simp) (fun c _ => by simp)
    · have e : (a :: b :: T).reverse = T.reverse ++ b :: a :: [] := by simp
      rw [e] at hpv
      have hba : (h.nodes a).Prev = none := by
        have := (Seg.append_iff.mp hpv)
        obtain ⟨_, _, h2⟩ := this
        exact h2.2.2.2.2
      have := Seg.unlink (M := setPrev h b none) hpv (by simp) (by simp [hba])
        (fun c hc => by rw [dSetPrev_ne _ _ hc])
      simpa using this
    · simp [hs]

end Doubly

namespace Doubly

/-! ## `Pop` -/

theorem dPop_nil {h : Heap} {ll : LinkedList} (hw : Wf h ll []) :
    Pop h ll = .ok (h, ll, some .emptyList) := by
  simp [Pop, (dWf_nil hw).1]

theorem dPop_spec {h : Heap} {ll : LinkedList} {I : List Nat} {l : Nat}
    (hw : Wf h ll (I ++ [l])) :
    ∃ h' ll', Pop h ll = .ok (h', ll', none) ∧ Wf h' ll' I ∧
      values h' I = values h I ∧ h.Frame h' (I ++ [l]) ∧ ll'.Size = ll.Size - 1 ∧
      h'.size = h.size := by
  obtain ⟨ht, hnl, hl⟩ := dWf_tail hw
  have hnd := dWf_nodup hw
  rcases List.nil_or_snoc I with rfl | ⟨J, s, rfl⟩
  · obtain ⟨hh, _, _⟩ := dWf_head (T := []) hw
    refine ⟨h, { Head := none, Tail := none, Size := ll.Size - 1 }, ?_, ⟨rfl, rfl, ?_⟩, rfl,
      Mem.Frame.refl _ _, rfl, rfl⟩
    · simp [Pop, hh, ht]
    · simp [hw.2.2]
  · have hadj := dWf_adj (A := J) (B := []) (p := s) (c := l) (by simpa using hw)
    obtain ⟨hn, hpv, hs⟩ := hw
    obtain ⟨a0, tl, hh, htl⟩ := Seg.ptr_ne_none hn (by simp)
    have ha0 : a0 ≠ l := by
      intro e
      subst e
      have hmem : a0 ∈ J ++ [s] := by
        cases J with
        | nil => simp at htl; simp [htl.1]
        | cons x xs => simp at htl; simp [htl.1]
      exact (List.nodup_append.mp hnd).2.2 hmem (List.mem_singleton_self _)
    refine ⟨setNext h s none, { ll with Tail := some s, Size := ll.Size - 1 }, ?_, ⟨?_, ?_, ?_⟩,
      by simp, dFrame_setNext _ _ (by simp), rfl, rfl⟩
    · simp [Pop, hh, ht, hadj.2, ha0]
    · have e : J ++ [s] ++ [l] = J ++ s :: l :: [] := by simp
      rw [e] at hn
      have := Seg.unlink (M := setNext h s none) hn (by simp) (by simp [hnl])
        (fun c hc => by rw [dSetNext_ne _ _ hc])
      simpa using this
    · have e : (J ++ [s] ++ [l]).reverse = l :: (J ++ [s]).reverse := by simp
      rw [e] at hpv
      have h2 := hpv.2.2
      rw [hadj.2] at h2
      exact Seg.transfer h2 (by simp) (fun c _ => by simp)
    · simp [hs]; omega

/-! ## Unlinking a node in the middle (`Delete`, `DeleteAt`) -/

theorem dUnlink_mid {h : Heap} {ll : LinkedList} {A B : List Nat} {p c n : Nat}
    (hw : Wf h ll (A ++ p :: c :: n :: B)) :
    (h.nodes c).Prev = some p ∧ (h.nodes c).Next = some n ∧
      ((setNext h p (h.nodes c).Next).nodes c).Next = some n ∧
      ((setNext h p (h.nodes c).Next).nodes c).Prev = some p ∧
      Wf (setPrev (setNext h p (some n)) n (some p)) { ll with Size := ll.Size - 1 }
        (A ++ p :: n :: B) ∧
      values (setPrev (setNext h p (some n)) n (some p)) (A ++ p :: n :: B) =
        values h (A ++ p :: n :: B) ∧
      h.Frame (setPrev (setNext h p (some n)) n (some p)) (A ++ p :: c :: n :: B) := by
  have hnd := dWf_nodup hw
  have hadj1 := dWf_adj hw
  have hadj2 := dWf_adj (A := A ++ [p]) (p := c) (c := n) (B := B) (by simpa using hw)
  have hpc : c ≠ p := by
    intro e
    subst e
    have := (List.nodup_append.mp hnd).2.1
    simp at this
  obtain ⟨hn, hpv, hs⟩ := hw
  refine ⟨hadj1.2, hadj2.1, ?_, ?_, ⟨?_, ?_, ?_⟩, by simp, ?_⟩
  · rw [dSetNext_ne _ _ hpc]; exact hadj2.1
  · simp [hadj1.2]
  · refine Seg.unlink hn (by simp) ?_ ?_
    · simp [hadj2.1]
    · intro a ha
      rw [dSetPrev_next, dSetNext_ne _ _ ha]
  · have e : (A ++ p :: c :: n :: B).reverse = B.reverse ++ n :: c :: p :: A.reverse := by simp
    have e' : (A ++ p :: n :: B).reverse = B.reverse ++ n :: p :: A.reverse := by simp
    rw [e] at hpv
    rw [e']
    refine Seg.unlink hpv (by simp) ?_ ?_
    · simp [hadj1.2]
    · intro a ha
      rw [dSetPrev_ne _ _ ha, dSetNext_prev]
  · simp [hs]; omega
  · exact (dFrame_setNext h _ (by simp)).trans (dFrame_setPrev _ _ (l := n) (by simp))
      (fun a ha => Or.inl ha)

/-! ## `Delete` -/

theorem dDelete_loop_found {h : Heap} {v : Any} {p : Ptr} {c : Nat} {A B : List Nat}
    (hs : Seg Node.Next h p (A ++ c :: B) none)
    (hA : ∀ a ∈ A, goEq (h.nodes a).Value v = false)
    (hc : goEq (h.nodes c).Value v = true) :
    Returns (fun fuel => Delete.loop fuel h p v) A.length (some c) := by
  induction A generalizing p with
  | nil =>
    obtain ⟨rfl, _, _⟩ := hs
    intro fuel
    cases fuel with
    | zero => simp [Delete.loop]
    | succ f => simp [Delete.loop, hc]
  | cons b A ih =>
    obtain ⟨rfl, _, hnx⟩ := hs
    have hb : goEq (h.nodes b).Value v = false := hA b (List.mem_cons_self _ _)
    intro fuel
    cases fuel with
    | zero => simp [Delete.loop]
    | succ f =>
      simp only [Delete.loop, hb, Bool.false_eq_true, if_false, List.length_cons,
        Nat.succ_lt_succ_iff]
      exact ih hnx (fun a ha => hA a (List.mem_cons_of_mem _ ha)) f

theorem dDelete_loop_absent {h : Heap} {v : Any} {p : Ptr} {L : List Nat}
    (hs : Seg Node.Next h p L none)
    (hL : ∀ a ∈ L, goEq (h.nodes a).Value v = false) :
    Returns (fun fuel => Delete.loop fuel h p v) L.length none := by
  induction L generalizing p with
  | nil =>
    simp only [Seg.nil_iff] at hs
    subst hs
    intro fuel
    cases fuel <;> simp [Delete.loop]
  | cons b L ih =>
    obtain ⟨rfl, _, hnx⟩ := hs
    have hb : goEq (h.nodes b).Value v = false := hL b (List.mem_cons_self _ _)
    intro fuel
    cases fuel with
    | zero => simp [Delete.loop]
    | succ f =>
      simp only [Delete.loop, hb, Bool.false_eq_true, if_false, List.length_cons,
        Nat.succ_lt_succ_iff]
      exact ih hnx (fun a ha => hL a (List.mem_cons_of_mem _ ha)) f

theorem dDelete_nil {h : Heap} {ll : LinkedList} (hw : Wf h ll []) (fuel : Nat) (v : Any) :
    Delete fuel h ll v = .ok (h, ll, some .emptyList) := by
  simp [Delete, (dWf_nil hw).1]

theorem dDelete_head {h : Heap} {ll : LinkedList} {a : Nat} {T : List Nat} {v : Any}
    (hw : Wf h ll (a :: T)) (ha : goEq (h.nodes a).Value v = true) (fuel : Nat) :
    Delete fuel h ll v = .ok (Shift h ll) := by
  simp [Delete, (dWf_head hw).1, ha]

theorem dDelete_last {h : Heap} {ll : LinkedList} {a l : Nat} {T : List Nat} {v : Any}
    (hw : Wf h ll (a :: T ++ [l])) (ha : goEq (h.nodes a).Value v = false)
    (hl : goEq (h.nodes l).Value v = true) (fuel : Nat) :
    Delete fuel h ll v = Pop h ll := by
  have ht := (dWf_tail (I := a :: T) hw).1
  simp [Delete, (dWf_head hw).1, ha, ht, hl]

theorem dDelete_mid {h : Heap} {ll : LinkedList} {A B : List Nat} {p c n : Nat} {v : Any}
    (hw : Wf h ll (A ++ p :: c :: n :: B))
    (hA : ∀ a ∈ A ++ [p], goEq (h.nodes a).Value v = false)
    (hc : goEq (h.nodes c).Value v = true)
    (hl : ∀ l, (n :: B).getLast? = some l → goEq (h.nodes l).Value v = false) :
    Returns (fun fuel => Delete fuel h ll v) (A.length + 1)
        (setPrev (setNext h p (some n)) n (some p), { ll with Size := ll.Size - 1 }, none) := by
  obtain ⟨hcp, hcn, e1, e2, _⟩ := dUnlink_mid hw
  obtain ⟨a0, tl, hh, htl⟩ := Seg.ptr_ne_none hw.1 (by simp)
  have ha0 : goEq (h.nodes a0).Value v = false := by
    apply hA
    cases A with
    | nil => simp at htl; simp [htl.1]
    | cons x xs => simp at htl; simp [htl.1]
  have hne : n :: B ≠ [] := by simp
  have hsplit := List.dropLast_append_getLast hne
  have hlast := List.getLast?_eq_getLast (n :: B) hne
  generalize (n :: B).getLast hne = l at hsplit hlast
  have ht : ll.Tail = some l := by
    have : A ++ p :: c :: n :: B = (A ++ p :: c :: (n :: B).dropLast) ++ [l] := by
      rw [← hsplit]; simp
    rw [this] at hw
    exact (dWf_tail hw).1
  have hlv := hl l hlast
  have hloop : Returns (fun fuel => Delete.loop fuel h ll.Head v) (A ++ [p]).length (some c) :=
    dDelete_loop_found (A := A ++ [p]) (B := n :: B) (by simpa using hw.1) hA hc
  intro fuel
  have hD : Delete fuel h ll v = (Delete.loop fuel h ll.Head v).bind fun current =>
      match current with
      | none => .ok (h, ll, some .notFound)
      | some c =>
        match (h.nodes c).Prev with
        | none => .nilDeref
        | some p =>
          match ((setNext h p (h.nodes c).Next).nodes c).Next with
          | some n =>
            .ok (setPrev (setNext h p (h.nodes c).Next) n
              ((setNext h p (h.nodes c).Next).nodes c).Prev, { ll with Size := ll.Size - 1 }, none)
          | none => .ok (setNext h p (h.nodes c).Next, { ll with Size := ll.Size - 1 }, none) := by
    simp only [Delete, hh, ha0, ht, hlv, Bool.false_eq_true, if_false]
    try rfl
  beta_reduce
  rw [hD]
  rw [hcn] at e1 e2
  constructor
  · intro hf
    have e := (hloop fuel).1 (by simpa using hf)
    beta_reduce at e
    rw [e]
    simp only [Res.bind_ok, hcp, hcn, e1, e2]
  · rcases (hloop fuel).2 with e | e
    · beta_reduce at e; left; rw [e]; simp only [Res.bind_ok, hcp, hcn, e1, e2]
    · beta_reduce at e; right; rw [e]; rfl

theorem dDelete_absent {h : Heap} {ll : LinkedList} {a : Nat} {T : List Nat} {v : Any}
    (hw : Wf h ll (a :: T)) (hout : ∀ b ∈ a :: T, goEq (h.nodes b).Value v = false) :
    Returns (fun fuel => Delete fuel h ll v) (a :: T).length (h, ll, some .notFound) := by
  have hh := (dWf_head hw).1
  have ha0 := hout a (List.mem_cons_self _ _)
  have hne : a :: T ≠ [] := by simp
  have hsplit := List.dropLast_append_getLast hne
  generalize (a :: T).getLast hne = l at hsplit
  have hlmem : l ∈ a :: T := by rw [← hsplit]; simp
  have ht : ll.Tail = some l := by
    rw [← hsplit] at hw
    exact (dWf_tail hw).1
  have hlv := hout l hlmem
  have hloop := dDelete_loop_absent hw.1 hout
  intro fuel
  have hD : Delete fuel h ll v = (Delete.loop fuel h ll.Head v).bind fun current =>
      match current with
      | none => .ok (h, ll, some .notFound)
      | some c =>
        match (h.nodes c).Prev with
        | none => .nilDeref
        | some p =>
          match ((setNext h p (h.nodes c).Next).nodes c).Next with
          | some n =>
            .ok (setPrev (setNext h p (h.nodes c).Next) n
              ((setNext h p (h.nodes c).Next).nodes c).Prev, { ll with Size := ll.Size - 1 }, none)
          | none => .ok (setNext h p (h.nodes c).Next, { ll with Size := ll.Size - 1 }, none) := by
    simp only [Delete, hh, ha0, ht, hlv, Bool.false_eq_true, if_false]
    try rfl
  beta_reduce
  rw [hD]
  constructor
  · intro hf
    have e := (hloop fuel).1 hf
    beta_reduce at e
    rw [e]; rfl
  · rcases (hloop fuel).2 with e | e
    · beta_reduce at e; left; rw [e]; rfl
    · beta_reduce at e; right; rw [e]; rfl

end Doubly

namespace Doubly

/-! ## `Insert` -/

theorem dWalk_seg {h : Heap} {p r : Ptr} {as : List Nat} (hs : Seg Node.Next h p as r) :
    walk h p as.length = .ok r := by
  induction as generalizing p with
  | nil => simp only [Seg.nil_iff] at hs; simp [walk, hs]
  | cons a as ih =>
    obtain ⟨rfl, _, hn⟩ := hs
    simp only [List.length_cons, walk]
    exact ih hn

theorem dInsert_out {h : Heap} {ll : LinkedList} (v : Any) {index : Int}
    (hi : index < 0 ∨ index > ll.Size) :
    Insert h ll v index = .ok (h, ll, some .indexOutOfBounds) := by
  simp [Insert, hi]

theorem dInsert_zero {h : Heap} {ll : LinkedList} {as : List Nat} (v : Any)
    (hw : Wf h ll as) :
    ∃ h' ll', Insert h ll v 0 = .ok (h', ll', none) ∧ Wf h' ll' (h.size :: as) ∧
      values h' (h.size :: as) = v :: values h as ∧ h.Frame h' as ∧
      ll'.Size = ll.Size + 1 ∧ h'.size = h.size + 1 := by
  obtain ⟨_, h1, h2, h3, h4⟩ := dPrepend_spec v hw
  have hsz : ¬ (0 > ll.Size) := by rw [hw.2.2]; omega
  refine ⟨_, _, ?_, h1, h2, h3, ?_, h4⟩
  · simp only [Insert, lt_self_iff_false, hsz, or_self, if_false, if_true]
  · rw [h1.2.2, hw.2.2]; simp

theorem dInsert_end {h : Heap} {ll : LinkedList} {as : List Nat} (v : Any) {index : Int}
    (hw : Wf h ll as) (h0 : index ≠ 0) (hn : index = as.length) :
    ∃ h' ll', Insert h ll v index = .ok (h', ll', none) ∧ Wf h' ll' (as ++ [h.size]) ∧
      values h' (as ++ [h.size]) = values h as ++ [v] ∧ h.Frame h' as ∧
      ll'.Size = ll.Size + 1 ∧ h'.size = h.size + 1 := by
  obtain ⟨_, h1, h2, h3, h4⟩ := dAppend_spec v hw
  have hcond : ¬ (index < 0 ∨ index > ll.Size) := by rw [hw.2.2]; omega
  have hsz : index = ll.Size := by rw [hw.2.2]; exact hn
  refine ⟨_, _, ?_, h1, h2, h3, ?_, h4⟩
  · simp only [Insert, if_neg hcond, if_neg h0, if_pos hsz]
  · rw [h1.2.2, hw.2.2]; simp

theorem dInsert_mid {h : Heap} {ll : LinkedList} {as : List Nat} (v : Any) {index : Int}
    (hw : Wf h ll as) (h0 : 0 < index) (hn : index < as.length) :
    ∃ h' ll', Insert h ll v index = .ok (h', ll', none) ∧
      Post h as h' ll'
        ((values h as).take index.toNat ++ v :: (values h as).drop index.toNat) ∧
      ll'.Size = ll.Size + 1 := by
  obtain ⟨X, c, B, rfl, hX⟩ := List.split_at_index as index.toNat (by omega)
  have hXne : X ≠ [] := by
    intro e; subst e; simp at hX; omega
  rcases List.nil_or_snoc X with rfl | ⟨A, p, rfl⟩
  · exact absurd rfl hXne
  have hlenX : A.length + 1 = index.toNat := by simpa using hX
  have hlen : ((A ++ [p] ++ c :: B).length : Int) = A.length + 2 + B.length := by
    simp; omega
  have hw' : Wf h ll (A ++ p :: c :: B) := by simpa using hw
  have hadj := dWf_adj hw'
  have hlt := dWf_lt hw'
  have hnd := dWf_nodup hw'
  have hpc : p ≠ c := by
    intro e
    subst e
    have := (List.nodup_append.mp hnd).2.1
    simp at this
  have hplt : p < h.size := hlt p (by simp)
  have hclt : c < h.size := hlt c (by simp)
  obtain ⟨hn', hpv, hs⟩ := hw'
  have hwalk : walk h ll.Head index.toNat = .ok (some c) := by
    rw [← hX]
    obtain ⟨r, hr, hc⟩ := Seg.append_iff.mp hw.1
    have : r = some c := hc.1
    subst this
    exact dWalk_seg hr
  have hs' : ll.Size = A.length + 2 + B.length := by rw [hw.2.2, hlen]
  have hcond : ¬ (index < 0 ∨ index > ll.Size) := by rw [hs']; omega
  have hne : index ≠ ll.Size := by rw [hs']; omega
  have hc1 : ((h.alloc { Value := v, Next := some c, Prev := (h.nodes c).Prev }).nodes c).Prev =
      some p := by
    rw [dAlloc_lt h _ hclt]; exact hadj.2
  refine ⟨setPrev (setNext (h.alloc { Value := v, Next := some c, Prev := (h.nodes c).Prev }) p
      (some h.size)) c (some h.size), { ll with Size := ll.Size + 1 }, ?_,
    ⟨A ++ p :: h.size :: c :: B, ⟨?_, ?_, ?_⟩, ?_, ?_, ?_⟩, rfl⟩
  · simp only [Insert, if_neg hcond, if_neg (ne_of_gt h0), if_neg hne, hwalk, Res.bind_ok, hc1]
  · refine Seg.link hn' (le_refl _) (by simp) (by simp) ?_ ?_
    · rw [dSetPrev_next, dSetNext_ne _ _ (Nat.ne_of_gt hplt), dAlloc_new, hadj.1]
    · intro a ha hax
      rw [dSetPrev_next, dSetNext_ne _ _ ha, Mem.alloc]
      simp [Function.update_noteq hax]
  · have e : (A ++ p :: c :: B).reverse = B.reverse ++ c :: p :: A.reverse := by simp
    have e' : (A ++ p :: h.size :: c :: B).reverse =
        B.reverse ++ c :: h.size :: p :: A.reverse := by simp
    rw [e] at hpv
    rw [e']
    refine Seg.link hpv (le_refl _) (by simp) (by simp) ?_ ?_
    · rw [dSetPrev_ne _ _ (Nat.ne_of_gt hclt), dSetNext_prev, dAlloc_new]
    · intro a ha hax
      rw [dSetPrev_ne _ _ ha, dSetNext_prev, Mem.alloc]
      simp [Function.update_noteq hax]
  · simp [hs]; omega
  · have e1 : values h (A ++ [p] ++ c :: B) = values h (A ++ [p]) ++ values h (c :: B) := by simp
    rw [e1, List.take_left' (by simpa using hX), List.drop_left' (by simpa using hX)]
    rw [dValues_setPrev, dValues_setNext]
    have hAlt : ∀ a ∈ A, a < h.size := fun a ha => hlt a (by simp [ha])
    have hBlt : ∀ a ∈ B, a < h.size := fun a ha => hlt a (by simp [ha])
    simp only [dValues_append, dValues_cons, dValues_nil, dAlloc_new, List.append_assoc,
      List.singleton_append, List.cons_append, List.nil_append]
    rw [dValues_alloc _ hAlt, dValues_alloc _ hBlt, dAlloc_lt _ _ hplt, dAlloc_lt _ _ hclt]
  · refine ⟨by simp, fun a ha hna => ?_⟩
    have hap : a ≠ p := fun e => hna (by simp [e])
    have hac : a ≠ c := fun e => hna (by simp [e])
    rw [dSetPrev_ne _ _ hac, dSetNext_ne _ _ hap, dAlloc_lt _ _ ha]
  · intro a ha
    simp only [List.mem_append, List.mem_cons, List.mem_singleton] at ha
    rcases ha with ha | rfl | rfl | rfl | ha
    · left; simp [ha]
    · left; simp
    · right; exact le_refl _
    · left; simp
    · left; simp [ha]

/-! ## `DeleteAt` -/

theorem dDeleteAt_out {h : Heap} {ll : LinkedList} {index : Int}
    (hi : index < 0 ∨ index > ll.Size) :
    DeleteAt h ll index = .ok (h, ll, some .indexOutOfBounds) := by
  simp [DeleteAt, hi]

theorem dDeleteAt_zero {h : Heap} {ll : LinkedList} {as : List Nat} (hw : Wf h ll as) :
    DeleteAt h ll 0 = .ok ((Shift h ll).1, (Shift h ll).2.1, none) := by
  have hsz : ¬ (0 > ll.Size) := by rw [hw.2.2]; omega
  simp only [DeleteAt, lt_self_iff_false, hsz, or_self, if_false, if_true]

theorem dDeleteAt_last {h : Heap} {ll : LinkedList} {I : List Nat} {l : Nat} {index : Int}
    (hw : Wf h ll (I ++ [l])) (h0 : index ≠ 0) (hn : index = I.length) :
    ∃ h' ll', DeleteAt h ll index = .ok (h', ll', none) ∧ Wf h' ll' I ∧
      values h' I = values h I ∧ h.Frame h' (I ++ [l]) ∧ ll'.Size = ll.Size - 1 := by
  obtain ⟨h', ll', hp, h1, h2, h3, h4, _⟩ := dPop_spec hw
  have hs : ll.Size = I.length + 1 := by rw [hw.2.2]; simp
  have hcond : ¬ (index < 0 ∨ index > ll.Size) := by rw [hs]; omega
  have hlast : index = ll.Size - 1 := by rw [hs]; omega
  refine ⟨h', ll', ?_, h1, h2, h3, h4⟩
  simp only [DeleteAt, if_neg hcond, if_neg h0, if_pos hlast, hp, Res.bind_ok]

theorem dDeleteAt_mid {h : Heap} {ll : LinkedList} {as : List Nat} {index : Int}
    (hw : Wf h ll as) (h0 : 0 < index) (hn : index < (as.length : Int) - 1) :
    ∃ h' ll', DeleteAt h ll index = .ok (h', ll', none) ∧
      Post h as h' ll'
        ((values h as).take index.toNat ++ (values h as).drop (index.toNat + 1)) ∧
      ll'.Size = ll.Size - 1 := by
  obtain ⟨X, c, Y, rfl, hX⟩ := List.split_at_index as index.toNat (by omega)
  have hXne : X ≠ [] := by
    intro e; subst e; simp at hX; omega
  rcases List.nil_or_snoc X with rfl | ⟨A, p, rfl⟩
  · exact absurd rfl hXne
  have hlenX : A.length + 1 = index.toNat := by simpa using hX
  have hYne : Y ≠ [] := by
    intro e; subst e; simp at hn; omega
  obtain ⟨n, B, rfl⟩ := List.exists_cons_of_ne_nil hYne
  have hlen : ((A ++ [p] ++ c :: n :: B).length : Int) = A.length + 3 + B.length := by
    simp; omega
  have hw' : Wf h ll (A ++ p :: c :: n :: B) := by simpa using hw
  obtain ⟨hcp, hcn, e1, e2, hwf, hv, hfr⟩ := dUnlink_mid hw'
  rw [hcn] at e1 e2
  have hwalk : walk h ll.Head index.toNat = .ok (some c) := by
    rw [← hX]
    obtain ⟨r, hr, hc⟩ := Seg.append_iff.mp hw.1
    have : r = some c := hc.1
    subst this
    exact dWalk_seg hr
  have hs' : ll.Size = A.length + 3 + B.length := by rw [hw.2.2, hlen]
  have hcond : ¬ (index < 0 ∨ index > ll.Size) := by rw [hs']; omega
  have hne : index ≠ ll.Size - 1 := by rw [hs']; omega
  refine ⟨setPrev (setNext h p (some n)) n (some p), { ll with Size := ll.Size - 1 }, ?_,
    ⟨A ++ p :: n :: B, hwf, ?_, ?_, ?_⟩, rfl⟩
  · simp only [DeleteAt, if_neg hcond, if_neg (ne_of_gt h0), if_neg hne, hwalk, Res.bind_ok,
      hcp, hcn, e1, e2]
  · rw [hv]
    have e3 : values h (A ++ [p] ++ c :: n :: B) = values h (A ++ [p]) ++ values h (c :: n :: B) := by
      simp
    have e4 : values h (A ++ [p] ++ c :: n :: B) = values h (A ++ [p, c]) ++ values h (n :: B) := by
      simp
    have t1 : (values h (A ++ [p] ++ c :: n :: B)).take index.toNat = values h (A ++ [p]) := by
      rw [e3]; exact List.take_left' (by simpa using hX)
    have t2 : (values h (A ++ [p] ++ c :: n :: B)).drop (index.toNat + 1) = values h (n :: B) := by
      rw [e4]; exact List.drop_left' (by simp; omega)
    rw [t1, t2]
    simp
  · have e : A ++ [p] ++ c :: n :: B = A ++ p :: c :: n :: B := by simp
    rw [e]; exact hfr
  · intro a ha
    simp only [List.mem_append, List.mem_cons, List.mem_singleton] at ha
    rcases ha with ha | rfl | rfl | ha
    · left; simp [ha]
    · left; simp
    · left; simp
    · left; simp [ha]

theorem dDeleteAt_end {h : Heap} {ll : LinkedList} {as : List Nat} {index : Int}
    (hw : Wf h ll as) (h0 : 0 < index) (hn : index = as.length) :
    DeleteAt h ll index = .nilDeref := by
  have hwalk : walk h ll.Head index.toNat = .ok none := by
    have : index.toNat = as.length := by omega
    rw [this]
    exact dWalk_seg hw.1
  have hcond : ¬ (index < 0 ∨ index > ll.Size) := by rw [hw.2.2]; omega
  have hne : index ≠ ll.Size - 1 := by rw [hw.2.2]; omega
  simp only [DeleteAt, if_neg hcond, if_neg (ne_of_gt h0), if_neg hne, hwalk, Res.bind_ok]

end Doubly

namespace Doubly

/-! ## `Reverse` -/

theorem dReverse_loop {B : List Nat} :
    ∀ {h : Heap} {ll : LinkedList} {p : Ptr}, Seg Node.Next h p B none →
      ∃ h', Returns (fun fuel => Reverse.loop fuel h ll p) B.length
          (h', match B.getLast? with
               | none => ll
               | some l => { ll with Head := some l }) ∧
        (∀ a ∈ B, (h'.nodes a).Next = (h.nodes a).Prev ∧ (h'.nodes a).Prev = (h.nodes a).Next) ∧
        (∀ a, (h'.nodes a).Value = (h.nodes a).Value) ∧
        (∀ a, a ∉ B → h'.nodes a = h.nodes a) ∧ h'.size = h.size := by
  induction B with
  | nil =>
    intro h ll p hs
    simp only [Seg.nil_iff] at hs
    subst hs
    refine ⟨h, ?_, by simp, fun _ => rfl, fun _ _ => rfl, rfl⟩
    intro fuel
    cases fuel <;> simp [Reverse.loop]
  | cons c B ih =>
    intro h ll p hs
    have hnd := Seg.nodup hs
    obtain ⟨rfl, _, hs'⟩ := hs
    have hcB : c ∉ B := (List.nodup_cons.mp hnd).1
    have hs2 : Seg Node.Next (setPrev (setNext h c (h.nodes c).Prev) c (h.nodes c).Next)
        (h.nodes c).Next B none :=
      Seg.frame hs' (by simp) (fun a ha => by
        have hac : a ≠ c := fun e => hcB (e ▸ ha)
        rw [dSetPrev_next, dSetNext_ne _ _ hac])
    obtain ⟨h', hret, hfl, hval, hfr, hsz⟩ :=
      @ih (setPrev (setNext h c (h.nodes c).Prev) c (h.nodes c).Next)
        (if (h.nodes c).Next = none then { ll with Head := some c } else ll) (h.nodes c).Next hs2
    have hll : (match B.getLast? with
        | none => (if (h.nodes c).Next = none then { ll with Head := some c } else ll)
        | some l => { (if (h.nodes c).Next = none then { ll with Head := some c } else ll) with
            Head := some l }) =
        (match (c :: B).getLast? with
        | none => ll
        | some l => { ll with Head := some l }) := by
      cases B with
      | nil =>
        simp only [Seg.nil_iff] at hs'
        simp [hs']
      | cons b B' =>
        obtain ⟨x, _, hx, _⟩ := Seg.ptr_ne_none hs' (by simp)
        rw [List.getLast?_cons_cons]
        have hne : b :: B' ≠ [] := by simp
        rw [List.getLast?_eq_getLast _ hne]
        simp [hx]
    rw [hll] at hret
    refine ⟨h', ?_, ?_, fun a => by rw [hval a]; simp, ?_, by rw [hsz]; simp⟩
    · intro fuel
      cases fuel with
      | zero => simp [Reverse.loop]
      | succ f =>
        simp only [Reverse.loop, List.length_cons, Nat.succ_lt_succ_iff]
        exact hret f
    · intro a ha
      rcases List.mem_cons.mp ha with rfl | ha
      · rw [hfr a hcB]
        simp
      · have hac : a ≠ c := fun e => hcB (e ▸ ha)
        obtain ⟨h1, h2⟩ := hfl a ha
        rw [h1, h2, dSetPrev_ne _ _ hac, dSetNext_ne _ _ hac]
        exact ⟨rfl, rfl⟩
    · intro a ha
      have hac : a ≠ c := fun e => ha (by simp [e])
      rw [hfr a (fun hm => ha (List.mem_cons_of_mem _ hm)), dSetPrev_ne _ _ hac,
        dSetNext_ne _ _ hac]

theorem dReverse_nil {h : Heap} {ll : LinkedList} (hw : Wf h ll []) (fuel : Nat) :
    Reverse fuel h ll = .ok (h, ll, some .emptyList) := by
  simp [Reverse, (dWf_nil hw).1]

theorem dReverse_spec {h : Heap} {ll : LinkedList} {as : List Nat} (hw : Wf h ll as)
    (hne : as ≠ []) :
    ∃ h' ll', Returns (fun fuel => Reverse fuel h ll) as.length (h', ll', none) ∧
      Wf h' ll' as.reverse ∧ values h' as.reverse = (values h as).reverse ∧
      h.Frame h' as ∧ ll'.Size = ll.Size := by
  obtain ⟨a, T, rfl⟩ := List.exists_cons_of_ne_nil hne
  obtain ⟨hh, _, _⟩ := dWf_head hw
  cases T with
  | nil =>
    have hsz : ll.Size ≤ 1 := by rw [hw.2.2]; simp
    refine ⟨h, ll, ?_, by simpa using hw, by simp, Mem.Frame.refl _ _, rfl⟩
    simp only [Reverse, hh, hsz, if_true]
    exact Returns.const _ _
  | cons b T =>
    have hsz : ¬ ll.Size ≤ 1 := by rw [hw.2.2]; simp
    have hsplit := List.dropLast_append_getLast (l := a :: b :: T) (by simp)
    have hlast := List.getLast?_eq_getLast (a :: b :: T) (by simp)
    generalize (a :: b :: T).getLast (by simp) = l at hsplit hlast
    have ht : ll.Tail = some l := by
      have hw' := hw
      rw [← hsplit] at hw'
      exact (dWf_tail hw').1
    obtain ⟨hn, hpv, hs⟩ := hw
    obtain ⟨h', hret, hfl, hval, hfr, hsize⟩ :=
      @dReverse_loop (a :: b :: T) h { ll with Tail := ll.Head } ll.Head hn
    rw [hlast] at hret
    refine ⟨h', { Head := some l, Tail := ll.Head, Size := ll.Size }, ?_, ⟨?_, ?_, ?_⟩, ?_,
      ⟨by omega, fun x _ hx => hfr x hx⟩, rfl⟩
    · simp only [Reverse, hh, hsz, if_false]
      rw [← hh]
      exact hret.map (fun r => (r.1, r.2, (none : Option Error))) (le_refl _)
    · rw [ht] at hpv
      exact Seg.transfer hpv (by omega) (fun x hx => (hfl x (List.mem_reverse.mp hx)).1)
    · rw [List.reverse_reverse]
      exact Seg.transfer hn (by omega) (fun x hx => (hfl x hx).2)
    · simp [hs]; omega
    · rw [dValues_reverse]
      congr 1
      exact dValues_congr (fun x _ => hval x)

/-! ## `FromSlice`, `FromArray` and `Merge` -/

theorem dFromSlice_loop {V : List Any} :
    ∀ {h : Heap} {ll : LinkedList} {as : List Nat}, Wf h ll as →
      ∃ h' ll', FromSlice.loop h ll V = (h', ll', none) ∧
        Wf h' ll' (as ++ List.range' h.size V.length) ∧
        values h' (as ++ List.range' h.size V.length) = values h as ++ V ∧
        h.Frame h' as ∧ h'.size = h.size + V.length := by
  induction V with
  | nil =>
    intro h ll as hw
    exact ⟨h, ll, rfl, by simpa using hw, by simp, Mem.Frame.refl _ _, rfl⟩
  | cons v V ih =>
    intro h ll as hw
    obtain ⟨he, hw1, hv1, hf1, hsz1⟩ := dAppend_spec v hw
    obtain ⟨h', ll', hret, hw', hv', hf', hsz'⟩ := ih hw1
    have e : as ++ List.range' h.size (v :: V).length =
        as ++ [h.size] ++ List.range' (Append h ll v).1.size V.length := by
      rw [hsz1]; simp [List.range'_succ]
    refine ⟨h', ll', ?_, by rw [e]; exact hw', ?_, ?_, by rw [hsz', hsz1]; simp; omega⟩
    · have hA : Append h ll v = ((Append h ll v).1, (Append h ll v).2.1, none) := by
        rw [← he]
      simp only [FromSlice.loop]
      rw [hA]
      exact hret
    · rw [e, hv', hv1]; simp
    · exact hf1.trans hf' (fun a ha => by
        rcases List.mem_append.mp ha with ha | ha
        · exact Or.inl ha
        · simp at ha; omega)

theorem dFromSlice_spec (h : Heap) (ll : LinkedList) (vs : List Any) :
    ∃ h' ll', FromSlice h ll (some vs) = (h', ll', none) ∧
      Wf h' ll' (List.range' h.size vs.length) ∧
      values h' (List.range' h.size vs.length) = vs ∧
      h.Frame h' [] ∧ h'.size = h.size + vs.length := by
  have hw0 : Wf h (Clear ll) [] := ⟨rfl, rfl, rfl⟩
  obtain ⟨h', ll', hret, hw', hv', hf', hsz'⟩ := dFromSlice_loop (V := vs) hw0
  exact ⟨h', ll', hret, by simpa using hw', by simpa using hv', hf', hsz'⟩

theorem dFromArray_spec (h : Heap) (ll : LinkedList) (vs : List Any) :
    ∃ h' ll', FromArray h ll (some vs) = (h', ll', none) ∧
      Wf h' ll' (List.range' h.size vs.length) ∧
      values h' (List.range' h.size vs.length) = vs ∧
      h.Frame h' [] ∧ h'.size = h.size + vs.length := by
  have hw0 : Wf h (Clear ll) [] := ⟨rfl, rfl, rfl⟩
  obtain ⟨h', ll', hret, hw', hv', hf', hsz'⟩ := dFromSlice_loop (V := vs) hw0
  exact ⟨h', ll', hret, by simpa using hw', by simpa using hv', hf', hsz'⟩

theorem dMerge_loop {B : List Nat} :
    ∀ {h : Heap} {ll : LinkedList} {as : List Nat} {p : Ptr}, Wf h ll as →
      Seg Node.Next h p B none → (∀ a ∈ B, a ∉ as) →
      ∃ h' ll', Returns (fun fuel => Merge.loop fuel h ll p) B.length (h', ll', none) ∧
        Wf h' ll' (as ++ List.range' h.size B.length) ∧
        values h' (as ++ List.range' h.size B.length) = values h as ++ values h B ∧
        h.Frame h' as ∧ h'.size = h.size + B.length := by
  induction B with
  | nil =>
    intro h ll as p hw hB _
    simp only [Seg.nil_iff] at hB
    subst hB
    refine ⟨h, ll, ?_, by simpa using hw, by simp, Mem.Frame.refl _ _, rfl⟩
    intro fuel
    cases fuel <;> simp [Merge.loop]
  | cons b B ih =>
    intro h ll as p hw hB hdis
    have hBlt := Seg.lt_size hB
    obtain ⟨rfl, hb, hB'⟩ := hB
    obtain ⟨he, hw1, hv1, hf1, hsz1⟩ := dAppend_spec (h.nodes b).Value hw
    have hb1 : (Append h ll (h.nodes b).Value).1.nodes b = h.nodes b :=
      hf1.2 b hb (hdis b (List.mem_cons_self _ _))
    have hB1 : Seg Node.Next (Append h ll (h.nodes b).Value).1
        ((Append h ll (h.nodes b).Value).1.nodes b).Next B none := by
      rw [hb1]
      exact Seg.of_frame hf1 hB' (fun a ha => hdis a (List.mem_cons_of_mem _ ha))
    have hdis1 : ∀ a ∈ B, a ∉ as ++ [h.size] := by
      intro a ha hm
      rcases List.mem_append.mp hm with hm | hm
      · exact hdis a (List.mem_cons_of_mem _ ha) hm
      · have := hBlt a (List.mem_cons_of_mem _ ha)
        simp at hm; omega
    obtain ⟨h', ll', hret, hw', hv', hf', hsz'⟩ := ih hw1 hB1 hdis1
    have e : as ++ List.range' h.size (b :: B).length =
        as ++ [h.size] ++ List.range' (Append h ll (h.nodes b).Value).1.size B.length := by
      rw [hsz1]; simp [List.range'_succ]
    have hvB : values (Append h ll (h.nodes b).Value).1 B = values h B :=
      dValues_congr (fun a ha => by
        rw [hf1.2 a (hBlt a (List.mem_cons_of_mem _ ha)) (hdis a (List.mem_cons_of_mem _ ha))])
    have hA : Append h ll (h.nodes b).Value =
        ((Append h ll (h.nodes b).Value).1, (Append h ll (h.nodes b).Value).2.1, none) := by
      rw [← he]
    refine ⟨h', ll', ?_, by rw [e]; exact hw', ?_, ?_, by rw [hsz', hsz1]; simp; omega⟩
    · intro fuel
      cases fuel with
      | zero => simp [Merge.loop]
      | succ f =>
        simp only [Merge.loop, List.length_cons, Nat.succ_lt_succ_iff]
        rw [hA]
        exact hret f
    · rw [e, hv', hv1, hvB]; simp
    · exact hf1.trans hf' (fun a ha => by
        rcases List.mem_append.mp ha with ha | ha
        · exact Or.inl ha
        · simp at ha; omega)

theorem dMerge_nil (fuel : Nat) (h : Heap) (ll : LinkedList) :
    Merge fuel h ll none = .ok (h, ll, some .nilList) := rfl

theorem dMerge_spec {h : Heap} {ll other : LinkedList} {as bs : List Nat}
    (hw : Wf h ll as) (ho : Wf h other bs) (hdis : ∀ a ∈ bs, a ∉ as) :
    ∃ h' ll', Returns (fun fuel => Merge fuel h ll (some other)) bs.length (h', ll', none) ∧
      Wf h' ll' (as ++ List.range' h.size bs.length) ∧
      values h' (as ++ List.range' h.size bs.length) = values h as ++ values h bs ∧
      h.Frame h' as ∧ h'.size = h.size + bs.length :=
  dMerge_loop hw ho.1 hdis

end Doubly

namespace Doubly

/-! ## `Unique` -/

theorem dUnlink_last {h : Heap} {ll : LinkedList} {J : List Nat} {s l : Nat}
    (hw : Wf h ll (J ++ s :: l :: [])) :
    (h.nodes l).Next = none ∧ (h.nodes s).Next = some l ∧
      Wf (setNext h s none) { ll with Tail := some s, Size := ll.Size - 1 } (J ++ [s]) ∧
      h.Frame (setNext h s none) (J ++ s :: l :: []) := by
  have hw2 : Wf h ll ((J ++ [s]) ++ [l]) := by simpa using hw
  obtain ⟨_, hnl, _⟩ := dWf_tail hw2
  have hadj := dWf_adj (B := []) hw
  obtain ⟨hn, hpv, hs⟩ := hw
  refine ⟨hnl, hadj.1, ⟨?_, ?_, ?_⟩, dFrame_setNext _ _ (by simp)⟩
  · have := Seg.unlink (M := setNext h s none) hn (by simp) (by simp [hnl])
      (fun c hc => by rw [dSetNext_ne _ _ hc])
    simpa using this
  · have e : (J ++ s :: l :: []).reverse = l :: (J ++ [s]).reverse := by simp
    rw [e] at hpv
    have h2 := hpv.2.2
    rw [hadj.2] at h2
    exact Seg.transfer h2 (by simp) (fun c _ => by simp)
  · simp [hs]; omega

theorem dUnique_loop {B : List Nat} :
    ∀ {h : Heap} {ll : LinkedList} {A : List Nat} {c : Nat} {vis : Visited},
      Wf h ll (A ++ c :: B) →
      ∃ h' ll', Returns (fun fuel => Unique.loop fuel h ll vis c) B.length (h', ll') ∧
        Wf h' ll' (A ++ c :: keepNew (fun a => (h.nodes a).Value) vis B) ∧
        (∀ a, (h'.nodes a).Value = (h.nodes a).Value) ∧ h'.size = h.size ∧
        (∀ a, a ∉ A ++ c :: B → h'.nodes a = h.nodes a) := by
  induction B with
  | nil =>
    intro h ll A c vis hw
    have hcn : (h.nodes c).Next = none := (dWf_tail (I := A) (by simpa using hw)).2.1
    refine ⟨h, ll, ?_, by simpa [keepNew] using hw, fun _ => rfl, rfl, fun _ _ => rfl⟩
    intro fuel
    cases fuel with
    | zero => simp [Unique.loop]
    | succ f => simp [Unique.loop, hcn]
  | cons n B ih =>
    intro h ll A c vis hw
    have hcn : (h.nodes c).Next = some n := (dWf_adj hw).1
    have hnd := dWf_nodup hw
    have hcne : c ≠ n := by
      intro e
      subst e
      have := (List.nodup_append.mp hnd).2.1
      simp at this
    by_cases hv : vis.get (h.nodes n).Value = true
    · have hk : keepNew (fun a => (h.nodes a).Value) vis (n :: B) =
          keepNew (fun a => (h.nodes a).Value) vis B := by simp [keepNew, hv]
      rw [hk]
      cases B with
      | nil =>
        obtain ⟨hnl, _, hw1, hf1⟩ := dUnlink_last hw
        obtain ⟨h', ll', hret, hw', hval, hsz, hfr⟩ :=
          @ih (setNext h c none) { ll with Tail := some c, Size := ll.Size - 1 } A c vis
            (by simpa using hw1)
        refine ⟨h', ll', ?_, by simpa [keepNew] using hw', fun a => by rw [hval a]; simp,
          by rw [hsz]; simp, ?_⟩
        · intro fuel
          cases fuel with
          | zero => simp [Unique.loop]
          | succ f =>
            simp only [Unique.loop, hcn, hv, if_true, hnl, dSetNext_next_same,
              List.length_cons, Nat.succ_lt_succ_iff]
            exact hret f
        · intro a ha
          have hac : a ≠ c := fun e => ha (by simp [e])
          rw [hfr a (fun hm => ha (by
            rcases List.mem_append.mp hm with hm | hm
            · exact List.mem_append_left _ hm
            · simp at hm; simp [hm])), dSetNext_ne _ _ hac]
      | cons m B =>
        obtain ⟨_, hnm, e1, _, hw1, _, hf1⟩ := dUnlink_mid hw
        obtain ⟨h', ll', hret, hw', hval, hsz, hfr⟩ :=
          @ih (setPrev (setNext h c (some m)) m (some c)) { ll with Size := ll.Size - 1 } A c vis
            hw1
        have hkey : keepNew (fun a => ((setPrev (setNext h c (some m)) m (some c)).nodes a).Value)
            vis (m :: B) = keepNew (fun a => (h.nodes a).Value) vis (m :: B) :=
          keepNew_congr (fun a => by simp) vis (m :: B)
        rw [hkey] at hw'
        refine ⟨h', ll', ?_, hw', fun a => by rw [hval a]; simp, by rw [hsz]; simp, ?_⟩
        · intro fuel
          cases fuel with
          | zero => simp [Unique.loop]
          | succ f =>
            have hstep : Unique.loop (f + 1) h ll vis c =
                Unique.loop f (setPrev (setNext h c (some m)) m (some c))
                  { ll with Size := ll.Size - 1 } vis c := by
              simp only [Unique.loop, hcn, hv, if_true, hnm, dSetNext_next_same]
            beta_reduce
            rw [hstep]
            have := hret f
            beta_reduce at this
            simp only [List.length_cons, Nat.succ_lt_succ_iff] at this ⊢
            exact this
        · intro a ha
          have hac : a ≠ c := fun e => ha (by simp [e])
          have ham : a ≠ m := fun e => ha (by simp [e])
          rw [hfr a (fun hm => ha (by
            rcases List.mem_append.mp hm with hm | hm
            · exact List.mem_append_left _ hm
            · simp at hm
              rcases hm with hm | hm | hm
              · simp [hm]
              · simp [hm]
              · simp [hm])), dSetPrev_ne _ _ ham, dSetNext_ne _ _ hac]
    · have hw1 : Wf h ll ((A ++ [c]) ++ n :: B) := by simpa using hw
      obtain ⟨h', ll', hret, hw', hval, hsz, hfr⟩ :=
        @ih h ll (A ++ [c]) n (vis.set (h.nodes n).Value) hw1
      have hk : keepNew (fun a => (h.nodes a).Value) vis (n :: B) =
          n :: keepNew (fun a => (h.nodes a).Value) (vis.set (h.nodes n).Value) B := by
        simp [keepNew, hv]
      rw [hk]
      refine ⟨h', ll', ?_, by simpa using hw', hval, hsz, fun a ha => hfr a (by simpa using ha)⟩
      intro fuel
      cases fuel with
      | zero => simp [Unique.loop]
      | succ f =>
        simp only [Unique.loop, hcn, hv, if_false, List.length_cons, Nat.succ_lt_succ_iff]
        exact hret f

theorem dKeepNew_subset {α : Type} (key : α → Any) (xs : List α) :
    ∀ (vis : Visited) (a : α), a ∈ keepNew key vis xs → a ∈ xs := by
  induction xs with
  | nil => intro vis a h; simp [keepNew] at h
  | cons x xs ih =>
    intro vis a h
    by_cases hx : vis.get (key x) = true
    · simp only [keepNew, hx, if_true] at h
      exact List.mem_cons_of_mem _ (ih vis a h)
    · simp only [keepNew, hx, if_false] at h
      rcases List.mem_cons.mp h with rfl | h
      · exact List.mem_cons_self _ _
      · exact List.mem_cons_of_mem _ (ih _ a h)

theorem dUnique_nil {h : Heap} {ll : LinkedList} (hw : Wf h ll []) (fuel : Nat) :
    Unique fuel h ll = .ok (h, ll, some .emptyList) := by
  simp [Unique, (dWf_nil hw).1]

theorem dUnique_spec {h : Heap} {ll : LinkedList} {as : List Nat}
    (hw : Wf h ll as) (hne : as ≠ []) :
    ∃ h' ll', Returns (fun fuel => Unique fuel h ll) as.length (h', ll', none) ∧
      Post h as h' ll' (dedupFrom [] (values h as)) := by
  obtain ⟨c, B, rfl⟩ := List.exists_cons_of_ne_nil hne
  obtain ⟨hh, _, _⟩ := dWf_head hw
  have hd : dedupFrom [] (values h (c :: B)) =
      (h.nodes c).Value :: dedupFrom [(h.nodes c).Value] (values h B) := by
    rw [dValues_cons]; simp [dedupFrom]
  cases B with
  | nil =>
    refine ⟨h, ll, ?_, ⟨[c], hw, by simp [dedupFrom], Mem.Frame.refl _ _, fun a ha => Or.inl ha⟩⟩
    have : ll.Size ≤ 1 := by rw [hw.2.2]; simp
    simp only [Unique, hh, this, if_true]
    exact Returns.const _ _
  | cons n B =>
    have hsz : ¬ ll.Size ≤ 1 := by rw [hw.2.2]; simp
    obtain ⟨h', ll', hret, hw', hval, hsize', hfr⟩ :=
      @dUnique_loop (n :: B) h ll [] c (Visited.set [] (h.nodes c).Value) hw
    refine ⟨h', ll', ?_, ⟨_, hw', ?_, ⟨by omega, fun a _ ha => hfr a (by simpa using ha)⟩, ?_⟩⟩
    · simp only [Unique, hh, hsz, if_false]
      exact hret.map (fun r => (r.1, r.2, (none : Option Error))) (by simp)
    · rw [hd]
      simp only [List.nil_append, dValues_cons, hval]
      congr 1
      have e1 : values h' (keepNew (fun a => (h.nodes a).Value)
          (Visited.set [] (h.nodes c).Value) (n :: B)) =
          (keepNew (fun a => (h.nodes a).Value)
          (Visited.set [] (h.nodes c).Value) (n :: B)).map (fun a => (h.nodes a).Value) :=
        List.map_congr_left (fun a _ => hval a)
      rw [e1, keepNew_map]
      exact keepNew_eq_dedupFrom _ _ _ (fun x => by simp [Visited.set, Visited.get])
    · intro a ha
      left
      rcases List.mem_cons.mp (by simpa using ha) with rfl | ha
      · exact List.mem_cons_self _ _
      · exact List.mem_cons_of_mem _ (dKeepNew_subset _ _ _ _ ha)

/-! ## `Sort` -/

@[simp] theorem dSwap_size (h : Heap) (c n : Nat) : (swapValues h c n).size = h.size := rfl

@[simp] theorem dSwap_next (h : Heap) (c n a : Nat) :
    ((swapValues h c n).nodes a).Next = (h.nodes a).Next := by
  simp [swapValues]

@[simp] theorem dSwap_prev (h : Heap) (c n a : Nat) :
    ((swapValues h c n).nodes a).Prev = (h.nodes a).Prev := by
  simp [swapValues]

theorem dSwap_left (h : Heap) {c n : Nat} (hcn : c ≠ n) :
    ((swapValues h c n).nodes c).Value = (h.nodes n).Value := by
  simp [swapValues, dSetValue_ne _ _ hcn]

theorem dSwap_right (h : Heap) (c n : Nat) :
    ((swapValues h c n).nodes n).Value = (h.nodes c).Value := by
  simp [swapValues]

theorem dSwap_other (h : Heap) {c n a : Nat} (hc : a ≠ c) (hn : a ≠ n) :
    (swapValues h c n).nodes a = h.nodes a := by
  simp [swapValues, setValue, Mem.put, Function.update_noteq hc, Function.update_noteq hn]

theorem dSort_pass {T : List Nat} :
    ∀ {h : Heap} {c : Nat} (sw : Bool), Seg Node.Next h (some c) (c :: T) none →
      ∃ h', Returns (fun fuel => SortList.pass fuel h c sw) T.length
          (h', (bubblePass (h.nodes c).Value (values h T) sw).2) ∧
        values h' (c :: T) = (bubblePass (h.nodes c).Value (values h T) sw).1 ∧
        (∀ a, (h'.nodes a).Next = (h.nodes a).Next ∧ (h'.nodes a).Prev = (h.nodes a).Prev) ∧
        h'.size = h.size ∧
        (∀ a, a ∉ c :: T → h'.nodes a = h.nodes a) := by
  induction T with
  | nil =>
    intro h c sw hs
    have hcn : (h.nodes c).Next = none := hs.2.2
    refine ⟨h, ?_, by simp [bubblePass], fun _ => ⟨rfl, rfl⟩, rfl, fun _ _ => rfl⟩
    intro fuel
    cases fuel with
    | zero => simp [SortList.pass]
    | succ f => simp [SortList.pass, hcn, bubblePass]
  | cons n T ih =>
    intro h c sw hs
    have hnd := Seg.nodup hs
    obtain ⟨_, _, hs'⟩ := hs
    have hcn : (h.nodes c).Next = some n := hs'.1
    rw [hcn] at hs'
    have hc_ne : c ≠ n := by
      intro e; subst e; simp at hnd
    have hcT : c ∉ T := fun hm => (List.nodup_cons.mp hnd).1 (List.mem_cons_of_mem _ hm)
    have hnT : n ∉ T := (List.nodup_cons.mp (List.nodup_cons.mp hnd).2).1
    cases hxy : sortGt (h.nodes c).Value (h.nodes n).Value with
    | error e =>
      have hbp : bubblePass (h.nodes c).Value (values h (n :: T)) sw =
          ((h.nodes c).Value :: values h (n :: T), sw, some e) := by
        rw [dValues_cons]; simp only [bubblePass, hxy]
      rw [hbp]
      refine ⟨h, ?_, by simp, fun _ => ⟨rfl, rfl⟩, rfl, fun _ _ => rfl⟩
      intro fuel
      cases fuel with
      | zero => simp [SortList.pass]
      | succ f => simp [SortList.pass, hcn, hxy]
    | ok b =>
      cases b with
      | true =>
        have hs1 : Seg Node.Next (swapValues h c n) (some n) (n :: T) none :=
          Seg.frame hs' (by simp) (fun a _ => by simp)
        obtain ⟨h', hret, hv, hnx, hsz, hfr⟩ := ih true hs1
        have hvT : values (swapValues h c n) T = values h T :=
          dValues_congr (fun a ha => by
            rw [dSwap_other h (fun e : a = c => hcT (e ▸ ha)) (fun e : a = n => hnT (e ▸ ha))])
        rw [dSwap_right, hvT] at hret hv
        have hbp : bubblePass (h.nodes c).Value (values h (n :: T)) sw =
            ((h.nodes n).Value :: (bubblePass (h.nodes c).Value (values h T) true).1,
              (bubblePass (h.nodes c).Value (values h T) true).2) := by
          rw [dValues_cons]; simp only [bubblePass, hxy]
        rw [hbp]
        refine ⟨h', ?_, ?_, fun a => ⟨by rw [(hnx a).1, dSwap_next], by rw [(hnx a).2, dSwap_prev]⟩,
          by simp [hsz], ?_⟩
        · intro fuel
          cases fuel with
          | zero => simp [SortList.pass]
          | succ f =>
            simp only [SortList.pass, hcn, hxy, List.length_cons, Nat.succ_lt_succ_iff]
            exact hret f
        · have hc' : (h'.nodes c).Value = (h.nodes n).Value := by
            rw [hfr c (by simp [hc_ne, hcT]), dSwap_left h hc_ne]
          rw [dValues_cons, hv, hc']
        · intro a ha
          have hac : a ≠ c := fun e => ha (by simp [e])
          have han : a ≠ n := fun e => ha (by simp [e])
          rw [hfr a (fun hm => ha (List.mem_cons_of_mem _ hm)), dSwap_other h hac han]
      | false =>
        obtain ⟨h', hret, hv, hnx, hsz, hfr⟩ := ih sw hs'
        have hbp : bubblePass (h.nodes c).Value (values h (n :: T)) sw =
            ((h.nodes c).Value :: (bubblePass (h.nodes n).Value (values h T) sw).1,
              (bubblePass (h.nodes n).Value (values h T) sw).2) := by
          rw [dValues_cons]; simp only [bubblePass, hxy]
        rw [hbp]
        refine ⟨h', ?_, ?_, hnx, hsz, fun a ha => hfr a (fun hm => ha (List.mem_cons_of_mem _ hm))⟩
        · intro fuel
          cases fuel with
          | zero => simp [SortList.pass]
          | succ f =>
            simp only [SortList.pass, hcn, hxy, List.length_cons, Nat.succ_lt_succ_iff]
            exact hret f
        · have hc' : (h'.nodes c).Value = (h.nodes c).Value := by
            rw [hfr c (by simp [hc_ne, hcT])]
          rw [dValues_cons, hv, hc']

theorem dSort_loop (n : Nat) :
    ∀ {h : Heap} {c : Nat} {T : List Nat}, Seg Node.Next h (some c) (c :: T) none →
      inversions (values h (c :: T)) ≤ n →
      ∃ h' e,
        (∀ fuel k, (T.length < fuel → n < k → SortList.loop fuel k h (some c) = .ok (h', e)) ∧
          (SortList.loop fuel k h (some c) = .ok (h', e) ∨
            SortList.loop fuel k h (some c) = .outOfFuel)) ∧
        (values h' (c :: T)).Perm (values h (c :: T)) ∧
        (e = none → InOrder (values h' (c :: T))) ∧
        (∀ k, k ≠ Kind.other → (∀ v ∈ values h (c :: T), v.kind = k) → e = none) ∧
        ((∀ v ∈ values h (c :: T), v.kind ≠ .other) →
          (∃ v ∈ values h T, v.kind ≠ (h.nodes c).Value.kind) → e = some .mismatchedTypes) ∧
        (∀ a, (h'.nodes a).Next = (h.nodes a).Next ∧ (h'.nodes a).Prev = (h.nodes a).Prev) ∧
        h'.size = h.size ∧
        (∀ a, a ∉ c :: T → h'.nodes a = h.nodes a) := by
  induction n using Nat.strong_induction_on with
  | _ n ih =>
    intro h c T hs hinv
    obtain ⟨h1, hret1, hv1, hnx1, hsz1, hfr1⟩ := dSort_pass false hs
    have hperm1 : (values h1 (c :: T)).Perm (values h (c :: T)) := by
      rw [hv1]; exact bubblePass_perm _ _ _
    have hsame : ∀ k, k ≠ Kind.other → (∀ v ∈ values h (c :: T), v.kind = k) →
        (bubblePass (h.nodes c).Value (values h T) false).2.2 = none := by
      intro k hk hall
      have hc : (h.nodes c).Value.kind = k := hall _ (by simp)
      exact bubblePass_same_kind _ _ _ (by rw [hc]; exact hk)
        (fun v hv => by rw [hc]; exact hall v (by simp [hv]))
    have hmixed : (∀ v ∈ values h (c :: T), v.kind ≠ .other) →
        (∃ v ∈ values h T, v.kind ≠ (h.nodes c).Value.kind) →
        (bubblePass (h.nodes c).Value (values h T) false).2.2 = some .mismatchedTypes :=
      fun h1 h2 => bubblePass_mixed _ _ _ (by simpa using h1) h2
    cases herr : (bubblePass (h.nodes c).Value (values h T) false).2.2 with
    | some e =>
      refine ⟨h1, some e, ?_, hperm1, by simp, ?_, ?_, hnx1, hsz1, hfr1⟩
      · intro fuel k
        cases k with
        | zero => simp [SortList.loop]
        | succ k =>
          simp only [SortList.loop]
          constructor
          · intro hf _
            have e1 := (hret1 fuel).1 hf
            beta_reduce at e1
            rw [e1]; simp [herr]
          · rcases (hret1 fuel).2 with e1 | e1
            · beta_reduce at e1; rw [e1]; left; simp [herr]
            · beta_reduce at e1; rw [e1]; right; rfl
      · intro k hk hall
        rw [hsame k hk hall] at herr; cases herr
      · intro ha hb
        rw [hmixed ha hb] at herr; exact herr.symm
    | none =>
      cases hflag : (bubblePass (h.nodes c).Value (values h T) false).2.1 with
      | false =>
        obtain ⟨hun, hord⟩ := bubblePass_unchanged _ _ hflag
        refine ⟨h1, none, ?_, hperm1, ?_, fun _ _ _ => rfl, ?_, hnx1, hsz1, hfr1⟩
        · intro fuel k
          cases k with
          | zero => simp [SortList.loop]
          | succ k =>
            simp only [SortList.loop]
            constructor
            · intro hf _
              have e1 := (hret1 fuel).1 hf
              beta_reduce at e1
              rw [e1]; simp [herr, hflag]
            · rcases (hret1 fuel).2 with e1 | e1
              · beta_reduce at e1; rw [e1]; left; simp [herr, hflag]
              · beta_reduce at e1; rw [e1]; right; rfl
        · intro _
          rw [hv1, hun]
          exact hord herr
        · intro ha hb
          rw [hmixed ha hb] at herr; cases herr
      | true =>
        have hlt := (bubblePass_inversions (values h T) (h.nodes c).Value false).2 rfl hflag
        rw [← hv1] at hlt
        have hlt' : inversions (values h1 (c :: T)) < n := lt_of_lt_of_le hlt hinv
        have hs1 : Seg Node.Next h1 (some c) (c :: T) none :=
          Seg.frame hs (by omega) (fun a _ => (hnx1 a).1)
        obtain ⟨h', e, hret, hperm, hord, hk', _, hnx, hsz, hfr⟩ :=
          ih _ hlt' hs1 (le_refl _)
        refine ⟨h', e, ?_, hperm.trans hperm1, hord, ?_, ?_, fun a => ⟨by rw [(hnx a).1, (hnx1 a).1], by rw [(hnx a).2, (hnx1 a).2]⟩,
          by rw [hsz, hsz1], fun a ha => by rw [hfr a ha, hfr1 a ha]⟩
        · intro fuel k
          cases k with
          | zero => simp [SortList.loop]
          | succ k =>
            simp only [SortList.loop]
            constructor
            · intro hf hk
              have e1 := (hret1 fuel).1 hf
              beta_reduce at e1
              rw [e1]; simp only [Res.bind_ok, herr, hflag, if_true]
              exact (hret fuel k).1 hf (by omega)
            · rcases (hret1 fuel).2 with e1 | e1
              · beta_reduce at e1; rw [e1]; simp only [Res.bind_ok, herr, hflag, if_true]
                exact (hret fuel k).2
              · beta_reduce at e1; rw [e1]; right; rfl
        · intro k hk hall
          exact hk' k hk (fun v hv => hall v (hperm1.subset hv))
        · intro ha hb
          rw [hmixed ha hb] at herr; cases herr

theorem dSort_spec {h : Heap} {ll : LinkedList} {as : List Nat} (hw : Wf h ll as) :
    ∃ h' e, Returns (fun fuel => SortList fuel h ll) (as.length * as.length) (h', ll, e) ∧
      Wf h' ll as ∧ (values h' as).Perm (values h as) ∧
      (e = none → InOrder (values h' as)) ∧
      (∀ k, k ≠ Kind.other → (∀ v ∈ values h as, v.kind = k) → e = none) ∧
      ((∀ v ∈ values h as, v.kind ≠ .other) →
        (∃ v ∈ values h as, ∃ w ∈ values h as, v.kind ≠ w.kind) →
        e = some .mismatchedTypes) ∧
      h.Frame h' as := by
  obtain ⟨hseg, hprev, hsize⟩ := hw
  by_cases hle : as.length ≤ 1
  · have hsz : ll.Size ≤ 1 := by rw [hsize]; exact_mod_cast hle
    refine ⟨h, none, ?_, ⟨hseg, hprev, hsize⟩, List.Perm.refl _, ?_, fun _ _ _ => rfl, ?_,
      Mem.Frame.refl _ _⟩
    · simp only [SortList, hsz, if_true]
      exact Returns.const _ _
    · intro _
      match as, hle with
      | [], _ => exact trivial
      | [a], _ => exact trivial
    · intro _ hmix
      exfalso
      match as, hle, hmix with
      | [], _, hmix => simp at hmix
      | [a], _, hmix => simp at hmix
  · have hsz : ¬ ll.Size ≤ 1 := by rw [hsize]; exact_mod_cast hle
    obtain ⟨c, T, rfl⟩ := List.exists_cons_of_ne_nil (fun e : as = [] => hle (by simp [e]))
    have hhead : ll.Head = some c := hseg.1
    rw [hhead] at hseg
    obtain ⟨h', e, hret, hperm, hord, hsame, hmixed, hnx, hsize', hfr⟩ :=
      dSort_loop (inversions (values h (c :: T))) hseg (le_refl _)
    have hinv := inversions_le_sq (values h (c :: T))
    simp only [dValues_length] at hinv
    refine ⟨h', e, ?_, ⟨?_, Seg.frame hprev (by omega) (fun a _ => (hnx a).2), hsize⟩, hperm, hord,
      hsame, ?_, ⟨by omega, fun a _ ha => hfr a ha⟩⟩
    · intro fuel
      simp only [SortList, hsz, if_false, hhead]
      have hT : T.length < (c :: T).length * (c :: T).length := by
        simp only [List.length_cons]; nlinarith
      constructor
      · intro hf
        rw [(hret fuel fuel).1 (by omega) (by omega)]
        rfl
      · rcases (hret fuel fuel).2 with e1 | e1
        · rw [e1]; left; rfl
        · rw [e1]; right; rfl
    · rw [hhead]
      exact Seg.frame hseg (by omega) (fun a _ => (hnx a).1)
    · intro hsup hmix
      refine hmixed hsup ?_
      obtain ⟨v, hv, w, hw, hvw⟩ := hmix
      by_cases hvc : v.kind = (h.nodes c).Value.kind
      · have hwc : w.kind ≠ (h.nodes c).Value.kind := fun e => hvw (by rw [hvc, e])
        rw [dValues_cons] at hw
        rcases List.mem_cons.mp hw with rfl | hw
        · exact absurd rfl hwc
        · exact ⟨w, hw, hwc⟩
      · rw [dValues_cons] at hv
        rcases List.mem_cons.mp hv with rfl | hv
        · exact absurd rfl hvc
        · exact ⟨v, hv, hvc⟩

end Doubly

namespace Doubly

/-! ## `Validate` -/

theorem dValidate_loop {h : Heap} {ll : LinkedList} (size : Int) {T : List Nat} :
    ∀ {A : List Nat} {p : Ptr} (count : Int), Wf h ll (A ++ T) → Seg Node.Next h p T none →
      count + T.length ≤ size →
      Returns (fun fuel => Validate.loop fuel h size p count A.getLast?) T.length
        (.ok (count + T.length, (A ++ T).getLast?)) := by
  induction T with
  | nil =>
    intro A p count _ hs _
    simp only [Seg.nil_iff] at hs
    subst hs
    intro fuel
    cases fuel <;> simp [Validate.loop]
  | cons c T ih =>
    intro A p count hw hs hle
    obtain ⟨rfl, _, hs'⟩ := hs
    have hw' : Wf h ll ((A ++ [c]) ++ T) := by simpa using hw
    have hgt : ¬ count + 1 > size := by
      simp only [List.length_cons, Nat.cast_add, Nat.cast_one] at hle
      omega
    have hih := ih (A := A ++ [c]) (p := (h.nodes c).Next) (count + 1) hw' hs' (by
      simp only [List.length_cons, Nat.cast_add, Nat.cast_one] at hle
      omega)
    have hres : ((count + 1 + (T.length : Int), ((A ++ [c]) ++ T).getLast?) : Int × Ptr) =
        (count + ((c :: T).length : Int), (A ++ c :: T).getLast?) := by
      simp only [List.length_cons, Nat.cast_add, Nat.cast_one, List.append_assoc,
        List.singleton_append]
      congr 1
      omega
    rw [hres] at hih
    have hlast : (A ++ [c]).getLast? = some c := by simp
    rw [hlast] at hih
    intro fuel
    cases fuel with
    | zero => simp [Validate.loop]
    | succ f =>
      simp only [Validate.loop, if_neg hgt, List.length_cons, Nat.succ_lt_succ_iff]
      cases T with
      | nil =>
        simp only [Seg.nil_iff] at hs'
        rw [hs'] at hih
        simp only [hs']
        exact hih f
      | cons d T =>
        obtain ⟨hcd, _, _⟩ := hs'
        have hadj := (dWf_adj (A := A) (B := T) hw).2
        rw [hcd] at hih
        simp only [hcd, hadj, ne_eq, not_true_eq_false, if_false]
        exact hih f

theorem dValidate_spec {h : Heap} {ll : LinkedList} {as : List Nat} (hw : Wf h ll as) :
    Returns (fun fuel => Validate fuel h ll) as.length none := by
  cases as with
  | nil =>
    obtain ⟨hh, ht, hs⟩ := dWf_nil hw
    have : ∀ fuel, Validate fuel h ll = .ok none := by
      intro fuel
      simp [Validate, hh, ht, hs]
    intro fuel
    exact ⟨fun _ => this fuel, Or.inl (this fuel)⟩
  | cons a T =>
    obtain ⟨hh, hp, _⟩ := dWf_head hw
    obtain ⟨I, l, hI⟩ : ∃ I l, a :: T = I ++ [l] := by
      rcases List.nil_or_snoc (a :: T) with e | ⟨I, l, e⟩
      · cases e
      · exact ⟨I, l, e⟩
    have hw2 := hw
    rw [hI] at hw2
    obtain ⟨ht, hn, _⟩ := dWf_tail hw2
    have hsz : ll.Size = ((a :: T).length : Int) := by
      have := hw.2.2
      rw [this]
    have hw0 : Wf h ll ([] ++ a :: T) := by simpa using hw
    have hloop := dValidate_loop ll.Size (A := []) (T := a :: T) (p := ll.Head) 0
      hw0 hw.1 (by rw [hsz]; simp)
    have hlast : ([] ++ (a :: T)).getLast? = ll.Tail := by
      rw [ht, List.nil_append, hI]; simp
    rw [hlast] at hloop
    intro fuel
    have hl := hloop fuel
    simp only [List.getLast?_nil, hh, ht] at hl
    unfold Validate
    simp only [hh, hp, ht, hn, ne_eq, not_true_eq_false, if_false]
    constructor
    · intro hf
      rw [hl.1 hf]
      simp [hsz]
    · rcases hl.2 with e | e
      · rw [e]; left; simp [hsz]
      · rw [e]; right; rfl

end Doubly

namespace Doubly

/-! ## The invariant of the doubly linked list -/

theorem dWf_links {h : Heap} {ll : LinkedList} {as : List Nat} (hw : Wf h ll as) :
    (ll.Head = none ↔ ll.Tail = none) ∧ (ll.Tail = none ↔ ll.Size = 0) ∧
      (∀ hd, ll.Head = some hd → (h.nodes hd).Prev = none) ∧
      (∀ tl, ll.Tail = some tl → (h.nodes tl).Next = none) ∧
      (∀ n ∈ as, ∀ m, (h.nodes n).Next = some m → (h.nodes m).Prev = some n) ∧
      ll.Tail = as.getLast? := by
  have hadj : ∀ n ∈ as, ∀ m, (h.nodes n).Next = some m → (h.nodes m).Prev = some n := by
    intro n hn m hm
    obtain ⟨A, B, rfl⟩ := List.append_of_mem hn
    cases B with
    | nil =>
      obtain ⟨_, hnl, _⟩ := dWf_tail hw
      rw [hnl] at hm; cases hm
    | cons b B =>
      obtain ⟨h1, h2⟩ := dWf_adj hw
      rw [h1] at hm
      cases hm
      exact h2
  rcases List.nil_or_snoc as with rfl | ⟨I, l, rfl⟩
  · obtain ⟨hh, ht, hs⟩ := dWf_nil hw
    exact ⟨by simp [hh, ht], by simp [ht, hs], by simp [hh], by simp [ht], hadj, by simp [ht]⟩
  · obtain ⟨ht, hn, _⟩ := dWf_tail hw
    have hsz : ll.Size ≠ 0 := by rw [hw.2.2]; simp; omega
    obtain ⟨a, T, hT⟩ : ∃ a T, I ++ [l] = a :: T := by
      cases I with
      | nil => exact ⟨l, [], rfl⟩
      | cons a I => exact ⟨a, I ++ [l], rfl⟩
    have hw2 := hw
    rw [hT] at hw2
    obtain ⟨hh, hp, _⟩ := dWf_head hw2
    refine ⟨by simp [hh, ht], by simp [ht, hsz], ?_, ?_, hadj, by simp [ht]⟩
    · intro hd e
      rw [hh] at e; cases e; exact hp
    · intro tl e
      rw [ht] at e; cases e; exact hn

theorem dPost_self {h : Heap} {ll : LinkedList} {as : List Nat} (hw : Wf h ll as) :
    Post h as h ll (values h as) :=
  ⟨as, hw, rfl, Mem.Frame.refl _ _, fun _ ha => Or.inl ha⟩

theorem dPost_sub {h h' : Heap} {ll' : LinkedList} {as X : List Nat}
    (hw : Wf h' ll' X) (hf : h.Frame h' as) (hX : ∀ a ∈ X, a ∈ as) :
    Post h as h' ll' (values h' X) :=
  ⟨X, hw, rfl, hf, fun a ha => Or.inl (hX a ha)⟩

theorem dPost_cons {h h' : Heap} {ll' : LinkedList} {as : List Nat}
    (hw : Wf h' ll' (h.size :: as)) (hf : h.Frame h' as) :
    Post h as h' ll' (values h' (h.size :: as)) :=
  ⟨h.size :: as, hw, rfl, hf, fun a ha => by
    rcases List.mem_cons.mp ha with rfl | ha
    · exact Or.inr (le_refl _)
    · exact Or.inl ha⟩

theorem dPost_fresh {h h' : Heap} {ll' : LinkedList} {as X : List Nat} {n : Nat}
    (hw : Wf h' ll' (X ++ List.range' h.size n)) (hf : h.Frame h' X) (hX : ∀ a ∈ X, a ∈ as) :
    Post h as h' ll' (values h' (X ++ List.range' h.size n)) :=
  ⟨X ++ List.range' h.size n, hw, rfl, hf.weaken hX, fun a ha => by
    rcases List.mem_append.mp ha with ha | ha
    · exact Or.inl (hX a ha)
    · simp [List.mem_range'] at ha; exact Or.inr (by omega)⟩

theorem dShift_post {h : Heap} {ll : LinkedList} {as : List Nat} (hw : Wf h ll as) :
    ∃ xs, Post h as (Shift h ll).1 (Shift h ll).2.1 xs := by
  cases as with
  | nil =>
    rw [dShift_nil hw]
    exact ⟨_, dPost_self hw⟩
  | cons a T =>
    obtain ⟨_, h1, _, h3, _⟩ := dShift_cons hw
    exact ⟨_, dPost_sub h1 h3 (fun b hb => List.mem_cons_of_mem _ hb)⟩

theorem dPop_post {h : Heap} {ll : LinkedList} {as : List Nat} (hw : Wf h ll as)
    {r : Heap × LinkedList × Option Error} (hr : Pop h ll = .ok r) :
    ∃ xs, Post h as r.1 r.2.1 xs := by
  rcases List.nil_or_snoc as with rfl | ⟨I, l, rfl⟩
  · rw [dPop_nil hw] at hr
    cases hr
    exact ⟨_, dPost_self hw⟩
  · obtain ⟨h', ll', he, h1, _, h3, _⟩ := dPop_spec hw
    rw [he] at hr
    cases hr
    exact ⟨_, dPost_sub h1 h3 (fun b hb => List.mem_append_left _ hb)⟩

theorem dDelete_post {fuel : Nat} {h : Heap} {ll : LinkedList} {as : List Nat} {v : Any}
    (hw : Wf h ll as) {r : Heap × LinkedList × Option Error}
    (hr : Delete fuel h ll v = .ok r) : ∃ xs, Post h as r.1 r.2.1 xs := by
  cases as with
  | nil =>
    rw [dDelete_nil hw] at hr
    cases hr
    exact ⟨_, dPost_self hw⟩
  | cons a T =>
    cases ha : goEq (h.nodes a).Value v with
    | true =>
      rw [dDelete_head hw ha] at hr
      cases hr
      exact dShift_post hw
    | false =>
      rcases List.nil_or_snoc T with rfl | ⟨I, l, rfl⟩
      · have := (dDelete_absent (v := v) hw (by simpa using ha)).eq_of_ok hr
        subst this
        exact ⟨_, dPost_self hw⟩
      · cases hl : goEq (h.nodes l).Value v with
        | true =>
          rw [dDelete_last (by simpa using hw) ha hl] at hr
          exact dPop_post hw hr
        | false =>
          cases hany : I.any (fun b => goEq (h.nodes b).Value v) with
          | false =>
            have hall : ∀ b ∈ a :: (I ++ [l]), goEq (h.nodes b).Value v = false := by
              intro b hb
              simp only [List.mem_cons, List.mem_append, List.mem_singleton, List.not_mem_nil,
                or_false] at hb
              rcases hb with rfl | hb | rfl
              · exact ha
              · have := List.any_eq_false.mp hany b hb
                simpa using this
              · exact hl
            have := (dDelete_absent hw hall).eq_of_ok hr
            subst this
            exact ⟨_, dPost_self hw⟩
          | true =>
            obtain ⟨pre, c, post, rfl, hpre, hc⟩ := List.first_match _ I hany
            obtain ⟨A, p, hAp⟩ : ∃ A p, a :: pre = A ++ [p] := by
              rcases List.nil_or_snoc (a :: pre) with e | ⟨A, p, e⟩
              · cases e
              · exact ⟨A, p, e⟩
            obtain ⟨n, B, hnB⟩ : ∃ n B, post ++ [l] = n :: B := by
              cases post with
              | nil => exact ⟨l, [], rfl⟩
              | cons n B => exact ⟨n, B ++ [l], rfl⟩
            have hshape : a :: (pre ++ c :: post ++ [l]) = A ++ p :: c :: n :: B := by
              have e1 : a :: (pre ++ c :: post ++ [l]) = (a :: pre) ++ c :: (post ++ [l]) := by simp
              rw [e1, hAp, hnB]; simp
            rw [hshape] at hw
            have hA : ∀ x ∈ A ++ [p], goEq (h.nodes x).Value v = false := by
              intro x hx
              rw [← hAp] at hx
              rcases List.mem_cons.mp hx with rfl | hx
              · exact ha
              · exact hpre x hx
            have hlast : ∀ z, (n :: B).getLast? = some z → goEq (h.nodes z).Value v = false := by
              intro z hz
              rw [← hnB] at hz
              simp at hz
              subst hz
              exact hl
            have := (dDelete_mid hw hA hc hlast).eq_of_ok hr
            subst this
            obtain ⟨_, _, _, _, h1, _, h3⟩ := dUnlink_mid hw
            rw [hshape]
            exact ⟨_, dPost_sub h1 h3 (fun b hb => by
              simp only [List.mem_append, List.mem_cons] at hb ⊢
              tauto)⟩

theorem dCall_post {fuel : Nat} {h : Heap} {lists : List LinkedList} {ll : LinkedList}
    {as : List Nat} {c : Call} {r : Heap × LinkedList} (hw : Wf h ll as)
    (hm : ∀ j other, c = .Merge j → lists[j]? = some other →
      ∃ bs, Wf h other bs ∧ ∀ a ∈ bs, a ∉ as)
    (hrun : c.run fuel h lists ll = .ok r) : ∃ xs, Post h as r.1 r.2 xs := by
  cases c with
  | Prepend v =>
    simp only [Call.run, Res.ok.injEq] at hrun
    subst hrun
    obtain ⟨_, h1, _, h3, _⟩ := dPrepend_spec v hw
    exact ⟨_, dPost_cons h1 h3⟩
  | Append v =>
    simp only [Call.run, Res.ok.injEq] at hrun
    subst hrun
    obtain ⟨_, h1, _, h3, _⟩ := dAppend_spec v hw
    exact ⟨_, dPost_fresh (n := 1) (by simpa using h1) h3 (fun a ha => ha)⟩
  | Insert v index =>
    obtain ⟨r0, hr0, hr⟩ := Res.bind_eq_ok hrun
    simp only [Res.ok.injEq] at hr
    subst hr
    by_cases hout : index < 0 ∨ index > ll.Size
    · rw [dInsert_out v hout] at hr0
      cases hr0
      exact ⟨_, dPost_self hw⟩
    · by_cases h0 : index = 0
      · subst h0
        obtain ⟨h', ll', he, h1, _, h3, _⟩ := dInsert_zero v hw
        rw [he] at hr0
        cases hr0
        exact ⟨_, dPost_cons h1 h3⟩
      · rw [hw.2.2] at hout
        by_cases hend : index = as.length
        · obtain ⟨h', ll', he, h1, _, h3, _⟩ := dInsert_end v hw h0 hend
          rw [he] at hr0
          cases hr0
          exact ⟨_, dPost_fresh (n := 1) (by simpa using h1) h3 (fun a ha => ha)⟩
        · have hpos : 0 < index := by omega
          have hlt : index < as.length := by omega
          obtain ⟨h', ll', he, hp, _⟩ := dInsert_mid v hw hpos hlt
          rw [he] at hr0
          cases hr0
          exact ⟨_, hp⟩
  | Delete v =>
    obtain ⟨r0, hr0, hr⟩ := Res.bind_eq_ok hrun
    simp only [Res.ok.injEq] at hr
    subst hr
    exact dDelete_post hw hr0
  | DeleteAt index =>
    obtain ⟨r0, hr0, hr⟩ := Res.bind_eq_ok hrun
    simp only [Res.ok.injEq] at hr
    subst hr
    by_cases hout : index < 0 ∨ index > ll.Size
    · rw [dDeleteAt_out hout] at hr0
      cases hr0
      exact ⟨_, dPost_self hw⟩
    · by_cases h0 : index = 0
      · subst h0
        rw [dDeleteAt_zero hw] at hr0
        cases hr0
        exact dShift_post hw
      · rw [hw.2.2] at hout
        by_cases hend : index = as.length
        · rw [dDeleteAt_end hw (by omega) hend] at hr0
          cases hr0
        · rcases List.nil_or_snoc as with rfl | ⟨I, l, rfl⟩
          · simp at hout hend; omega
          · have hlen : ((I ++ [l]).length : Int) = (I.length : Int) + 1 := by simp
            rw [hlen] at hout hend
            by_cases hlast : index = I.length
            · obtain ⟨h', ll', he, h1, _, h3, _⟩ := dDeleteAt_last hw h0 hlast
              rw [he] at hr0
              cases hr0
              exact ⟨_, dPost_sub h1 h3 (fun b hb => List.mem_append_left _ hb)⟩
            · have hpos : 0 < index := by omega
              have hlt : index < ((I ++ [l]).length : Int) - 1 := by rw [hlen]; omega
              obtain ⟨h', ll', he, hp, _⟩ := dDeleteAt_mid hw hpos hlt
              rw [he] at hr0
              cases hr0
              exact ⟨_, hp⟩
  | Shift =>
    simp only [Call.run, Res.ok.injEq] at hrun
    subst hrun
    exact dShift_post hw
  | Pop =>
    obtain ⟨r0, hr0, hr⟩ := Res.bind_eq_ok hrun
    simp only [Res.ok.injEq] at hr
    subst hr
    exact dPop_post hw hr0
  | Reverse =>
    obtain ⟨r0, hr0, hr⟩ := Res.bind_eq_ok hrun
    simp only [Res.ok.injEq] at hr
    subst hr
    by_cases hne : as = []
    · subst hne
      rw [dReverse_nil hw] at hr0
      cases hr0
      exact ⟨_, dPost_self hw⟩
    · obtain ⟨h', ll', hret, h1, _, h3, _⟩ := dReverse_spec hw hne
      have := hret.eq_of_ok hr0
      subst this
      exact ⟨_, dPost_sub h1 h3 (fun a ha => List.mem_reverse.mp ha)⟩
  | Unique =>
    obtain ⟨r0, hr0, hr⟩ := Res.bind_eq_ok hrun
    simp only [Res.ok.injEq] at hr
    subst hr
    by_cases hne : as = []
    · subst hne
      rw [dUnique_nil hw] at hr0
      cases hr0
      exact ⟨_, dPost_self hw⟩
    · obtain ⟨h', ll', hret, hp⟩ := dUnique_spec hw hne
      have := hret.eq_of_ok hr0
      subst this
      exact ⟨_, hp⟩
  | SortList =>
    obtain ⟨r0, hr0, hr⟩ := Res.bind_eq_ok hrun
    simp only [Res.ok.injEq] at hr
    subst hr
    obtain ⟨h', e, hret, h1, _, _, _, _, h3⟩ := dSort_spec hw
    have := hret.eq_of_ok hr0
    subst this
    exact ⟨_, dPost_sub h1 h3 (fun a ha => ha)⟩
  | Merge j =>
    obtain ⟨r0, hr0, hr⟩ := Res.bind_eq_ok hrun
    simp only [Res.ok.injEq] at hr
    subst hr
    cases hj : lists[j]? with
    | none =>
      rw [hj, dMerge_nil] at hr0
      cases hr0
      exact ⟨_, dPost_self hw⟩
    | some other =>
      obtain ⟨bs, hwo, hdis⟩ := hm j other rfl hj
      obtain ⟨h', ll', hret, h1, _, h3, _⟩ := dMerge_spec hw hwo hdis
      rw [hj] at hr0
      have := hret.eq_of_ok hr0
      subst this
      exact ⟨_, dPost_fresh h1 h3 (fun a ha => ha)⟩
  | Clear =>
    simp only [Call.run, Res.ok.injEq] at hrun
    subst hrun
    exact ⟨[], [], ⟨rfl, rfl, rfl⟩, rfl, Mem.Frame.refl _ _, fun a ha => by simp at ha⟩
  | FromSlice slice =>
    simp only [Call.run, Res.ok.injEq] at hrun
    subst hrun
    cases slice with
    | none => exact ⟨_, dPost_self hw⟩
    | some vs =>
      obtain ⟨h', ll', he, h1, _, h3, _⟩ := dFromSlice_spec h ll vs
      rw [he]
      exact ⟨_, dPost_fresh (X := []) (by simpa using h1) h3 (fun a ha => by simp at ha)⟩
  | FromArray arr =>
    simp only [Call.run, Res.ok.injEq] at hrun
    subst hrun
    cases arr with
    | none => exact ⟨_, dPost_self hw⟩
    | some vs =>
      obtain ⟨h', ll', he, h1, _, h3, _⟩ := dFromArray_spec h ll vs
      rw [he]
      exact ⟨_, dPost_fresh (X := []) (by simpa using h1) h3 (fun a ha => by simp at ha)⟩

theorem dReachable_inv {w : World} (hr : Reachable w) :
    ∃ ass : Nat → List Nat,
      (∀ i ll, w.lists[i]? = some ll → Wf w.heap ll (ass i)) ∧
      (∀ i j, i ≠ j → i < w.lists.length → j < w.lists.length → ∀ a ∈ ass i, a ∉ ass j) := by
  induction hr with
  | start h => exact ⟨fun _ => [], fun i ll hi => by simp at hi, fun _ _ _ hi => by simp at hi⟩
  | @create w _ ih =>
    obtain ⟨ass, hwf, hdis⟩ := ih
    refine ⟨Function.update ass w.lists.length [], ?_, ?_⟩
    · intro i ll hi
      by_cases hlt : i < w.lists.length
      · rw [List.getElem?_append_left hlt] at hi
        rw [Function.update_noteq (Nat.ne_of_lt hlt)]
        exact hwf i ll hi
      · have hlen := List.lt_length_of_getElem? hi
        simp only [List.length_append, List.length_singleton] at hlen
        have hie : i = w.lists.length := by omega
        subst hie
        simp only [List.getElem?_append_right (le_refl _), Nat.sub_self, List.getElem?_cons_zero,
          Option.some.injEq] at hi
        subst hi
        rw [Function.update_same]
        exact ⟨rfl, rfl, rfl⟩
    · intro i j hij hi hj a ha
      simp only [List.length_append, List.length_singleton] at hi hj
      by_cases hie : i = w.lists.length
      · subst hie; rw [Function.update_same] at ha; simp at ha
      · by_cases hje : j = w.lists.length
        · subst hje; rw [Function.update_same]; simp
        · rw [Function.update_noteq hie] at ha
          rw [Function.update_noteq hje]
          exact hdis i j hij (by omega) (by omega) a ha
  | @call w fuel i c ll r _ hi hself hrun ih =>
    obtain ⟨ass, hwf, hdis⟩ := ih
    have hilt := List.lt_length_of_getElem? hi
    have hw := hwf i ll hi
    have hm : ∀ j other, c = .Merge j → w.lists[j]? = some other →
        ∃ bs, Wf w.heap other bs ∧ ∀ a ∈ bs, a ∉ ass i := by
      intro j other hc hj
      exact ⟨ass j, hwf j other hj,
        hdis j i (hself j hc) (List.lt_length_of_getElem? hj) hilt⟩
    obtain ⟨xs, as', hw', _, hfr, hfoot⟩ := dCall_post hw hm hrun
    refine ⟨Function.update ass i as', ?_, ?_⟩
    · intro k other hk
      by_cases hki : k = i
      · subst hki
        rw [List.getElem?_set_self hilt] at hk
        cases hk
        rw [Function.update_same]
        exact hw'
      · rw [List.getElem?_set_ne (Ne.symm hki)] at hk
        rw [Function.update_noteq hki]
        have hwk := hwf k other hk
        have hklt := List.lt_length_of_getElem? hk
        exact ⟨Seg.of_frame hfr hwk.1 (hdis k i hki hklt hilt),
          Seg.of_frame hfr hwk.2.1 (fun a ha => hdis k i hki hklt hilt a (List.mem_reverse.mp ha)),
          hwk.2.2⟩
    · intro k j hkj hk hj a ha
      simp only [List.length_set] at hk hj
      obtain ⟨lj, hlj⟩ : ∃ lj, w.lists[j]? = some lj := ⟨w.lists[j], List.getElem?_eq_getElem hj⟩
      obtain ⟨lk, hlk⟩ : ∃ lk, w.lists[k]? = some lk := ⟨w.lists[k], List.getElem?_eq_getElem hk⟩
      by_cases hki : k = i
      · subst hki
        rw [Function.update_same] at ha
        rw [Function.update_noteq (Ne.symm hkj)]
        rcases hfoot a ha with h1 | h1
        · exact hdis k j hkj hk hj a h1
        · intro haj
          have := dWf_lt (hwf j lj hlj) a haj
          omega
      · rw [Function.update_noteq hki] at ha
        by_cases hji : j = i
        · subst hji
          rw [Function.update_same]
          intro haj
          rcases hfoot a haj with h1 | h1
          · exact hdis k j hkj hk hj a ha h1
          · have := dWf_lt (hwf k lk hlk) a ha
            omega
        · rw [Function.update_noteq hji]
          exact hdis k j hkj hk hj a ha

/-- C2: in every program state reached from `NewDoublyLinkedList` by public
mutating calls that return, every list is well formed: `Head` is nil iff `Tail`
is nil iff `Size = 0`; `Head.Prev` is nil; `Tail.Next` is nil; every node `n` of
the list with `n.Next = m` has `m.Prev = n`; `Tail` is the last node reached from
`Head`; `Size` is the number of nodes; and `Validate` returns nil. -/
theorem doubly_invariant {w : World} (hr : Reachable w) (ll : LinkedList)
    (hll : ll ∈ w.lists) :
    ∃ as : List Nat, Seg Node.Next w.heap ll.Head as none ∧
      (ll.Head = none ↔ ll.Tail = none) ∧ (ll.Tail = none ↔ ll.Size = 0) ∧
      (∀ hd, ll.Head = some hd → (w.heap.nodes hd).Prev = none) ∧
      (∀ tl, ll.Tail = some tl → (w.heap.nodes tl).Next = none) ∧
      (∀ n ∈ as, ∀ m, (w.heap.nodes n).Next = some m → (w.heap.nodes m).Prev = some n) ∧
      ll.Tail = as.getLast? ∧ ll.Size = as.length ∧
      (∀ fuel, as.length < fuel → Validate fuel w.heap ll = .ok none) := by
  obtain ⟨ass, hwf, _⟩ := dReachable_inv hr
  obtain ⟨i, hi⟩ := List.mem_iff_getElem?.mp hll
  have hw := hwf i ll hi
  obtain ⟨h1, h2, h3, h4, h5, h6⟩ := dWf_links hw
  exact ⟨ass i, hw.1, h1, h2, h3, h4, h5, h6, hw.2.2,
    fun fuel hf => ((dValidate_spec hw) fuel).1 hf⟩

theorem doubly_invariant_witness :
    Reachable demoWorld ∧ demoStep3.2.1 ∈ demoWorld.lists ∧
    ∃ as : List Nat, Seg Node.Next demoWorld.heap demoStep3.2.1.Head as none ∧
      (demoStep3.2.1.Head = none ↔ demoStep3.2.1.Tail = none) ∧
      (demoStep3.2.1.Tail = none ↔ demoStep3.2.1.Size = 0) ∧
      (∀ hd, demoStep3.2.1.Head = some hd → (demoWorld.heap.nodes hd).Prev = none) ∧
      (∀ tl, demoStep3.2.1.Tail = some tl → (demoWorld.heap.nodes tl).Next = none) ∧
      (∀ n ∈ as, ∀ m, (demoWorld.heap.nodes n).Next = some m →
        (demoWorld.heap.nodes m).Prev = some n) ∧
      demoStep3.2.1.Tail = as.getLast? ∧ demoStep3.2.1.Size = as.length ∧
      (∀ fuel, as.length < fuel → Validate fuel demoWorld.heap demoStep3.2.1 = .ok none) :=
  have hr : Reachable demoWorld :=
    @Reachable.call _ 1 0 (.Append (.int 3)) demoStep2.2.1 (demoStep3.1, demoStep3.2.1)
      (@Reachable.call _ 1 0 (.Append (.int 2)) demoStep1.2.1 (demoStep2.1, demoStep2.2.1)
        (@Reachable.call _ 1 0 (.Append (.int 1)) NewDoublyLinkedList
          (demoStep1.1, demoStep1.2.1)
          (Reachable.create (Reachable.start emptyHeap)) rfl (fun _ hc => nomatch hc) rfl)
        rfl (fun _ hc => nomatch hc) rfl)
      rfl (fun _ hc => nomatch hc) rfl
  ⟨hr, List.mem_singleton.mpr rfl, doubly_invariant hr _ (List.mem_singleton.mpr rfl)⟩

end Doubly

/-! ## The claims on both lists -/

theorem sRepr_sort {h : Singly.Heap} {ll : Singly.LinkedList} {xs : List Any}
    (hr : Singly.Repr h ll xs) :
    ∃ h' e ys, Returns (fun fuel => Singly.SortList fuel h ll) (xs.length * xs.length) (h', ll, e) ∧
      Singly.Repr h' ll ys ∧ ys.Perm xs ∧ (e = none → InOrder ys) ∧
      (∀ k, k ≠ Kind.other → (∀ v ∈ xs, v.kind = k) → e = none) ∧
      ((∀ v ∈ xs, v.kind ≠ .other) → (∃ v ∈ xs, ∃ w ∈ xs, v.kind ≠ w.kind) →
        e = some .mismatchedTypes) := by
  obtain ⟨as, hw, rfl⟩ := hr
  obtain ⟨h', e, hret, hw', hperm, hord, hsame, hmix, _⟩ := Singly.sSort_spec hw
  have hlen : (Singly.values h as).length = as.length := by simp [Singly.values]
  rw [hlen]
  exact ⟨h', e, _, hret, ⟨as, hw', rfl⟩, hperm, hord, hsame, hmix⟩

theorem dRepr_sort {h : Doubly.Heap} {ll : Doubly.LinkedList} {xs : List Any}
    (hr : Doubly.Repr h ll xs) :
    ∃ h' e ys, Returns (fun fuel => Doubly.SortList fuel h ll) (xs.length * xs.length) (h', ll, e) ∧
      Doubly.Repr h' ll ys ∧ ys.Perm xs ∧ (e = none → InOrder ys) ∧
      (∀ k, k ≠ Kind.other → (∀ v ∈ xs, v.kind = k) → e = none) ∧
      ((∀ v ∈ xs, v.kind ≠ .other) → (∃ v ∈ xs, ∃ w ∈ xs, v.kind ≠ w.kind) →
        e = some .mismatchedTypes) := by
  obtain ⟨as, hw, rfl⟩ := hr
  obtain ⟨h', e, hret, hw', hperm, hord, hsame, hmix, _⟩ := Doubly.dSort_spec hw
  have hlen : (Doubly.values h as).length = as.length := by simp [Doubly.values]
  rw [hlen]
  exact ⟨h', e, _, hret, ⟨as, hw', rfl⟩, hperm, hord, hsame, hmix⟩

theorem sorted_of_inOrder {xs ys : List Any}
    (hk : (∀ v ∈ xs, v.kind = .int) ∨ (∀ v ∈ xs, v.kind = .str)) (hp : ys.Perm xs)
    (ho : InOrder ys) : List.Chain' Any.le ys := by
  apply inOrder_chain ys ho
  intro v hv
  have hv' := hp.mem_iff.mp hv
  rcases hk with hk | hk
  · rw [hk v hv']; decide
  · rw [hk v hv']; decide

theorem kind_ne_other {xs : List Any}
    (hk : (∀ v ∈ xs, v.kind = .int) ∨ (∀ v ∈ xs, v.kind = .str)) :
    ∃ k, k ≠ Kind.other ∧ ∀ v ∈ xs, v.kind = k := by
  rcases hk with hk | hk
  · exact ⟨.int, by decide, hk⟩
  · exact ⟨.str, by decide, hk⟩

/-- C3: for every list, singly or doubly, in any prior state, and every non-nil
slice `seq`, `FromSlice(seq)` returns nil, and a following `IntoSlice()` returns
a slice with the elements of `seq` in the same order (so with the same length);
`Size` is `len(seq)`, and the element sequence of the list is `seq` alone. -/
theorem fromSlice_intoSlice_roundtrip (seq : List Any) :
    (∀ (h : Singly.Heap) (ll : Singly.LinkedList), ∃ h' ll' s,
      Returns (fun fuel => Singly.FromSlice fuel h ll (some seq)) seq.length (h', ll', none) ∧
      Returns (fun fuel => Singly.IntoSlice fuel h' ll') seq.length s ∧
      s.elems = seq ∧ s.elems.length = seq.length ∧ ll'.Size = seq.length ∧
      Singly.Repr h' ll' seq) ∧
    (∀ (h : Doubly.Heap) (ll : Doubly.LinkedList), ∃ h' ll' s,
      Doubly.FromSlice h ll (some seq) = (h', ll', none) ∧
      Returns (fun fuel => Doubly.IntoSlice fuel h' ll') seq.length s ∧
      s.elems = seq ∧ s.elems.length = seq.length ∧ ll'.Size = seq.length ∧
      Doubly.Repr h' ll' seq) := by
  constructor
  · intro h ll
    obtain ⟨h', ll', hret, hw, hv, _, _⟩ := Singly.sFromSlice_spec h ll seq
    obtain ⟨s, hs, hse⟩ := Singly.sIntoSlice_spec hw
    rw [hv] at hse
    have hlen : (List.range' h.size seq.length).length = seq.length := by simp
    rw [hlen] at hs
    exact ⟨h', ll', s, hret, hs, hse, by rw [hse], by rw [hw.2, hlen], _, hw, hv⟩
  · intro h ll
    obtain ⟨h', ll', hret, hw, hv, _, _⟩ := Doubly.dFromSlice_spec h ll seq
    obtain ⟨s, hs, hse⟩ := Doubly.dIntoSlice_spec hw
    rw [hv] at hse
    have hlen : (List.range' h.size seq.length).length = seq.length := by simp
    rw [hlen] at hs
    exact ⟨h', ll', s, hret, hs, hse, by rw [hse], by rw [hw.2.2, hlen], _, hw, hv⟩

/-- C4: on a list, singly or doubly, whose values are all int or all string,
`Sort()` returns nil (with fuel beyond the square of the length), the header and
so `Size` are unchanged, and the element sequence afterwards is non-decreasing
and a permutation of the sequence before. -/
theorem sort_sorts (xs : List Any)
    (hk : (∀ v ∈ xs, v.kind = .int) ∨ (∀ v ∈ xs, v.kind = .str)) :
    (∀ (h : Singly.Heap) (ll : Singly.LinkedList), Singly.Repr h ll xs →
      ∃ h' ys, Returns (fun fuel => Singly.SortList fuel h ll) (xs.length * xs.length)
          (h', ll, none) ∧
        Singly.Repr h' ll ys ∧ List.Chain' Any.le ys ∧ ys.Perm xs ∧ ll.Size = ys.length) ∧
    (∀ (h : Doubly.Heap) (ll : Doubly.LinkedList), Doubly.Repr h ll xs →
      ∃ h' ys, Returns (fun fuel => Doubly.SortList fuel h ll) (xs.length * xs.length)
          (h', ll, none) ∧
        Doubly.Repr h' ll ys ∧ List.Chain' Any.le ys ∧ ys.Perm xs ∧ ll.Size = ys.length) := by
  obtain ⟨k, hk1, hk2⟩ := kind_ne_other hk
  constructor
  · intro h ll hr
    obtain ⟨h', e, ys, hret, hr', hperm, hord, hsame, _⟩ := sRepr_sort hr
    have he := hsame k hk1 hk2
    subst he
    obtain ⟨as', hw', hv'⟩ := hr'
    refine ⟨h', ys, hret, ⟨as', hw', hv'⟩, sorted_of_inOrder hk hperm (hord rfl), hperm, ?_⟩
    rw [hw'.2, ← hv']; simp [Singly.values]
  · intro h ll hr
    obtain ⟨h', e, ys, hret, hr', hperm, hord, hsame, _⟩ := dRepr_sort hr
    have he := hsame k hk1 hk2
    subst he
    obtain ⟨as', hw', hv'⟩ := hr'
    refine ⟨h', ys, hret, ⟨as', hw', hv'⟩, sorted_of_inOrder hk hperm (hord rfl), hperm, ?_⟩
    rw [hw'.2.2, ← hv']; simp [Doubly.values]

theorem sort_sorts_witness :
    ((∀ v ∈ [Any.int 3, .int 1, .int 2], v.kind = .int) ∨
      (∀ v ∈ [Any.int 3, .int 1, .int 2], v.kind = .str)) ∧
    (∃ h' ys, Returns (fun fuel => Singly.SortList fuel
          (Singly.heapOf [.int 3, .int 1, .int 2]) (Singly.listOf [.int 3, .int 1, .int 2])) 9
          (h', Singly.listOf [.int 3, .int 1, .int 2], none) ∧
        Singly.Repr h' (Singly.listOf [.int 3, .int 1, .int 2]) ys ∧ List.Chain' Any.le ys ∧
        ys.Perm [.int 3, .int 1, .int 2] ∧
        (Singly.listOf [.int 3, .int 1, .int 2]).Size = ys.length) ∧
    (Singly.SortList 10 (Singly.heapOf [.int 3, .int 1, .int 2])
      (Singly.listOf [.int 3, .int 1, .int 2])).bind
      (fun r => Singly.IntoSlice 10 r.1 r.2.1) = .ok (some [.int 1, .int 2, .int 3]) ∧
    (Doubly.SortList 26 (Doubly.heapOf [.int 5, .int 3, .int 4, .int 1, .int 2])
      (Doubly.listOf [.int 5, .int 3, .int 4, .int 1, .int 2])).bind
      (fun r => Doubly.IntoSlice 26 r.1 r.2.1) =
      .ok (some [.int 1, .int 2, .int 3, .int 4, .int 5]) :=
  ⟨Or.inl (by decide),
    (sort_sorts [.int 3, .int 1, .int 2] (Or.inl (by decide))).1 _ _
      ⟨[0, 1, 2], ⟨⟨rfl, by decide, rfl, by decide, rfl, by decide, rfl⟩, rfl⟩, rfl⟩,
    rfl, rfl⟩

/-- C5: on a list, singly or doubly, whose values are all of supported kinds
(int, string, float64) but not all of the same kind, `Sort()` returns the
mismatched-types error, wherever the differing values stand. -/
theorem sort_mixed_kinds (xs : List Any) (hsup : ∀ v ∈ xs, v.kind ≠ .other)
    (hmix : ∃ v ∈ xs, ∃ w ∈ xs, v.kind ≠ w.kind) :
    (∀ (h : Singly.Heap) (ll : Singly.LinkedList), Singly.Repr h ll xs →
      ∃ h', Returns (fun fuel => Singly.SortList fuel h ll) (xs.length * xs.length)
        (h', ll, some .mismatchedTypes)) ∧
    (∀ (h : Doubly.Heap) (ll : Doubly.LinkedList), Doubly.Repr h ll xs →
      ∃ h', Returns (fun fuel => Doubly.SortList fuel h ll) (xs.length * xs.length)
        (h', ll, some .mismatchedTypes)) := by
  constructor
  · intro h ll hr
    obtain ⟨h', e, ys, hret, _, _, _, _, hm⟩ := sRepr_sort hr
    have he := hm hsup hmix
    subst he
    exact ⟨h', hret⟩
  · intro h ll hr
    obtain ⟨h', e, ys, hret, _, _, _, _, hm⟩ := dRepr_sort hr
    have he := hm hsup hmix
    subst he
    exact ⟨h', hret⟩

theorem sort_mixed_kinds_witness :
    (∀ v ∈ [Any.int 1, .int 2, .str [97]], v.kind ≠ .other) ∧
    (∃ v ∈ [Any.int 1, .int 2, .str [97]], ∃ w ∈ [Any.int 1, .int 2, .str [97]],
      v.kind ≠ w.kind) ∧
    (∃ h', Returns (fun fuel => Doubly.SortList fuel
        (Doubly.heapOf [.int 1, .int 2, .str [97]]) (Doubly.listOf [.int 1, .int 2, .str [97]])) 9
        (h', Doubly.listOf [.int 1, .int 2, .str [97]], some .mismatchedTypes)) :=
  ⟨by decide, by decide,
    (sort_mixed_kinds [.int 1, .int 2, .str [97]] (by decide) (by decide)).2 _ _
      ⟨[0, 1, 2], ⟨⟨rfl, by decide, rfl, by decide, rfl, by decide, rfl⟩,
        ⟨rfl, by decide, rfl, by decide, rfl, by decide, rfl⟩, rfl⟩, rfl⟩⟩

theorem dedup_size {ll' ll : Int} {xs ys : List Any} (h1 : ll' = ys.length)
    (h2 : ll = xs.length) : ll' = ll - ((xs.length : Int) - ys.length) := by
  omega

/-- C6: on a non-empty list, singly or doubly, `Unique()` returns nil and the
element sequence afterwards is the sequence before without every element that
is `==` to an element before it (first occurrences kept, in their order); `Size`
decreases by the number of elements removed. On an empty list `Unique()` returns
an error. -/
theorem unique_keeps_first (xs : List Any) :
    (∀ (h : Singly.Heap) (ll : Singly.LinkedList), Singly.Repr h ll xs →
      (xs ≠ [] → ∃ h' ll', Returns (fun fuel => Singly.Unique fuel h ll) xs.length
          (h', ll', none) ∧
        Singly.Repr h' ll' (dedupFrom [] xs) ∧
        ll'.Size = ll.Size - ((xs.length : Int) - (dedupFrom [] xs).length)) ∧
      (xs = [] → ∃ e, ∀ fuel, Singly.Unique fuel h ll = .ok (h, ll, some e))) ∧
    (∀ (h : Doubly.Heap) (ll : Doubly.LinkedList), Doubly.Repr h ll xs →
      (xs ≠ [] → ∃ h' ll', Returns (fun fuel => Doubly.Unique fuel h ll) xs.length
          (h', ll', none) ∧
        Doubly.Repr h' ll' (dedupFrom [] xs) ∧
        ll'.Size = ll.Size - ((xs.length : Int) - (dedupFrom [] xs).length)) ∧
      (xs = [] → ∃ e, ∀ fuel, Doubly.Unique fuel h ll = .ok (h, ll, some e))) := by
  constructor
  · rintro h ll ⟨as, hw, rfl⟩
    have hlen : (Singly.values h as).length = as.length := by simp [Singly.values]
    constructor
    · intro hne
      have hne' : as ≠ [] := by rintro rfl; exact hne rfl
      obtain ⟨h', ll', hret, as', hw', hv', _⟩ := Singly.sUnique_spec hw hne'
      rw [hlen]
      refine ⟨h', ll', hret, ⟨as', hw', hv'⟩, ?_⟩
      have e1 : ll'.Size = ((dedupFrom [] (Singly.values h as)).length : Int) := by
        rw [hw'.2, ← hv']; simp [Singly.values]
      have e2 : ll.Size = ((Singly.values h as).length : Int) := by rw [hw.2, hlen]
      have := dedup_size e1 e2
      rw [hlen] at this
      exact this
    · intro he
      have : as = [] := by cases as with
        | nil => rfl
        | cons a as => simp [Singly.values] at he
      subst this
      exact ⟨.emptyList, fun fuel => Singly.sUnique_nil hw fuel⟩
  · rintro h ll ⟨as, hw, rfl⟩
    have hlen : (Doubly.values h as).length = as.length := by simp [Doubly.values]
    constructor
    · intro hne
      have hne' : as ≠ [] := by rintro rfl; exact hne rfl
      obtain ⟨h', ll', hret, as', hw', hv', _⟩ := Doubly.dUnique_spec hw hne'
      rw [hlen]
      refine ⟨h', ll', hret, ⟨as', hw', hv'⟩, ?_⟩
      have e1 : ll'.Size = ((dedupFrom [] (Doubly.values h as)).length : Int) := by
        rw [hw'.2.2, ← hv']; simp [Doubly.values]
      have e2 : ll.Size = ((Doubly.values h as).length : Int) := by rw [hw.2.2, hlen]
      have := dedup_size e1 e2
      rw [hlen] at this
      exact this
    · intro he
      have : as = [] := by cases as with
        | nil => rfl
        | cons a as => simp [Doubly.values] at he
      subst this
      exact ⟨.emptyList, fun fuel => Doubly.dUnique_nil hw fuel⟩

theorem unique_keeps_first_witness :
    (∃ h' ll', Returns (fun fuel => Doubly.Unique fuel (Doubly.heapOf [.int 1, .int 1])
          (Doubly.listOf [.int 1, .int 1])) 2 (h', ll', none) ∧
        Doubly.Repr h' ll' [.int 1] ∧ ll'.Size = 1) ∧
    (Doubly.Unique 3 (Doubly.heapOf [.int 1, .int 1]) (Doubly.listOf [.int 1, .int 1])).bind
      (fun r => (Doubly.IntoSlice 3 r.1 r.2.1).bind fun s => .ok (s, r.2.1.Size, r.2.2)) =
      .ok (some [.int 1], 1, none) :=
  ⟨((unique_keeps_first [.int 1, .int 1]).2 (Doubly.heapOf [.int 1, .int 1])
      (Doubly.listOf [.int 1, .int 1])
      ⟨[0, 1], ⟨⟨rfl, by decide, rfl, by decide, rfl⟩, ⟨rfl, by decide, rfl, by decide, rfl⟩, rfl⟩,
        rfl⟩).1 (by decide),
    rfl⟩

theorem sRepr_reverse {h : Singly.Heap} {ll : Singly.LinkedList} {xs : List Any}
    (hr : Singly.Repr h ll xs) :
    ∃ h' ll', Returns (fun fuel => Singly.Reverse fuel h ll) xs.length (h', ll') ∧
      Singly.Repr h' ll' xs.reverse ∧ ll'.Size = ll.Size := by
  obtain ⟨as, hw, rfl⟩ := hr
  obtain ⟨h', ll', hret, hw', hv', _, hsz⟩ := Singly.sReverse_spec hw
  have hlen : (Singly.values h as).length = as.length := by simp [Singly.values]
  rw [hlen]
  exact ⟨h', ll', hret, ⟨_, hw', hv'⟩, hsz⟩

theorem dRepr_reverse {h : Doubly.Heap} {ll : Doubly.LinkedList} {xs : List Any}
    (hr : Doubly.Repr h ll xs) (hne : xs ≠ []) :
    ∃ h' ll', Returns (fun fuel => Doubly.Reverse fuel h ll) xs.length (h', ll', none) ∧
      Doubly.Repr h' ll' xs.reverse ∧ ll'.Size = ll.Size := by
  obtain ⟨as, hw, rfl⟩ := hr
  have hne' : as ≠ [] := by rintro rfl; exact hne rfl
  obtain ⟨h', ll', hret, hw', hv', _, hsz⟩ := Doubly.dReverse_spec hw hne'
  have hlen : (Doubly.values h as).length = as.length := by simp [Doubly.values]
  rw [hlen]
  exact ⟨h', ll', hret, ⟨_, hw', hv'⟩, hsz⟩

/-- C7: `Reverse()` on a singly list, and on a non-empty doubly list, returns
(the doubly one nil) and turns the element sequence into its reverse with `Size`
unchanged, and a second `Reverse()` gives back the original sequence; the doubly
`Reverse()` returns an error exactly when the list has no elements. -/
theorem reverse_reverses (xs : List Any) :
    (∀ (h : Singly.Heap) (ll : Singly.LinkedList), Singly.Repr h ll xs →
      ∃ h' ll', Returns (fun fuel => Singly.Reverse fuel h ll) xs.length (h', ll') ∧
        Singly.Repr h' ll' xs.reverse ∧ ll'.Size = ll.Size ∧
        ∃ h'' ll'', Returns (fun fuel => Singly.Reverse fuel h' ll') xs.length (h'', ll'') ∧
          Singly.Repr h'' ll'' xs ∧ ll''.Size = ll.Size) ∧
    (∀ (h : Doubly.Heap) (ll : Doubly.LinkedList), Doubly.Repr h ll xs →
      (xs ≠ [] →
        ∃ h' ll', Returns (fun fuel => Doubly.Reverse fuel h ll) xs.length (h', ll', none) ∧
          Doubly.Repr h' ll' xs.reverse ∧ ll'.Size = ll.Size ∧
          ∃ h'' ll'', Returns (fun fuel => Doubly.Reverse fuel h' ll') xs.length
              (h'', ll'', none) ∧
            Doubly.Repr h'' ll'' xs ∧ ll''.Size = ll.Size) ∧
      ∃ r, Returns (fun fuel => Doubly.Reverse fuel h ll) xs.length r ∧
        (r.2.2 ≠ none ↔ xs = [])) := by
  constructor
  · intro h ll hr
    obtain ⟨h', ll', hret, hr', hsz⟩ := sRepr_reverse hr
    obtain ⟨h'', ll'', hret2, hr'', hsz2⟩ := sRepr_reverse hr'
    rw [List.length_reverse] at hret2
    rw [List.reverse_reverse] at hr''
    exact ⟨h', ll', hret, hr', hsz, h'', ll'', hret2, hr'', by rw [hsz2, hsz]⟩
  · intro h ll hr
    constructor
    · intro hne
      obtain ⟨h', ll', hret, hr', hsz⟩ := dRepr_reverse hr hne
      obtain ⟨h'', ll'', hret2, hr'', hsz2⟩ := dRepr_reverse hr' (by simpa using hne)
      rw [List.length_reverse] at hret2
      rw [List.reverse_reverse] at hr''
      exact ⟨h', ll', hret, hr', hsz, h'', ll'', hret2, hr'', by rw [hsz2, hsz]⟩
    · by_cases hne : xs = []
      · subst hne
        obtain ⟨as, hw, hv⟩ := hr
        have : as = [] := by cases as with
          | nil => rfl
          | cons a as => simp [Doubly.values] at hv
        subst this
        refine ⟨(h, ll, some .emptyList), ?_, by simp⟩
        intro fuel
        exact ⟨fun _ => Doubly.dReverse_nil hw fuel, Or.inl (Doubly.dReverse_nil hw fuel)⟩
      · obtain ⟨h', ll', hret, _, _⟩ := dRepr_reverse hr hne
        exact ⟨(h', ll', none), hret, by simp [hne]⟩

theorem reverse_reverses_witness :
    (∃ h' ll', Returns (fun fuel => Singly.Reverse fuel
          (Singly.heapOf [.int 1, .int 2, .int 3, .int 4, .int 5])
          (Singly.listOf [.int 1, .int 2, .int 3, .int 4, .int 5])) 5 (h', ll') ∧
        Singly.Repr h' ll' [.int 5, .int 4, .int 3, .int 2, .int 1] ∧
        ll'.Size = 5 ∧
        ∃ h'' ll'', Returns (fun fuel => Singly.Reverse fuel h' ll') 5 (h'', ll'') ∧
          Singly.Repr h'' ll'' [.int 1, .int 2, .int 3, .int 4, .int 5] ∧ ll''.Size = 5) ∧
    (Doubly.Reverse 6 (Doubly.heapOf [.int 1, .int 2, .int 3, .int 4, .int 5])
      (Doubly.listOf [.int 1, .int 2, .int 3, .int 4, .int 5])).bind
      (fun r => (Doubly.IntoSlice 6 r.1 r.2.1).bind fun s => .ok (s, r.2.1.Size, r.2.2)) =
      .ok (some [.int 5, .int 4, .int 3, .int 2, .int 1], 5, none) :=
  ⟨(reverse_reverses [.int 1, .int 2, .int 3, .int 4, .int 5]).1
      (Singly.heapOf [.int 1, .int 2, .int 3, .int 4, .int 5])
      (Singly.listOf [.int 1, .int 2, .int 3, .int 4, .int 5])
      ⟨[0, 1, 2, 3, 4], ⟨⟨rfl, by decide, rfl, by decide, rfl, by decide, rfl, by decide, rfl,
        by decide, rfl⟩, rfl⟩, rfl⟩,
    rfl⟩

/-- C8 (the code differs from the claim): when the value is `==` to the value of
the last node and not to that of the first node, the doubly `Delete` returns nil
and has removed the last node, also when a node before it holds the value: the
element sequence afterwards is the sequence before without its last element, so
not the sequence without the first occurrence. -/
theorem doubly_delete_checks_tail_first (h : Doubly.Heap) (ll : Doubly.LinkedList)
    (x y v : Any) (mid : List Any) (hr : Doubly.Repr h ll (x :: mid ++ [y]))
    (hx : goEq x v = false) (hy : goEq y v = true) (fuel : Nat) :
    ∃ h' ll', Doubly.Delete fuel h ll v = .ok (h', ll', none) ∧
      Doubly.Repr h' ll' (x :: mid) ∧ ll'.Size = ll.Size - 1 := by
  obtain ⟨as, hw, hv⟩ := hr
  have hv' : as.map (fun a => (h.nodes a).Value) = (x :: mid) ++ [y] := by
    simpa [Doubly.values] using hv
  obtain ⟨I, L, rfl, hI, hL⟩ := List.map_eq_append_iff.mp hv'
  obtain ⟨l, L', rfl, hl, hL'⟩ := List.map_eq_cons_iff.mp hL
  have : L' = [] := List.map_eq_nil_iff.mp hL'
  subst this
  obtain ⟨a, T, rfl, ha, _⟩ := List.map_eq_cons_iff.mp hI
  rw [← ha] at hx
  rw [← hl] at hy
  obtain ⟨h', ll', he, hw', hval, _, hsz, _⟩ := Doubly.dPop_spec hw
  refine ⟨h', ll', ?_, ⟨a :: T, hw', ?_⟩, hsz⟩
  · rw [Doubly.dDelete_last (by simpa using hw) hx hy fuel, he]
  · rw [hval]; exact hI

theorem doubly_delete_checks_tail_first_witness :
    Doubly.Repr (Doubly.heapOf [.int 1, .int 2, .int 3, .int 2])
      (Doubly.listOf [.int 1, .int 2, .int 3, .int 2]) (.int 1 :: [.int 2, .int 3] ++ [.int 2]) ∧
    goEq (.int 1) (.int 2) = false ∧ goEq (.int 2) (.int 2) = true ∧
    (∃ h' ll', Doubly.Delete 5 (Doubly.heapOf [.int 1, .int 2, .int 3, .int 2])
        (Doubly.listOf [.int 1, .int 2, .int 3, .int 2]) (.int 2) = .ok (h', ll', none) ∧
      Doubly.Repr h' ll' [.int 1, .int 2, .int 3] ∧ ll'.Size = 4 - 1) ∧
    eraseFirst (fun e => goEq e (.int 2)) [.int 1, .int 2, .int 3, .int 2] =
      [.int 1, .int 3, .int 2] :=
  have hr : Doubly.Repr (Doubly.heapOf [.int 1, .int 2, .int 3, .int 2])
      (Doubly.listOf [.int 1, .int 2, .int 3, .int 2])
      (.int 1 :: [.int 2, .int 3] ++ [.int 2]) :=
    ⟨[0, 1, 2, 3], ⟨⟨rfl, by decide, rfl, by decide, rfl, by decide, rfl, by decide, rfl⟩,
      ⟨rfl, by decide, rfl, by decide, rfl, by decide, rfl, by decide, rfl⟩, rfl⟩, rfl⟩
  ⟨hr, rfl, rfl,
    doubly_delete_checks_tail_first _ _ (.int 1) (.int 2) (.int 2) [.int 2, .int 3] hr rfl rfl 5,
    rfl⟩

theorem sRepr_delete (h : Singly.Heap) (ll : Singly.LinkedList) (xs : List Any)
    (v : Any) (hr : Singly.Repr h ll xs) :
    (xs.any (fun x => goEq x v) = true →
      ∃ h' ll', Returns (fun fuel => Singly.Delete fuel h ll v) xs.length (h', ll', none) ∧
        Singly.Repr h' ll' (eraseFirst (fun x => goEq x v) xs) ∧ ll'.Size = ll.Size - 1) ∧
    (xs.any (fun x => goEq x v) = false →
      ∃ e, Returns (fun fuel => Singly.Delete fuel h ll v) xs.length (h, ll, some e)) := by
  obtain ⟨as, hw, rfl⟩ := hr
  have hlen : (Singly.values h as).length = as.length := by simp [Singly.values]
  rw [hlen]
  constructor
  · intro hin
    obtain ⟨h', ll', hret, ⟨as', hw', hv', _⟩, hsz⟩ := Singly.sDelete_found hw hin
    exact ⟨h', ll', hret, ⟨as', hw', hv'⟩, hsz⟩
  · intro hout
    exact ⟨_, Singly.sDelete_absent hw hout⟩

/-- C10 (the code differs from the claim): on a singly list with element
sequence `xs`, `Insert(v, 0)` returns nil with `Size` one more, and the element
sequence afterwards is `xs` followed by `v`: the value is appended, not put at
position 0. -/
theorem singly_insert_zero_appends (h : Singly.Heap) (ll : Singly.LinkedList)
    (xs : List Any) (v : Any) (hr : Singly.Repr h ll xs) :
    ∃ h' ll', Returns (fun fuel => Singly.Insert fuel h ll v 0) xs.length (h', ll', none) ∧
      Singly.Repr h' ll' (xs ++ [v]) ∧ ll'.Size = ll.Size + 1 := by
  obtain ⟨as, hw, rfl⟩ := hr
  have hlen : (Singly.values h as).length = as.length := by simp [Singly.values]
  rw [hlen]
  obtain ⟨h', ll', hret, hw', hv', _, _⟩ := Singly.sInsert_zero v hw
  refine ⟨h', ll', hret, ⟨_, hw', hv'⟩, ?_⟩
  rw [hw'.2, hw.2]; simp

theorem singly_insert_zero_appends_witness :
    Singly.Repr (Singly.heapOf [.int 1, .int 2]) (Singly.listOf [.int 1, .int 2])
      [.int 1, .int 2] ∧
    (∃ h' ll', Returns (fun fuel => Singly.Insert fuel (Singly.heapOf [.int 1, .int 2])
          (Singly.listOf [.int 1, .int 2]) (.int 0) 0) 2 (h', ll', none) ∧
        Singly.Repr h' ll' [.int 1, .int 2, .int 0] ∧ ll'.Size = 2 + 1) ∧
    (Singly.Insert 3 (Singly.heapOf [.int 1, .int 2]) (Singly.listOf [.int 1, .int 2])
      (.int 0) 0).bind (fun r => Singly.IntoSlice 4 r.1 r.2.1) =
      .ok (some [.int 1, .int 2, .int 0]) :=
  have hr : Singly.Repr (Singly.heapOf [.int 1, .int 2]) (Singly.listOf [.int 1, .int 2])
      [.int 1, .int 2] :=
    ⟨[0, 1], ⟨⟨rfl, by decide, rfl, by decide, rfl⟩, rfl⟩, rfl⟩
  ⟨hr, singly_insert_zero_appends _ _ _ (.int 0) hr, rfl⟩

theorem fromSlice_intoSlice_roundtrip_witness :
    (Singly.FromSlice 4 (Singly.heapOf [.int 9]) (Singly.listOf [.int 9])
      (some [.int 1, .int 2, .int 3])).bind
      (fun r => (Singly.IntoSlice 4 r.1 r.2.1).bind fun s => .ok (s, r.2.1.Size, r.2.2)) =
      .ok (some [.int 1, .int 2, .int 3], 3, none) ∧
    ∃ h' ll' s,
      Doubly.FromSlice (Doubly.heapOf [.int 9]) (Doubly.listOf [.int 9])
        (some [.int 1, .int 2, .int 3]) = (h', ll', none) ∧
      Returns (fun fuel => Doubly.IntoSlice fuel h' ll') 3 s ∧
      s.elems = [.int 1, .int 2, .int 3] ∧ s.elems.length = 3 ∧ ll'.Size = 3 ∧
      Doubly.Repr h' ll' [.int 1, .int 2, .int 3] :=
  ⟨rfl, (fromSlice_intoSlice_roundtrip [.int 1, .int 2, .int 3]).2 _ _⟩

/-! ## `Search`, `Get` and `GetMiddle` -/

namespace Singly

theorem sSearch_found {pre : List Nat} :
    ∀ {h : Heap} {p : Ptr} {c : Nat} {post : List Nat} (index : Int) {v : Any},
      Seg Node.Next h p (pre ++ c :: post) none →
      (∀ a ∈ pre, goEq (h.nodes a).Value v = false) → goEq (h.nodes c).Value v = true →
      Returns (fun fuel => Search.loop fuel h p index v) pre.length (index + pre.length) := by
  induction pre with
  | nil =>
    intro h p c post index v hs _ hc
    obtain ⟨rfl, _, _⟩ := hs
    intro fuel
    cases fuel <;> simp [Search.loop, hc]
  | cons a pre ih =>
    intro h p c post index v hs hpre hc
    obtain ⟨rfl, _, hs'⟩ := hs
    have ha : goEq (h.nodes a).Value v = false := hpre a (List.mem_cons_self _ _)
    have hih := ih (index + 1) hs' (fun b hb => hpre b (List.mem_cons_of_mem _ hb)) hc
    have e : index + 1 + (pre.length : Int) = index + ((a :: pre).length : Int) := by
      simp only [List.length_cons, Nat.cast_add, Nat.cast_one]; omega
    rw [e] at hih
    intro fuel
    cases fuel with
    | zero => simp [Search.loop]
    | succ f =>
      simp only [Search.loop, ha, Bool.false_eq_true, if_false, List.length_cons,
        Nat.succ_lt_succ_iff]
      exact hih f

theorem sSearch_absent {T : List Nat} :
    ∀ {h : Heap} {p : Ptr} (index : Int) {v : Any}, Seg Node.Next h p T none →
      (∀ a ∈ T, goEq (h.nodes a).Value v = false) →
      Returns (fun fuel => Search.loop fuel h p index v) T.length (-1) := by
  induction T with
  | nil =>
    intro h p index v hs _
    simp only [Seg.nil_iff] at hs
    subst hs
    intro fuel
    cases fuel <;> simp [Search.loop]
  | cons a T ih =>
    intro h p index v hs hT
    obtain ⟨rfl, _, hs'⟩ := hs
    have ha : goEq (h.nodes a).Value v = false := hT a (List.mem_cons_self _ _)
    have hih := ih (index + 1) hs' (fun b hb => hT b (List.mem_cons_of_mem _ hb))
    intro fuel
    cases fuel with
    | zero => simp [Search.loop]
    | succ f =>
      simp only [Search.loop, ha, Bool.false_eq_true, if_false, List.length_cons,
        Nat.succ_lt_succ_iff]
      exact hih f

theorem sWalk_index {h : Heap} {p : Ptr} {A B : List Nat} {c : Nat}
    (hs : Seg Node.Next h p (A ++ c :: B) none) : walk h p A.length = .ok (some c) := by
  obtain ⟨r, hA, hc⟩ := Seg.append_iff.mp hs
  obtain ⟨rfl, _, _⟩ := hc
  exact sWalk_seg hA

theorem sGetMiddle_loop (n : Nat) :
    ∀ {h : Heap} {s f : Nat} {X S F : List Nat}, F.length ≤ n →
      Seg Node.Next h (some s) S none → Seg Node.Next h (some f) F none → S = X ++ F →
      ∃ r, S[(F.length - 1) / 2]? = some r ∧
        Returns (fun fuel => GetMiddle.loop fuel h s f) (F.length / 2) r := by
  induction n using Nat.strong_induction_on with
  | _ n ih =>
    intro h s f X S F hn hS hF hX
    match F, hF, hX, hn with
    | [], hF, _, _ => exact absurd hF (by simp)
    | [f0], hF, hX, _ =>
      obtain ⟨e, _, hfn⟩ := hF
      cases e
      simp only [Seg.nil_iff] at hfn
      obtain ⟨tl, rfl⟩ := Seg.head_eq hS (by rw [hX]; simp)
      refine ⟨s, by simp, ?_⟩
      intro fuel
      cases fuel <;> simp [GetMiddle.loop, hfn]
    | [f0, g], hF, hX, _ =>
      obtain ⟨e, _, hfg, _, hgn⟩ := hF
      cases e
      simp only [Seg.nil_iff] at hgn
      obtain ⟨tl, rfl⟩ := Seg.head_eq hS (by rw [hX]; simp)
      refine ⟨s, by simp, ?_⟩
      intro fuel
      cases fuel <;> simp [GetMiddle.loop, hfg, hgn]
    | f0 :: g :: g2 :: F', hF, hX, hn =>
      obtain ⟨e, _, hfg, _, hG⟩ := hF
      cases e
      have hgg : (h.nodes g).Next = some g2 := hG.1
      have hF' : Seg Node.Next h (some g2) (g2 :: F') none := by rw [← hgg]; exact hG
      obtain ⟨tl, rfl⟩ := Seg.head_eq hS (by rw [hX]; simp)
      obtain ⟨_, _, htl⟩ := hS
      obtain ⟨X', hX'⟩ : ∃ X', tl = X' ++ g2 :: F' := by
        cases X with
        | nil =>
          simp only [List.nil_append, List.cons.injEq] at hX
          exact ⟨[g], by rw [hX.2]; rfl⟩
        | cons x X0 =>
          simp only [List.cons_append, List.cons.injEq] at hX
          exact ⟨X0 ++ [f, g], by rw [hX.2]; simp⟩
      obtain ⟨s2, tl2, hs2, htl2⟩ := Seg.ptr_ne_none htl (by rw [hX']; simp)
      rw [hs2] at htl
      have hlen : (g2 :: F').length ≤ n - 1 := by
        simp only [List.length_cons] at hn ⊢; omega
      obtain ⟨r, hr, hret⟩ := ih (n - 1) (by simp only [List.length_cons] at hn; omega) hlen
        htl hF' hX'
      refine ⟨r, ?_, ?_⟩
      · have e1 : ((f :: g :: g2 :: F').length - 1) / 2 = ((g2 :: F').length - 1) / 2 + 1 := by
          simp only [List.length_cons]; omega
        rw [e1, List.getElem?_cons_succ]
        exact hr
      · have e2 : (f :: g :: g2 :: F').length / 2 = (g2 :: F').length / 2 + 1 := by
          simp only [List.length_cons]; omega
        rw [e2]
        intro fuel
        cases fuel with
        | zero => simp [GetMiddle.loop]
        | succ k =>
          simp only [GetMiddle.loop, hfg, hgg, hs2, Nat.succ_lt_succ_iff]
          exact hret k

theorem sGetMiddle_spec {h : Heap} {ll : LinkedList} {as : List Nat} (hw : Wf h ll as)
    (hne : as ≠ []) :
    ∃ r, as[(as.length - 1) / 2]? = some r ∧
      Returns (fun fuel => GetMiddle fuel h ll) (as.length / 2) (.ok (h.nodes r).Value) := by
  obtain ⟨hd, tl, hh, rfl⟩ := Seg.ptr_ne_none hw.1 hne
  have hs := hw.1
  rw [hh] at hs
  obtain ⟨r, hr, hret⟩ := sGetMiddle_loop (hd :: tl).length (X := []) (le_refl _) hs hs rfl
  refine ⟨r, hr, ?_⟩
  simp only [GetMiddle, hh]
  exact hret.map (fun slow => (Except.ok (h.nodes slow).Value : Except Error Any)) (le_refl _)

theorem sGetMiddle_nil {h : Heap} {ll : LinkedList} (hw : Wf h ll []) (fuel : Nat) :
    GetMiddle fuel h ll = .ok (.error .emptyList) := by
  have hh : ll.Head = none := hw.1
  simp [GetMiddle, hh]

end Singly

namespace Doubly

theorem dSearch_found {pre : List Nat} :
    ∀ {h : Heap} {p : Ptr} {c : Nat} {post : List Nat} (index : Int) {v : Any},
      Seg Node.Next h p (pre ++ c :: post) none →
      (∀ a ∈ pre, goEq (h.nodes a).Value v = false) → goEq (h.nodes c).Value v = true →
      Returns (fun fuel => Search.loop fuel h p index v) pre.length
        (index + pre.length, none) := by
  induction pre with
  | nil =>
    intro h p c post index v hs _ hc
    obtain ⟨rfl, _, _⟩ := hs
    intro fuel
    cases fuel <;> simp [Search.loop, hc]
  | cons a pre ih =>
    intro h p c post index v hs hpre hc
    obtain ⟨rfl, _, hs'⟩ := hs
    have ha : goEq (h.nodes a).Value v = false := hpre a (List.mem_cons_self _ _)
    have hih := ih (index + 1) hs' (fun b hb => hpre b (List.mem_cons_of_mem _ hb)) hc
    have e : index + 1 + (pre.length : Int) = index + ((a :: pre).length : Int) := by
      simp only [List.length_cons, Nat.cast_add, Nat.cast_one]; omega
    rw [e] at hih
    intro fuel
    cases fuel with
    | zero => simp [Search.loop]
    | succ f =>
      simp only [Search.loop, ha, Bool.false_eq_true, if_false, List.length_cons,
        Nat.succ_lt_succ_iff]
      exact hih f

theorem dSearch_absent {T : List Nat} :
    ∀ {h : Heap} {p : Ptr} (index : Int) {v : Any}, Seg Node.Next h p T none →
      (∀ a ∈ T, goEq (h.nodes a).Value v = false) →
      Returns (fun fuel => Search.loop fuel h p index v) T.length (-1, some .notFound) := by
  induction T with
  | nil =>
    intro h p index v hs _
    simp only [Seg.nil_iff] at hs
    subst hs
    intro fuel
    cases fuel <;> simp [Search.loop]
  | cons a T ih =>
    intro h p index v hs hT
    obtain ⟨rfl, _, hs'⟩ := hs
    have ha : goEq (h.nodes a).Value v = false := hT a (List.mem_cons_self _ _)
    have hih := ih (index + 1) hs' (fun b hb => hT b (List.mem_cons_of_mem _ hb))
    intro fuel
    cases fuel with
    | zero => simp [Search.loop]
    | succ f =>
      simp only [Search.loop, ha, Bool.false_eq_true, if_false, List.length_cons,
        Nat.succ_lt_succ_iff]
      exact hih f

theorem dWalk_index {h : Heap} {p : Ptr} {A B : List Nat} {c : Nat}
    (hs : Seg Node.Next h p (A ++ c :: B) none) : walk h p A.length = .ok (some c) := by
  obtain ⟨r, hA, hc⟩ := Seg.append_iff.mp hs
  obtain ⟨rfl, _, _⟩ := hc
  exact dWalk_seg hA

end Doubly

/-! ## Insertion and removal at an index, access, the ends, merging -/

theorem sRepr_length {h : Singly.Heap} {ll : Singly.LinkedList} {xs : List Any}
    (hr : Singly.Repr h ll xs) : ll.Size = xs.length := by
  obtain ⟨as, hw, rfl⟩ := hr
  rw [hw.2]; simp [Singly.values]

theorem dRepr_length {h : Doubly.Heap} {ll : Doubly.LinkedList} {xs : List Any}
    (hr : Doubly.Repr h ll xs) : ll.Size = xs.length := by
  obtain ⟨as, hw, rfl⟩ := hr
  rw [hw.2.2]; simp [Doubly.values]

theorem dRepr_backward {h : Doubly.Heap} {ll : Doubly.LinkedList} {xs : List Any}
    (hr : Doubly.Repr h ll xs) :
    ∃ as, Seg Doubly.Node.Next h ll.Head as none ∧
      Seg Doubly.Node.Prev h ll.Tail as.reverse none ∧
      Doubly.values h as = xs ∧ Doubly.values h as.reverse = xs.reverse := by
  obtain ⟨as, hw, rfl⟩ := hr
  exact ⟨as, hw.1, hw.2.1, rfl, by simp [Doubly.values]⟩

/-- C11: on a singly list with element sequence `xs` and an index with
`0 < index <= len(xs)`, `Insert(v, index)` returns nil, the sequence afterwards
is `xs[0..index)`, `v`, `xs[index..)` and `Size` is one more; for `index < 0` or
`index > len(xs)` it returns the index-out-of-bounds error and changes neither
memory nor header. -/
theorem singly_insert_splices (h : Singly.Heap) (ll : Singly.LinkedList) (xs : List Any)
    (v : Any) (index : Int) (hr : Singly.Repr h ll xs) :
    (0 < index → index ≤ xs.length → ∀ fuel, ∃ h' ll',
      Singly.Insert fuel h ll v index = .ok (h', ll', none) ∧
      Singly.Repr h' ll' (xs.take index.toNat ++ [v] ++ xs.drop index.toNat) ∧
      ll'.Size = xs.length + 1) ∧
    (index < 0 ∨ index > xs.length → ∀ fuel,
      Singly.Insert fuel h ll v index = .ok (h, ll, some .indexOutOfBounds)) := by
  have hsz := sRepr_length hr
  obtain ⟨as, hw, rfl⟩ := hr
  have hlen : (Singly.values h as).length = as.length := by simp [Singly.values]
  constructor
  · intro h0 hn fuel
    rw [hlen] at hn
    obtain ⟨h', ll', he, ⟨as', hw', hv', _⟩, hs⟩ := Singly.sInsert_pos fuel v hw h0 hn
    refine ⟨h', ll', he, ⟨as', hw', ?_⟩, by rw [hs, hsz]⟩
    rw [hv']; simp
  · intro hout fuel
    rw [← hsz] at hout
    exact Singly.sInsert_out fuel v hout

theorem singly_insert_splices_witness :
    Singly.Repr (Singly.heapOf [.int 0, .int 1, .int 2]) (Singly.listOf [.int 0, .int 1, .int 2])
      [.int 0, .int 1, .int 2] ∧
    (∃ h' ll', Singly.Insert 1 (Singly.heapOf [.int 0, .int 1, .int 2])
        (Singly.listOf [.int 0, .int 1, .int 2]) (.float 4609434218613702656) 2 =
          .ok (h', ll', none) ∧
      Singly.Repr h' ll' [.int 0, .int 1, .float 4609434218613702656, .int 2] ∧
      ll'.Size = 3 + 1) ∧
    Singly.Insert 1 (Singly.heapOf [.int 0, .int 1, .int 2])
        (Singly.listOf [.int 0, .int 1, .int 2]) (.float 4609434218613702656) 4 =
      .ok (Singly.heapOf [.int 0, .int 1, .int 2], Singly.listOf [.int 0, .int 1, .int 2],
        some .indexOutOfBounds) :=
  have hr : Singly.Repr (Singly.heapOf [.int 0, .int 1, .int 2])
      (Singly.listOf [.int 0, .int 1, .int 2]) [.int 0, .int 1, .int 2] :=
    ⟨[0, 1, 2], ⟨⟨rfl, by decide, rfl, by decide, rfl, by decide, rfl⟩, rfl⟩, rfl⟩
  ⟨hr,
    (singly_insert_splices _ _ _ (.float 4609434218613702656) 2 hr).1 (by decide) (by decide) 1,
    (singly_insert_splices _ _ _ (.float 4609434218613702656) 4 hr).2 (Or.inr (by decide)) 1⟩

theorem dRepr_insert {h : Doubly.Heap} {ll : Doubly.LinkedList} {xs : List Any} (v : Any)
    {index : Int} (hr : Doubly.Repr h ll xs) (h0 : 0 ≤ index) (hn : index ≤ xs.length) :
    ∃ h' ll', Doubly.Insert h ll v index = .ok (h', ll', none) ∧
      Doubly.Repr h' ll' (xs.take index.toNat ++ [v] ++ xs.drop index.toNat) ∧
      ll'.Size = ll.Size + 1 := by
  obtain ⟨as, hw, rfl⟩ := hr
  have hlen : (Doubly.values h as).length = as.length := by simp [Doubly.values]
  rw [hlen] at hn
  by_cases hz : index = 0
  · subst hz
    obtain ⟨h', ll', he, hw', hv', _, hs, _⟩ := Doubly.dInsert_zero v hw
    exact ⟨h', ll', he, ⟨_, hw', by rw [hv']; simp⟩, hs⟩
  · by_cases hend : index = as.length
    · obtain ⟨h', ll', he, hw', hv', _, hs, _⟩ := Doubly.dInsert_end v hw hz hend
      refine ⟨h', ll', he, ⟨_, hw', ?_⟩, hs⟩
      have ht : index.toNat = (Doubly.values h as).length := by rw [hlen, hend]; simp
      rw [hv', ht, List.take_length, List.drop_length]; simp
    · have hpos : 0 < index := by omega
      have hlt : index < as.length := by omega
      obtain ⟨h', ll', he, ⟨as', hw', hv', _⟩, hs⟩ := Doubly.dInsert_mid v hw hpos hlt
      exact ⟨h', ll', he, ⟨as', hw', by rw [hv']; simp⟩, hs⟩

/-- C12: on a well-formed doubly list with element sequence `xs` and an index
with `0 <= index <= len(xs)`, `Insert(v, index)` returns nil; afterwards the chain
from `Head` along `Next` holds `xs[0..index)`, `v`, `xs[index..)`, the chain from
`Tail` along `Prev` visits the same nodes backwards and so holds the reverse of
that sequence, and `Size` is one more. For `index < 0` or `index > len(xs)` it
returns the index-out-of-bounds error and changes neither memory nor header. -/
theorem doubly_insert_splices (h : Doubly.Heap) (ll : Doubly.LinkedList) (xs : List Any)
    (v : Any) (index : Int) (hr : Doubly.Repr h ll xs) :
    (0 ≤ index → index ≤ xs.length → ∃ h' ll' as',
      Doubly.Insert h ll v index = .ok (h', ll', none) ∧
      Seg Doubly.Node.Next h' ll'.Head as' none ∧
      Seg Doubly.Node.Prev h' ll'.Tail as'.reverse none ∧
      Doubly.values h' as' = xs.take index.toNat ++ [v] ++ xs.drop index.toNat ∧
      Doubly.values h' as'.reverse =
        (xs.take index.toNat ++ [v] ++ xs.drop index.toNat).reverse ∧
      ll'.Size = xs.length + 1) ∧
    (index < 0 ∨ index > xs.length →
      Doubly.Insert h ll v index = .ok (h, ll, some .indexOutOfBounds)) := by
  have hsz := dRepr_length hr
  constructor
  · intro h0 hn
    obtain ⟨h', ll', he, hr', hs⟩ := dRepr_insert v hr h0 hn
    obtain ⟨as', h1, h2, h3, h4⟩ := dRepr_backward hr'
    exact ⟨h', ll', as', he, h1, h2, h3, h4, by rw [hs, hsz]⟩
  · intro hout
    rw [← hsz] at hout
    exact Doubly.dInsert_out v hout

theorem doubly_insert_splices_witness :
    Doubly.Repr (Doubly.heapOf [.int 0, .int 1, .int 2]) (Doubly.listOf [.int 0, .int 1, .int 2])
      [.int 0, .int 1, .int 2] ∧
    (∃ h' ll' as', Doubly.Insert (Doubly.heapOf [.int 0, .int 1, .int 2])
        (Doubly.listOf [.int 0, .int 1, .int 2]) (.float 4609434218613702656) 2 =
          .ok (h', ll', none) ∧
      Seg Doubly.Node.Next h' ll'.Head as' none ∧
      Seg Doubly.Node.Prev h' ll'.Tail as'.reverse none ∧
      Doubly.values h' as' = [.int 0, .int 1, .float 4609434218613702656, .int 2] ∧
      Doubly.values h' as'.reverse = [.int 2, .float 4609434218613702656, .int 1, .int 0] ∧
      ll'.Size = 3 + 1) ∧
    (Doubly.Insert (Doubly.heapOf [.int 0, .int 1, .int 2])
        (Doubly.listOf [.int 0, .int 1, .int 2]) (.float 4609434218613702656) 2).bind
      (fun r => Doubly.IntoSlice 5 r.1 r.2.1) =
      .ok (some [.int 0, .int 1, .float 4609434218613702656, .int 2]) :=
  have hr : Doubly.Repr (Doubly.heapOf [.int 0, .int 1, .int 2])
      (Doubly.listOf [.int 0, .int 1, .int 2]) [.int 0, .int 1, .int 2] :=
    ⟨[0, 1, 2], ⟨⟨rfl, by decide, rfl, by decide, rfl, by decide, rfl⟩,
      ⟨rfl, by decide, rfl, by decide, rfl, by decide, rfl⟩, rfl⟩, rfl⟩
  ⟨hr,
    (doubly_insert_splices _ _ _ (.float 4609434218613702656) 2 hr).1 (by decide) (by decide),
    rfl⟩

/-- C13 (as amended): on a non-empty singly list with element sequence `xs` of
length `n`, `GetMiddle()` returns `(xs[(n-1)/2], nil)`: for `n = 2k+1` the element
at index `k`, and for `n = 2k` the element at index `k-1`, the first of the two
middle elements; on the empty list it returns an error. -/
theorem singly_getMiddle_first_middle (h : Singly.Heap) (ll : Singly.LinkedList)
    (xs : List Any) (hr : Singly.Repr h ll xs) :
    (xs ≠ [] → ∃ x, xs[(xs.length - 1) / 2]? = some x ∧
      Returns (fun fuel => Singly.GetMiddle fuel h ll) (xs.length / 2) (.ok x)) ∧
    (xs = [] → ∀ fuel, Singly.GetMiddle fuel h ll = .ok (.error .emptyList)) := by
  obtain ⟨as, hw, rfl⟩ := hr
  have hlen : (Singly.values h as).length = as.length := by simp [Singly.values]
  constructor
  · intro hne
    have hne' : as ≠ [] := by rintro rfl; exact hne rfl
    obtain ⟨r, hr, hret⟩ := Singly.sGetMiddle_spec hw hne'
    rw [hlen]
    refine ⟨(h.nodes r).Value, ?_, hret⟩
    simp only [Singly.values, List.getElem?_map, hr, Option.map_some']
  · intro he
    have : as = [] := by cases as with
      | nil => rfl
      | cons a as => simp [Singly.values] at he
    subst this
    exact fun fuel => Singly.sGetMiddle_nil hw fuel

theorem singly_getMiddle_first_middle_witness :
    Singly.Repr (Singly.heapOf [.int 1, .int 2, .int 3, .int 4])
      (Singly.listOf [.int 1, .int 2, .int 3, .int 4]) [.int 1, .int 2, .int 3, .int 4] ∧
    (∃ x, ([.int 1, .int 2, .int 3, .int 4] : List Any)[(4 - 1) / 2]? = some x ∧
      Returns (fun fuel => Singly.GetMiddle fuel (Singly.heapOf [.int 1, .int 2, .int 3, .int 4])
        (Singly.listOf [.int 1, .int 2, .int 3, .int 4])) (4 / 2) (.ok x)) ∧
    Singly.GetMiddle 3 (Singly.heapOf [.int 1, .int 2, .int 3, .int 4])
      (Singly.listOf [.int 1, .int 2, .int 3, .int 4]) = .ok (.ok (.int 2)) ∧
    Singly.GetMiddle 3 (Singly.heapOf [.int 5, .int 4, .int 3, .int 2, .int 1])
      (Singly.listOf [.int 5, .int 4, .int 3, .int 2, .int 1]) = .ok (.ok (.int 3)) :=
  have hr : Singly.Repr (Singly.heapOf [.int 1, .int 2, .int 3, .int 4])
      (Singly.listOf [.int 1, .int 2, .int 3, .int 4]) [.int 1, .int 2, .int 3, .int 4] :=
    ⟨[0, 1, 2, 3], ⟨⟨rfl, by decide, rfl, by decide, rfl, by decide, rfl, by decide, rfl⟩, rfl⟩,
      rfl⟩
  ⟨hr, (singly_getMiddle_first_middle _ _ _ hr).1 (by decide), rfl, rfl⟩

theorem singly_getMiddle_not_second_middle :
    Singly.Repr (Singly.heapOf [.int 1, .int 2]) (Singly.listOf [.int 1, .int 2])
      [.int 1, .int 2] ∧
    ([.int 1, .int 2] : List Any)[2 / 2]? = some (.int 2) ∧
    (∀ fuel, Singly.GetMiddle fuel (Singly.heapOf [.int 1, .int 2])
      (Singly.listOf [.int 1, .int 2]) ≠ .ok (.ok (.int 2))) ∧
    Singly.GetMiddle 1 (Singly.heapOf [.int 1, .int 2]) (Singly.listOf [.int 1, .int 2]) =
      .ok (.ok (.int 1)) := by
  refine ⟨⟨[0, 1], ⟨⟨rfl, by decide, rfl, by decide, rfl⟩, rfl⟩, rfl⟩, rfl, ?_, rfl⟩
  intro fuel
  cases fuel with
  | zero => intro hc; cases hc
  | succ f =>
    have e : Singly.GetMiddle (f + 1) (Singly.heapOf [.int 1, .int 2])
        (Singly.listOf [.int 1, .int 2]) = .ok (.ok (.int 1)) := rfl
    rw [e]
    simp

theorem sRepr_deleteAt {h : Singly.Heap} {ll : Singly.LinkedList} {xs : List Any}
    {index : Int} (hr : Singly.Repr h ll xs) (h0 : 0 ≤ index) (hn : index < xs.length) :
    ∃ h' ll', Singly.DeleteAt h ll index = .ok (h', ll', none) ∧
      Singly.Repr h' ll' (xs.take index.toNat ++ xs.drop (index.toNat + 1)) ∧
      ll'.Size = ll.Size - 1 := by
  obtain ⟨as, hw, rfl⟩ := hr
  have hlen : (Singly.values h as).length = as.length := by simp [Singly.values]
  rw [hlen] at hn
  by_cases hz : index = 0
  · subst hz
    cases as with
    | nil => simp at hn
    | cons a T =>
      obtain ⟨ll', he, hw', hs⟩ := Singly.sDeleteAt_zero_cons hw
      exact ⟨h, ll', he, ⟨T, hw', by simp [Singly.values]⟩, hs⟩
  · have hpos : 0 < index := by omega
    obtain ⟨h', ll', he, ⟨as', hw', hv', _⟩, hs⟩ := Singly.sDeleteAt_pos hw hpos hn
    exact ⟨h', ll', he, ⟨as', hw', hv'⟩, hs⟩

theorem dRepr_deleteAt {h : Doubly.Heap} {ll : Doubly.LinkedList} {xs : List Any}
    {index : Int} (hr : Doubly.Repr h ll xs) (h0 : 0 ≤ index) (hn : index < xs.length) :
    ∃ h' ll', Doubly.DeleteAt h ll index = .ok (h', ll', none) ∧
      Doubly.Repr h' ll' (xs.take index.toNat ++ xs.drop (index.toNat + 1)) ∧
      ll'.Size = ll.Size - 1 := by
  obtain ⟨as, hw, rfl⟩ := hr
  have hlen : (Doubly.values h as).length = as.length := by simp [Doubly.values]
  rw [hlen] at hn
  by_cases hz : index = 0
  · subst hz
    cases as with
    | nil => simp at hn
    | cons a T =>
      obtain ⟨_, hw', hv', _, hs, _⟩ := Doubly.dShift_cons hw
      refine ⟨_, _, Doubly.dDeleteAt_zero hw, ⟨T, hw', ?_⟩, hs⟩
      rw [hv']; simp [Doubly.values]
  · rcases List.nil_or_snoc as with rfl | ⟨I, l, rfl⟩
    · simp at hn; omega
    · have hlenI : ((I ++ [l]).length : Int) = (I.length : Int) + 1 := by simp
      by_cases hlast : index = I.length
      · obtain ⟨h', ll', he, hw', hv', _, hs⟩ := Doubly.dDeleteAt_last hw hz hlast
        refine ⟨h', ll', he, ⟨I, hw', ?_⟩, hs⟩
        have ht : index.toNat = I.length := by rw [hlast]; simp
        rw [hv', ht]
        simp [Doubly.values]
      · have hpos : 0 < index := by omega
        have hlt : index < ((I ++ [l]).length : Int) - 1 := by rw [hlenI]; rw [hlenI] at hn; omega
        obtain ⟨h', ll', he, ⟨as', hw', hv', _⟩, hs⟩ := Doubly.dDeleteAt_mid hw hpos hlt
        exact ⟨h', ll', he, ⟨as', hw', hv'⟩, hs⟩

/-- C14: on a well-formed list, singly or doubly, with element sequence `xs` and
an index with `0 <= index < len(xs)`, `DeleteAt(index)` returns nil, the sequence
afterwards is `xs[0..index)` followed by `xs[index+1..)` and `Size` is one less;
for the doubly list the chain from `Tail` along `Prev` visits the nodes of the
result backwards. For `index < 0` or `index > len(xs)` it returns the
index-out-of-bounds error and changes neither memory nor header. -/
theorem deleteAt_removes (xs : List Any) (index : Int) :
    (∀ (h : Singly.Heap) (ll : Singly.LinkedList), Singly.Repr h ll xs →
      (0 ≤ index → index < xs.length → ∃ h' ll',
        Singly.DeleteAt h ll index = .ok (h', ll', none) ∧
        Singly.Repr h' ll' (xs.take index.toNat ++ xs.drop (index.toNat + 1)) ∧
        ll'.Size = xs.length - 1) ∧
      (index < 0 ∨ index > xs.length →
        Singly.DeleteAt h ll index = .ok (h, ll, some .indexOutOfBounds))) ∧
    (∀ (h : Doubly.Heap) (ll : Doubly.LinkedList), Doubly.Repr h ll xs →
      (0 ≤ index → index < xs.length → ∃ h' ll' as',
        Doubly.DeleteAt h ll index = .ok (h', ll', none) ∧
        Seg Doubly.Node.Next h' ll'.Head as' none ∧
        Seg Doubly.Node.Prev h' ll'.Tail as'.reverse none ∧
        Doubly.values h' as' = xs.take index.toNat ++ xs.drop (index.toNat + 1) ∧
        Doubly.values h' as'.reverse =
          (xs.take index.toNat ++ xs.drop (index.toNat + 1)).reverse ∧
        ll'.Size = xs.length - 1) ∧
      (index < 0 ∨ index > xs.length →
        Doubly.DeleteAt h ll index = .ok (h, ll, some .indexOutOfBounds))) := by
  constructor
  · intro h ll hr
    have hsz := sRepr_length hr
    constructor
    · intro h0 hn
      obtain ⟨h', ll', he, hr', hs⟩ := sRepr_deleteAt hr h0 hn
      exact ⟨h', ll', he, hr', by rw [hs, hsz]⟩
    · intro hout
      rw [← hsz] at hout
      exact Singly.sDeleteAt_out hout
  · intro h ll hr
    have hsz := dRepr_length hr
    constructor
    · intro h0 hn
      obtain ⟨h', ll', he, hr', hs⟩ := dRepr_deleteAt hr h0 hn
      obtain ⟨as', h1, h2, h3, h4⟩ := dRepr_backward hr'
      exact ⟨h', ll', as', he, h1, h2, h3, h4, by rw [hs, hsz]⟩
    · intro hout
      rw [← hsz] at hout
      exact Doubly.dDeleteAt_out hout

theorem deleteAt_removes_witness :
    (∃ h' ll', Singly.DeleteAt (Singly.heapOf [.int 0, .int 1, .int 2])
        (Singly.listOf [.int 0, .int 1, .int 2]) 1 = .ok (h', ll', none) ∧
      Singly.Repr h' ll' [.int 0, .int 2] ∧ ll'.Size = 3 - 1) ∧
    (Doubly.DeleteAt (Doubly.heapOf [.int 0, .int 1, .int 2])
        (Doubly.listOf [.int 0, .int 1, .int 2]) 2).bind
      (fun r => (Doubly.IntoSlice 4 r.1 r.2.1).bind fun s => .ok (s, r.2.1.Size, r.2.2)) =
      .ok (some [.int 0, .int 1], 2, none) :=
  ⟨((deleteAt_removes [.int 0, .int 1, .int 2] 1).1 (Singly.heapOf [.int 0, .int 1, .int 2])
      (Singly.listOf [.int 0, .int 1, .int 2])
      ⟨[0, 1, 2], ⟨⟨rfl, by decide, rfl, by decide, rfl, by decide, rfl⟩, rfl⟩, rfl⟩).1
      (by decide) (by decide),
    rfl⟩

/-- C15 (the code differs from the claim): on a non-empty well-formed list,
singly or doubly, `DeleteAt(Size)` passes the bounds check `index > ll.Size` and
then dereferences a nil pointer; it neither removes an element nor returns an
error. -/
theorem deleteAt_at_size_derefs_nil (xs : List Any) (hne : xs ≠ []) :
    (∀ (h : Singly.Heap) (ll : Singly.LinkedList), Singly.Repr h ll xs →
      Singly.DeleteAt h ll xs.length = .nilDeref) ∧
    (∀ (h : Doubly.Heap) (ll : Doubly.LinkedList), Doubly.Repr h ll xs →
      Doubly.DeleteAt h ll xs.length = .nilDeref) := by
  constructor
  · rintro h ll ⟨as, hw, rfl⟩
    have hlen : (Singly.values h as).length = as.length := by simp [Singly.values]
    have hpos : 0 < as.length := by
      cases as with
      | nil => exact absurd rfl hne
      | cons a as => simp
    rw [hlen]
    exact Singly.sDeleteAt_last hw (by omega) rfl
  · rintro h ll ⟨as, hw, rfl⟩
    have hlen : (Doubly.values h as).length = as.length := by simp [Doubly.values]
    have hpos : 0 < as.length := by
      cases as with
      | nil => exact absurd rfl hne
      | cons a as => simp
    rw [hlen]
    exact Doubly.dDeleteAt_end hw (by omega) rfl

theorem deleteAt_at_size_derefs_nil_witness :
    ([Any.int 1] : List Any) ≠ [] ∧
    Singly.DeleteAt (Singly.heapOf [.int 1]) (Singly.listOf [.int 1]) 1 = .nilDeref ∧
    Doubly.DeleteAt (Doubly.heapOf [.int 1]) (Doubly.listOf [.int 1]) 1 = .nilDeref ∧
    Singly.DeleteAt Singly.emptyHeap Singly.NewSinglyLinkedList 0 =
      .ok (Singly.emptyHeap, Singly.NewSinglyLinkedList, none) ∧
    (Doubly.DeleteAt Doubly.emptyHeap Doubly.NewDoublyLinkedList 0).bind
      (fun r => .ok (r.2.1, r.2.2)) = .ok (Doubly.NewDoublyLinkedList, none) :=
  ⟨by decide,
    (deleteAt_at_size_derefs_nil [.int 1] (by decide)).1 _ _
      ⟨[0], ⟨⟨rfl, by decide, rfl⟩, rfl⟩, rfl⟩,
    (deleteAt_at_size_derefs_nil [.int 1] (by decide)).2 _ _
      ⟨[0], ⟨⟨rfl, by decide, rfl⟩, ⟨rfl, by decide, rfl⟩, rfl⟩, rfl⟩,
    rfl, rfl⟩

/-- C16 (the code differs from the claim): on every well-formed singly list,
also the empty one, `Get(Size)` passes the bounds check `index > ll.Size` and then
dereferences a nil pointer, where the doubly `Get`, which checks
`index >= ll.Size`, returns the index-out-of-bounds error. -/
theorem singly_get_at_size_derefs_nil (xs : List Any) :
    (∀ (h : Singly.Heap) (ll : Singly.LinkedList), Singly.Repr h ll xs →
      Singly.Get h ll xs.length = .nilDeref) ∧
    (∀ (h : Doubly.Heap) (ll : Doubly.LinkedList), Doubly.Repr h ll xs →
      Doubly.Get h ll xs.length = .ok (.error .indexOutOfBounds)) := by
  constructor
  · rintro h ll ⟨as, hw, rfl⟩
    have hlen : (Singly.values h as).length = as.length := by simp [Singly.values]
    rw [hlen]
    have hb : ¬ ((as.length : Int) < 0 ∨ (as.length : Int) > ll.Size) := by
      rw [hw.2]; omega
    simp only [Singly.Get, if_neg hb, Int.toNat_ofNat, Singly.sWalk_seg hw.1, Res.bind_ok]
  · rintro h ll ⟨as, hw, rfl⟩
    have hlen : (Doubly.values h as).length = as.length := by simp [Doubly.values]
    rw [hlen]
    have hb : (as.length : Int) < 0 ∨ (as.length : Int) ≥ ll.Size := by
      rw [hw.2.2]; omega
    simp only [Doubly.Get, if_pos hb]

theorem singly_get_at_size_derefs_nil_witness :
    Singly.Get (Singly.heapOf [.int 1]) (Singly.listOf [.int 1]) 1 = .nilDeref ∧
    Singly.Get Singly.emptyHeap Singly.NewSinglyLinkedList 0 = .nilDeref ∧
    Singly.Get (Singly.heapOf [.int 1]) (Singly.listOf [.int 1]) 0 = .ok (.ok (.int 1)) ∧
    Doubly.Get (Doubly.heapOf [.int 1]) (Doubly.listOf [.int 1]) 1 =
      .ok (.error .indexOutOfBounds) :=
  ⟨(singly_get_at_size_derefs_nil [.int 1]).1 _ _ ⟨[0], ⟨⟨rfl, by decide, rfl⟩, rfl⟩, rfl⟩,
    rfl, rfl, rfl⟩

/-- C17: on a well-formed list, singly or doubly, with element sequence `xs`,
`Prepend(v)` leaves the sequence `v` followed by `xs` and `Append(v)` leaves `xs`
followed by `v`, each with `Size` one more; the singly `Append` returns, and on
the doubly list both return nil, never the inconsistent-state error. -/
theorem prepend_append_succeed (xs : List Any) (v : Any) :
    (∀ (h : Singly.Heap) (ll : Singly.LinkedList), Singly.Repr h ll xs →
      (Singly.Repr (Singly.Prepend h ll v).1 (Singly.Prepend h ll v).2 (v :: xs) ∧
        (Singly.Prepend h ll v).2.Size = xs.length + 1) ∧
      ∃ h' ll', Returns (fun fuel => Singly.Append fuel h ll v) xs.length (h', ll') ∧
        Singly.Repr h' ll' (xs ++ [v]) ∧ ll'.Size = xs.length + 1) ∧
    (∀ (h : Doubly.Heap) (ll : Doubly.LinkedList), Doubly.Repr h ll xs →
      ((Doubly.Prepend h ll v).2.2 = none ∧
        Doubly.Repr (Doubly.Prepend h ll v).1 (Doubly.Prepend h ll v).2.1 (v :: xs) ∧
        (Doubly.Prepend h ll v).2.1.Size = xs.length + 1) ∧
      ((Doubly.Append h ll v).2.2 = none ∧
        Doubly.Repr (Doubly.Append h ll v).1 (Doubly.Append h ll v).2.1 (xs ++ [v]) ∧
        (Doubly.Append h ll v).2.1.Size = xs.length + 1)) := by
  constructor
  · rintro h ll ⟨as, hw, rfl⟩
    have hlen : (Singly.values h as).length = as.length := by simp [Singly.values]
    obtain ⟨hp1, hp2, _⟩ := Singly.sPrepend_spec v hw
    obtain ⟨h', ll', hret, ha1, ha2, _, _⟩ := Singly.sAppend_spec v hw
    rw [hlen]
    refine ⟨⟨⟨_, hp1, hp2⟩, ?_⟩, h', ll', hret, ⟨_, ha1, ha2⟩, ?_⟩
    · rw [hp1.2]; simp
    · rw [ha1.2]; simp
  · rintro h ll ⟨as, hw, rfl⟩
    have hlen : (Doubly.values h as).length = as.length := by simp [Doubly.values]
    obtain ⟨hp0, hp1, hp2, _, _⟩ := Doubly.dPrepend_spec v hw
    obtain ⟨ha0, ha1, ha2, _, _⟩ := Doubly.dAppend_spec v hw
    rw [hlen]
    refine ⟨⟨hp0, ⟨_, hp1, hp2⟩, ?_⟩, ha0, ⟨_, ha1, ha2⟩, ?_⟩
    · rw [hp1.2.2]; simp
    · rw [ha1.2.2]; simp

theorem prepend_append_succeed_witness :
    (Singly.Append 2 (Singly.Prepend (Singly.heapOf [.int 1]) (Singly.listOf [.int 1])
        (.int 0)).1 (Singly.Prepend (Singly.heapOf [.int 1]) (Singly.listOf [.int 1])
        (.int 0)).2 (.int 2)).bind
      (fun r => (Singly.IntoSlice 4 r.1 r.2).bind fun s => .ok (s, r.2.Size)) =
      .ok (some [.int 0, .int 1, .int 2], 3) ∧
    ((Doubly.Prepend (Doubly.heapOf [.int 1]) (Doubly.listOf [.int 1]) (.int 0)).2.2 = none ∧
      Doubly.Repr (Doubly.Prepend (Doubly.heapOf [.int 1]) (Doubly.listOf [.int 1]) (.int 0)).1
        (Doubly.Prepend (Doubly.heapOf [.int 1]) (Doubly.listOf [.int 1]) (.int 0)).2.1
        [.int 0, .int 1] ∧
      (Doubly.Prepend (Doubly.heapOf [.int 1]) (Doubly.listOf [.int 1]) (.int 0)).2.1.Size =
        1 + 1) :=
  ⟨rfl, ((prepend_append_succeed [.int 1] (.int 0)).2 (Doubly.heapOf [.int 1])
      (Doubly.listOf [.int 1])
      ⟨[0], ⟨⟨rfl, by decide, rfl⟩, ⟨rfl, by decide, rfl⟩, rfl⟩, rfl⟩).1⟩

theorem List.first_match_index {α : Type} (p : α → Bool) (xs : List α)
    (h : xs.any p = true) :
    ∃ pre x post, xs = pre ++ x :: post ∧ xs[pre.length]? = some x ∧ p x = true ∧
      (∀ a ∈ pre, p a = false) ∧ ∀ j y, j < pre.length → xs[j]? = some y → p y = false := by
  obtain ⟨pre, x, post, rfl, hpre, hx⟩ := List.first_match p xs h
  refine ⟨pre, x, post, rfl, ?_, hx, hpre, ?_⟩
  · rw [List.getElem?_append_right (le_refl _)]; simp
  · intro j y hj hy
    rw [List.getElem?_append_left hj] at hy
    exact hpre y (List.getElem?_mem hy)

theorem values_split {N : Type} (f : N → Any) {as : List Nat} {m : Nat → N}
    {pre post : List Any} {x : Any}
    (hv : as.map (fun a => f (m a)) = pre ++ x :: post) :
    ∃ A c B, as = A ++ c :: B ∧ A.length = pre.length ∧ f (m c) = x ∧
      ∀ a ∈ A, f (m a) ∈ pre := by
  obtain ⟨A, R, rfl, hA, hR⟩ := List.map_eq_append_iff.mp hv
  obtain ⟨c, B, rfl, hc, _⟩ := List.map_eq_cons_iff.mp hR
  refine ⟨A, c, B, rfl, ?_, hc, ?_⟩
  · rw [← hA]; simp
  · intro a ha
    rw [← hA]
    exact List.mem_map.mpr ⟨a, ha, rfl⟩

theorem repr_search_comparable (xs : List Any) (v : Any) :
    (∀ (h : Singly.Heap) (ll : Singly.LinkedList), Singly.Repr h ll xs →
      (xs.any (fun x => goEq x v) = true → ∃ (i : Nat) (x : Any),
        xs[i]? = some x ∧ goEq x v = true ∧
        (∀ j y, j < i → xs[j]? = some y → goEq y v = false) ∧
        Returns (fun fuel => Singly.Search fuel h ll v) xs.length (i : Int)) ∧
      (xs.any (fun x => goEq x v) = false →
        Returns (fun fuel => Singly.Search fuel h ll v) xs.length (-1))) ∧
    (∀ (h : Doubly.Heap) (ll : Doubly.LinkedList), Doubly.Repr h ll xs →
      (xs.any (fun x => goEq x v) = true → ∃ (i : Nat) (x : Any),
        xs[i]? = some x ∧ goEq x v = true ∧
        (∀ j y, j < i → xs[j]? = some y → goEq y v = false) ∧
        Returns (fun fuel => Doubly.Search fuel h ll v) xs.length ((i : Int), none)) ∧
      (xs.any (fun x => goEq x v) = false → ∃ e,
        Returns (fun fuel => Doubly.Search fuel h ll v) xs.length (-1, some e))) := by
  constructor
  · rintro h ll ⟨as, hw, hv⟩
    have hlen : xs.length = as.length := by rw [← hv]; simp [Singly.values]
    constructor
    · intro hin
      obtain ⟨pre, x, post, hxs, hi, hx, hpre, hsm⟩ :=
        List.first_match_index (fun x => goEq x v) xs hin
      refine ⟨pre.length, x, hi, hx, hsm, ?_⟩
      rw [hxs] at hv
      obtain ⟨A, c, B, rfl, hA, hc, hAm⟩ := values_split Singly.Node.Value hv
      have hc' : goEq (h.nodes c).Value v = true := by rw [hc]; exact hx
      have := Singly.sSearch_found 0 hw.1 (fun a ha => hpre _ (hAm a ha)) hc'
      simp only [zero_add, hA] at this
      exact this.mono (by rw [hxs]; simp)
    · intro hout
      have hall : ∀ a ∈ as, goEq (h.nodes a).Value v = false := by
        intro a ha
        have := List.any_eq_false.mp hout ((h.nodes a).Value)
          (by rw [← hv]; exact List.mem_map.mpr ⟨a, ha, rfl⟩)
        simpa using this
      rw [hlen]
      exact Singly.sSearch_absent 0 hw.1 hall
  · rintro h ll ⟨as, hw, hv⟩
    have hlen : xs.length = as.length := by rw [← hv]; simp [Doubly.values]
    constructor
    · intro hin
      obtain ⟨pre, x, post, hxs, hi, hx, hpre, hsm⟩ :=
        List.first_match_index (fun x => goEq x v) xs hin
      refine ⟨pre.length, x, hi, hx, hsm, ?_⟩
      rw [hxs] at hv
      obtain ⟨A, c, B, rfl, hA, hc, hAm⟩ := values_split Doubly.Node.Value hv
      have hc' : goEq (h.nodes c).Value v = true := by rw [hc]; exact hx
      have := Doubly.dSearch_found 0 hw.1 (fun a ha => hpre _ (hAm a ha)) hc'
      simp only [zero_add, hA] at this
      exact this.mono (by rw [hxs]; simp)
    · intro hout
      have hall : ∀ a ∈ as, goEq (h.nodes a).Value v = false := by
        intro a ha
        have := List.any_eq_false.mp hout ((h.nodes a).Value)
          (by rw [← hv]; exact List.mem_map.mpr ⟨a, ha, rfl⟩)
        simpa using this
      rw [hlen]
      exact ⟨.notFound, Doubly.dSearch_absent 0 hw.1 hall⟩

theorem List.map_snoc_dropLast {α β : Type} (f : α → β) (I : List α) (l : α) :
    ((I ++ [l]).map f).dropLast = I.map f := by
  simp [List.dropLast_concat]

/-- C19: on a non-empty well-formed list, singly or doubly, with element sequence
`xs`, `Shift()` returns nil and leaves `xs` without its first element, `Pop()`
returns nil and leaves `xs` without its last element, each with `Size` one less;
on the empty list both return an error and change neither memory nor header. -/
theorem shift_pop_remove_ends (xs : List Any) :
    (∀ (h : Singly.Heap) (ll : Singly.LinkedList), Singly.Repr h ll xs →
      (xs ≠ [] →
        (∃ ll', Singly.Shift h ll = (ll', none) ∧ Singly.Repr h ll' xs.tail ∧
          ll'.Size = xs.length - 1) ∧
        (∃ h' ll', Returns (fun fuel => Singly.Pop fuel h ll) xs.length (h', ll', none) ∧
          Singly.Repr h' ll' xs.dropLast ∧ ll'.Size = xs.length - 1)) ∧
      (xs = [] →
        (∃ e, Singly.Shift h ll = (ll, some e)) ∧
        (∃ e, ∀ fuel, Singly.Pop fuel h ll = .ok (h, ll, some e)))) ∧
    (∀ (h : Doubly.Heap) (ll : Doubly.LinkedList), Doubly.Repr h ll xs →
      (xs ≠ [] →
        (∃ h' ll', Doubly.Shift h ll = (h', ll', none) ∧ Doubly.Repr h' ll' xs.tail ∧
          ll'.Size = xs.length - 1) ∧
        (∃ h' ll', Doubly.Pop h ll = .ok (h', ll', none) ∧
          Doubly.Repr h' ll' xs.dropLast ∧ ll'.Size = xs.length - 1)) ∧
      (xs = [] →
        (∃ e, Doubly.Shift h ll = (h, ll, some e)) ∧
        (∃ e, Doubly.Pop h ll = .ok (h, ll, some e)))) := by
  constructor
  · intro h ll hr
    have hsz := sRepr_length hr
    obtain ⟨as, hw, rfl⟩ := hr
    have hlen : (Singly.values h as).length = as.length := by simp [Singly.values]
    constructor
    · intro hne
      have hne' : as ≠ [] := by rintro rfl; exact hne rfl
      constructor
      · obtain ⟨a, T, rfl⟩ := List.exists_cons_of_ne_nil hne'
        obtain ⟨ll', he, hw'⟩ := Singly.sShift_cons hw
        refine ⟨ll', he, ⟨T, hw', by simp [Singly.values]⟩, ?_⟩
        rw [hw'.2, hlen]; simp
      · rcases List.nil_or_snoc as with rfl | ⟨I, l, rfl⟩
        · exact absurd rfl hne'
        · obtain ⟨h', ll', hret, hw', hv', _, hs⟩ := Singly.sPop_spec hw
          refine ⟨h', ll', hret.mono (by rw [hlen]; simp), ⟨I, hw', ?_⟩, by rw [hs, hsz]⟩
          rw [hv']
          simp only [Singly.values]
          rw [List.map_snoc_dropLast]
    · intro he
      have : as = [] := by cases as with
        | nil => rfl
        | cons a as => simp [Singly.values] at he
      subst this
      exact ⟨⟨.emptyList, Singly.sShift_nil hw⟩, .emptyList, fun fuel => Singly.sPop_nil hw fuel⟩
  · intro h ll hr
    have hsz := dRepr_length hr
    obtain ⟨as, hw, rfl⟩ := hr
    have hlen : (Doubly.values h as).length = as.length := by simp [Doubly.values]
    constructor
    · intro hne
      have hne' : as ≠ [] := by rintro rfl; exact hne rfl
      constructor
      · obtain ⟨a, T, rfl⟩ := List.exists_cons_of_ne_nil hne'
        obtain ⟨he, hw', hv', _, hs, _⟩ := Doubly.dShift_cons hw
        refine ⟨(Doubly.Shift h ll).1, (Doubly.Shift h ll).2.1, ?_, ⟨T, hw', ?_⟩, by rw [hs, hsz]⟩
        · rw [← he]
        · rw [hv']; simp [Doubly.values]
      · rcases List.nil_or_snoc as with rfl | ⟨I, l, rfl⟩
        · exact absurd rfl hne'
        · obtain ⟨h', ll', he, hw', hv', _, hs, _⟩ := Doubly.dPop_spec hw
          refine ⟨h', ll', he, ⟨I, hw', ?_⟩, by rw [hs, hsz]⟩
          rw [hv']
          simp only [Doubly.values]
          rw [List.map_snoc_dropLast]
    · intro he
      have : as = [] := by cases as with
        | nil => rfl
        | cons a as => simp [Doubly.values] at he
      subst this
      exact ⟨⟨.emptyList, Doubly.dShift_nil hw⟩, .emptyList, Doubly.dPop_nil hw⟩

theorem shift_pop_remove_ends_witness :
    ((∃ ll', Singly.Shift (Singly.heapOf [.int 0, .int 1, .int 2])
          (Singly.listOf [.int 0, .int 1, .int 2]) = (ll', none) ∧
        Singly.Repr (Singly.heapOf [.int 0, .int 1, .int 2]) ll' [.int 1, .int 2] ∧
        ll'.Size = 3 - 1) ∧
      (∃ h' ll', Returns (fun fuel => Singly.Pop fuel (Singly.heapOf [.int 0, .int 1, .int 2])
          (Singly.listOf [.int 0, .int 1, .int 2])) 3 (h', ll', none) ∧
        Singly.Repr h' ll' [.int 0, .int 1] ∧ ll'.Size = 3 - 1)) ∧
    (Doubly.Pop (Doubly.heapOf [.int 0, .int 1, .int 2])
        (Doubly.listOf [.int 0, .int 1, .int 2])).bind
      (fun r => (Doubly.IntoSlice 4 (Doubly.Shift r.1 r.2.1).1 (Doubly.Shift r.1 r.2.1).2.1).bind
        fun s => .ok (s, (Doubly.Shift r.1 r.2.1).2.1.Size)) = .ok (some [.int 1], 1) :=
  ⟨((shift_pop_remove_ends [.int 0, .int 1, .int 2]).1
      (Singly.heapOf [.int 0, .int 1, .int 2]) (Singly.listOf [.int 0, .int 1, .int 2])
      ⟨[0, 1, 2], ⟨⟨rfl, by decide, rfl, by decide, rfl, by decide, rfl⟩, rfl⟩, rfl⟩).1
      (by decide),
    rfl⟩

theorem sWf_of_frame {h h' : Singly.Heap} {other : Singly.LinkedList} {as bs : List Nat}
    (hf : h.Frame h' as) (ho : Singly.Wf h other bs) (hdis : ∀ a ∈ bs, a ∉ as) :
    Singly.Wf h' other bs ∧ Singly.values h' bs = Singly.values h bs :=
  ⟨⟨Seg.of_frame hf ho.1 hdis, ho.2⟩,
    Singly.sValues_congr (fun a ha => by rw [hf.2 a (Seg.lt_size ho.1 a ha) (hdis a ha)])⟩

theorem dWf_of_frame {h h' : Doubly.Heap} {other : Doubly.LinkedList} {as bs : List Nat}
    (hf : h.Frame h' as) (ho : Doubly.Wf h other bs) (hdis : ∀ a ∈ bs, a ∉ as) :
    Doubly.Wf h' other bs ∧ Doubly.values h' bs = Doubly.values h bs :=
  ⟨⟨Seg.of_frame hf ho.1 hdis,
      Seg.of_frame hf ho.2.1 (fun a ha => hdis a (List.mem_reverse.mp ha)), ho.2.2⟩,
    Doubly.dValues_congr (fun a ha => by rw [hf.2 a (Seg.lt_size ho.1 a ha) (hdis a ha)])⟩

/-- C20: for two well-formed lists of the same kind that share no node (two
distinct lists, each owning its nodes), the receiver with element sequence `xs` at
the nodes `as` and the argument with `ys` at the nodes `bs`: `Merge` returns nil,
the receiver's sequence becomes `xs` followed by `ys` with `Size`
`len(xs) + len(ys)`, and the argument keeps its header and its sequence `ys`.
With a nil argument `Merge` returns an error and changes neither memory nor
header. -/
theorem merge_appends (xs ys : List Any) :
    (∀ (h : Singly.Heap) (ll other : Singly.LinkedList) (as bs : List Nat),
      Singly.Wf h ll as → Singly.values h as = xs →
      Singly.Wf h other bs → Singly.values h bs = ys → (∀ a ∈ bs, a ∉ as) →
      ∃ h' ll', Returns (fun fuel => Singly.Merge fuel h ll (some other))
          (xs.length + ys.length) (h', ll', none) ∧
        Singly.Repr h' ll' (xs ++ ys) ∧ ll'.Size = xs.length + ys.length ∧
        Singly.Repr h' other ys ∧ other.Size = ys.length) ∧
    (∀ (h : Singly.Heap) (ll : Singly.LinkedList), ∃ e, ∀ fuel,
      Singly.Merge fuel h ll none = .ok (h, ll, some e)) ∧
    (∀ (h : Doubly.Heap) (ll other : Doubly.LinkedList) (as bs : List Nat),
      Doubly.Wf h ll as → Doubly.values h as = xs →
      Doubly.Wf h other bs → Doubly.values h bs = ys → (∀ a ∈ bs, a ∉ as) →
      ∃ h' ll', Returns (fun fuel => Doubly.Merge fuel h ll (some other))
          (xs.length + ys.length) (h', ll', none) ∧
        Doubly.Repr h' ll' (xs ++ ys) ∧ ll'.Size = xs.length + ys.length ∧
        Doubly.Repr h' other ys ∧ other.Size = ys.length) ∧
    (∀ (h : Doubly.Heap) (ll : Doubly.LinkedList), ∃ e, ∀ fuel,
      Doubly.Merge fuel h ll none = .ok (h, ll, some e)) := by
  refine ⟨?_, fun h ll => ⟨.nilList, fun fuel => Singly.sMerge_nil fuel h ll⟩, ?_,
    fun h ll => ⟨.nilList, fun fuel => Doubly.dMerge_nil fuel h ll⟩⟩
  · intro h ll other as bs hw hx ho hy hdis
    subst hx hy
    obtain ⟨h', ll', hret, hw', hv', hf, _⟩ := Singly.sMerge_spec hw ho hdis
    obtain ⟨ho', hov⟩ := sWf_of_frame hf ho hdis
    have hl1 : (Singly.values h as).length = as.length := by simp [Singly.values]
    have hl2 : (Singly.values h bs).length = bs.length := by simp [Singly.values]
    rw [hl1, hl2]
    refine ⟨h', ll', hret, ⟨_, hw', hv'⟩, ?_, ⟨bs, ho', hov⟩, ho.2⟩
    rw [hw'.2]; simp
  · intro h ll other as bs hw hx ho hy hdis
    subst hx hy
    obtain ⟨h', ll', hret, hw', hv', hf, _⟩ := Doubly.dMerge_spec hw ho hdis
    obtain ⟨ho', hov⟩ := dWf_of_frame hf ho hdis
    have hl1 : (Doubly.values h as).length = as.length := by simp [Doubly.values]
    have hl2 : (Doubly.values h bs).length = bs.length := by simp [Doubly.values]
    rw [hl1, hl2]
    refine ⟨h', ll', hret.mono (by omega), ⟨_, hw', hv'⟩, ?_, ⟨bs, ho', hov⟩, ho.2.2⟩
    rw [hw'.2.2]; simp

theorem merge_appends_witness :
    (∃ h' ll', Returns (fun fuel => Singly.Merge fuel
          (Singly.setNext (Singly.heapOf [.int 1, .int 2, .int 3, .int 4]) 1 none)
          { Head := some 0, Size := 2 } (some { Head := some 2, Size := 2 })) (2 + 2)
          (h', ll', none) ∧
        Singly.Repr h' ll' [.int 1, .int 2, .int 3, .int 4] ∧ ll'.Size = 2 + 2 ∧
        Singly.Repr h' { Head := some 2, Size := 2 } [.int 3, .int 4] ∧
        ({ Head := some 2, Size := 2 } : Singly.LinkedList).Size = 2) ∧
    (Singly.Merge 5 (Singly.setNext (Singly.heapOf [.int 1, .int 2, .int 3, .int 4]) 1 none)
        { Head := some 0, Size := 2 } (some { Head := some 2, Size := 2 })).bind
      (fun r => (Singly.IntoSlice 5 r.1 r.2.1).bind fun s =>
        (Singly.IntoSlice 5 r.1 { Head := some 2, Size := 2 }).bind fun t =>
          .ok (s, r.2.1.Size, t, r.2.2)) =
      .ok (some [.int 1, .int 2, .int 3, .int 4], 4, some [.int 3, .int 4], none) :=
  ⟨(merge_appends [.int 1, .int 2] [.int 3, .int 4]).1
      (Singly.setNext (Singly.heapOf [.int 1, .int 2, .int 3, .int 4]) 1 none)
      { Head := some 0, Size := 2 } { Head := some 2, Size := 2 } [0, 1] [2, 3]
      ⟨⟨rfl, by decide, rfl, by decide, rfl⟩, rfl⟩ rfl
      ⟨⟨rfl, by decide, rfl, by decide, rfl⟩, rfl⟩ rfl (by decide),
    rfl⟩

/-! ## `Validate` on a list whose `Size` is wrong -/

namespace Doubly

theorem dValidate_loop_more {h : Heap} {ll : LinkedList} (size : Int) {T : List Nat} :
    ∀ {A : List Nat} {p : Ptr} (count : Int) (last : Ptr), Wf h ll (A ++ T) →
      Seg Node.Next h p T none → T ≠ [] → size < count + T.length →
      Returns (fun fuel => Validate.loop fuel h size p count last) T.length
        (.error .moreNodesThanSize) := by
  induction T with
  | nil => intro A p count last _ _ hne; exact absurd rfl hne
  | cons c T ih =>
    intro A p count last hw hs _ hlt
    obtain ⟨rfl, _, hs'⟩ := hs
    have hw' : Wf h ll ((A ++ [c]) ++ T) := by simpa using hw
    intro fuel
    cases fuel with
    | zero => simp [Validate.loop]
    | succ f =>
      by_cases hgt : count + 1 > size
      · simp [Validate.loop, hgt]
      · simp only [Validate.loop, if_neg hgt, List.length_cons, Nat.succ_lt_succ_iff]
        cases T with
        | nil =>
          simp only [List.length_cons, List.length_nil, Nat.cast_add, Nat.cast_one,
            Nat.cast_zero, zero_add] at hlt
          omega
        | cons d T =>
          have hcd : (h.nodes c).Next = some d := hs'.1
          have hadj := (dWf_adj (A := A) (B := T) hw).2
          have hs2 : Seg Node.Next h (some d) (d :: T) none := by rw [← hcd]; exact hs'
          have hih := ih (A := A ++ [c]) (p := some d) (count + 1) (some c) hw' hs2 (by simp) (by
            simp only [List.length_cons, Nat.cast_add, Nat.cast_one] at hlt ⊢
            omega)
          simp only [hcd, hadj, ne_eq, not_true_eq_false, if_false]
          exact hih f

theorem dValidate_size {h : Heap} {ll : LinkedList} {as : List Nat}
    (hn : Seg Node.Next h ll.Head as none) (hp : Seg Node.Prev h ll.Tail as.reverse none) :
    ∃ r, Returns (fun fuel => Validate fuel h ll) as.length r ∧
      (r = none ↔ ll.Size = as.length) := by
  have hw0 : Wf h { Head := ll.Head, Tail := ll.Tail, Size := as.length } as := ⟨hn, hp, rfl⟩
  cases as with
  | nil =>
    obtain ⟨hh, ht, _⟩ := dWf_nil hw0
    simp only at hh ht
    by_cases hz : ll.Size = 0
    · refine ⟨none, ?_, by simp [hz]⟩
      have : ∀ fuel, Validate fuel h ll = .ok none := by
        intro fuel; simp [Validate, hh, ht, hz]
      exact fun fuel => ⟨fun _ => this fuel, Or.inl (this fuel)⟩
    · refine ⟨some .emptyNonZeroSize, ?_, by simp [hz]⟩
      have : ∀ fuel, Validate fuel h ll = .ok (some .emptyNonZeroSize) := by
        intro fuel; simp [Validate, hh, ht, hz]
      exact fun fuel => ⟨fun _ => this fuel, Or.inl (this fuel)⟩
  | cons a T =>
    obtain ⟨hh, hpv, _⟩ := dWf_head hw0
    obtain ⟨I, l, hI⟩ : ∃ I l, a :: T = I ++ [l] := by
      rcases List.nil_or_snoc (a :: T) with e | ⟨I, l, e⟩
      · cases e
      · exact ⟨I, l, e⟩
    have hw2 := hw0
    rw [hI] at hw2
    obtain ⟨ht, hnx, _⟩ := dWf_tail hw2
    simp only at hh ht
    have hwA : Wf h { Head := ll.Head, Tail := ll.Tail, Size := ((a :: T).length : Int) }
        ([] ++ a :: T) := by simpa using hw0
    by_cases hlt : ll.Size < ((a :: T).length : Int)
    · refine ⟨some .moreNodesThanSize, ?_, ?_⟩
      · have hloop := dValidate_loop_more ll.Size (A := []) (p := ll.Head) 0 none hwA hn
          (by simp) (by rw [zero_add]; exact hlt)
        intro fuel
        have hl := hloop fuel
        simp only [hh] at hl
        unfold Validate
        simp only [hh, hpv, ht, hnx, ne_eq, not_true_eq_false, if_false]
        constructor
        · intro hf
          rw [hl.1 hf]; rfl
        · rcases hl.2 with e | e
          · rw [e]; left; rfl
          · rw [e]; right; rfl
      · constructor
        · intro e; cases e
        · intro e; rw [e] at hlt; exact absurd hlt (lt_irrefl _)
    · have hloop := dValidate_loop ll.Size (A := []) (p := ll.Head) 0 hwA hn
        (by rw [zero_add]; exact not_lt.mp hlt)
      have hlast : ([] ++ (a :: T)).getLast? = some l := by
        rw [List.nil_append, hI]; simp
      rw [hlast] at hloop
      by_cases heq : ll.Size = ((a :: T).length : Int)
      · refine ⟨none, ?_, ⟨fun _ => heq, fun _ => rfl⟩⟩
        intro fuel
        have hl := hloop fuel
        simp only [List.getLast?_nil, hh] at hl
        unfold Validate
        simp only [hh, hpv, ht, hnx, ne_eq, not_true_eq_false, if_false]
        constructor
        · intro hf
          rw [hl.1 hf]
          simp [heq]
        · rcases hl.2 with e | e
          · rw [e]; left; simp [heq]
          · rw [e]; right; rfl
      · refine ⟨some .countDiffers, ?_, ⟨fun e => Option.noConfusion e, fun e => absurd e heq⟩⟩
        have hne : ¬ ((0 : Int) + ((a :: T).length : Int) = ll.Size) := by
          rw [zero_add]; exact fun e => heq e.symm
        intro fuel
        have hl := hloop fuel
        simp only [List.getLast?_nil, hh] at hl
        unfold Validate
        simp only [hh, hpv, ht, hnx, ne_eq, not_true_eq_false, if_false]
        constructor
        · intro hf
          rw [hl.1 hf]
          simp only [Res.bind_ok, hne, not_false_eq_true, if_true]
        · rcases hl.2 with e | e
          · rw [e]; left
            simp only [Res.bind_ok, hne, not_false_eq_true, if_true]
          · rw [e]; right; rfl

end Doubly

/-! ## Nil inputs, `Validate` on damaged lists, `Sort` and the contents -/

/-- C21: on every list, singly or doubly, in any state, `FromSlice(nil)` and
`FromArray(nil)` return an error and change neither memory nor header; on every
non-nil input both return nil. -/
theorem fromSlice_nil_rejected :
    (∀ (h : Singly.Heap) (ll : Singly.LinkedList),
      (∃ e, ∀ fuel, Singly.FromSlice fuel h ll none = .ok (h, ll, some e)) ∧
      (∃ e, ∀ fuel, Singly.FromArray fuel h ll none = .ok (h, ll, some e)) ∧
      ∀ vs : List Any,
        (∃ h' ll', Returns (fun fuel => Singly.FromSlice fuel h ll (some vs)) vs.length
          (h', ll', none)) ∧
        (∃ h' ll', Returns (fun fuel => Singly.FromArray fuel h ll (some vs)) vs.length
          (h', ll', none))) ∧
    (∀ (h : Doubly.Heap) (ll : Doubly.LinkedList),
      (∃ e, Doubly.FromSlice h ll none = (h, ll, some e)) ∧
      (∃ e, Doubly.FromArray h ll none = (h, ll, some e)) ∧
      ∀ vs : List Any,
        (Doubly.FromSlice h ll (some vs)).2.2 = none ∧
        (Doubly.FromArray h ll (some vs)).2.2 = none) := by
  constructor
  · intro h ll
    refine ⟨⟨.nilSlice, fun _ => rfl⟩, ⟨.nilArray, fun _ => rfl⟩, fun vs => ⟨?_, ?_⟩⟩
    · obtain ⟨h', ll', hret, _⟩ := Singly.sFromSlice_spec h ll vs
      exact ⟨h', ll', hret⟩
    · obtain ⟨h', ll', hret, _⟩ := Singly.sFromArray_spec h ll vs
      exact ⟨h', ll', hret⟩
  · intro h ll
    refine ⟨⟨.nilSlice, rfl⟩, ⟨.nilArray, rfl⟩, fun vs => ⟨?_, ?_⟩⟩
    · obtain ⟨h', ll', he, _⟩ := Doubly.dFromSlice_spec h ll vs
      rw [he]
    · obtain ⟨h', ll', he, _⟩ := Doubly.dFromArray_spec h ll vs
      rw [he]

theorem fromSlice_nil_rejected_witness :
    (Singly.FromSlice 1 (Singly.heapOf [.int 1, .int 2]) (Singly.listOf [.int 1, .int 2])
        none).bind
      (fun r => (Singly.IntoSlice 3 r.1 r.2.1).bind fun s => .ok (s, r.2.1.Size, r.2.2)) =
      .ok (some [.int 1, .int 2], 2, some .nilSlice) ∧
    (∃ e, Doubly.FromSlice Doubly.emptyHeap Doubly.NewDoublyLinkedList none =
      (Doubly.emptyHeap, Doubly.NewDoublyLinkedList, some e)) ∧
    (Doubly.FromArray (Doubly.heapOf [.int 1]) (Doubly.listOf [.int 1]) (some [])).2.2 = none :=
  ⟨rfl, (fromSlice_nil_rejected.2 _ _).1, ((fromSlice_nil_rejected.2 _ _).2.2 []).2⟩

/-- C22: on a list, singly or doubly, whose chain of nodes is well formed and
nil-terminated with the `k` nodes `as` (for the doubly list also along `Prev`
from `Tail`), whatever its `Size`: `Validate()` returns, and it returns nil if and
only if `Size = k`. `Validate` only reads the memory and the header. -/
theorem validate_detects_size (as : List Nat) :
    (∀ (h : Singly.Heap) (ll : Singly.LinkedList), Seg Singly.Node.Next h ll.Head as none →
      ∃ r, Returns (fun fuel => Singly.Validate fuel h ll) as.length r ∧
        (r = none ↔ ll.Size = as.length)) ∧
    (∀ (h : Doubly.Heap) (ll : Doubly.LinkedList), Seg Doubly.Node.Next h ll.Head as none →
      Seg Doubly.Node.Prev h ll.Tail as.reverse none →
      ∃ r, Returns (fun fuel => Doubly.Validate fuel h ll) as.length r ∧
        (r = none ↔ ll.Size = as.length)) :=
  ⟨fun _ _ hs => Singly.sValidate_spec hs, fun _ _ hn hp => Doubly.dValidate_size hn hp⟩

theorem validate_detects_size_witness :
    (∃ r, Returns (fun fuel => Doubly.Validate fuel (Doubly.heapOf [.int 1, .int 2, .int 3])
        { Head := some 0, Tail := some 2, Size := 5 }) 3 r ∧
      (r = none ↔ (5 : Int) = ([0, 1, 2] : List Nat).length)) ∧
    Doubly.Validate 4 (Doubly.heapOf [.int 1, .int 2, .int 3])
      { Head := some 0, Tail := some 2, Size := 5 } = .ok (some .countDiffers) ∧
    Doubly.Validate 4 (Doubly.heapOf [.int 1, .int 2, .int 3])
      { Head := some 0, Tail := some 2, Size := 2 } = .ok (some .moreNodesThanSize) ∧
    Doubly.Validate 4 (Doubly.heapOf [.int 1, .int 2, .int 3])
      { Head := some 0, Tail := some 2, Size := -1 } = .ok (some .moreNodesThanSize) ∧
    Doubly.Validate 4 (Doubly.heapOf [.int 1, .int 2, .int 3])
      { Head := some 0, Tail := some 2, Size := 3 } = .ok none ∧
    Singly.Validate 4 (Singly.heapOf [.int 1, .int 2, .int 3])
      { Head := some 0, Size := 4 } = .ok (some .countDiffers) ∧
    Singly.Validate 4 (Singly.heapOf [.int 1, .int 2, .int 3])
      { Head := some 0, Size := 2 } = .ok (some .moreNodesThanSize) ∧
    Singly.Validate 4 (Singly.heapOf [.int 1, .int 2, .int 3])
      { Head := some 0, Size := 3 } = .ok none :=
  ⟨(validate_detects_size [0, 1, 2]).2 (Doubly.heapOf [.int 1, .int 2, .int 3])
      { Head := some 0, Tail := some 2, Size := 5 }
      ⟨rfl, by decide, rfl, by decide, rfl, by decide, rfl⟩
      ⟨rfl, by decide, rfl, by decide, rfl, by decide, rfl⟩,
    rfl, rfl, rfl, rfl, rfl, rfl, rfl⟩

/-- C23 (the code differs from the claim): in a doubly list state with `Head`
non-nil, `Head.Prev` nil and `Tail` nil, `Validate()` evaluates `ll.Tail.Next` and
dereferences a nil pointer; it returns no error. -/
theorem doubly_validate_nil_tail_derefs (h : Doubly.Heap) (ll : Doubly.LinkedList) (hd : Nat)
    (hh : ll.Head = some hd) (hp : (h.nodes hd).Prev = none) (ht : ll.Tail = none)
    (fuel : Nat) : Doubly.Validate fuel h ll = .nilDeref := by
  unfold Doubly.Validate
  simp only [hh, hp, ht, ne_eq, not_true_eq_false, if_false]

theorem doubly_validate_nil_tail_derefs_witness :
    Doubly.Validate 3 (Doubly.heapOf [.int 1]) { Head := some 0, Tail := none, Size := 1 } =
      .nilDeref ∧
    Doubly.Validate 3 (Doubly.heapOf [.int 1]) { Head := none, Tail := some 0, Size := 1 } =
      .ok (some .headNilButTail) :=
  ⟨doubly_validate_nil_tail_derefs (Doubly.heapOf [.int 1])
      { Head := some 0, Tail := none, Size := 1 } 0 rfl rfl rfl 3,
    rfl⟩

/-- C24: on a well-formed list, singly or doubly, with element sequence `xs`,
`Sort()` returns, with nil or with an error; whatever it returns, the header and
so `Size` are unchanged and the element sequence afterwards is a permutation of
`xs`: the same values with the same multiplicities. -/
theorem sort_keeps_elements (xs : List Any) :
    (∀ (h : Singly.Heap) (ll : Singly.LinkedList), Singly.Repr h ll xs →
      ∃ h' e ys, Returns (fun fuel => Singly.SortList fuel h ll) (xs.length * xs.length)
          (h', ll, e) ∧
        Singly.Repr h' ll ys ∧ ys.Perm xs ∧ ll.Size = ys.length) ∧
    (∀ (h : Doubly.Heap) (ll : Doubly.LinkedList), Doubly.Repr h ll xs →
      ∃ h' e ys, Returns (fun fuel => Doubly.SortList fuel h ll) (xs.length * xs.length)
          (h', ll, e) ∧
        Doubly.Repr h' ll ys ∧ ys.Perm xs ∧ ll.Size = ys.length) := by
  constructor
  · intro h ll hr
    obtain ⟨h', e, ys, hret, hr', hperm, _⟩ := sRepr_sort hr
    exact ⟨h', e, ys, hret, hr', hperm, sRepr_length hr'⟩
  · intro h ll hr
    obtain ⟨h', e, ys, hret, hr', hperm, _⟩ := dRepr_sort hr
    exact ⟨h', e, ys, hret, hr', hperm, dRepr_length hr'⟩

theorem sort_keeps_elements_witness :
    (∃ h' e ys, Returns (fun fuel => Singly.SortList fuel
          (Singly.heapOf [.int 2, .int 1, .str [97]])
          (Singly.listOf [.int 2, .int 1, .str [97]])) 9
          (h', Singly.listOf [.int 2, .int 1, .str [97]], e) ∧
        Singly.Repr h' (Singly.listOf [.int 2, .int 1, .str [97]]) ys ∧
        ys.Perm [.int 2, .int 1, .str [97]] ∧
        (Singly.listOf [.int 2, .int 1, .str [97]]).Size = ys.length) ∧
    (Singly.SortList 10 (Singly.heapOf [.int 2, .int 1, .str [97]])
        (Singly.listOf [.int 2, .int 1, .str [97]])).bind
      (fun r => (Singly.IntoSlice 4 r.1 r.2.1).bind fun s => .ok (s, r.2.1.Size, r.2.2)) =
      .ok (some [.int 1, .int 2, .str [97]], 3, some .mismatchedTypes) ∧
    (Doubly.SortList 10 (Doubly.heapOf [.other 0, .int 1])
        (Doubly.listOf [.other 0, .int 1])).bind
      (fun r => (Doubly.IntoSlice 4 r.1 r.2.1).bind fun s => .ok (s, r.2.1.Size, r.2.2)) =
      .ok (some [.other 0, .int 1], 2, some .unsupportedType) :=
  ⟨(sort_keeps_elements [.int 2, .int 1, .str [97]]).1 _ _
      ⟨[0, 1, 2], ⟨⟨rfl, by decide, rfl, by decide, rfl, by decide, rfl⟩, rfl⟩, rfl⟩,
    rfl, rfl⟩

/-! ## `Search` and `Delete` on values of arbitrary dynamic type -/

theorem dynEq_cmp_right (x : Dyn) (b : Any) : dynEq x (.cmp b) ≠ none := by
  cases x <;> simp [dynEq]

namespace SinglyDyn

@[simp] theorem sdSetNext_size (h : Heap) (a : Nat) (p : Ptr) :
    (setNext h a p).size = h.size := rfl

@[simp] theorem sdSetNext_same (h : Heap) (a : Nat) (p : Ptr) :
    (setNext h a p).nodes a = { h.nodes a with Next := p } := by
  simp [setNext, Mem.put]

theorem sdSetNext_ne (h : Heap) {a b : Nat} (p : Ptr) (hb : b ≠ a) :
    (setNext h a p).nodes b = h.nodes b := by
  simp [setNext, Mem.put, Function.update_noteq hb]

@[simp] theorem sdSetNext_value (h : Heap) (a b : Nat) (p : Ptr) :
    ((setNext h a p).nodes b).Value = (h.nodes b).Value := by
  by_cases hb : b = a
  · subst hb; simp
  · rw [sdSetNext_ne h p hb]

@[simp] theorem sdValues_setNext (h : Heap) (as : List Nat) (l : Nat) (x : Ptr) :
    values (setNext h l x) as = values h as := by
  unfold values
  exact List.map_congr_left (fun _ _ => by simp)

theorem sdSeg_setNext {h : Heap} {p q : Ptr} {as : List Nat} {l : Nat} (x : Ptr)
    (hs : Seg Node.Next h p as q) (hl : l ∉ as) : Seg Node.Next (setNext h l x) p as q :=
  Seg.frame hs (by simp)
    (fun a ha => by rw [sdSetNext_ne h x (fun e : a = l => hl (e ▸ ha))])

end SinglyDyn

namespace DoublyDyn

end DoublyDyn

/-! ## Agreement with the methods on comparable values -/

namespace SinglyDyn

theorem sdSearch_loop_agrees (h : Singly.Heap) (v : Any) :
    ∀ (fuel : Nat) (p : Ptr) (index : Int),
      Search.loop fuel (ofComparable h) p index (.cmp v) = Singly.Search.loop fuel h p index v := by
  intro fuel
  induction fuel with
  | zero => intro p index; rfl
  | succ f ih =>
    intro p index
    cases p with
    | none => rfl
    | some c =>
      cases hg : goEq (h.nodes c).Value v with
      | true => simp [Search.loop, Singly.Search.loop, ofComparable, dynEq, hg]
      | false =>
        have := ih (h.nodes c).Next (index + 1)
        simp only [Search.loop, Singly.Search.loop, ofComparable, dynEq, hg] at this ⊢
        simpa using this

theorem sdSearch_agrees (fuel : Nat) (h : Singly.Heap) (ll : Singly.LinkedList) (v : Any) :
    Search fuel (ofComparable h) ll (.cmp v) = Singly.Search fuel h ll v :=
  sdSearch_loop_agrees h v fuel ll.Head 0

theorem sdSetNext_ofComparable (h : Singly.Heap) (a : Nat) (p : Ptr) :
    setNext (ofComparable h) a p = ofComparable (Singly.setNext h a p) := by
  unfold setNext Singly.setNext ofComparable Mem.put
  congr 1
  funext b
  by_cases hb : b = a
  · subst hb; simp
  · simp [Function.update_noteq hb]

theorem sdDelete_loop_agrees (h : Singly.Heap) (v : Any) :
    ∀ (fuel : Nat) (c : Nat),
      Delete.loop fuel (ofComparable h) c (.cmp v) = Singly.Delete.loop fuel h c v := by
  intro fuel
  induction fuel with
  | zero => intro c; rfl
  | succ f ih =>
    intro c
    cases hn : (h.nodes c).Next with
    | none => simp [Delete.loop, Singly.Delete.loop, ofComparable, hn]
    | some n =>
      cases hg : goEq (h.nodes n).Value v with
      | true => simp [Delete.loop, Singly.Delete.loop, ofComparable, dynEq, hn, hg]
      | false =>
        have := ih n
        simp only [Delete.loop, Singly.Delete.loop, ofComparable, dynEq, hn, hg] at this ⊢
        simpa using this

theorem sdDelete_agrees (fuel : Nat) (h : Singly.Heap) (ll : Singly.LinkedList) (v : Any) :
    Delete fuel (ofComparable h) ll (.cmp v) =
      (Singly.Delete fuel h ll v).bind fun r => .ok (ofComparable r.1, r.2.1, r.2.2) := by
  cases hh : ll.Head with
  | none => simp [Delete, Singly.Delete, hh, Res.bind]
  | some hd =>
    cases hg : goEq (h.nodes hd).Value v with
    | true => simp [Delete, Singly.Delete, hh, hg, Res.bind, ofComparable, dynEq]
    | false =>
      have hd1 : dynEq ((ofComparable h).nodes hd).Value (.cmp v) = some false := by
        simp [ofComparable, dynEq, hg]
      simp only [Delete, Singly.Delete, hh, hd1, hg, Bool.false_eq_true, if_false,
        sdDelete_loop_agrees]
      cases hl : Singly.Delete.loop fuel h hd v with
      | ok current =>
        simp only [Res.bind_ok]
        cases hn : (h.nodes current).Next with
        | none => simp [ofComparable, hn]
        | some n =>
          have e1 : ((ofComparable h).nodes current).Next = some n := by simp [ofComparable, hn]
          have e2 : ((ofComparable h).nodes n).Next = (h.nodes n).Next := rfl
          simp only [e1, e2, Res.bind_ok, sdSetNext_ofComparable]
      | nilDeref => rfl
      | outOfFuel => rfl
      | uncomparable => rfl

end SinglyDyn

namespace DoublyDyn

theorem ddSearch_loop_agrees (h : Doubly.Heap) (v : Any) :
    ∀ (fuel : Nat) (p : Ptr) (index : Int),
      Search.loop fuel (ofComparable h) p index (.cmp v) = Doubly.Search.loop fuel h p index v := by
  intro fuel
  induction fuel with
  | zero => intro p index; rfl
  | succ f ih =>
    intro p index
    cases p with
    | none => rfl
    | some c =>
      cases hg : goEq (h.nodes c).Value v with
      | true => simp [Search.loop, Doubly.Search.loop, ofComparable, dynEq, hg]
      | false =>
        have := ih (h.nodes c).Next (index + 1)
        simp only [Search.loop, Doubly.Search.loop, ofComparable, dynEq, hg] at this ⊢
        simpa using this

theorem ddSearch_agrees (fuel : Nat) (h : Doubly.Heap) (ll : Doubly.LinkedList) (v : Any) :
    Search fuel (ofComparable h) ll (.cmp v) = Doubly.Search fuel h ll v :=
  ddSearch_loop_agrees h v fuel ll.Head 0

end DoublyDyn

/-! ## `Delete` and `Search` with values of arbitrary dynamic type -/

